import Mathlib

/-! # dingoadm: recursive usage and delete walks, and the RPC invoker

A shallow embedding of

* `internal/rpc/operator.go`: `GetDirSummarySize`, `GetDirectorySizeAndInodes`,
  `GetDirPathInodeId`, `GetInodePath`
* `cli/command/subpath/delete.go`: `deleteDirectoryAndData`, `deleteDirectory`, `runDelete`
* `cli/command/fs/usage.go`: `runUsage`
* `internal/rpc/client.go`: `GetRpcResponse`
* `internal/table/table.go`: `ListMap2ListSortByKeys`
* `internal/utils/fs_config.go`: `IP_PORT_REGEX`, `isIpAddrValid`, `GetMDSAddrSlice`

The two walks are concurrent Go programs.  They are embedded as an interleaving machine: the
state holds one frame per activation of the recursive function, a step advances one frame by one
shared-memory, channel or RPC operation, and a schedule (a list of picks) decides which enabled
frame moves next and which ready case a `select` takes.  `run` follows a walk up to the return
of the top call, `interleave` lets the goroutines run on after it, and `execute` adds the
return of the wrapper, whose deferred `cancel()` sets `ctx` done.
-/

namespace DingoAdm

/-! ## Data model -/

/-- The entry types of `mds.FileType` the walks distinguish: `FILE`, `DIRECTORY`, anything else. -/
inductive FileType where
  | FILE
  | DIRECTORY
  | SYM_LINK
deriving DecidableEq, Repr

/-- The fields of `mds.Dentry` read by the walks. -/
structure Dentry where
  name : String
  ino : Nat
  parent : Nat
  type : FileType
deriving DecidableEq, Repr

/-- The fields of `mds.Inode` read by the usage walk. -/
structure Inode where
  ino : Nat
  length : Nat
  nlink : Nat
deriving DecidableEq, Repr

/-- One node of a finite tree-shaped namespace, together with what the metadata service answers
for it: `getInode` is the answer of `GetInode` for this entry, `listErr` and `entries` the answer
of `ListDentry` on this inode (an error, or the listed children), `delErr` the answer of
`DeleteFile` (for a non-directory) or `DeleteDirectory` (for a directory) on this entry
(`none` is success). -/
inductive Node where
  | mk (entry : Dentry) (getInode : Except String Inode) (listErr : Option String)
      (entries : List Node) (delErr : Option String)

namespace Node

def entry : Node → Dentry
  | mk e _ _ _ _ => e

def getInode : Node → Except String Inode
  | mk _ a _ _ _ => a

def listErr : Node → Option String
  | mk _ _ l _ _ => l

def entries : Node → List Node
  | mk _ _ _ es _ => es

def delErr : Node → Option String
  | mk _ _ _ _ d => d

end Node

deriving instance DecidableEq for Except

mutual
/-- Equality of two namespaces is decidable. -/
def Node.decEq : (a b : Node) → Decidable (a = b)
  | Node.mk e1 g1 l1 es1 d1, Node.mk e2 g2 l2 es2 d2 =>
    if h1 : e1 = e2 then
      if h2 : g1 = g2 then
        if h3 : l1 = l2 then
          if h5 : d1 = d2 then
            match Node.decEqList es1 es2 with
            | isTrue h4 => isTrue (by rw [h1, h2, h3, h4, h5])
            | isFalse h4 => isFalse (fun h => h4 (by injection h))
          else isFalse (fun h => h5 (by injection h))
        else isFalse (fun h => h3 (by injection h))
      else isFalse (fun h => h2 (by injection h))
    else isFalse (fun h => h1 (by injection h))
/-- Equality of two listings is decidable. -/
def Node.decEqList : (a b : List Node) → Decidable (a = b)
  | [], [] => isTrue rfl
  | [], _ :: _ => isFalse (fun h => by cases h)
  | _ :: _, [] => isFalse (fun h => by cases h)
  | a :: as, b :: bs =>
    match Node.decEq a b with
    | isTrue h1 =>
      match Node.decEqList as bs with
      | isTrue h2 => isTrue (by rw [h1, h2])
      | isFalse h2 => isFalse (fun h => h2 (by injection h))
    | isFalse h1 => isFalse (fun h => h1 (by injection h))
end

instance : DecidableEq Node := Node.decEq

/-- Wrap-around of `uint64` arithmetic (`atomic.AddUint64`). -/
def u64 (n : Nat) : Nat := n % 2 ^ 64

/-- The Go conversion `int64(x)` of a `uint64` value. -/
def toInt64 (n : Nat) : Int :=
  if n % 2 ^ 64 < 2 ^ 63 then ((n % 2 ^ 64 : Nat) : Int) else ((n % 2 ^ 64 : Nat) : Int) - 2 ^ 64

/-! ## The interleaving machine -/

/-- How an activation of the recursive walk was started. -/
inductive Kind where
  /-- the call made by `GetDirectorySizeAndInodes` / `deleteDirectory` -/
  | top
  /-- the `default:` branch of the `select`: a plain recursive call made by frame `caller` -/
  | inline (caller : Nat)
  /-- the `go func(e) ...` closure started by frame `parent` after acquiring a slot -/
  | spawned (parent : Nat)
deriving DecidableEq, Repr

/-- Which of the two walks runs: `GetDirSummarySize` (with its `isFsCheck` flag) or
`deleteDirectoryAndData`. -/
inductive Mode where
  | usage (isFsCheck : Bool)
  | delete
deriving DecidableEq, Repr

/-- Program points of one activation.  The head of `todo` is the loop variable `entry`. -/
inductive PC where
  /-- before `ListDentry(cmd, fsId, inode, epoch)` -/
  | list
  /-- at the top of `for _, entry := range entries` -/
  | loop
  /-- usage: `GetInode` returned `a`; before the `isFsCheck && Nlink >= 2` test / `LoadOrStore` -/
  | gotInode (a : Inode)
  /-- usage: before `atomic.AddUint64(&summary.Length, inodeAttr.GetLength())` -/
  | addLength (a : Inode)
  /-- before `atomic.AddUint64(&summary.Inodes, 1)` for the current entry -/
  | addInodes
  /-- at the `select` for the current directory entry -/
  | select
  /-- `case err := <-errCh:` was taken; before `cancel()` -/
  | cancel (e : String)
  /-- inside the inline recursive call, which runs as frame `c` -/
  | call (c : Nat)
  /-- at `wg.Wait()` -/
  | wait
  /-- at the `select` after `wg.Wait()` -/
  | final
  /-- delete: `DeleteDirectory` succeeded; before `atomic.AddUint64(&summary.Inodes, 1)` -/
  | countSelf
  /-- the function body has returned `r`; a spawned closure is before `<-concurrent` -/
  | ret (r : Option String)
  /-- spawned closure: before `if err != nil { select { case errCh <- err: default: } }` -/
  | send (r : Option String)
  /-- spawned closure: before the deferred `wg.Done()` -/
  | wgDone
  /-- spawned closure: goroutine ended -/
  | finished
deriving DecidableEq, Repr

/-- One activation of `GetDirSummarySize` / `deleteDirectoryAndData`: its arguments, the part of
the namespace it walks, and its local state. -/
structure Frame where
  kind : Kind
  fsId : Nat
  epoch : Nat
  /-- argument `parentInodeId` (delete only) -/
  parentInodeId : Nat
  /-- argument `inode` / `dirInodeId` -/
  dirInodeId : Nat
  /-- argument `name` (delete only) -/
  name : String
  /-- the directory this activation walks, as the metadata service sees it -/
  dir : Node
  /-- the entries of the `for` loop not yet completed; the head is the current `entry` -/
  todo : List Node
  pc : PC
deriving DecidableEq

/-- The RPCs of the walks, with the arguments the code passes. -/
inductive Call where
  | ListDentry (fsId inode epoch : Nat)
  | GetInode (fsId ino parent epoch : Nat)
  | DeleteFile (fsId parent : Nat) (name : String) (epoch : Nat)
  | DeleteDirectory (fsId parent : Nat) (name : String) (epoch : Nat)
deriving DecidableEq, Repr

/-- What a step leaves in the trace. -/
inductive Event where
  /-- frame `frame` issued `call`; `ok` tells whether it succeeded -/
  | rpc (frame : Nat) (call : Call) (ok : Bool)
  /-- frame `parent` started goroutine `child` -/
  | spawn (parent child : Nat)
  /-- frame `caller` called frame `child` inline -/
  | inline (caller child : Nat)
  /-- frame `frame` called `cancel()` -/
  | cancel (frame : Nat)
  /-- the body of frame `frame` returned `r` -/
  | ret (frame : Nat) (r : Option String)
deriving DecidableEq, Repr

/-- The state shared by all goroutines of one walk. -/
structure Shared where
  /-- `summary.Length` -/
  length : Nat
  /-- `summary.Inodes` -/
  inodes : Nat
  /-- the keys of `inodeMap` -/
  seen : List Nat
  /-- the number of tokens in the channel `concurrent` -/
  slots : Nat
  /-- whether `ctx` is done -/
  cancelled : Bool
  /-- `errCh` of every frame: a channel of capacity one -/
  errCh : List (Option String)
  trace : List Event
deriving DecidableEq

/-- A state of the machine: the frames, in order of creation, and the shared state. -/
structure State where
  frames : List Frame
  shared : Shared
deriving DecidableEq

/-- The parameters fixed for one walk. -/
structure Walk where
  mode : Mode
  /-- the capacity of `concurrent`: `make(chan struct{}, threads)` -/
  threads : Nat

/-- The cases of the in-loop `select` other than `default`. -/
inductive SelCase where
  | recvErr (e : String)
  | ctxDone
  | acquire
deriving DecidableEq, Repr

/-- The cases of the in-loop `select` that can proceed, in source order. -/
def readyCases (errCh : Option String) (cancelled : Bool) (slots threads : Nat) : List SelCase :=
  (match errCh with
    | some e => [SelCase.recvErr e]
    | none => []) ++
  (if cancelled then [SelCase.ctxDone] else []) ++
  (if slots < threads then [SelCase.acquire] else [])

/-- Whether `wg.Wait()` of frame `i` can return: every goroutine frame `i` started (`wg.Add(1)`
right before the `go` statement) has run its deferred `wg.Done()`. -/
def waitDone (frames : List Frame) (i : Nat) : Bool :=
  frames.all fun g => decide (g.kind ≠ Kind.spawned i) || decide (g.pc = PC.finished)

/-- The frame a recursive call for entry `e` starts with. -/
def childFrame (k : Kind) (f : Frame) (e : Node) : Frame :=
  { kind := k, fsId := f.fsId, epoch := f.epoch, parentInodeId := e.entry.parent,
    dirInodeId := e.entry.ino, name := e.entry.name, dir := e, todo := [], pc := PC.list }

/-- The result of one step of a frame: the frame afterwards, a frame the step created, and the
shared state afterwards. -/
structure Outcome where
  frame : Frame
  child : Option Frame
  shared : Shared

def Shared.log (sh : Shared) (ev : Event) : Shared :=
  { sh with trace := sh.trace ++ [ev] }

/-- The body returns `r`. -/
def returns (i : Nat) (f : Frame) (sh : Shared) (r : Option String) : Outcome :=
  { frame := { f with pc := PC.ret r }, child := none, shared := sh.log (Event.ret i r) }

/-- Move to program point `pc` without touching shared state. -/
def goto (f : Frame) (sh : Shared) (pc : PC) : Outcome :=
  { frame := { f with pc := pc }, child := none, shared := sh }

/-- The `continue` of the `for` loop: on to the next entry. -/
def continue_ (f : Frame) (sh : Shared) : Outcome :=
  { frame := { f with todo := f.todo.tail, pc := PC.loop }, child := none, shared := sh }

/-- One step of frame `i` (whose record is `f`) of the walk `w`, or `none` when the frame cannot
move: it waits for its inline callee, for its goroutines, or it has ended.  `sel` resolves the
choice among the ready cases of a `select`.

`GetDirSummarySize` (operator.go) and `deleteDirectoryAndData` (delete.go) have the same control
skeleton; `Mode` tells which one runs where they differ. -/
def stepFrame (w : Walk) (frames : List Frame) (sh : Shared) (i sel : Nat) (f : Frame) :
    Option Outcome :=
  match f.pc with
  | PC.list =>
    -- entries, entErr := ListDentry(cmd, fsId, inode, epoch); if entErr != nil { return entErr }
    match f.dir.listErr with
    | some e =>
      some (returns i f (sh.log (Event.rpc i (Call.ListDentry f.fsId f.dirInodeId f.epoch) false))
        (some e))
    | none =>
      some { frame := { f with todo := f.dir.entries, pc := PC.loop }, child := none,
             shared := sh.log (Event.rpc i (Call.ListDentry f.fsId f.dirInodeId f.epoch) true) }
  | PC.loop =>
    match f.todo with
    | [] => some (goto f sh PC.wait)
    | e :: _ =>
      match w.mode with
      | Mode.usage _ =>
        if e.entry.type = FileType.FILE then
          -- inodeAttr, err := GetInode(cmd, fsId, entry.GetIno(), entry.GetParent(), epoch)
          let c := Call.GetInode f.fsId e.entry.ino e.entry.parent f.epoch
          match e.getInode with
          | Except.error err => some (returns i f (sh.log (Event.rpc i c false)) (some err))
          | Except.ok a => some (goto f (sh.log (Event.rpc i c true)) (PC.gotInode a))
        else some (goto f sh PC.addInodes)
      | Mode.delete =>
        if e.entry.type ≠ FileType.DIRECTORY then
          -- err := rpc.DeleteFile(cmd, fsId, entry.GetParent(), entry.GetName(), epoch)
          let c := Call.DeleteFile f.fsId e.entry.parent e.entry.name f.epoch
          match e.delErr with
          | some err => some (returns i f (sh.log (Event.rpc i c false)) (some err))
          | none => some (goto f (sh.log (Event.rpc i c true)) PC.addInodes)
        else some (goto f sh PC.select)
  | PC.gotInode a =>
    match w.mode with
    | Mode.usage isFsCheck =>
      if isFsCheck && decide (a.nlink ≥ 2) then
        -- if _, ok := inodeMap.LoadOrStore(inodeAttr.GetIno(), struct{}{}); ok { continue }
        if a.ino ∈ sh.seen then some (continue_ f sh)
        else some (goto f { sh with seen := a.ino :: sh.seen } (PC.addLength a))
      else some (goto f sh (PC.addLength a))
    | Mode.delete => some (goto f sh (PC.addLength a))
  | PC.addLength a =>
    some (goto f { sh with length := u64 (sh.length + a.length) } PC.addInodes)
  | PC.addInodes =>
    let sh1 := { sh with inodes := u64 (sh.inodes + 1) }
    match w.mode with
    | Mode.usage _ =>
      match f.todo with
      | [] => some (continue_ f sh1)
      | e :: _ =>
        -- if entry.GetType() != mds.FileType_DIRECTORY { continue }
        if e.entry.type ≠ FileType.DIRECTORY then some (continue_ f sh1)
        else some (goto f sh1 PC.select)
    | Mode.delete => some (continue_ f sh1)
  | PC.select =>
    match f.todo with
    | [] => some (continue_ f sh)
    | e :: _ =>
      match readyCases (sh.errCh.getD i none) sh.cancelled sh.slots w.threads with
      | [] =>
        -- default: the recursive call runs inline, as the frame appended to the list
        let c := frames.length
        some { frame := { f with pc := PC.call c },
               child := some (childFrame (Kind.inline i) f e),
               shared := sh.log (Event.inline i c) }
      | r :: rs =>
        match (r :: rs).getD (sel % (r :: rs).length) r with
        | SelCase.recvErr err =>
          -- case err := <-errCh:
          some (goto f { sh with errCh := sh.errCh.set i none } (PC.cancel err))
        | SelCase.ctxDone =>
          -- case <-ctx.Done():
          some (returns i f sh
            (some (match w.mode with
              | Mode.usage _ => "cancel scan directory for other goroutine error"
              | Mode.delete => "cancel delete directory for other goroutine error")))
        | SelCase.acquire =>
          -- case concurrent <- struct{}{}: wg.Add(1); go func(e *mds.Dentry) {...}(entry)
          let c := frames.length
          some { frame := { f with todo := f.todo.tail, pc := PC.loop },
                 child := some (childFrame (Kind.spawned i) f e),
                 shared := { sh with slots := sh.slots + 1 }.log (Event.spawn i c) }
  | PC.cancel err =>
    -- cancel(); return err
    some (returns i f ({ sh with cancelled := true }.log (Event.cancel i)) (some err))
  | PC.call c =>
    -- the inline call returns: if sumErr != nil { return sumErr }
    match frames[c]? with
    | none => none
    | some g =>
      match g.pc with
      | PC.ret none => some (continue_ f sh)
      | PC.ret (some err) => some (returns i f sh (some err))
      | _ => none
  | PC.wait =>
    -- wg.Wait()
    if waitDone frames i then some (goto f sh PC.final) else none
  | PC.final =>
    match sh.errCh.getD i none with
    | some err =>
      -- case err = <-errCh:
      some (returns i f { sh with errCh := sh.errCh.set i none } (some err))
    | none =>
      match w.mode with
      | Mode.usage _ => some (returns i f sh none)
      | Mode.delete =>
        -- default: err := rpc.DeleteDirectory(cmd, fsId, parentInodeId, name, epoch)
        let c := Call.DeleteDirectory f.fsId f.parentInodeId f.name f.epoch
        match f.dir.delErr with
        | some err => some (returns i f (sh.log (Event.rpc i c false)) (some err))
        | none => some (goto f (sh.log (Event.rpc i c true)) PC.countSelf)
  | PC.countSelf =>
    some (returns i f { sh with inodes := u64 (sh.inodes + 1) } none)
  | PC.ret r =>
    match f.kind with
    | Kind.spawned _ =>
      -- <-concurrent
      some (goto f { sh with slots := sh.slots - 1 } (PC.send r))
    | _ => none
  | PC.send r =>
    match f.kind, r with
    | Kind.spawned p, some err =>
      -- select { case errCh <- sumErr: default: } on the channel of the spawning frame
      match sh.errCh.getD p none with
      | none => some (goto f { sh with errCh := sh.errCh.set p (some err) } PC.wgDone)
      | some _ => some (goto f sh PC.wgDone)
    | _, _ => some (goto f sh PC.wgDone)
  | PC.wgDone => some (goto f sh PC.finished)
  | PC.finished => none

/-- Advance frame `i`, if it exists and can move. -/
def advance (w : Walk) (i sel : Nat) (s : State) : State :=
  match s.frames[i]? with
  | none => s
  | some f =>
    match stepFrame w s.frames s.shared i sel f with
    | none => s
    | some o =>
      { frames := s.frames.set i o.frame ++ o.child.toList,
        shared := { o.shared with errCh := o.shared.errCh ++ o.child.toList.map fun _ => none } }

/-- Whether frame `i` can move. -/
def enabled (w : Walk) (s : State) (i : Nat) : Bool :=
  match s.frames[i]? with
  | none => false
  | some f => (stepFrame w s.frames s.shared i 0 f).isSome

/-- The frames that can move. -/
def enabledFrames (w : Walk) (s : State) : List Nat :=
  (List.range s.frames.length).filter (enabled w s)

/-- The result of the top call (frame 0), once its body has returned. -/
def topResult (s : State) : Option (Option String) :=
  match s.frames[0]? with
  | some f =>
    match f.pc with
    | PC.ret r => some r
    | _ => none
  | none => none

/-- One scheduler step: nothing moves once the top call has returned (the caller goes on);
otherwise the enabled frame number `pick` (modulo their count) moves. -/
def step (w : Walk) (s : State) (c : Nat × Nat) : State :=
  match topResult s with
  | some _ => s
  | none =>
    match enabledFrames w s with
    | [] => s
    | j :: js => advance w ((j :: js).getD (c.1 % (j :: js).length) j) c.2 s

/-- Run a schedule. -/
def run (w : Walk) (sched : List (Nat × Nat)) (s : State) : State :=
  sched.foldl (step w) s

/-- The state in which the top call starts: `summary := &common.Summary{Length: 0, Inodes: 0}`,
`concurrent := make(chan struct{}, threads)`, a fresh context and an empty `inodeMap`. -/
def initState (fsId epoch parentInodeId dirInodeId : Nat) (name : String) (root : Node) : State :=
  { frames := [{ kind := Kind.top, fsId := fsId, epoch := epoch, parentInodeId := parentInodeId,
                 dirInodeId := dirInodeId, name := name, dir := root, todo := [], pc := PC.list }],
    shared := { length := 0, inodes := 0, seen := [], slots := 0, cancelled := false,
                errCh := [none], trace := [] } }

/-- The function `GetDirectorySizeAndInodes` of operator.go on the namespace `root` under the
schedule `sched`: `none` while the walk has not returned within the schedule, else
`(totalBytes, totalInodes, err)`. -/
def GetDirectorySizeAndInodes (root : Node) (fsId dirInode : Nat) (isFsCheck : Bool)
    (epoch threads : Nat) (sched : List (Nat × Nat)) : Option (Int × Int × Option String) :=
  let s := run ⟨Mode.usage isFsCheck, threads⟩ sched (initState fsId epoch 0 dirInode "" root)
  match topResult s with
  | none => none
  | some (some sumErr) => some (0, 0, some sumErr)
  | some none =>
    -- add root inode
    some (toInt64 s.shared.length, toInt64 (u64 (s.shared.inodes + 1)), none)

/-- The function `deleteDirectory` of delete.go: `none` while the walk has not returned within the
schedule, else `(summary, err)` where `summary` is `nil` (`none`) on the error path and
`summary.Inodes` otherwise. -/
def deleteDirectory (root : Node) (fsId epoch parentInodeId dirInodeId : Nat) (name : String)
    (threads : Nat) (sched : List (Nat × Nat)) : Option (Option Nat × Option String) :=
  let s := run ⟨Mode.delete, threads⟩ sched (initState fsId epoch parentInodeId dirInodeId name root)
  match topResult s with
  | none => none
  | some (some deleteErr) => some (none, some deleteErr)
  | some none => some (some s.shared.inodes, none)

/-! ## Sizes of a namespace and the step bound of a walk -/

mutual
/-- The number of nodes of a tree. -/
def Node.size : Node → Nat
  | Node.mk _ _ _ es _ => 1 + sizeList es
/-- The number of nodes of a forest. -/
def sizeList : List Node → Nat
  | [] => 0
  | c :: cs => c.size + sizeList cs
end

/-- The number of nodes below the head of a list of entries. -/
def headSize : List Node → Nat
  | [] => 0
  | e :: _ => sizeList e.entries

/-- A bound on the number of steps a frame and the calls it will still make can take. -/
def Frame.fuel (f : Frame) : Nat :=
  match f.pc with
  | PC.list => 10 + 18 * sizeList f.dir.entries
  | PC.loop => 9 + 18 * sizeList f.todo
  | PC.gotInode _ => 9 + 18 * sizeList f.todo.tail + 18 * headSize f.todo + 17
  | PC.addLength _ => 9 + 18 * sizeList f.todo.tail + 18 * headSize f.todo + 16
  | PC.addInodes => 9 + 18 * sizeList f.todo.tail + 18 * headSize f.todo + 15
  | PC.select => 9 + 18 * sizeList f.todo.tail + 18 * headSize f.todo + 14
  | PC.call _ => 9 + 18 * sizeList f.todo.tail + 1
  | PC.wait => 8
  | PC.final => 7
  | PC.countSelf => 6
  | PC.cancel _ => 6
  | PC.ret _ => 5
  | PC.send _ => 4
  | PC.wgDone => 3
  | PC.finished => 0

/-- The sum of a quantity over all frames. -/
def total {M : Type} [AddCommMonoid M] (φ : Frame → M) (frames : List Frame) : M :=
  (frames.map φ).sum

/-- The quantity of an optional frame. -/
def ofChild {M : Type} [AddCommMonoid M] (φ : Frame → M) : Option Frame → M
  | none => 0
  | some c => φ c

/-- The number of scheduler steps within which every walk of the namespace `root` returns. -/
def walkBound (root : Node) : Nat := 10 + 18 * sizeList root.entries
/-! ## Well-formed frame lists -/

/-- Frame-list well-formedness: callers precede their callees, an inline caller waits for a frame
it called, only goroutine closures run the closure epilogue, and frame 0 is the top call. -/
structure WF (s : State) : Prop where
  nonempty : s.frames ≠ []
  parent_lt : ∀ (j : Nat) (f : Frame) (p : Nat), s.frames[j]? = some f →
    (f.kind = Kind.inline p ∨ f.kind = Kind.spawned p) → p < j
  call_ok : ∀ (j : Nat) (f : Frame) (c : Nat), s.frames[j]? = some f → f.pc = PC.call c →
    j < c ∧ ∃ g, s.frames[c]? = some g ∧ g.kind = Kind.inline j
  epilogue : ∀ (j : Nat) (f : Frame), s.frames[j]? = some f →
    (f.pc = PC.wgDone ∨ f.pc = PC.finished ∨ ∃ r, f.pc = PC.send r) → ∃ p, f.kind = Kind.spawned p
  top_zero : ∀ (j : Nat) (f : Frame), s.frames[j]? = some f → f.kind = Kind.top → j = 0


/-- A frame that still has steps to take, now or later. -/
def Frame.live (f : Frame) : Prop :=
  f.pc ≠ PC.finished ∧ ∀ r, f.pc = PC.ret r → ∃ p, f.kind = Kind.spawned p

/-! ## The entries a walk reaches -/

mutual
/-- The entries a walk of directory `n` lists, at every depth, in depth-first order: the walk
descends into the entries of type `DIRECTORY` only. -/
def Node.listed : Node → List Node
  | Node.mk _ _ _ es _ => listedList es
/-- The entries a walk lists for the entries `es` of one directory. -/
def listedList : List Node → List Node
  | [] => []
  | c :: cs =>
    c :: ((if c.entry.type = FileType.DIRECTORY then c.listed else []) ++ listedList cs)
end

/-- The answers the walk `m` needs from the metadata service for the entry `e` are successes:
`ListDentry` on a directory, and `GetInode` of a file (usage) or the delete call (delete). -/
def Node.answersOk (m : Mode) (e : Node) : Prop :=
  (e.entry.type = FileType.DIRECTORY → e.listErr = none) ∧
  match m with
  | Mode.usage _ => e.entry.type = FileType.FILE → ∃ a, e.getInode = Except.ok a
  | Mode.delete => e.delErr = none

/-- Every RPC the walk `m` of the namespace `root` can issue succeeds. -/
def TreeOk (m : Mode) (root : Node) : Prop :=
  root.listErr = none ∧ (m = Mode.delete → root.delErr = none) ∧
  ∀ e ∈ root.listed, e.answersOk m

/-- The frame `f` of a walk of `root` is at a consistent program point: it walks a directory of
the namespace, `todo` is the rest of its listing, and the current entry has the type the program
point requires. -/
structure Good (w : Walk) (root : Node) (f : Frame) : Prop where
  dir : f.dir = root ∨ (f.dir ∈ root.listed ∧ f.dir.entry.type = FileType.DIRECTORY)
  todo : ∃ pre, f.dir.entries = pre ++ f.todo
  attr : ∀ a, (f.pc = PC.gotInode a ∨ f.pc = PC.addLength a) →
    ∃ e t, f.todo = e :: t ∧ e.entry.type = FileType.FILE ∧ e.getInode = Except.ok a ∧
      ∃ c, w.mode = Mode.usage c
  count : f.pc = PC.addInodes → ∃ e t, f.todo = e :: t ∧
    (w.mode = Mode.delete → e.entry.type ≠ FileType.DIRECTORY)
  sel : (f.pc = PC.select ∨ ∃ c, f.pc = PC.call c) →
    ∃ e t, f.todo = e :: t ∧ e.entry.type = FileType.DIRECTORY
  self : f.pc = PC.countSelf → w.mode = Mode.delete

/-- The frame is at no program point of an error path. -/
def Frame.noErr (f : Frame) : Prop :=
  (∀ e, f.pc ≠ PC.cancel e) ∧ (∀ e, f.pc ≠ PC.ret (some e)) ∧ (∀ e, f.pc ≠ PC.send (some e))

/-- No error has occurred so far in the walk. -/
structure NoErr (s : State) : Prop where
  frames : ∀ f ∈ s.frames, f.noErr
  errCh : ∀ c ∈ s.shared.errCh, c = none
  cancelled : s.shared.cancelled = false
/-- The frame is past its `wg.Wait()`: it lists and starts nothing any more. -/
def Frame.past (f : Frame) : Prop :=
  f.pc = PC.final ∨ f.pc = PC.countSelf ∨ (∃ r, f.pc = PC.ret r) ∨ (∃ r, f.pc = PC.send r) ∨
    f.pc = PC.wgDone ∨ f.pc = PC.finished

/-- The body of the frame has returned. -/
def Frame.done (f : Frame) : Prop :=
  (∃ r, f.pc = PC.ret r) ∨ (∃ r, f.pc = PC.send r) ∨ f.pc = PC.wgDone ∨ f.pc = PC.finished

/-- Join: the calls and goroutines started by a frame that is past its `wg.Wait()` are past
returned, and an inline callee runs only while its caller waits for it. -/
structure Joined (s : State) : Prop where
  child : ∀ (k p : Nat) (g fp : Frame), s.frames[k]? = some g →
    (g.kind = Kind.inline p ∨ g.kind = Kind.spawned p) → s.frames[p]? = some fp → fp.past → g.done
  inline : ∀ (k p : Nat) (g : Frame), s.frames[k]? = some g → g.kind = Kind.inline p →
    g.done ∨ ∃ fp, s.frames[p]? = some fp ∧ fp.pc = PC.call k
/-- The invariants of a walk in which every RPC succeeds. -/
structure Sound (w : Walk) (root : Node) (s : State) : Prop where
  wf : WF s
  good : ∀ f ∈ s.frames, Good w root f
  noErr : NoErr s
  joined : Joined s
/-! ## What a usage walk has still to add -/

/-- The test `isFsCheck && inodeAttr.GetNlink() >= 2` of `GetDirSummarySize`. -/
def dedup (isFsCheck : Bool) (a : Inode) : Bool := isFsCheck && decide (a.nlink ≥ 2)

/-- The attributes `GetInode` answers for a `FILE` entry. -/
def Node.attr (e : Node) : Option Inode :=
  if e.entry.type = FileType.FILE then
    match e.getInode with
    | Except.ok a => some a
    | Except.error _ => none
  else none

/-- The bytes an entry adds to `summary.Length` whatever the order of the walk: the length of a
file that does not go through `inodeMap`. -/
def Node.bytes (chk : Bool) (e : Node) : Nat :=
  match e.attr with
  | some a => if dedup chk a then 0 else a.length
  | none => 0

/-- What an entry adds to `summary.Inodes` whatever the order of the walk. -/
def Node.count (chk : Bool) (e : Node) : Nat :=
  match e.attr with
  | some a => if dedup chk a then 0 else 1
  | none => 1

/-- The key an entry looks up in `inodeMap`, if it does. -/
def Node.key (chk : Bool) (e : Node) : Multiset Nat :=
  match e.attr with
  | some a => if dedup chk a then {a.ino} else 0
  | none => 0

/-- What the current entry of a frame has still to add, by program point. -/
def inflightBytes (chk : Bool) : PC → Nat
  | PC.gotInode a => if dedup chk a then 0 else a.length
  | PC.addLength a => a.length
  | _ => 0

def inflightCount (chk : Bool) : PC → Nat
  | PC.gotInode a => if dedup chk a then 0 else 1
  | PC.addLength _ => 1
  | PC.addInodes => 1
  | _ => 0

def inflightKey (chk : Bool) : PC → Multiset Nat
  | PC.gotInode a => if dedup chk a then {a.ino} else 0
  | _ => 0

/-- What a frame and the calls it will still make have to contribute: the contributions `x` of
the entries not yet reached, plus the rest `y` of the current entry. -/
def pend {M : Type} [AddCommMonoid M] (x : Node → M) (y : PC → M) (f : Frame) : M :=
  match f.pc with
  | PC.list => (f.dir.listed.map x).sum
  | PC.loop => ((listedList f.todo).map x).sum
  | PC.gotInode _ => y f.pc + ((listedList f.todo).tail.map x).sum
  | PC.addLength _ => y f.pc + ((listedList f.todo).tail.map x).sum
  | PC.addInodes => y f.pc + ((listedList f.todo).tail.map x).sum
  | PC.select => y f.pc + ((listedList f.todo).tail.map x).sum
  | PC.call _ => ((listedList f.todo.tail).map x).sum
  | _ => 0

/-- The attributes of the files a walk of `root` reaches. -/
def Node.attrs (root : Node) : List Inode := root.listed.filterMap Node.attr

/-- The entries that reference one physical inode through `inodeMap` carry one length. -/
def Consistent (chk : Bool) (root : Node) : Prop :=
  ∀ a ∈ root.attrs, ∀ b ∈ root.attrs, dedup chk a = true → dedup chk b = true → a.ino = b.ino →
    a.length = b.length

/-- The length of the physical inode `x` of the namespace. -/
def inodeLength (chk : Bool) (root : Node) (x : Nat) : Nat :=
  match root.attrs.find? fun a => dedup chk a && decide (a.ino = x) with
  | some a => a.length
  | none => 0

/-- The keys not yet in `inodeMap` that the walk will still look up. -/
def unseen (chk : Bool) (s : State) : Finset Nat :=
  (total (pend (Node.key chk) (inflightKey chk)) s.frames).toFinset \ s.shared.seen.toFinset

/-- The bytes a usage walk of `root` adds up. -/
def usageBytes (chk : Bool) (root : Node) : Nat :=
  (root.listed.map (Node.bytes chk)).sum +
    ∑ x ∈ (root.listed.map (Node.key chk)).sum.toFinset, inodeLength chk root x

/-- The entries a usage walk of `root` counts. -/
def usageInodes (chk : Bool) (root : Node) : Nat :=
  (root.listed.map (Node.count chk)).sum + (root.listed.map (Node.key chk)).sum.toFinset.card

/-- The invariant of a usage walk without errors: what has been added plus what is still to be
added is the total. -/
structure UsageInv (chk : Bool) (root : Node) (s : State) : Prop where
  bytes : (s.shared.length + total (pend (Node.bytes chk) (inflightBytes chk)) s.frames +
      ∑ x ∈ unseen chk s, inodeLength chk root x) % 2 ^ 64 = usageBytes chk root % 2 ^ 64
  inodes : (s.shared.inodes + total (pend (Node.count chk) (inflightCount chk)) s.frames +
      (unseen chk s).card) % 2 ^ 64 = usageInodes chk root % 2 ^ 64
/-! ## What a delete walk has still to do -/

/-- The RPCs in a trace. -/
def callsOf : List Event → List Call
  | [] => []
  | Event.rpc _ c _ :: tr => c :: callsOf tr
  | _ :: tr => callsOf tr

/-- The RPCs a delete walk issues for one listed entry: `DeleteFile` for a non-directory, and
for a directory the `ListDentry` and `DeleteDirectory` of the recursive call. -/
def Node.delCalls (fsId epoch : Nat) (e : Node) : Multiset Call :=
  if e.entry.type = FileType.DIRECTORY then
    {Call.ListDentry fsId e.entry.ino epoch,
     Call.DeleteDirectory fsId e.entry.parent e.entry.name epoch}
  else {Call.DeleteFile fsId e.entry.parent e.entry.name epoch}

/-- The `ListDentry` call of a frame. -/
def Frame.listCall (f : Frame) : Multiset Call :=
  {Call.ListDentry f.fsId f.dirInodeId f.epoch}

/-- The `DeleteDirectory` call of a frame. -/
def Frame.delCall (f : Frame) : Multiset Call :=
  {Call.DeleteDirectory f.fsId f.parentInodeId f.name f.epoch}

/-- What a frame of a delete walk and the calls it will still make have to contribute: `x` for
each entry not yet reached, `a` for its own listing, `b` for its own directory, `c` for a delete
that succeeded and is not counted yet. -/
def pendDel {M : Type} [AddCommMonoid M] (x : Node → M) (a b : Frame → M) (c : M) (f : Frame) :
    M :=
  match f.pc with
  | PC.list => a f + (f.dir.listed.map x).sum + b f
  | PC.loop => ((listedList f.todo).map x).sum + b f
  | PC.addInodes => c + ((listedList f.todo).tail.map x).sum + b f
  | PC.select => ((listedList f.todo).map x).sum + b f
  | PC.call _ => ((listedList f.todo.tail).map x).sum + b f
  | PC.wait => b f
  | PC.final => b f
  | PC.countSelf => c
  | _ => 0

/-- The RPCs a frame of a delete walk will still issue. -/
def pendCalls (fsId epoch : Nat) (f : Frame) : Multiset Call :=
  pendDel (Node.delCalls fsId epoch) Frame.listCall Frame.delCall 0 f

/-- The deletes a frame of a delete walk will still count. -/
def pendCount (f : Frame) : Nat :=
  pendDel (fun _ => 1) (fun _ => 0) (fun _ => 1) 1 f

/-- The RPCs of a delete walk of the namespace `root`. -/
def deleteCalls (fsId epoch parentInodeId dirInodeId : Nat) (name : String) (root : Node) :
    Multiset Call :=
  {Call.ListDentry fsId dirInodeId epoch} + (root.listed.map (Node.delCalls fsId epoch)).sum +
    {Call.DeleteDirectory fsId parentInodeId name epoch}

/-- The invariant of a delete walk without errors. -/
structure DeleteInv (fsId epoch : Nat) (allCalls : Multiset Call) (n : Nat) (s : State) :
    Prop where
  args : ∀ f ∈ s.frames, f.fsId = fsId ∧ f.epoch = epoch
  calls : (callsOf s.shared.trace : Multiset Call) + total (pendCalls fsId epoch) s.frames =
    allCalls
  inodes : (s.shared.inodes + total pendCount s.frames) % 2 ^ 64 = n % 2 ^ 64
  bound : s.shared.inodes < 2 ^ 64
/-! ## The RPCs of a usage walk -/

/-- The RPC a usage walk issues for one listed entry: `ListDentry` for a directory (the listing
of the recursive call), `GetInode` for a file, nothing for any other type. -/
def Node.useCalls (fsId epoch : Nat) (e : Node) : Multiset Call :=
  if e.entry.type = FileType.DIRECTORY then {Call.ListDentry fsId e.entry.ino epoch}
  else if e.entry.type = FileType.FILE then
    {Call.GetInode fsId e.entry.ino e.entry.parent epoch}
  else 0

/-- The listing still to be issued for the current entry, when it is a directory. -/
def headCalls (fsId epoch : Nat) : List Node → Multiset Call
  | [] => 0
  | e :: _ =>
    if e.entry.type = FileType.DIRECTORY then {Call.ListDentry fsId e.entry.ino epoch} else 0

/-- The RPCs a frame of a usage walk and the calls it will still make have to issue. -/
def pendUse (fsId epoch : Nat) (f : Frame) : Multiset Call :=
  match f.pc with
  | PC.list => f.listCall + (f.dir.listed.map (Node.useCalls fsId epoch)).sum
  | PC.loop => ((listedList f.todo).map (Node.useCalls fsId epoch)).sum
  | PC.gotInode _ => ((listedList f.todo).tail.map (Node.useCalls fsId epoch)).sum
  | PC.addLength _ => ((listedList f.todo).tail.map (Node.useCalls fsId epoch)).sum
  | PC.addInodes =>
    headCalls fsId epoch f.todo + ((listedList f.todo).tail.map (Node.useCalls fsId epoch)).sum
  | PC.select =>
    headCalls fsId epoch f.todo + ((listedList f.todo).tail.map (Node.useCalls fsId epoch)).sum
  | PC.call _ => ((listedList f.todo.tail).map (Node.useCalls fsId epoch)).sum
  | _ => 0

/-- The RPCs of a usage walk of the namespace `root`: the listing of the root and one call per
listed directory or file. -/
def usageCalls (fsId epoch dirInode : Nat) (root : Node) : Multiset Call :=
  {Call.ListDentry fsId dirInode epoch} + (root.listed.map (Node.useCalls fsId epoch)).sum

/-- The invariant of the RPCs of a usage walk without errors. -/
structure UseInv (fsId epoch : Nat) (allCalls : Multiset Call) (s : State) : Prop where
  args : ∀ f ∈ s.frames, f.fsId = fsId ∧ f.epoch = epoch
  calls : (callsOf s.shared.trace : Multiset Call) + total (pendUse fsId epoch) s.frames =
    allCalls
/-! ## Totals of a namespace -/

/-- The length `GetInode` reports for a `FILE` entry (0 for other entries). -/
def Node.fileLength (e : Node) : Nat :=
  match e.attr with
  | some a => a.length
  | none => 0

/-- The sum of the lengths of all `FILE` entries below `root`. -/
def fileBytes (root : Node) : Nat := (root.listed.map Node.fileLength).sum

/-- No file of the namespace has a link count of 2 or more. -/
def NoHardlinks (root : Node) : Prop := ∀ a ∈ root.attrs, a.nlink < 2

/-- The entry is a `FILE` whose `GetInode` answer carries the inode id `x`. -/
def Node.refers (x : Nat) (e : Node) : Bool :=
  match e.attr with
  | some a => decide (a.ino = x)
  | none => false

/-- The bytes the usage walk of `root` adds for the entries `l`, whatever the schedule. -/
def bytesOf (chk : Bool) (root : Node) (l : List Node) : Nat :=
  (l.map (Node.bytes chk)).sum + ∑ y ∈ (l.map (Node.key chk)).sum.toFinset, inodeLength chk root y

/-- The inode occurrences the usage walk counts for the entries `l`, whatever the schedule. -/
def inodesOf (chk : Bool) (l : List Node) : Nat :=
  (l.map (Node.count chk)).sum + (l.map (Node.key chk)).sum.toFinset.card

/-- The state of the purely sequential walk: `summary.Length`, `summary.Inodes`, `inodeMap`. -/
structure SeqState where
  length : Nat
  inodes : Nat
  seen : List Nat

/-- The loop body of `GetDirSummarySize` for one entry, run without any concurrency. -/
def visit (chk : Bool) (st : SeqState) (e : Node) : SeqState :=
  match e.attr with
  | some a =>
    if dedup chk a then
      if a.ino ∈ st.seen then st
      else { length := u64 (st.length + a.length), inodes := u64 (st.inodes + 1),
             seen := a.ino :: st.seen }
    else { st with length := u64 (st.length + a.length), inodes := u64 (st.inodes + 1) }
  | none => { st with inodes := u64 (st.inodes + 1) }

/-- The purely sequential usage walk of a namespace in which every RPC succeeds: the entries are
visited one after the other in listing order, every sub-directory right after its own entry (the
walk that always takes the `default:` branch), and the root is counted at the end. -/
def sequentialWalk (chk : Bool) (root : Node) : Int × Int × Option String :=
  let st := root.listed.foldl (visit chk) { length := 0, inodes := 0, seen := [] }
  (toInt64 st.length, toInt64 (u64 (st.inodes + 1)), none)

/-- A file entry. -/
def fileEntry (name : String) (ino parent length nlink : Nat) : Node :=
  Node.mk ⟨name, ino, parent, FileType.FILE⟩ (Except.ok ⟨ino, length, nlink⟩) none [] none

/-- A directory entry with the listing `es`. -/
def dirEntry (name : String) (ino parent : Nat) (es : List Node) : Node :=
  Node.mk ⟨name, ino, parent, FileType.DIRECTORY⟩ (Except.ok ⟨ino, 0, 2⟩) none es none

/-- The namespace `/a{f1: 10 bytes, b{f2: 20 bytes}}` of the end-to-end scenario. -/
def scenarioTree : Node :=
  dirEntry "a" 2 1 [fileEntry "f1" 3 2 10 1, dirEntry "b" 4 2 [fileEntry "f2" 5 4 20 1]]

/-- A directory with two files of 2^62 bytes each. -/
def overflowTree : Node :=
  dirEntry "big" 2 1 [fileEntry "x" 3 2 (2 ^ 62) 1, fileEntry "y" 4 2 (2 ^ 62) 1]

/-- A directory with two entries `l1`, `l2` for one physical inode of length `L`. -/
def hardlinkTree (L : Nat) : Node :=
  dirEntry "d" 2 1 [fileEntry "l1" 7 2 L 2, fileEntry "l2" 7 2 L 2]
/-! ## Exhaustive exploration of the schedules of a small namespace -/

/-- The states one step of one frame can lead to from `s`, whatever the concurrency bound:
the bound matters only through `slots < threads`, the `select` choice only modulo 6. -/
def successors (m : Mode) (s : State) : List State :=
  (List.range s.frames.length).flatMap fun i =>
    [0, s.shared.slots + 1].flatMap fun k =>
      (List.range 6).map fun sel => advance ⟨m, k⟩ i sel s

/-- Replay a list of moves `(threads, frame, sel)`. -/
def replay (m : Mode) (moves : List (Nat × Nat × Nat)) (s : State) : State :=
  moves.foldl (fun st mv => advance ⟨m, mv.1⟩ mv.2.1 mv.2.2 st) s

/-- Whether the set of states `S` is closed under the steps of the machine. -/
def closedUnder (m : Mode) (S : List State) : Bool :=
  S.all fun s => (successors m s).all fun t => S.contains t

/-- The `DeleteFile` and `DeleteDirectory` calls of a trace, in order. -/
def deletesOf : List Event → List Call
  | [] => []
  | Event.rpc _ (Call.DeleteFile a b c d) _ :: tr => Call.DeleteFile a b c d :: deletesOf tr
  | Event.rpc _ (Call.DeleteDirectory a b c d) _ :: tr =>
    Call.DeleteDirectory a b c d :: deletesOf tr
  | _ :: tr => deletesOf tr

/-- Add the states of `ts` not yet seen to the seen states and to the new frontier. -/
def addNew (seen new : List State) (ts : List State) : List State × List State :=
  ts.foldl (fun p t => if p.1.contains t then p else (p.1 ++ [t], p.2 ++ [t])) (seen, new)

/-- Breadth-first exploration of the states reachable from a frontier, `n` rounds deep. -/
def explore (m : Mode) : Nat → List State → List State → List State
  | 0, seen, _ => seen
  | n + 1, seen, frontier =>
    explore m n (addNew seen [] (frontier.flatMap (successors m))).1
      (addNew seen [] (frontier.flatMap (successors m))).2

/-- The states a delete walk of the scenario tree can reach, under every schedule and bound. -/
def scenarioDeleteStates : List State :=
  explore Mode.delete 20 [initState 1 7 1 2 "a" scenarioTree] [initState 1 7 1 2 "a" scenarioTree]

/-- Whether a call deletes something. -/
def Call.isDelete : Call → Bool
  | Call.DeleteFile _ _ _ _ => true
  | Call.DeleteDirectory _ _ _ _ => true
  | _ => false

/-- The delete call a delete walk issues for one listed entry: `DeleteDirectory` for a directory,
`DeleteFile` for anything else. -/
def Node.deleteCall (fsId epoch : Nat) (e : Node) : Call :=
  if e.entry.type = FileType.DIRECTORY then
    Call.DeleteDirectory fsId e.entry.parent e.entry.name epoch
  else Call.DeleteFile fsId e.entry.parent e.entry.name epoch
/-! ## The listing of the root -/

/-- Once the top call is past its `ListDentry`, that call stands in the trace. -/
def RootListed (s : State) : Prop :=
  ∀ f, s.frames[0]? = some f → f.pc ≠ PC.list →
    ∃ ok, Event.rpc 0 (Call.ListDentry f.fsId f.dirInodeId f.epoch) ok ∈ s.shared.trace
/-! ## Post-order deletion: executions with failures -/

/-- Every interleaving of the goroutines of a walk: the entry `(i, sel)` of the schedule lets
frame `i` take a step if it can.  Unlike `run`, goroutines keep moving after the top call has
returned.  Only frames of the walk move here; the wrapper that made the top call, and its
deferred `cancel()`, come in with `execute`, for which the same invariants are proved. -/
def interleave (w : Walk) (sched : List (Nat × Nat)) (s : State) : State :=
  sched.foldl (fun s c => advance w c.1 c.2 s) s

/-- The frame an event belongs to. -/
def Event.frame : Event → Nat
  | Event.rpc i _ _ => i
  | Event.spawn p _ => p
  | Event.inline p _ => p
  | Event.cancel p => p
  | Event.ret i _ => i

/-- The frame `g` was started by frame `i`, inline or as a goroutine. -/
def Frame.childOf (g : Frame) (i : Nat) : Prop :=
  g.kind = Kind.inline i ∨ g.kind = Kind.spawned i

/-- The `DeleteFile` call frame `f` makes for the entry `e`. -/
def Frame.fileCall (f : Frame) (e : Node) : Call :=
  Call.DeleteFile f.fsId e.entry.parent e.entry.name f.epoch

/-- Every child listed for the directory of frame `i` (whose record is `f`) has been processed
to completion without error within the events `pre`: `DeleteFile` succeeded for each
non-directory entry, each sub-directory entry has a recursive call, inline or spawned, that
returned nil, and every recursive call frame `i` started returned nil. -/
def Processed (frames : List Frame) (pre : List Event) (i : Nat) (f : Frame) : Prop :=
  (∀ e ∈ f.dir.entries,
    (e.entry.type ≠ FileType.DIRECTORY → Event.rpc i (f.fileCall e) true ∈ pre) ∧
    (e.entry.type = FileType.DIRECTORY →
      ∃ (j : Nat) (g : Frame), frames[j]? = some g ∧ g.childOf i ∧ g.dir = e ∧
        Event.ret j none ∈ pre)) ∧
  ∀ (j : Nat) (g : Frame), frames[j]? = some g → g.childOf i → Event.ret j none ∈ pre

/-- Post-order deletion, as a property of a state and its trace: whenever a `DeleteDirectory`
call of frame `i` stands in the trace, every child listed for its directory was processed to
completion without error within the events before that call; and if a `DeleteFile` of frame `i`
failed, or a recursive call it started returned an error, no `DeleteDirectory` call of frame `i`
stands in the trace. -/
def PostOrder (s : State) : Prop :=
  ∀ (i : Nat) (f : Frame), s.frames[i]? = some f →
    (∀ (pre post : List Event) (a b : Nat) (n : String) (ep : Nat) (ok : Bool),
      s.shared.trace = pre ++ Event.rpc i (Call.DeleteDirectory a b n ep) ok :: post →
      Processed s.frames pre i f) ∧
    (((∃ (a b : Nat) (n : String) (ep : Nat),
        Event.rpc i (Call.DeleteFile a b n ep) false ∈ s.shared.trace) ∨
      (∃ (j : Nat) (g : Frame) (err : String), s.frames[j]? = some g ∧ g.childOf i ∧
        Event.ret j (some err) ∈ s.shared.trace)) →
      ∀ (a b : Nat) (n : String) (ep : Nat) (ok : Bool),
        Event.rpc i (Call.DeleteDirectory a b n ep) ok ∉ s.shared.trace)

/-- The entry `e` of the listing of frame `i` has been dealt with: its `DeleteFile` succeeded,
or a recursive call for it was started. -/
def Handled (s : State) (i : Nat) (f : Frame) (e : Node) : Prop :=
  (e.entry.type ≠ FileType.DIRECTORY → Event.rpc i (f.fileCall e) true ∈ s.shared.trace) ∧
  (e.entry.type = FileType.DIRECTORY →
    ∃ (j : Nat) (g : Frame), s.frames[j]? = some g ∧ g.childOf i ∧ g.dir = e)

/-- Frame `i` has received an error from its `errCh`, or returned an error. -/
def Taken (s : State) (i : Nat) (f : Frame) : Prop :=
  (∃ e, f.pc = PC.cancel e) ∨ ∃ e, Event.ret i (some e) ∈ s.shared.trace

/-- The frame is inside the body, after its listing succeeded. -/
def Frame.active (f : Frame) : Prop :=
  f.pc = PC.loop ∨ f.pc = PC.addInodes ∨ f.pc = PC.select ∨ (∃ c, f.pc = PC.call c) ∨
    f.pc = PC.wait ∨ f.pc = PC.final

/-- The steps of a frame of a delete walk, one constructor per branch of
`deleteDirectoryAndData` and of the goroutine closure. -/
inductive DStep (frames : List Frame) (sh : Shared) (i : Nat) (f : Frame) : Outcome → Prop
  | listErr (err : String) (hpc : f.pc = PC.list) (h : f.dir.listErr = some err) :
    DStep frames sh i f
      (returns i f (sh.log (Event.rpc i (Call.ListDentry f.fsId f.dirInodeId f.epoch) false))
        (some err))
  | listOk (hpc : f.pc = PC.list) (h : f.dir.listErr = none) :
    DStep frames sh i f
      { frame := { f with todo := f.dir.entries, pc := PC.loop }, child := none,
        shared := sh.log (Event.rpc i (Call.ListDentry f.fsId f.dirInodeId f.epoch) true) }
  | loopNil (hpc : f.pc = PC.loop) (ht : f.todo = []) : DStep frames sh i f (goto f sh PC.wait)
  | fileErr (e : Node) (t : List Node) (err : String) (hpc : f.pc = PC.loop)
      (ht : f.todo = e :: t) (hty : e.entry.type ≠ FileType.DIRECTORY)
      (h : e.delErr = some err) :
    DStep frames sh i f (returns i f (sh.log (Event.rpc i (f.fileCall e) false)) (some err))
  | fileOk (e : Node) (t : List Node) (hpc : f.pc = PC.loop) (ht : f.todo = e :: t)
      (hty : e.entry.type ≠ FileType.DIRECTORY) (h : e.delErr = none) :
    DStep frames sh i f (goto f (sh.log (Event.rpc i (f.fileCall e) true)) PC.addInodes)
  | loopDir (e : Node) (t : List Node) (hpc : f.pc = PC.loop) (ht : f.todo = e :: t)
      (hty : e.entry.type = FileType.DIRECTORY) : DStep frames sh i f (goto f sh PC.select)
  | addInodes (hpc : f.pc = PC.addInodes) :
    DStep frames sh i f (continue_ f { sh with inodes := u64 (sh.inodes + 1) })
  | selInline (e : Node) (t : List Node) (hpc : f.pc = PC.select) (ht : f.todo = e :: t) :
    DStep frames sh i f
      { frame := { f with pc := PC.call frames.length },
        child := some (childFrame (Kind.inline i) f e),
        shared := sh.log (Event.inline i frames.length) }
  | selRecv (e : Node) (t : List Node) (err : String) (hpc : f.pc = PC.select)
      (ht : f.todo = e :: t) :
    DStep frames sh i f (goto f { sh with errCh := sh.errCh.set i none } (PC.cancel err))
  | selCtx (e : Node) (t : List Node) (hpc : f.pc = PC.select) (ht : f.todo = e :: t) :
    DStep frames sh i f
      (returns i f sh (some "cancel delete directory for other goroutine error"))
  | selAcquire (e : Node) (t : List Node) (hpc : f.pc = PC.select) (ht : f.todo = e :: t) :
    DStep frames sh i f
      { frame := { f with todo := f.todo.tail, pc := PC.loop },
        child := some (childFrame (Kind.spawned i) f e),
        shared := { sh with slots := sh.slots + 1 }.log (Event.spawn i frames.length) }
  | cancel (err : String) (hpc : f.pc = PC.cancel err) :
    DStep frames sh i f
      (returns i f ({ sh with cancelled := true }.log (Event.cancel i)) (some err))
  | callOk (c : Nat) (g : Frame) (hpc : f.pc = PC.call c) (hg : frames[c]? = some g)
      (hr : g.pc = PC.ret none) : DStep frames sh i f (continue_ f sh)
  | callErr (c : Nat) (g : Frame) (err : String) (hpc : f.pc = PC.call c)
      (hg : frames[c]? = some g) (hr : g.pc = PC.ret (some err)) :
    DStep frames sh i f (returns i f sh (some err))
  | wait (hpc : f.pc = PC.wait) (h : waitDone frames i = true) :
    DStep frames sh i f (goto f sh PC.final)
  | finalTake (err : String) (hpc : f.pc = PC.final) (h : sh.errCh.getD i none = some err) :
    DStep frames sh i f (returns i f { sh with errCh := sh.errCh.set i none } (some err))
  | finalErr (err : String) (hpc : f.pc = PC.final) (h : sh.errCh.getD i none = none)
      (hd : f.dir.delErr = some err) :
    DStep frames sh i f
      (returns i f
        (sh.log (Event.rpc i (Call.DeleteDirectory f.fsId f.parentInodeId f.name f.epoch) false))
        (some err))
  | finalOk (hpc : f.pc = PC.final) (h : sh.errCh.getD i none = none)
      (hd : f.dir.delErr = none) :
    DStep frames sh i f
      (goto f
        (sh.log (Event.rpc i (Call.DeleteDirectory f.fsId f.parentInodeId f.name f.epoch) true))
        PC.countSelf)
  | countSelf (hpc : f.pc = PC.countSelf) :
    DStep frames sh i f (returns i f { sh with inodes := u64 (sh.inodes + 1) } none)
  | release (p : Nat) (r : Option String) (hpc : f.pc = PC.ret r) (hk : f.kind = Kind.spawned p) :
    DStep frames sh i f (goto f { sh with slots := sh.slots - 1 } (PC.send r))
  | sendErr (p : Nat) (err : String) (hpc : f.pc = PC.send (some err))
      (hk : f.kind = Kind.spawned p) (h : sh.errCh.getD p none = none) :
    DStep frames sh i f (goto f { sh with errCh := sh.errCh.set p (some err) } PC.wgDone)
  | sendFull (p : Nat) (err err1 : String) (hpc : f.pc = PC.send (some err))
      (hk : f.kind = Kind.spawned p) (h : sh.errCh.getD p none = some err1) :
    DStep frames sh i f (goto f sh PC.wgDone)
  | sendNone (hpc : f.pc = PC.send none) : DStep frames sh i f (goto f sh PC.wgDone)
  | wgDone (hpc : f.pc = PC.wgDone) : DStep frames sh i f (goto f sh PC.finished)

/-- The invariants of a delete walk in which RPCs may fail. -/
structure Post (s : State) : Prop where
  wf : WF s
  len : s.shared.errCh.length = s.frames.length
  evs : ∀ ev ∈ s.shared.trace, ev.frame < s.frames.length
  pcs : ∀ (i : Nat) (f : Frame), s.frames[i]? = some f →
    (∀ a, f.pc ≠ PC.gotInode a) ∧ (∀ a, f.pc ≠ PC.addLength a)
  retDone : ∀ (i : Nat) (f : Frame) (r : Option String), s.frames[i]? = some f →
    Event.ret i r ∈ s.shared.trace → f.done
  retVal : ∀ (i : Nat) (f : Frame) (r : Option String), s.frames[i]? = some f →
    (f.pc = PC.ret r ∨ f.pc = PC.send r) → Event.ret i r ∈ s.shared.trace
  retUniq : ∀ (i : Nat) (r r1 : Option String), Event.ret i r ∈ s.shared.trace →
    Event.ret i r1 ∈ s.shared.trace → r = r1
  prog : ∀ (i : Nat) (f : Frame), s.frames[i]? = some f → f.active →
    ∃ pre, f.dir.entries = pre ++ f.todo ∧ ∀ e ∈ pre, Handled s i f e
  cur : ∀ (i : Nat) (f : Frame), s.frames[i]? = some f →
    (f.pc = PC.addInodes → ∃ e t, f.todo = e :: t ∧ e.entry.type ≠ FileType.DIRECTORY ∧
      Event.rpc i (f.fileCall e) true ∈ s.shared.trace) ∧
    (f.pc = PC.select → ∃ e t, f.todo = e :: t ∧ e.entry.type = FileType.DIRECTORY) ∧
    (∀ c, f.pc = PC.call c → ∃ e t g, f.todo = e :: t ∧ e.entry.type = FileType.DIRECTORY ∧
      s.frames[c]? = some g ∧ g.kind = Kind.inline i ∧ g.dir = e)
  emp : ∀ (i : Nat) (f : Frame), s.frames[i]? = some f → (f.pc = PC.wait ∨ f.pc = PC.final) →
    f.todo = []
  joined : ∀ (i j : Nat) (f g : Frame), s.frames[i]? = some f → f.pc = PC.final →
    s.frames[j]? = some g → g.kind = Kind.spawned i → g.pc = PC.finished
  spawnedOk : ∀ (i j : Nat) (f g : Frame), s.frames[i]? = some f → s.frames[j]? = some g →
    g.kind = Kind.spawned i → (g.pc = PC.wgDone ∨ g.pc = PC.finished) →
    Event.ret j none ∈ s.shared.trace ∨ s.shared.errCh.getD i none ≠ none ∨ Taken s i f
  inlineOk : ∀ (i j : Nat) (f g : Frame), s.frames[i]? = some f → s.frames[j]? = some g →
    g.kind = Kind.inline i →
    f.pc = PC.call j ∨ Event.ret j none ∈ s.shared.trace ∨ Taken s i f
  failed : ∀ (i : Nat) (f : Frame) (c : Call), s.frames[i]? = some f →
    Event.rpc i c false ∈ s.shared.trace → f.done
  fileFail : ∀ (i : Nat) (a b : Nat) (n : String) (ep : Nat),
    Event.rpc i (Call.DeleteFile a b n ep) false ∈ s.shared.trace →
    ∀ (a1 b1 : Nat) (n1 : String) (ep1 : Nat) (ok : Bool),
      Event.rpc i (Call.DeleteDirectory a1 b1 n1 ep1) ok ∉ s.shared.trace
  hist : ∀ (i : Nat) (f : Frame), s.frames[i]? = some f →
    ∀ (pre post : List Event) (a b : Nat) (n : String) (ep : Nat) (ok : Bool),
      s.shared.trace = pre ++ Event.rpc i (Call.DeleteDirectory a b n ep) ok :: post →
      (f.pc = PC.countSelf ∨ f.done) ∧ Processed s.frames pre i f

/-- The state after frame `i` took the step with outcome `o`. -/
def after (s : State) (i : Nat) (o : Outcome) : State :=
  { frames := s.frames.set i o.frame ++ o.child.toList,
    shared := { o.shared with errCh := o.shared.errCh ++ o.child.toList.map fun _ => none } }

/-- The namespace `/a{b{f2}, f1}` in which `DeleteFile` of `f1` fails. -/
def failTree : Node :=
  dirEntry "a" 2 1 [dirEntry "b" 4 2 [fileEntry "f2" 5 4 20 1],
    Node.mk ⟨"f1", 3, 2, FileType.FILE⟩ (Except.ok ⟨3, 10, 1⟩) none [] (some "EIO")]
/-! ## Epoch, slots and cancellation along every execution -/

/-- The epoch an RPC carries. -/
def Call.epoch : Call → Nat
  | Call.ListDentry _ _ ep => ep
  | Call.GetInode _ _ _ ep => ep
  | Call.DeleteFile _ _ _ ep => ep
  | Call.DeleteDirectory _ _ _ ep => ep

/-- Every frame works with the epoch `ep` and every RPC issued so far carries it. -/
structure EpochInv (ep : Nat) (s : State) : Prop where
  frames : ∀ f ∈ s.frames, f.epoch = ep
  calls : ∀ (i : Nat) (c : Call) (ok : Bool), Event.rpc i c ok ∈ s.shared.trace → c.epoch = ep

/-- Whether a frame is a goroutine that holds a slot of `concurrent`: it was started by the
`go` statement and has not yet executed `<-concurrent`. -/
def Frame.holds (f : Frame) : Nat :=
  match f.kind with
  | Kind.spawned _ =>
    (match f.pc with
     | PC.send _ => 0
     | PC.wgDone => 0
     | PC.finished => 0
     | _ => 1)
  | _ => 0

/-- The number of goroutines that hold a slot. -/
def holders (s : State) : Nat := total Frame.holds s.frames

/-- Whether a frame is the recursion into a sub-directory whose body has not yet returned. -/
def Frame.inFlight (f : Frame) : Bool :=
  decide (f.kind ≠ Kind.top) &&
    (match f.pc with
     | PC.ret _ => false
     | PC.send _ => false
     | PC.wgDone => false
     | PC.finished => false
     | _ => true)

/-- The number of recursions into sub-directories in flight, spawned or inline. -/
def inFlight (s : State) : Nat := (s.frames.filter Frame.inFlight).length

/-- The slots taken are those of the goroutines that hold one, and they are at most
`threads`. -/
structure SlotInv (threads : Nat) (s : State) : Prop where
  slots : s.shared.slots = holders s
  bound : s.shared.slots ≤ threads

/-- Once `cancel()` has been called, `ctx` is done and no inline recursive call is started any
more: no `inline` event stands behind a `cancel` event. -/
def CancelInv (s : State) : Prop :=
  ∀ (pre post : List Event) (i : Nat), s.shared.trace = pre ++ Event.cancel i :: post →
    s.shared.cancelled = true ∧ ∀ p c, Event.inline p c ∉ post

/-- The error a branch returns when it finds `ctx` done at its `select`. -/
def cancelError (m : Mode) : String :=
  match m with
  | Mode.usage _ => "cancel scan directory for other goroutine error"
  | Mode.delete => "cancel delete directory for other goroutine error"

/-- The errors the RPCs of the walk `m` on the node `n` fail with: that of `ListDentry`, and
that of `GetInode` (usage) or of the delete call (delete). -/
def Node.errors (m : Mode) (n : Node) : List String :=
  n.listErr.toList ++
    match m with
    | Mode.usage _ =>
      (match n.getInode with
       | Except.error e => [e]
       | Except.ok _ => [])
    | Mode.delete => n.delErr.toList

/-- The error `e` is the synthetic cancellation error or the error of one RPC answer of the
namespace. -/
def Allowed (m : Mode) (root : Node) (e : String) : Prop :=
  e = cancelError m ∨ e ∈ root.errors m ∨ ∃ n ∈ root.listed, e ∈ n.errors m

/-- The error a frame holds: the one it returned, or the one it received from `errCh`. -/
def Frame.err (f : Frame) : Option String :=
  match f.pc with
  | PC.ret r => r
  | PC.send r => r
  | PC.cancel e => some e
  | _ => none

/-- Every error held by a frame or waiting in an `errCh` is a single allowed error. -/
structure ErrInv (w : Walk) (root : Node) (s : State) : Prop where
  good : ∀ f ∈ s.frames, Good w root f
  frames : ∀ f ∈ s.frames, ∀ e, f.err = some e → Allowed w.mode root e
  errCh : ∀ e, some e ∈ s.shared.errCh → Allowed w.mode root e

/-- What the metadata service answers: the RPC `c`, which frame `f` of the walk `m` issues on
its directory or for an entry listed in it, fails with the error `e`. -/
def Frame.fails (m : Mode) (f : Frame) (c : Call) (e : String) : Prop :=
  (c = Call.ListDentry f.fsId f.dirInodeId f.epoch ∧ f.dir.listErr = some e) ∨
  (∃ n ∈ f.dir.entries, n.entry.type = FileType.FILE ∧ (∃ chk, m = Mode.usage chk) ∧
    c = Call.GetInode f.fsId n.entry.ino n.entry.parent f.epoch ∧
    n.getInode = Except.error e) ∨
  (∃ n ∈ f.dir.entries, n.entry.type ≠ FileType.DIRECTORY ∧ m = Mode.delete ∧
    c = Call.DeleteFile f.fsId n.entry.parent n.entry.name f.epoch ∧ n.delErr = some e) ∨
  (m = Mode.delete ∧ c = Call.DeleteDirectory f.fsId f.parentInodeId f.name f.epoch ∧
    f.dir.delErr = some e)

/-- The error `e` is that of a failed RPC of the execution: a frame `j` of the walk issued an
RPC `c` that the metadata service answered with `e`, and the frame returned `e` at once (the
failed call and the return stand side by side in the trace). -/
def FailedRpc (w : Walk) (s : State) (e : String) : Prop :=
  ∃ (j : Nat) (g : Frame) (c : Call) (pre post : List Event), s.frames[j]? = some g ∧
    g.fails w.mode c e ∧
    s.shared.trace = pre ++ Event.rpc j c false :: Event.ret j (some e) :: post

/-- Where an error a frame holds, or one waiting in an `errCh`, comes from: it is the error of
a failed RPC of the execution, or the synthetic error of a branch that found `ctx` done. -/
def Origin (w : Walk) (s : State) (e : String) : Prop :=
  FailedRpc w s e ∨ (e = cancelError w.mode ∧ s.shared.cancelled = true)

/-- Every error of a state has an origin in the execution, and up to the return of the
wrapper `ctx` is done only after some RPC has failed. -/
structure OriginInv (w : Walk) (s : State) : Prop where
  held : ∀ f ∈ s.frames, ∀ e, f.err = some e → Origin w s e
  errCh : ∀ e, some e ∈ s.shared.errCh → Origin w s e
  signal : s.shared.cancelled = true → ∃ e, FailedRpc w s e
/-! ## Namespaces with failing RPCs, for the examples -/

/-- The namespace `/a{d1{x, y{}}, f1, d2{}}` in which `ListDentry` of `x` fails. -/
def cancelTree : Node :=
  dirEntry "a" 2 1
    [dirEntry "d1" 10 2
       [Node.mk ⟨"x", 11, 10, FileType.DIRECTORY⟩ (Except.ok ⟨11, 0, 2⟩) (some "ELIST") [] none,
        dirEntry "y" 12 10 []],
     fileEntry "f1" 13 2 5 1,
     dirEntry "d2" 14 2 []]

/-- The namespace `/a{d1, f1}` in which `ListDentry` of `d1` fails with `EFIRST` and both
`GetInode` and `DeleteFile` of `f1` fail with `ESECOND`. -/
def laterTree : Node :=
  dirEntry "a" 2 1
    [Node.mk ⟨"d1", 10, 2, FileType.DIRECTORY⟩ (Except.ok ⟨10, 0, 2⟩) (some "EFIRST") [] none,
     Node.mk ⟨"f1", 13, 2, FileType.FILE⟩ (Except.error "ESECOND") none [] (some "ESECOND")]

/-- The namespace `/a{f1: 10 bytes, f2}` in which `GetInode` of `f2` fails. -/
def partialTree : Node :=
  dirEntry "a" 2 1
    [fileEntry "f1" 3 2 10 1,
     Node.mk ⟨"f2", 4, 2, FileType.FILE⟩ (Except.error "EIO") none [] none]

/-- The namespace `/a{d1{}, d2{}}`. -/
def twoDirs : Node :=
  dirEntry "a" 2 1 [dirEntry "d1" 10 2 [], dirEntry "d2" 11 2 []]
/-! ## Returns, joins and the cancellation signal along every execution -/

/-- A change of the shared state by a step of frame `i` that touches neither `errCh` nor `ctx`
nor the slots, and logs at most one RPC of the frame. -/
structure Silent (i : Nat) (sh sh' : Shared) : Prop where
  errCh : sh'.errCh = sh.errCh
  cancelled : sh'.cancelled = sh.cancelled
  slots : sh'.slots = sh.slots
  trace : sh'.trace = sh.trace ∨ ∃ c ok, sh'.trace = sh.trace ++ [Event.rpc i c ok]

/-- The frame is inside the loop, not in an inline call: from the `ListDentry` to the
`select`. -/
def Frame.inLoop (f : Frame) : Prop :=
  f.pc = PC.list ∨ f.pc = PC.loop ∨ (∃ a, f.pc = PC.gotInode a) ∨ (∃ a, f.pc = PC.addLength a) ∨
    f.pc = PC.addInodes ∨ f.pc = PC.select

/-- The program points a step inside the loop leads to. -/
def PC.onward (pc : PC) : Prop :=
  pc = PC.loop ∨ (∃ a, pc = PC.gotInode a) ∨ (∃ a, pc = PC.addLength a) ∨ pc = PC.addInodes ∨
    pc = PC.select ∨ pc = PC.wait

/-- The steps of a frame of either walk, by what they do to the control state, to `errCh`, to
`ctx` and to the trace: one constructor per kind of branch of `GetDirSummarySize` /
`deleteDirectoryAndData` and of the goroutine closure. -/
inductive WStep (frames : List Frame) (sh : Shared) (i : Nat) (f : Frame) : Outcome → Prop
  /-- a step inside the loop that goes on: a successful RPC, a counter update, `continue` -/
  | move (todo : List Node) (pc : PC) (sh' : Shared) (hpc : f.inLoop) (hto : pc.onward)
      (hs : Silent i sh sh') :
    WStep frames sh i f { frame := { f with todo := todo, pc := pc }, child := none, shared := sh' }
  /-- an early return: a failed `ListDentry`, `GetInode` or `DeleteFile`, or `ctx.Done()` -/
  | fail (err : String) (sh' : Shared) (hpc : f.pc = PC.list ∨ f.pc = PC.loop ∨ f.pc = PC.select)
      (hs : Silent i sh sh') : WStep frames sh i f (returns i f sh' (some err))
  /-- `case err := <-errCh:` of the `select` in the loop -/
  | recv (err : String) (hpc : f.pc = PC.select) (h : sh.errCh.getD i none = some err) :
    WStep frames sh i f (goto f { sh with errCh := sh.errCh.set i none } (PC.cancel err))
  /-- `default:` of the `select`: the inline call -/
  | inline (e : Node) (t : List Node) (hpc : f.pc = PC.select) (ht : f.todo = e :: t) :
    WStep frames sh i f
      { frame := { f with pc := PC.call frames.length },
        child := some (childFrame (Kind.inline i) f e),
        shared := sh.log (Event.inline i frames.length) }
  /-- `case concurrent <- struct{}{}:` of the `select`: the goroutine -/
  | acquire (e : Node) (t : List Node) (hpc : f.pc = PC.select) (ht : f.todo = e :: t) :
    WStep frames sh i f
      { frame := { f with todo := f.todo.tail, pc := PC.loop },
        child := some (childFrame (Kind.spawned i) f e),
        shared := { sh with slots := sh.slots + 1 }.log (Event.spawn i frames.length) }
  /-- `cancel(); return err` -/
  | cancel (err : String) (hpc : f.pc = PC.cancel err) :
    WStep frames sh i f
      (returns i f ({ sh with cancelled := true }.log (Event.cancel i)) (some err))
  /-- the inline call returned nil -/
  | callOk (c : Nat) (g : Frame) (hpc : f.pc = PC.call c) (hg : frames[c]? = some g)
      (hr : g.pc = PC.ret none) : WStep frames sh i f (continue_ f sh)
  /-- the inline call returned an error: an early return -/
  | callErr (c : Nat) (g : Frame) (err : String) (hpc : f.pc = PC.call c)
      (hg : frames[c]? = some g) (hr : g.pc = PC.ret (some err)) :
    WStep frames sh i f (returns i f sh (some err))
  /-- `wg.Wait()` returns -/
  | wait (hpc : f.pc = PC.wait) (h : waitDone frames i = true) :
    WStep frames sh i f (goto f sh PC.final)
  /-- `case err = <-errCh:` of the final `select` -/
  | finalTake (err : String) (hpc : f.pc = PC.final) (h : sh.errCh.getD i none = some err) :
    WStep frames sh i f (returns i f { sh with errCh := sh.errCh.set i none } (some err))
  /-- `default:` of the final `select`, delete: `DeleteDirectory` failed -/
  | finalFail (err : String) (sh' : Shared) (hpc : f.pc = PC.final)
      (h : sh.errCh.getD i none = none) (hs : Silent i sh sh') :
    WStep frames sh i f (returns i f sh' (some err))
  /-- `default:` of the final `select`, usage: `return err` with `err == nil` -/
  | finalOk (hpc : f.pc = PC.final) (h : sh.errCh.getD i none = none) :
    WStep frames sh i f (returns i f sh none)
  /-- `default:` of the final `select`, delete: `DeleteDirectory` succeeded -/
  | finalDel (sh' : Shared) (hpc : f.pc = PC.final) (h : sh.errCh.getD i none = none)
      (hs : Silent i sh sh') : WStep frames sh i f (goto f sh' PC.countSelf)
  /-- delete: the counter update and `return err` with `err == nil` -/
  | countSelf (sh' : Shared) (hpc : f.pc = PC.countSelf) (hs : Silent i sh sh') :
    WStep frames sh i f (returns i f sh' none)
  /-- closure: `<-concurrent` -/
  | release (p : Nat) (r : Option String) (hpc : f.pc = PC.ret r) (hk : f.kind = Kind.spawned p) :
    WStep frames sh i f (goto f { sh with slots := sh.slots - 1 } (PC.send r))
  /-- closure: `case errCh <- err:` -/
  | sendErr (p : Nat) (err : String) (hpc : f.pc = PC.send (some err))
      (hk : f.kind = Kind.spawned p) (h : sh.errCh.getD p none = none) :
    WStep frames sh i f (goto f { sh with errCh := sh.errCh.set p (some err) } PC.wgDone)
  /-- closure: nothing to send, or `default:` because `errCh` is full -/
  | sendSkip (r : Option String) (hpc : f.pc = PC.send r)
      (h : ∀ p err, f.kind = Kind.spawned p → r = some err → sh.errCh.getD p none ≠ none) :
    WStep frames sh i f (goto f sh PC.wgDone)
  /-- closure: the deferred `wg.Done()` -/
  | wgDone (hpc : f.pc = PC.wgDone) : WStep frames sh i f (goto f sh PC.finished)

/-- The invariants of returns and joins of either walk, whatever fails: a frame returns once,
the `ret` events tell what it returned; a frame past its `wg.Wait()` without an error has no
goroutine of its own left; and the error of a recursive call is handed to the frame that
started it. -/
structure JoinInv (s : State) : Prop where
  wf : WF s
  len : s.shared.errCh.length = s.frames.length
  evs : ∀ ev ∈ s.shared.trace, ev.frame < s.frames.length
  retDone : ∀ (i : Nat) (f : Frame) (r : Option String), s.frames[i]? = some f →
    Event.ret i r ∈ s.shared.trace → f.done
  retVal : ∀ (i : Nat) (f : Frame) (r : Option String), s.frames[i]? = some f →
    (f.pc = PC.ret r ∨ f.pc = PC.send r) → Event.ret i r ∈ s.shared.trace
  retUniq : ∀ (i : Nat) (r r1 : Option String), Event.ret i r ∈ s.shared.trace →
    Event.ret i r1 ∈ s.shared.trace → r = r1
  joined : ∀ (i j : Nat) (f g : Frame), s.frames[i]? = some f →
    (f.pc = PC.final ∨ f.pc = PC.countSelf ∨ Event.ret i none ∈ s.shared.trace) →
    s.frames[j]? = some g → g.kind = Kind.spawned i → g.pc = PC.finished
  spawnedOk : ∀ (i j : Nat) (f g : Frame), s.frames[i]? = some f → s.frames[j]? = some g →
    g.kind = Kind.spawned i → (g.pc = PC.wgDone ∨ g.pc = PC.finished) →
    Event.ret j none ∈ s.shared.trace ∨ s.shared.errCh.getD i none ≠ none ∨ Taken s i f
  inlineOk : ∀ (i j : Nat) (f g : Frame), s.frames[i]? = some f → s.frames[j]? = some g →
    g.kind = Kind.inline i →
    f.pc = PC.call j ∨ Event.ret j none ∈ s.shared.trace ∨ Taken s i f
  quiet : ∀ (i : Nat) (f : Frame), s.frames[i]? = some f →
    (f.pc = PC.countSelf ∨ Event.ret i none ∈ s.shared.trace) →
    s.shared.errCh.getD i none = none

/-- The frame has come to rest: its body has returned, and a goroutine has ended. -/
def Frame.atRest (f : Frame) : Prop :=
  match f.kind with
  | Kind.spawned _ => f.pc = PC.finished
  | _ => ∃ r, f.pc = PC.ret r

/-- Where the cancellation signal comes from: `ctx` is done exactly when a frame has called
`cancel()` (the trace holds the call) or the deferred `cancel()` of the wrapper has run
(`deferred`); an error in the `errCh` of a frame, or received from it, is the error a goroutine
of that frame returned; and every `cancel()` of a frame stands in the trace right before the
return of that frame with an error that one of its goroutines had returned before. -/
structure SignalInv (deferred : Bool) (s : State) : Prop where
  flag : s.shared.cancelled = true ↔ (∃ i, Event.cancel i ∈ s.shared.trace) ∨ deferred = true
  chan : ∀ (i : Nat) (e : String), s.shared.errCh.getD i none = some e →
    ∃ (j : Nat) (g : Frame), s.frames[j]? = some g ∧ g.kind = Kind.spawned i ∧
      Event.ret j (some e) ∈ s.shared.trace
  recv : ∀ (i : Nat) (f : Frame) (e : String), s.frames[i]? = some f → f.pc = PC.cancel e →
    ∃ (j : Nat) (g : Frame), s.frames[j]? = some g ∧ g.kind = Kind.spawned i ∧
      Event.ret j (some e) ∈ s.shared.trace
  hist : ∀ (pre post : List Event) (i : Nat), s.shared.trace = pre ++ Event.cancel i :: post →
    ∃ (e : String) (j : Nat) (g : Frame) (rest : List Event),
      post = Event.ret i (some e) :: rest ∧ s.frames[j]? = some g ∧ g.kind = Kind.spawned i ∧
        Event.ret j (some e) ∈ pre

/-- The namespace `/a{d1, d2{f2}}` in which `ListDentry` of `d1` fails. -/
def signalTree : Node :=
  dirEntry "a" 2 1
    [Node.mk ⟨"d1", 10, 2, FileType.DIRECTORY⟩ (Except.ok ⟨10, 0, 2⟩) (some "ELIST") [] none,
     dirEntry "d2" 11 2 [fileEntry "f2" 12 11 5 1]]

/-- What does hold about joins in a state of a walk: a frame that is past its `wg.Wait()` and
holds no error (it is at the final `select`, at the counter update behind `DeleteDirectory`, or
has returned nil) has no goroutine of its own left, they have all ended; and once the top call
has returned nil, every frame has come to rest and no step is possible any more. -/
def JoinedAfterWait (w : Walk) (s : State) : Prop :=
  (∀ (i j : Nat) (f g : Frame), s.frames[i]? = some f →
    (f.pc = PC.final ∨ f.pc = PC.countSelf ∨ f.pc = PC.ret none ∨ f.pc = PC.send none) →
    s.frames[j]? = some g → g.kind = Kind.spawned i → g.pc = PC.finished) ∧
  (topResult s = some none →
    (∀ (j : Nat) (g : Frame), s.frames[j]? = some g → g.atRest) ∧
    ∀ sched : List (Nat × Nat), interleave w sched s = s)

/-- The namespace `/a{b{f2}, f1}` in which `GetInode` and `DeleteFile` of `f1` fail. -/
def leakTree : Node :=
  dirEntry "a" 2 1 [dirEntry "b" 4 2 [fileEntry "f2" 5 4 20 1],
    Node.mk ⟨"f1", 3, 2, FileType.FILE⟩ (Except.error "EIO") none [] (some "EIO")]
/-! ## The deleted-inode counter -/

/-- Whether an event is a `DeleteFile` or `DeleteDirectory` call that returned success. -/
def Event.deleted : Event → Bool
  | Event.rpc _ c true => c.isDelete
  | _ => false

/-- The number of `DeleteFile` and `DeleteDirectory` calls of a trace that returned success. -/
def okDeletes (trace : List Event) : Nat := trace.countP Event.deleted

/-- Whether a frame of a delete walk stands between a delete call that succeeded and the
`atomic.AddUint64(&summary.Inodes, 1)` that counts it. -/
def Frame.uncounted (f : Frame) : Nat :=
  match f.pc with
  | PC.addInodes => 1
  | PC.countSelf => 1
  | _ => 0

/-- The counter invariant of a delete walk: the successful deletes are those counted in
`summary.Inodes` (a `uint64`) and those of the frames about to count theirs. -/
structure CountInv (s : State) : Prop where
  le : total Frame.uncounted s.frames ≤ okDeletes s.shared.trace
  eq : s.shared.inodes = (okDeletes s.shared.trace - total Frame.uncounted s.frames) % 2 ^ 64

/-- The counter in a state of a delete walk.  A branch counts a successful delete with its
next statement, `atomic.AddUint64(&summary.Inodes, 1)`: `summary.Inodes` is the number of
successful deletes less those of the frames that stand right before that statement (as a
`uint64`; exactly, while fewer than 2^64 deletes have succeeded).  It is the number of
successful deletes whenever no frame stands there, and so when the top call has returned
nil. -/
def CounterExact (s : State) : Prop :=
  total Frame.uncounted s.frames ≤ okDeletes s.shared.trace ∧
  s.shared.inodes = (okDeletes s.shared.trace - total Frame.uncounted s.frames) % 2 ^ 64 ∧
  (okDeletes s.shared.trace < 2 ^ 64 →
    s.shared.inodes + total Frame.uncounted s.frames = okDeletes s.shared.trace) ∧
  ((∀ f ∈ s.frames, f.pc ≠ PC.addInodes ∧ f.pc ≠ PC.countSelf) →
    s.shared.inodes = okDeletes s.shared.trace % 2 ^ 64) ∧
  (topResult s = some none → s.shared.inodes = okDeletes s.shared.trace % 2 ^ 64)
/-! ## The wrapper of a walk and its deferred `cancel()` -/

/-- A move of the program while a walk is under way: frame `i` takes a step if it can (`sel`
resolves the choice of a `select`), or the wrapper that made the top call returns. -/
inductive Move where
  | frame (i sel : Nat)
  | wrapperReturn
deriving DecidableEq, Repr

/-- A walk together with the function that made the top call, `GetDirectorySizeAndInodes`
(operator.go) or `deleteDirectory` (delete.go): the state of the walk, and whether that wrapper
has returned. -/
structure Program where
  state : State
  returned : Bool
deriving DecidableEq

/-- The `ctx` of a state is set done. -/
def State.ctxDone (s : State) : State :=
  { s with shared := { s.shared with cancelled := true } }

/-- One move of the program.  The wrapper can return once the top call has returned; both
wrappers hold `ctx, cancel := context.WithCancel(context.Background())` and `defer cancel()`,
so their return sets `ctx` done, whatever the goroutines still running do. -/
def Program.move (w : Walk) (p : Program) : Move → Program
  | Move.frame i sel => { p with state := advance w i sel p.state }
  | Move.wrapperReturn =>
    match topResult p.state with
    | none => p
    | some _ => { state := p.state.ctxDone, returned := true }

/-- Every execution of the program: the frames of the walk interleave freely, as in
`interleave`, and the wrapper returns at some point after the top call. -/
def execute (w : Walk) (moves : List Move) (p : Program) : Program :=
  moves.foldl (Program.move w) p

/-- The program when the wrapper makes the top call: the wrapper has not returned. -/
def initProgram (fsId epoch parentInodeId dirInodeId : Nat) (name : String) (root : Node) :
    Program :=
  { state := initState fsId epoch parentInodeId dirInodeId name root, returned := false }
/-! ## The delete command: `runDelete` -/

/-- The predicate `unicode.IsSpace` of Go, by code point. -/
def isSpace (c : Char) : Bool :=
  let n := c.toNat
  (9 ≤ n && n ≤ 13) || n = 32 || n = 0x85 || n = 0xA0 || n = 0x1680 ||
    (0x2000 ≤ n && n ≤ 0x200A) || n = 0x2028 || n = 0x2029 || n = 0x202F || n = 0x205F ||
    n = 0x3000

/-- The function `strings.TrimSpace`: leading and trailing white space removed. -/
def TrimSpace (s : String) : String :=
  String.mk ((s.data.dropWhile isSpace).reverse.dropWhile isSpace).reverse

/-- The struct `deleteOptions` of delete.go. -/
structure deleteOptions where
  fsid : Nat
  path : String
  name : String
  parent : String
  threads : Nat
  format : String

/-- A Go `error` value as `runDelete` builds it: a plain error, or an error wrapped by
`errno.ERR_RPC_FAILED.E(err)`. -/
inductive Err where
  | plain (msg : String)
  | rpcFailed (inner : String)
deriving DecidableEq, Repr

/-- What `runDelete` asks of the outside world, in order. -/
inductive Op where
  | GetFsEpochByFsId (fsid : Nat)
  | InitFsMDSRouter (fsid : Nat)
  | GetDirPathInodeId (fsid : Nat) (path : String) (epoch : Nat)
  | ListDentry (fsid inode epoch : Nat)
  /-- the call of `deleteDirectory`, with the events of its walk -/
  | deleteDirectory (fsid epoch parentInodeId dirInodeId : Nat) (name : String)
      (threads : Nat) (trace : List Event)
  | OutputJson (error : Option Err)
  | Printf (path : String) (deleteInodes : Nat)
deriving DecidableEq

/-- The answers of the metadata service and of the functions `runDelete` calls whose code is
outside delete.go: `GetFsEpochByFsId`, `InitFsMDSRouter`, `GetDirPathInodeId`, `ListDentry`,
the namespace below an inode together with the schedule of the delete walk, and the error of
`json.MarshalIndent` inside `OutputJson`. -/
structure Env where
  epoch : Nat → Except String Nat
  router : Nat → Option String
  resolve : Nat → String → Nat → Except String Nat
  list : Nat → Nat → Nat → Except String (List Dentry)
  dir : Nat → Node
  sched : List (Nat × Nat)
  marshal : Option Err → Option String

/-- How a call of `runDelete` ends: it returns an error value (`none` is `nil`), or the process
faults on a nil pointer dereference. -/
inductive Exit where
  | returned (err : Option Err)
  | fault
deriving DecidableEq

/-- The function `GetInodeId` of delete.go: the inode of the entry `options.name` of the parent
directory, with the `ListDentry` it issues. -/
def GetInodeId (env : Env) (options : deleteOptions) (parentId epoch : Nat) :
    Option String × Nat :=
  match env.list options.fsid parentId epoch with
  | Except.error entErr => (some entErr, 0)
  | Except.ok entries =>
    match entries.find? fun entry => entry.name = options.name with
    | some entry => (none, entry.ino)
    | none => (some "file does not exist", 0)

/-- The tail of `runDelete` after the delete: print the result.  `error` is `outputResult.Error`
(`none` for `errno.ERR_OK`); the code of `ERR_RPC_FAILED` differs from that of `ERR_OK`. -/
def printResult (env : Env) (options : deleteOptions) (error : Option Err) (deleteInodes : Nat)
    (ops : List Op) : Exit × List Op :=
  if options.format = "json" then
    (Exit.returned ((env.marshal error).map Err.plain), ops ++ [Op.OutputJson error])
  else
    match error with
    | some e => (Exit.returned (some e), ops)
    | none => (Exit.returned none, ops ++ [Op.Printf options.path deleteInodes])

/-- The function `runDelete` of delete.go: how it ends and what it asked of the outside world;
`none` while the delete walk has not returned within the schedule. -/
def runDelete (env : Env) (options : deleteOptions) : Option (Exit × List Op) :=
  if TrimSpace options.name = "/" then
    some (Exit.returned (some (Err.plain "root directory can not be deleted")), [])
  else
    -- get epoch id
    match env.epoch options.fsid with
    | Except.error err =>
      some (Exit.returned (some (Err.plain err)), [Op.GetFsEpochByFsId options.fsid])
    | Except.ok epoch =>
      -- create router
      match env.router options.fsid with
      | some routerErr =>
        some (Exit.returned (some (Err.plain routerErr)),
          [Op.GetFsEpochByFsId options.fsid, Op.InitFsMDSRouter options.fsid])
      | none =>
        -- get path parent inodeid
        match env.resolve options.fsid options.parent epoch with
        | Except.error inodeErr =>
          some (Exit.returned (some (Err.plain inodeErr)),
            [Op.GetFsEpochByFsId options.fsid, Op.InitFsMDSRouter options.fsid,
             Op.GetDirPathInodeId options.fsid options.parent epoch])
        | Except.ok parentInodeId =>
          let ops := [Op.GetFsEpochByFsId options.fsid, Op.InitFsMDSRouter options.fsid,
            Op.GetDirPathInodeId options.fsid options.parent epoch,
            Op.ListDentry options.fsid parentInodeId epoch]
          match GetInodeId env options parentInodeId epoch with
          | (some err, _) => some (printResult env options (some (Err.rpcFailed err)) 0 ops)
          | (none, inodeId) =>
            let walk := run ⟨Mode.delete, options.threads⟩ env.sched
              (initState options.fsid epoch parentInodeId inodeId options.name (env.dir inodeId))
            let ops1 := ops ++ [Op.deleteDirectory options.fsid epoch parentInodeId inodeId
              options.name options.threads walk.shared.trace]
            match deleteDirectory (env.dir inodeId) options.fsid epoch parentInodeId inodeId
                options.name options.threads env.sched with
            | none => none
            | some (summary, err) =>
              -- deleteInodes = summary.Inodes
              match summary with
              | none => some (Exit.fault, ops1)
              | some inodes =>
                some (printResult env options (err.map Err.rpcFailed) inodes ops1)
/-! ## The RPC invoker: `GetRpcResponse` -/

/-- The struct `Rpc` of client.go; durations are in nanoseconds, `RpcRetryTimes` is an
`int32`. -/
structure Rpc where
  Addrs : List String
  RpcTimeout : Nat
  RpcRetryTimes : Int
  RpcRetryDelay : Nat
  RpcFuncName : String
  RpcDataShow : Bool

/-- What `GetRpcResponse` uses of the package `errno`, whose code is outside the sources, over
a type `C` of error codes: the two codes, `code.E(err)` for a single error and for the joined
errors, and `GetCode`. -/
structure Errno (C : Type) where
  ERR_OK : C
  ERR_RPC_FAILED : C
  E : C → String → C
  joinE : C → List C → C
  GetCode : C → Int

/-- The outside world of one `GetRpcResponse` call, for responses of type `R`: the connection
pool, the stub behind `rpcFunc`, and the classifier `CheckRpcNeedRetry`, whose code is outside
the sources. -/
structure Remote (R : Type) where
  /-- the error of `pool.GetConnection(address, timeout)`; `none`: a connection is obtained -/
  connect : String → Option String
  /-- the answer of call number `k` (from 0) of `rpcFunc.Stub_Func` on the connection to
  `address` -/
  stub : String → Nat → Except String R
  /-- the function `CheckRpcNeedRetry` -/
  CheckRpcNeedRetry : R → Bool

/-- What `GetRpcResponse` does to the outside world. -/
inductive RpcEvent where
  | GetConnection (address : String) (timeout : Nat)
  | NewRpcClient (address : String)
  | Stub_Func (address : String)
  | Sleep (d : Nat)
  | PutConnection (address : String)
deriving DecidableEq, Repr

/-- The struct `Result` of client.go. -/
structure Result (C R : Type) where
  addr : String
  err : C
  result : Option R

/-- The retry loop `for { ... }` of `GetRpcResponse` on the connection to `address`, at call
number `attempt`, with `retryTimes` retries left (`retryTimes > 0` of the source is the
successor case): the `Result` it appends and what it did. -/
def retryLoop {C R : Type} (errno : Errno C) (rpc : Rpc) (net : Remote R) (address : String) :
    (retryTimes : Nat) → (attempt : Nat) → Result C R × List RpcEvent
  | 0, attempt =>
    match net.stub address attempt with
    | Except.error err =>
      (⟨address, errno.E errno.ERR_RPC_FAILED err, none⟩, [RpcEvent.Stub_Func address])
    | Except.ok res => (⟨address, errno.ERR_OK, some res⟩, [RpcEvent.Stub_Func address])
  | k + 1, attempt =>
    match net.stub address attempt with
    | Except.error _ =>
      -- rpc failed, retrying
      let (r, tr) := retryLoop errno rpc net address k (attempt + 1)
      (r, RpcEvent.Stub_Func address :: RpcEvent.Sleep rpc.RpcRetryDelay :: tr)
    | Except.ok res =>
      -- rpc ok, but return status != ok
      if net.CheckRpcNeedRetry res then
        let (r, tr) := retryLoop errno rpc net address k (attempt + 1)
        (r, RpcEvent.Stub_Func address :: RpcEvent.Sleep rpc.RpcRetryDelay :: tr)
      else (⟨address, errno.ERR_OK, some res⟩, [RpcEvent.Stub_Func address])

/-- The loop `for _, address := range reqAddrs` of `GetRpcResponse`: `continue` after a failed
`GetConnection`, `break` after the retry loop. -/
def requestLoop {C R : Type} (errno : Errno C) (rpc : Rpc) (net : Remote R) :
    List String → List (Result C R) × List RpcEvent
  | [] => ([], [])
  | address :: rest =>
    match net.connect address with
    | some _ =>
      let (rs, tr) := requestLoop errno rpc net rest
      (⟨address, errno.ERR_RPC_FAILED, none⟩ :: rs,
        RpcEvent.GetConnection address rpc.RpcTimeout :: tr)
    | none =>
      let (r, tr) := retryLoop errno rpc net address rpc.RpcRetryTimes.toNat 0
      ([r], RpcEvent.GetConnection address rpc.RpcTimeout :: RpcEvent.NewRpcClient address ::
        tr ++ [RpcEvent.PutConnection address])

/-- The loop `for _, res := range results` of `GetRpcResponse`: the response `ret` and the
errors `vecErrs`. -/
def collect {C R : Type} (errno : Errno C) : List (Result C R) → Option R × List C
  | [] => (none, [])
  | res :: rest =>
    if errno.GetCode res.err ≠ errno.GetCode errno.ERR_OK then
      let (ret, vecErrs) := collect errno rest
      (ret, res.err :: vecErrs)
    else (res.result, [])

/-- The function `GetRpcResponse` of client.go: the response and error code it returns, and
what it did to the outside world. -/
def GetRpcResponse {C R : Type} (errno : Errno C) (rpc : Rpc) (net : Remote R) :
    (Option R × C) × List RpcEvent :=
  let reqAddrs := rpc.Addrs
  let (results, tr) := requestLoop errno rpc net reqAddrs
  let (ret, vecErrs) := collect errno results
  -- merge all errors
  if vecErrs.length ≥ reqAddrs.length then ((ret, errno.joinE errno.ERR_RPC_FAILED vecErrs), tr)
  else ((ret, errno.ERR_OK), tr)

/-- The durations slept in a trace. -/
def sleeps : List RpcEvent → List Nat
  | [] => []
  | RpcEvent.Sleep d :: tr => d :: sleeps tr
  | _ :: tr => sleeps tr

/-- The addresses the stub was called against in a trace. -/
def stubCalls : List RpcEvent → List String
  | [] => []
  | RpcEvent.Stub_Func a :: tr => a :: stubCalls tr
  | _ :: tr => stubCalls tr

/-- Call number `k` against `address` fails transiently: a transport error, or a response
classified retryable. -/
def transient {R : Type} (net : Remote R) (address : String) (k : Nat) : Prop :=
  match net.stub address k with
  | Except.error _ => True
  | Except.ok res => net.CheckRpcNeedRetry res = true

/-- An `errno` for examples: codes `0` (`ERR_OK`) and `1` (`ERR_RPC_FAILED`). -/
def exampleErrno : Errno Nat where
  ERR_OK := 0
  ERR_RPC_FAILED := 1
  E := fun c _ => c
  joinE := fun c _ => c
  GetCode := fun c => c
/-! ## Path resolution: `GetDirPathInodeId` and `GetInodePath` -/

/-- The constant `common.ROOTINODEID`. -/
def ROOTINODEID : Nat := 1

/-- The function `strings.Split(s, sep)` for a separator of one byte. -/
def Split (sep : Char) : List Char → List (List Char)
  | [] => [[]]
  | c :: cs =>
    if c = sep then [] :: Split sep cs
    else
      match Split sep cs with
      | [] => [[c]]
      | w :: ws => (c :: w) :: ws

/-- The call `strings.SplitN(path, "/", 2)`: the text before the first `/`, and the text behind
it when there is a `/` (the result has one element when there is none). -/
def SplitN2 : List Char → List Char × Option (List Char)
  | [] => ([], none)
  | c :: cs =>
    if c = '/' then ([], some cs)
    else ((c :: (SplitN2 cs).1), (SplitN2 cs).2)

/-- The errors `GetDirPathInodeId` returns: that of `GetDentry`, or `syscall.ENOTDIR`. -/
inductive PathErr where
  | lookup (err : String)
  | ENOTDIR
deriving DecidableEq, Repr

/-- One `GetDentry(cmd, fsId, parentId, name, epoch)` call. -/
structure DentryCall where
  fsId : Nat
  parentId : Nat
  name : String
  epoch : Nat
deriving DecidableEq, Repr

/-- The loop `for path != ""` of `GetDirPathInodeId`, with `fuel` iterations at most; `calls`
are the `GetDentry` calls issued so far.  The result is `none` when the iterations do not
suffice, else the returned pair `(inode, err)` and the calls issued. -/
def resolveLoop (GetDentry : Nat → Nat → String → Nat → Except String Dentry) (fsId epoch : Nat) :
    Nat → Nat → List Char → List DentryCall → Option ((Nat × Option PathErr) × List DentryCall)
  | 0, _, _, _ => none
  | fuel + 1, inodeId, path, calls =>
    if path = [] then some ((inodeId, none), calls)
    else
      -- names := strings.SplitN(path, "/", 2)
      let names := SplitN2 path
      if names.1 ≠ [] then
        let calls1 := calls ++ [⟨fsId, inodeId, String.mk names.1, epoch⟩]
        match GetDentry fsId inodeId (String.mk names.1) epoch with
        | Except.error err => some ((0, some (PathErr.lookup err)), calls1)
        | Except.ok dentry =>
          if dentry.type ≠ FileType.DIRECTORY then some ((0, some PathErr.ENOTDIR), calls1)
          else
            match names.2 with
            | none => some ((dentry.ino, none), calls1)
            | some rest => resolveLoop GetDentry fsId epoch fuel dentry.ino rest calls1
      else
        match names.2 with
        | none => some ((inodeId, none), calls)
        | some rest => resolveLoop GetDentry fsId epoch fuel inodeId rest calls

/-- The function `GetDirPathInodeId` of operator.go, for the answers `GetDentry` of the
metadata service: the returned pair `(inode, err)` and the `GetDentry` calls issued, in
order.  Every iteration of the loop makes `path` shorter, so `path.length + 1` iterations are
allowed; `none` would mean that they do not suffice. -/
def GetDirPathInodeId (GetDentry : Nat → Nat → String → Nat → Except String Dentry)
    (fsId : Nat) (path : String) (epoch : Nat) :
    Option ((Nat × Option PathErr) × List DentryCall) :=
  if path = "/" then some ((ROOTINODEID, none), [])
  else resolveLoop GetDentry fsId epoch (path.data.length + 1) ROOTINODEID path.data []

/-- The non-empty `/`-separated components of a path, left to right. -/
def components (path : String) : List String :=
  ((Split '/' path.data).filter fun w => w ≠ []).map String.mk

/-- Resolution of a list of components as the specification words it: one `GetDentry` per
component, each with the inode resolved so far as parent; `ENOTDIR` as soon as a dentry is not a
directory, the lookup error as soon as a `GetDentry` fails, with inode 0 in both cases. -/
def resolveComponents (GetDentry : Nat → Nat → String → Nat → Except String Dentry)
    (fsId epoch : Nat) : Nat → List String → List DentryCall →
      (Nat × Option PathErr) × List DentryCall
  | inodeId, [], calls => ((inodeId, none), calls)
  | inodeId, name :: rest, calls =>
    match GetDentry fsId inodeId name epoch with
    | Except.error err => ((0, some (PathErr.lookup err)), calls ++ [⟨fsId, inodeId, name, epoch⟩])
    | Except.ok dentry =>
      if dentry.type ≠ FileType.DIRECTORY then
        ((0, some PathErr.ENOTDIR), calls ++ [⟨fsId, inodeId, name, epoch⟩])
      else
        resolveComponents GetDentry fsId epoch dentry.ino rest
          (calls ++ [⟨fsId, inodeId, name, epoch⟩])

/-- The answers of the metadata service `GetInodePath` reads: the parents of an inode
(`GetInode(...).GetParents()`), the listing of a directory, and `path.Join` of the Go
library. -/
structure PathEnv where
  GetInode : Nat → Nat → Nat → Except String (List Nat)
  ListDentry : Nat → Nat → Nat → Except String (List Dentry)
  Join : List String → String

/-- One RPC of `GetInodePath`. -/
inductive PathCall where
  | GetInode (fsId inodeId epoch : Nat)
  | ListDentry (fsId inodeId epoch : Nat)
deriving DecidableEq, Repr

/-- How a call of `GetInodePath` ends: it returns `(path, inode path, err)`, or it faults on
the index expression `parentIds[0]`. -/
inductive PathExit where
  | returned (path inodes : String) (err : Option String)
  | fault
deriving DecidableEq, Repr

/-- The loop `for inodeId != common.ROOTINODEID` of `GetInodePath`, with `fuel` iterations at
most: `names` and `inodes` are the two slices, `calls` the RPCs issued so far.  The result is
`none` when the iterations do not suffice; else how the loop ends (`Sum.inl` for a return or a
fault inside the loop, `Sum.inr (names, inodes)` when the loop is left) and the RPCs. -/
def parentLoop (env : PathEnv) (fsId epoch : Nat) :
    Nat → Nat → List String → List String → List PathCall →
      Option ((PathExit ⊕ (List String × List String)) × List PathCall)
  | 0, _, _, _, _ => none
  | fuel + 1, inodeId, names, inodes, calls =>
    if inodeId = ROOTINODEID then some (Sum.inr (names, inodes), calls)
    else
      let calls1 := calls ++ [PathCall.GetInode fsId inodeId epoch]
      match env.GetInode fsId inodeId epoch with
      | Except.error inodeErr => some (Sum.inl (PathExit.returned "" "" (some inodeErr)), calls1)
      | Except.ok parentIds =>
        -- parentId := parentIds[0]
        match parentIds with
        | [] => some (Sum.inl PathExit.fault, calls1)
        | parentId :: _ =>
          let calls2 := calls1 ++ [PathCall.ListDentry fsId parentId epoch]
          match env.ListDentry fsId parentId epoch with
          | Except.error entryErr =>
            some (Sum.inl (PathExit.returned "" "" (some entryErr)), calls2)
          | Except.ok entries =>
            match entries.find? fun e => e.ino = inodeId with
            | some e =>
              parentLoop env fsId epoch fuel parentId (names ++ [e.name])
                (inodes ++ [toString inodeId]) calls2
            | none => parentLoop env fsId epoch fuel parentId names inodes calls2

/-- The function `GetInodePath` of operator.go with at most `fuel` iterations of its loop:
`none` when they do not suffice; else how the call ends, the two slices it joins (empty when it
joins nothing) and the RPCs issued. -/
def GetInodePath (env : PathEnv) (fuel fsId inodeId epoch : Nat) :
    Option (PathExit × (List String × List String) × List PathCall) :=
  if inodeId = ROOTINODEID then
    some (PathExit.returned "/" (toString ROOTINODEID) none, ([], []), [])
  else
    match parentLoop env fsId epoch fuel inodeId [] [] [] with
    | none => none
    | some (Sum.inl exit, calls) => some (exit, ([], []), calls)
    | some (Sum.inr (names, inodes), calls) =>
      if names.length = 0 then some (PathExit.returned "" "" none, ([], []), calls)
      else
        let names1 := (names ++ ["/"]).reverse
        let inodes1 := (inodes ++ [toString ROOTINODEID]).reverse
        some (PathExit.returned (env.Join names1) (env.Join inodes1) none, (names1, inodes1),
          calls)

/-- An example of `GetDentry` answers: `/a/b` are directories and `/a/b/f` is a file. -/
def exampleDentry : Nat → Nat → String → Nat → Except String Dentry := fun _ p n _ =>
  if p = 1 ∧ n = "a" then Except.ok ⟨"a", 2, 1, FileType.DIRECTORY⟩
  else if p = 2 ∧ n = "b" then Except.ok ⟨"b", 3, 2, FileType.DIRECTORY⟩
  else if p = 3 ∧ n = "f" then Except.ok ⟨"f", 4, 3, FileType.FILE⟩
  else Except.error "ENOENT"

/-- An example of answers for `GetInodePath`: inode 5 is the entry `x` of directory 3, whose
`GetInode` answer has no parents; inode 8 is its own parent; every other inode lies in the
root. -/
def examplePathEnv : PathEnv :=
  { GetInode := fun _ i _ =>
      if i = 5 then Except.ok [3] else if i = 3 then Except.ok []
      else if i = 8 then Except.ok [8] else Except.ok [1],
    ListDentry := fun _ i _ =>
      if i = 3 then Except.ok [⟨"x", 5, 3, FileType.FILE⟩]
      else Except.ok [⟨"d", 4, 1, FileType.DIRECTORY⟩],
    Join := fun l => String.intercalate "/" l }
/-! ## The table helper `ListMap2ListSortByKeys`

`S` stands for the Go type `string` with its order `<` (byte-wise comparison), and `default`
for the empty string, the zero value a map yields for a missing key.  A `map[string]string` is
an association list. -/

/-- The map index expression `row[key]`: the value stored for `key`, or the zero value. -/
def mapGet {S : Type} [LinearOrder S] [Inhabited S] (row : List (S × S)) (key : S) : S :=
  match row.find? fun kv => kv.1 = key with
  | some kv => kv.2
  | none => default

/-- The map assignment `row[key] = value`. -/
def mapSet {S : Type} [LinearOrder S] (row : List (S × S)) (key value : S) : List (S × S) :=
  (key, value) :: row.filter fun kv => kv.1 ≠ key

/-- The function `slices.Index(s, v)`: the index of the first occurrence of `v`, or -1. -/
def Index {S : Type} [LinearOrder S] (s : List S) (v : S) : Int :=
  if v ∈ s then (s.indexOf v : Int) else -1

/-- The loop that builds `keysIndex`: the column of every key that is a header. -/
def keysIndex {S : Type} [LinearOrder S] (headers keys : List S) : List Nat :=
  keys.filterMap fun key =>
    if Index headers key ≠ -1 then some (Index headers key).toNat else none

/-- The comparison function given to `sort.SliceStable`: the first key column in which the two
rows differ decides. -/
def less {S : Type} [LinearOrder S] [Inhabited S] : List Nat → List S → List S → Bool
  | [], _, _ => false
  | keyIndex :: rest, a, b =>
    if a.getD keyIndex default < b.getD keyIndex default then true
    else if a.getD keyIndex default > b.getD keyIndex default then false
    else less rest a b

/-- The function `sort.SliceStable(x, less)` of the Go library, a stable sort: an element
is placed behind the elements that are less and behind the equal ones that came before it.  For
a strict weak order `less` the result of a stable sort is unique; it is computed here by
insertion. -/
def SliceStable {α : Type} (x : List α) (less : α → α → Bool) : List α :=
  x.insertionSort fun a b => less b a = false

/-- The function `ListMap2ListSortByKeys` of table.go. -/
def ListMap2ListSortByKeys {S : Type} [LinearOrder S] [Inhabited S]
    (rows : List (List (S × S))) (headers keys : List S) : List (List S) :=
  let ret := rows.map fun row => headers.map fun j => mapGet row j
  if (keysIndex headers keys).length > 0 then SliceStable ret (less (keysIndex headers keys))
  else ret

/-- The projection of a row map on the headers: cell `j` is the value of the map for
`headers[j]`, the empty string when absent. -/
def project {S : Type} [LinearOrder S] [Inhabited S] (headers : List S) (row : List (S × S)) : List S :=
  headers.map fun h => mapGet row h

/-- The tuple of key columns of a row of cells: for every key that is a header, in the order
of `keys`, the cell in the column of that header. -/
def keyTuple {S : Type} [LinearOrder S] [Inhabited S] (headers keys : List S) (cells : List S) : List S :=
  (keys.filter fun key => key ∈ headers).map fun key =>
    cells.getD (headers.indexOf key) default
/-! ## The usage command: `runUsage` -/

/-- The struct `usageOptions` of usage.go. -/
structure usageOptions where
  fsid : Nat
  fsname : String
  humanize : Bool
  threads : Nat
  format : String

/-- The fields of `mds.FsInfo` read by `runUsage`, with the epoch `rpc.GetFsEpochByFsInfo`
gives for it. -/
structure FsInfo where
  fsId : Nat
  fsName : String
  epoch : Nat
deriving DecidableEq, Repr

/-- The answers of the metadata service and of the functions `runUsage` calls whose code is
outside usage.go and the walk of operator.go: the filesystem lookups, `InitFsMDSRouter`, the
namespace of every filesystem with the schedule of its usage walk, `humanize.IBytes` and
`humanize.Comma`, the error of `json.MarshalIndent` inside `OutputJson`, and the constants
`common.ROW_*`. -/
structure UsageEnv where
  ListFsInfo : Except String (List FsInfo)
  GetFsId : Except String Nat
  GetFsName : Except String String
  GetFsEpochByFsId : Nat → Except String Nat
  InitFsMDSRouter : Nat → Option String
  root : Nat → Node
  sched : Nat → List (Nat × Nat)
  IBytes : Nat → String
  Comma : Int → String
  marshal : Option Err → List (List (String × String)) → Option String
  ROW_FS_ID : String
  ROW_FS_NAME : String
  ROW_USED : String
  ROW_INODES_IUSED : String

/-- What `runUsage` prints, in order. -/
inductive UsageOp where
  | OutputJson (error : Option Err) (result : List (List (String × String)))
  | SetHeader (header : List String)
  | AppendBulk (rows : List (List String))
  | RenderWithNoData (prompt : String)
deriving DecidableEq, Repr

/-- The first part of `runUsage`: the filesystems to report, all of them or the one named by
the options; an error is returned to the caller as it is. -/
def fsInfos (env : UsageEnv) (options : usageOptions) : Except String (List FsInfo) :=
  if options.fsid = 0 ∧ options.fsname = "" then env.ListFsInfo
  else
    match env.GetFsId with
    | Except.error err => Except.error err
    | Except.ok fsid =>
      match env.GetFsName with
      | Except.error err => Except.error err
      | Except.ok fsname =>
        match env.GetFsEpochByFsId fsid with
        | Except.error err => Except.error err
        | Except.ok epoch => Except.ok [⟨fsid, fsname, epoch⟩]

/-- The call `rpc.GetDirectorySizeAndInodes(cmd, fsid, common.ROOTINODEID, true, epochs[idx],
options.threads)` of `runUsage`. -/
def usageWalk (env : UsageEnv) (options : usageOptions) (fs : FsInfo) :
    Option (Int × Int × Option String) :=
  GetDirectorySizeAndInodes (env.root fs.fsId) fs.fsId ROOTINODEID true fs.epoch options.threads
    (env.sched fs.fsId)

/-- The row `runUsage` builds for one filesystem. -/
def usageRow (env : UsageEnv) (options : usageOptions) (fs : FsInfo)
    (realUsedBytes realUsedInodes : Int) : List (String × String) :=
  let row := mapSet (mapSet [] env.ROW_FS_ID (toString fs.fsId)) env.ROW_FS_NAME fs.fsName
  if options.humanize then
    mapSet (mapSet row env.ROW_USED (env.IBytes (realUsedBytes % 2 ^ 64).toNat))
      env.ROW_INODES_IUSED (env.Comma realUsedInodes)
  else
    mapSet (mapSet row env.ROW_USED (toString realUsedBytes))
      env.ROW_INODES_IUSED (toString realUsedInodes)

/-- The loop `for idx, fsid := range fsids` of `runUsage`: `none` while a walk has not returned
within its schedule; `Except.error routerErr` when the function returns from inside the loop;
else the rows gathered and `outputResult.Error` (`none` for `errno.ERR_OK`) when the loop is
left, at its end or by `break`. -/
def usageLoop (env : UsageEnv) (options : usageOptions) :
    List FsInfo → List (List (String × String)) →
      Option (Except String (List (List (String × String)) × Option Err))
  | [], rows => some (Except.ok (rows, none))
  | fs :: rest, rows =>
    match env.InitFsMDSRouter fs.fsId with
    | some routerErr => some (Except.error routerErr)
    | none =>
      match usageWalk env options fs with
      | none => none
      | some (_, _, some err) => some (Except.ok (rows, some (Err.rpcFailed err)))
      | some (realUsedBytes, realUsedInodes, none) =>
        usageLoop env options rest
          (rows ++ [usageRow env options fs realUsedBytes realUsedInodes])

/-- The function `runUsage` of usage.go: the error it returns (`none` is `nil`) and what it
prints; `none` while a usage walk has not returned within its schedule. -/
def runUsage (env : UsageEnv) (options : usageOptions) : Option (Option Err × List UsageOp) :=
  match fsInfos env options with
  | Except.error err => some (some (Err.plain err), [])
  | Except.ok fss =>
    if fss.length = 0 then some (some (Err.plain "no fsid is set"), [])
    else
      -- get every fs usage
      match usageLoop env options fss [] with
      | none => none
      | some (Except.error routerErr) => some (some (Err.plain routerErr), [])
      | some (Except.ok (rows, error)) =>
        -- print result
        if options.format = "json" then
          some ((env.marshal error rows).map Err.plain, [UsageOp.OutputJson error rows])
        else
          let header := [env.ROW_FS_ID, env.ROW_FS_NAME, env.ROW_USED, env.ROW_INODES_IUSED]
          some (none,
            [UsageOp.SetHeader header,
             UsageOp.AppendBulk (ListMap2ListSortByKeys rows header [env.ROW_FS_ID]),
             UsageOp.RenderWithNoData "no fs in the cluster"])

/-- An example environment of `runUsage`: the filesystems `fss`, each with the namespace
`root` and the schedule `sched` for its walk. -/
def exampleUsageEnv (fss : List FsInfo) (root : Nat → Node) (sched : List (Nat × Nat)) :
    UsageEnv :=
  { ListFsInfo := Except.ok fss, GetFsId := Except.error "fsname or fsid is required",
    GetFsName := Except.error "fsname or fsid is required",
    GetFsEpochByFsId := fun _ => Except.ok 7, InitFsMDSRouter := fun _ => none,
    root := root, sched := fun _ => sched, IBytes := fun n => toString n,
    Comma := fun n => toString n, marshal := fun _ _ => none,
    ROW_FS_ID := "fsId", ROW_FS_NAME := "fsName", ROW_USED := "used", ROW_INODES_IUSED := "iused" }
/-! ## MDS address validation: `isIpAddrValid` and `GetMDSAddrSlice` -/

/-- The regular expressions `IP_PORT_REGEX` is built from. -/
inductive Regex where
  /-- the class `\d` -/
  | digit
  /-- a class `[lo-hi]` -/
  | range (lo hi : Char)
  /-- one literal character (also `\.`) -/
  | char (c : Char)
  /-- concatenation -/
  | seq (a b : Regex)
  /-- alternation `a|b` -/
  | alt (a b : Regex)
  /-- the repetition `r{min,max}` (`r{n}` is `r{n,n}`) -/
  | rep (r : Regex) (min max : Nat)
deriving DecidableEq, Repr

/-- Up to `k` repetitions: `m` is the matcher of the repeated expression; the result lists what
is left of the text behind each possible match. -/
def matchUpTo (m : List Char → List (List Char)) : Nat → List Char → List (List Char)
  | 0, s => [s]
  | k + 1, s => s :: (m s).flatMap (matchUpTo m k)

/-- How a repetition matches: `n` repetitions are required and up to `k` more are allowed. -/
def matchRep (m : List Char → List (List Char)) : Nat → Nat → List Char → List (List Char)
  | 0, k, s => matchUpTo m k s
  | n + 1, k, s => (m s).flatMap (matchRep m n k)

/-- The matches of a regular expression at the start of a text: what is left of the text behind
each possible match. -/
def Regex.matchPrefix : Regex → List Char → List (List Char)
  | Regex.digit => fun s =>
    match s with
    | c :: cs => if '0' ≤ c ∧ c ≤ '9' then [cs] else []
    | [] => []
  | Regex.range lo hi => fun s =>
    match s with
    | c :: cs => if lo ≤ c ∧ c ≤ hi then [cs] else []
    | [] => []
  | Regex.char x => fun s =>
    match s with
    | c :: cs => if c = x then [cs] else []
    | [] => []
  | Regex.seq a b => fun s => (a.matchPrefix s).flatMap b.matchPrefix
  | Regex.alt a b => fun s => a.matchPrefix s ++ b.matchPrefix s
  | Regex.rep r min max => fun s => matchRep r.matchPrefix min (max - min) s

/-- The function `regexp.MatchString(pattern, s)` for a pattern without anchors: whether `s`
contains a match of the pattern, at whatever position. -/
def MatchString (pattern : Regex) (s : List Char) : Bool :=
  s.tails.any fun t => !(pattern.matchPrefix t).isEmpty

/-- The sub-expression `(\d|[1-9]\d|1\d{2}|2[0-4]\d|25[0-5])` of `IP_PORT_REGEX`. -/
def octetRegex : Regex :=
  Regex.alt Regex.digit
    (Regex.alt (Regex.seq (Regex.range '1' '9') Regex.digit)
      (Regex.alt (Regex.seq (Regex.char '1') (Regex.rep Regex.digit 2 2))
        (Regex.alt (Regex.seq (Regex.char '2') (Regex.seq (Regex.range '0' '4') Regex.digit))
          (Regex.seq (Regex.char '2') (Regex.seq (Regex.char '5') (Regex.range '0' '5'))))))

/-- The sub-expression
`([0-9]|[1-9]\d{1,3}|[1-5]\d{4}|6[0-4]\d{4}|65[0-4]\d{2}|655[0-2]\d|6553[0-5])` of
`IP_PORT_REGEX`. -/
def portRegex : Regex :=
  Regex.alt (Regex.range '0' '9')
    (Regex.alt (Regex.seq (Regex.range '1' '9') (Regex.rep Regex.digit 1 3))
      (Regex.alt (Regex.seq (Regex.range '1' '5') (Regex.rep Regex.digit 4 4))
        (Regex.alt
          (Regex.seq (Regex.char '6') (Regex.seq (Regex.range '0' '4') (Regex.rep Regex.digit 4 4)))
          (Regex.alt
            (Regex.seq (Regex.char '6')
              (Regex.seq (Regex.char '5')
                (Regex.seq (Regex.range '0' '4') (Regex.rep Regex.digit 2 2))))
            (Regex.alt
              (Regex.seq (Regex.char '6')
                (Regex.seq (Regex.char '5')
                  (Regex.seq (Regex.char '5') (Regex.seq (Regex.range '0' '2') Regex.digit))))
              (Regex.seq (Regex.char '6')
                (Regex.seq (Regex.char '5')
                  (Regex.seq (Regex.char '5')
                    (Regex.seq (Regex.char '3') (Regex.range '0' '5'))))))))))

/-- The sub-expression `octet\.octet\.octet\.octet` of `IP_PORT_REGEX`. -/
def quadRegex : Regex :=
  Regex.seq octetRegex
    (Regex.seq (Regex.char '.')
      (Regex.seq octetRegex
        (Regex.seq (Regex.char '.')
          (Regex.seq octetRegex (Regex.seq (Regex.char '.') octetRegex)))))

/-- The constant `IP_PORT_REGEX` of fs_config.go: `(quad:port)|quad`, without `^` and `$`. -/
def IP_PORT_REGEX : Regex :=
  Regex.alt (Regex.seq quadRegex (Regex.seq (Regex.char ':') portRegex)) quadRegex

/-- The function `isIpAddrValid` of fs_config.go (the pattern compiles, so `err` is nil). -/
def isIpAddrValid (addr : String) : Bool :=
  MatchString IP_PORT_REGEX addr.data

/-- The function `GetMDSAddrSlice` of fs_config.go, for the value `addrsStr` of the flag
`mdsaddr`: the split list, or the error "invalid address: ..." for the first element that
`isIpAddrValid` rejects. -/
def GetMDSAddrSlice (addrsStr : String) : Except String (List String) :=
  let addrslice := (Split ',' addrsStr.data).map String.mk
  match addrslice.find? fun addr => !isIpAddrValid addr with
  | some addr => Except.error ("invalid address: " ++ addr)
  | none => Except.ok addrslice

/-- A decimal numeral without sign and without a leading zero, as a number. -/
def decimal (s : List Char) : Option Nat :=
  if s ≠ [] ∧ (∀ c ∈ s, '0' ≤ c ∧ c ≤ '9') ∧ (s.length = 1 ∨ s.head? ≠ some '0') then
    some (s.foldl (fun n c => 10 * n + (c.toNat - '0'.toNat)) 0)
  else none

/-- Four decimal octets in 0..255 separated by dots. -/
def quadOk (ip : List Char) : Bool :=
  match (Split '.' ip).map decimal with
  | [some a, some b, some c, some d] =>
    decide (a ≤ 255) && decide (b ≤ 255) && decide (c ≤ 255) && decide (d ≤ 255)
  | _ => false

/-- Whether the whole string is a dotted-quad IPv4 address with each octet in 0..255,
optionally followed by `:` and a port in 0..65535, as the specification words it. -/
def strictAddress (addr : String) : Bool :=
  match Split ':' addr.data with
  | [ip] => quadOk ip
  | [ip, port] =>
    quadOk ip &&
      (match decimal port with
       | some p => decide (p ≤ 65535)
       | none => false)
  | _ => false

/-! # Theorems -/

theorem total_step {M : Type} [AddCommMonoid M] (φ : Frame → M) (frames : List Frame) (i : Nat)
    (f f' : Frame) (child : Option Frame) (h : frames[i]? = some f) :
    total φ (frames.set i f' ++ child.toList) + φ f = total φ frames + φ f' + ofChild φ child := by
  induction frames generalizing i with
  | nil => simp at h
  | cons g gs ih =>
    cases i with
    | zero =>
      simp at h
      subst h
      cases child <;> simp [total, ofChild] <;> abel
    | succ k =>
      simp at h
      have := ih k h
      simp only [total, List.set_cons_succ, List.cons_append, List.map_cons, List.sum_cons] at this ⊢
      rw [add_assoc, this]
      abel

theorem sizeList_tail_le (l : List Node) : sizeList l.tail ≤ sizeList l := by
  cases l <;> simp [sizeList]

theorem sizeList_cons_eq (e : Node) (t : List Node) :
    sizeList (e :: t) = 1 + sizeList e.entries + sizeList t := by
  cases e; simp [sizeList, Node.size, Node.entries]

theorem stepFrame_fuel (w : Walk) (frames : List Frame) (sh : Shared) (i sel : Nat) (f : Frame)
    (o : Outcome) (h : stepFrame w frames sh i sel f = some o) :
    o.frame.fuel + ofChild Frame.fuel o.child < f.fuel := by
  unfold stepFrame at h
  repeat' split at h
  all_goals (try simp at h)
  all_goals (try subst h)
  all_goals simp_all [Frame.fuel, returns, goto, continue_, ofChild, childFrame, sizeList_cons_eq, headSize, sizeList]
  all_goals (try omega)

/-! ## Structure of the frame list -/

theorem getElem?_set_append (frames : List Frame) (i j : Nat) (f f' : Frame)
    (child : Option Frame) (h : frames[i]? = some f) :
    (frames.set i f' ++ child.toList)[j]? =
      if j = i then some f' else if j < frames.length then frames[j]? else
      if j = frames.length then child else none := by
  have hi : i < frames.length := (List.getElem?_eq_some.mp h).1
  by_cases hji : j = i
  · subst hji
    simp [List.getElem?_append_left, hi, List.getElem?_set_self]
  · by_cases hj : j < frames.length
    · simp [hji, hj, List.getElem?_append_left, List.getElem?_set_ne (Ne.symm hji)]
    · have hle : frames.length ≤ j := Nat.le_of_not_lt hj
      rw [List.getElem?_append_right (by simpa using hle)]
      simp only [hji, hj, if_false, List.length_set]
      by_cases hj2 : j = frames.length
      · subst hj2
        cases child <;> simp
      · have : 0 < j - frames.length := by omega
        cases child with
        | none => simp
        | some c =>
          simp only [hj2, if_false]
          apply List.getElem?_eq_none
          simp; omega

theorem stepFrame_kind (w : Walk) (frames : List Frame) (sh : Shared) (i sel : Nat) (f : Frame)
    (o : Outcome) (h : stepFrame w frames sh i sel f = some o) : o.frame.kind = f.kind := by
  unfold stepFrame at h
  repeat' split at h
  all_goals (try simp at h)
  all_goals (try subst h)
  all_goals simp_all [returns, goto, continue_]

theorem stepFrame_child (w : Walk) (frames : List Frame) (sh : Shared) (i sel : Nat) (f : Frame)
    (o : Outcome) (c : Frame) (h : stepFrame w frames sh i sel f = some o)
    (hc : o.child = some c) :
    c.pc = PC.list ∧ ((c.kind = Kind.inline i ∧ o.frame.pc = PC.call frames.length) ∨
      (c.kind = Kind.spawned i ∧ o.frame.pc = PC.loop)) := by
  unfold stepFrame at h
  repeat' split at h
  all_goals (try simp at h)
  all_goals (try subst h)
  all_goals simp_all [returns, goto, continue_, childFrame]
  all_goals (subst hc; simp)

theorem stepFrame_call (w : Walk) (frames : List Frame) (sh : Shared) (i sel : Nat) (f : Frame)
    (o : Outcome) (c : Nat) (h : stepFrame w frames sh i sel f = some o)
    (hc : o.frame.pc = PC.call c) :
    f.pc ≠ PC.call c → c = frames.length ∧ ∃ ch, o.child = some ch ∧ ch.kind = Kind.inline i := by
  unfold stepFrame at h
  repeat' split at h
  all_goals (try simp at h)
  all_goals (try subst h)
  all_goals simp_all [returns, goto, continue_, childFrame]

theorem stepFrame_epilogue (w : Walk) (frames : List Frame) (sh : Shared) (i sel : Nat)
    (f : Frame) (o : Outcome) (h : stepFrame w frames sh i sel f = some o)
    (hc : o.frame.pc = PC.wgDone ∨ o.frame.pc = PC.finished ∨ ∃ r, o.frame.pc = PC.send r) :
    (f.pc = PC.wgDone ∨ f.pc = PC.finished ∨ ∃ r, f.pc = PC.send r) ∨
      ∃ p, f.kind = Kind.spawned p := by
  unfold stepFrame at h
  repeat' split at h
  all_goals (try simp at h)
  all_goals (try subst h)
  all_goals simp_all [returns, goto, continue_, childFrame]



theorem advance_eq (w : Walk) (i sel : Nat) (s : State) :
    advance w i sel s = s ∨ ∃ f o, s.frames[i]? = some f ∧
      stepFrame w s.frames s.shared i sel f = some o ∧
      advance w i sel s =
        { frames := s.frames.set i o.frame ++ o.child.toList,
          shared := { o.shared with
            errCh := o.shared.errCh ++ o.child.toList.map fun _ => none } } := by
  unfold advance
  cases h : s.frames[i]? with
  | none => simp
  | some f =>
    cases h2 : stepFrame w s.frames s.shared i sel f with
    | none => left; simp only [h2]
    | some o => right; exact ⟨f, o, rfl, h2, by simp only [h2]⟩

theorem WF_advance (w : Walk) (i sel : Nat) (s : State) (h : WF s) : WF (advance w i sel s) := by
  rcases advance_eq w i sel s with he | ⟨f, o, hf, ho, he⟩
  · rw [he]; exact h
  · rw [he]
    have hi : i < s.frames.length := (List.getElem?_eq_some.mp hf).1
    have hk := stepFrame_kind w _ _ _ _ _ _ ho
    constructor
    · intro hn
      have := congrArg List.length hn
      simp at this
      have := h.nonempty
      cases hs : s.frames <;> simp_all
    · intro j g p hj hkind
      simp only [getElem?_set_append _ _ _ _ _ _ hf] at hj
      split_ifs at hj with h1 h2 h3
      · cases hj; subst h1
        rw [hk] at hkind
        exact h.parent_lt _ _ _ hf hkind
      · exact h.parent_lt _ _ _ hj hkind
      · subst h3
        have := (stepFrame_child w _ _ _ _ _ _ g ho hj).2
        rcases this with ⟨hc, _⟩ | ⟨hc, _⟩ <;> rw [hc] at hkind <;> simp at hkind <;> omega
    · intro j g c hj hpc
      simp only [getElem?_set_append _ _ _ _ _ _ hf] at hj ⊢
      have key : ∀ (j c : Nat) (g0 : Frame), s.frames[j]? = some g0 → g0.pc = PC.call c →
          j < c ∧ ∃ g', (if c = i then some o.frame else if c < s.frames.length then s.frames[c]?
            else if c = s.frames.length then o.child else none) = some g' ∧
            g'.kind = Kind.inline j := by
        intro j c g0 hj0 hpc0
        obtain ⟨hlt, g', hg', hk'⟩ := h.call_ok j g0 c hj0 hpc0
        refine ⟨hlt, ?_⟩
        have hc : c < s.frames.length := (List.getElem?_eq_some.mp hg').1
        by_cases hci : c = i
        · subst hci
          refine ⟨o.frame, by simp, ?_⟩
          rw [hk]; rw [hf] at hg'; cases hg'; exact hk'
        · exact ⟨g', by simp [hci, hc, hg'], hk'⟩
      split_ifs at hj with h1 h2 h3
      · cases hj; subst h1
        by_cases hold : f.pc = PC.call c
        · exact key j c f hf hold
        · obtain ⟨hc, ch, hch, hkc⟩ := stepFrame_call w _ _ _ _ _ _ c ho hpc hold
          subst hc
          refine ⟨hi, ch, ?_, hkc⟩
          have : ¬ s.frames.length = j := by omega
          simp [this, hch]
      · exact key j c g hj hpc
      · subst h3
        have := (stepFrame_child w _ _ _ _ _ _ g ho hj).1
        rw [this] at hpc; cases hpc
    · intro j g hj hpc
      simp only [getElem?_set_append _ _ _ _ _ _ hf] at hj
      split_ifs at hj with h1 h2 h3
      · cases hj; subst h1
        rw [hk]
        rcases stepFrame_epilogue w _ _ _ _ _ _ ho hpc with h4 | h4
        · exact h.epilogue _ _ hf h4
        · exact h4
      · exact h.epilogue _ _ hj hpc
      · have := (stepFrame_child w _ _ _ _ _ _ g ho hj).1
        rw [this] at hpc; simp at hpc
    · intro j g hj hkind
      simp only [getElem?_set_append _ _ _ _ _ _ hf] at hj
      split_ifs at hj with h1 h2 h3
      · cases hj; subst h1
        rw [hk] at hkind
        exact h.top_zero _ _ hf hkind
      · exact h.top_zero _ _ hj hkind
      · have := (stepFrame_child w _ _ _ _ _ _ g ho hj).2
        rcases this with ⟨hc, _⟩ | ⟨hc, _⟩ <;> rw [hc] at hkind <;> cases hkind

/-! ## Progress: some frame can always move until the top call returns -/

theorem stepFrame_isSome_sel (w : Walk) (frames : List Frame) (sh : Shared) (i sel sel' : Nat)
    (f : Frame) :
    (stepFrame w frames sh i sel f).isSome = (stepFrame w frames sh i sel' f).isSome := by
  unfold stepFrame
  repeat' split
  all_goals simp_all

theorem waitDone_false (frames : List Frame) (i : Nat) (h : waitDone frames i = false) :
    ∃ (k : Nat) (g : Frame), frames[k]? = some g ∧ g.kind = Kind.spawned i ∧ g.pc ≠ PC.finished := by
  unfold waitDone at h
  rw [List.all_eq_false] at h
  obtain ⟨g, hg, hcond⟩ := h
  obtain ⟨k, hk⟩ := List.mem_iff_getElem?.mp hg
  refine ⟨k, g, hk, ?_⟩
  simpa using hcond

theorem enabled_or_child (w : Walk) (s : State) (h : WF s) (j : Nat) (f : Frame)
    (hf : s.frames[j]? = some f) (hl : f.live) :
    enabled w s j = true ∨ ∃ (k : Nat) (g : Frame), j < k ∧ s.frames[k]? = some g ∧ g.live := by
  unfold enabled
  simp only [hf]
  cases hpc : f.pc with
  | call c =>
    obtain ⟨hlt, g, hg, hk⟩ := h.call_ok j f c hf hpc
    by_cases hr : ∃ r, g.pc = PC.ret r
    · left
      obtain ⟨r, hr⟩ := hr
      cases r <;> simp [stepFrame, hpc, hg, hr]
    · right
      refine ⟨c, g, hlt, hg, ?_, ?_⟩
      · intro hfin
        obtain ⟨p, hp⟩ := h.epilogue c g hg (Or.inr (Or.inl hfin))
        rw [hk] at hp; cases hp
      · intro r hr'
        exact absurd ⟨r, hr'⟩ hr
  | wait =>
    cases hw : waitDone s.frames j with
    | true => left; simp [stepFrame, hpc, hw]
    | false =>
      right
      obtain ⟨k, g, hg, hk, hpcg⟩ := waitDone_false _ _ hw
      refine ⟨k, g, h.parent_lt k g j hg (Or.inr hk), hg, hpcg, ?_⟩
      intro r _
      exact ⟨j, hk⟩
  | ret r =>
    obtain ⟨p, hp⟩ := hl.2 r hpc
    left; simp [stepFrame, hpc, hp]
  | finished => exact absurd hpc hl.1
  | list => left; simp only [stepFrame, hpc]; split <;> simp
  | loop => left; simp only [stepFrame, hpc]; repeat' split
            all_goals simp
  | gotInode a => left; simp only [stepFrame, hpc]; repeat' split
                  all_goals simp
  | addLength a => left; simp [stepFrame, hpc]
  | addInodes => left; simp only [stepFrame, hpc]; repeat' split
                 all_goals simp
  | select => left; simp only [stepFrame, hpc]; repeat' split
              all_goals simp
  | cancel e => left; simp [stepFrame, hpc]
  | final => left; simp only [stepFrame, hpc]; repeat' split
             all_goals simp
  | countSelf => left; simp [stepFrame, hpc]
  | send r => left; simp only [stepFrame, hpc]; repeat' split
              all_goals simp
  | wgDone => left; simp [stepFrame, hpc]

theorem exists_enabled (w : Walk) (s : State) (h : WF s) :
    ∀ (n j : Nat) (f : Frame), s.frames.length - j ≤ n → s.frames[j]? = some f → f.live →
      ∃ k, k < s.frames.length ∧ enabled w s k = true := by
  intro n
  induction n with
  | zero =>
    intro j f hn hf _
    have := (List.getElem?_eq_some.mp hf).1
    omega
  | succ n ih =>
    intro j f hn hf hl
    rcases enabled_or_child w s h j f hf hl with he | ⟨k, g, hjk, hg, hlg⟩
    · exact ⟨j, (List.getElem?_eq_some.mp hf).1, he⟩
    · exact ih k g (by omega) hg hlg

theorem enabledFrames_ne_nil (w : Walk) (s : State) (h : WF s) (ht : topResult s = none) :
    enabledFrames w s ≠ [] := by
  obtain ⟨f, hf⟩ : ∃ f, s.frames[0]? = some f := by
    have := h.nonempty
    cases hs : s.frames with
    | nil => exact absurd hs this
    | cons a l => exact ⟨a, by simp⟩
  have hl : f.live := by
    constructor
    · intro hfin
      obtain ⟨p, hp⟩ := h.epilogue 0 f hf (Or.inr (Or.inl hfin))
      have := h.parent_lt 0 f p hf (Or.inr hp)
      omega
    · intro r hr
      simp [topResult, hf, hr] at ht
  obtain ⟨k, hk, he⟩ := exists_enabled w s h _ 0 f (le_refl _) hf hl
  intro hnil
  have : k ∈ enabledFrames w s := by
    simp [enabledFrames, hk, he]
  rw [hnil] at this
  cases this

theorem mem_enabledFrames (w : Walk) (s : State) (k : Nat) (hk : k ∈ enabledFrames w s) :
    ∃ f, s.frames[k]? = some f ∧ ∀ sel, ∃ o, stepFrame w s.frames s.shared k sel f = some o := by
  simp only [enabledFrames, List.mem_filter, List.mem_range] at hk
  obtain ⟨hlt, he⟩ := hk
  unfold enabled at he
  cases hf : s.frames[k]? with
  | none => simp [hf] at he
  | some f =>
    refine ⟨f, rfl, fun sel => ?_⟩
    simp only [hf] at he
    rw [stepFrame_isSome_sel w _ _ _ 0 sel] at he
    exact Option.isSome_iff_exists.mp he

/-- What a scheduler step does: nothing once the top call has returned, else one step of an
enabled frame. -/
theorem step_eq (w : Walk) (s : State) (c : Nat × Nat) (h : WF s) :
    (topResult s ≠ none ∧ step w s c = s) ∨
    (topResult s = none ∧ ∃ i f o, s.frames[i]? = some f ∧
      stepFrame w s.frames s.shared i c.2 f = some o ∧
      step w s c =
        { frames := s.frames.set i o.frame ++ o.child.toList,
          shared := { o.shared with
            errCh := o.shared.errCh ++ o.child.toList.map fun _ => none } }) := by
  unfold step
  cases ht : topResult s with
  | some r => left; simp
  | none =>
    right
    refine ⟨rfl, ?_⟩
    have hne := enabledFrames_ne_nil w s h ht
    cases hen : enabledFrames w s with
    | nil => exact absurd hen hne
    | cons j js =>
      simp only
      have hmem : (j :: js).getD (c.1 % (j :: js).length) j ∈ enabledFrames w s := by
        rw [hen, List.getD_eq_getElem?_getD]
        have hlt : c.1 % (j :: js).length < (j :: js).length :=
          Nat.mod_lt _ (by simp)
        rw [List.getElem?_eq_getElem hlt]
        simp only [Option.getD_some]
        exact List.getElem_mem _
      obtain ⟨f, hf, hstep⟩ := mem_enabledFrames w s _ hmem
      obtain ⟨o, ho⟩ := hstep c.2
      refine ⟨_, f, o, hf, ho, ?_⟩
      simp only [advance, hf, ho]

theorem WF_step (w : Walk) (s : State) (c : Nat × Nat) (h : WF s) : WF (step w s c) := by
  unfold step
  split
  · exact h
  · split
    · exact h
    · exact WF_advance _ _ _ _ h

theorem WF_run (w : Walk) (sched : List (Nat × Nat)) (s : State) (h : WF s) :
    WF (run w sched s) := by
  induction sched generalizing s with
  | nil => exact h
  | cons c cs ih => exact ih _ (WF_step w s c h)

theorem WF_init (fsId epoch parentInodeId dirInodeId : Nat) (name : String) (root : Node) :
    WF (initState fsId epoch parentInodeId dirInodeId name root) := by
  constructor
  · simp [initState]
  · intro j f p hj hk
    cases j <;> simp [initState] at hj
    subst hj; simp at hk
  · intro j f c hj hpc
    cases j <;> simp [initState] at hj
    subst hj; simp at hpc
  · intro j f hj hpc
    cases j <;> simp [initState] at hj
    subst hj; simp at hpc
  · intro j f hj _
    cases j <;> simp [initState] at hj
    rfl

theorem step_fuel (w : Walk) (s : State) (c : Nat × Nat) (h : WF s) (ht : topResult s = none) :
    total Frame.fuel (step w s c).frames < total Frame.fuel s.frames := by
  rcases step_eq w s c h with ⟨hne, _⟩ | ⟨_, i, f, o, hf, ho, he⟩
  · exact absurd ht hne
  · rw [he]
    have h1 := total_step Frame.fuel s.frames i f o.frame o.child hf
    have h2 := stepFrame_fuel w _ _ _ _ _ _ ho
    simp only at h1 ⊢
    omega

theorem topResult_step (w : Walk) (s : State) (c : Nat × Nat) (r : Option String)
    (h : topResult s = some r) : step w s c = s := by
  simp [step, h]

theorem run_of_returned (w : Walk) (sched : List (Nat × Nat)) (s : State) (r : Option String)
    (h : topResult s = some r) : run w sched s = s := by
  induction sched with
  | nil => rfl
  | cons c cs ih =>
    simp only [run, List.foldl_cons] at ih ⊢
    rw [topResult_step w s c r h]; exact ih

theorem top_fuel_pos (s : State) (h : WF s) :
    0 < total Frame.fuel s.frames := by
  have hne := h.nonempty
  cases hs : s.frames with
  | nil => exact absurd hs hne
  | cons f l =>
    have hf : s.frames[0]? = some f := by simp [hs]
    have h1 : f.pc ≠ PC.finished := by
      intro hfin
      obtain ⟨p, hp⟩ := h.epilogue 0 f hf (Or.inr (Or.inl hfin))
      have := h.parent_lt 0 f p hf (Or.inr hp)
      omega
    have : 0 < f.fuel := by
      unfold Frame.fuel
      split <;> first | omega | contradiction
    simp only [total, List.map_cons, List.sum_cons]
    omega

/-- Every walk returns: a schedule at least as long as the fuel of the state brings the top call
to its return. -/
theorem run_returns (w : Walk) (sched : List (Nat × Nat)) (s : State) (h : WF s)
    (hlen : total Frame.fuel s.frames ≤ sched.length) : topResult (run w sched s) ≠ none := by
  induction sched generalizing s with
  | nil =>
    intro ht
    have := top_fuel_pos s h
    simp at hlen
    simp only [run, List.foldl_nil] at ht
    omega
  | cons c cs ih =>
    cases ht : topResult s with
    | some r =>
      rw [run_of_returned w _ s r ht, ht]; simp
    | none =>
      have hlt := step_fuel w s c h ht
      simp only [run, List.foldl_cons]
      apply ih (step w s c) (WF_step w s c h)
      simp at hlen
      omega
/-! ## The entries a walk reaches: lemmas -/

theorem Node.listed_eq (n : Node) : n.listed = listedList n.entries := by
  cases n; simp [Node.listed, Node.entries]

theorem listedList_append (a b : List Node) : listedList (a ++ b) = listedList a ++ listedList b := by
  induction a with
  | nil => simp [listedList]
  | cons c cs ih => simp [listedList, ih]

theorem mem_listedList_self (l : List Node) (e : Node) (h : e ∈ l) : e ∈ listedList l := by
  induction l with
  | nil => cases h
  | cons c cs ih =>
    simp only [listedList, List.mem_cons, List.mem_append]
    rcases List.mem_cons.mp h with h | h
    · exact Or.inl h
    · exact Or.inr (Or.inr (ih h))

theorem sizeList_entries_lt (c : Node) (cs : List Node) :
    sizeList c.entries < sizeList (c :: cs) := by
  cases c; simp [sizeList, Node.size, Node.entries]; omega

theorem sizeList_lt_cons (c : Node) (cs : List Node) : sizeList cs < sizeList (c :: cs) := by
  cases c; simp [sizeList, Node.size]

/-- The entries below a listed directory are listed too. -/
theorem listedList_trans : ∀ (n : Nat) (l : List Node), sizeList l ≤ n → ∀ e ∈ listedList l,
    e.entry.type = FileType.DIRECTORY → ∀ x ∈ e.listed, x ∈ listedList l := by
  intro n
  induction n with
  | zero =>
    intro l hl e he
    cases l with
    | nil => simp [listedList] at he
    | cons c cs => have := sizeList_lt_cons c cs; omega
  | succ n ih =>
    intro l hl e he hd x hx
    cases l with
    | nil => simp [listedList] at he
    | cons c cs =>
      simp only [listedList, List.mem_cons, List.mem_append] at he ⊢
      rcases he with he | he | he
      · subst he
        right; left
        simpa [hd] using hx
      · right; left
        split at he
        · rename_i hc
          simp only [hc, if_true]
          rw [Node.listed_eq] at he ⊢
          exact ih c.entries (by have := sizeList_entries_lt c cs; omega) e he hd x hx
        · cases he
      · right; right
        exact ih cs (by have := sizeList_lt_cons c cs; omega) e he hd x hx

theorem listed_trans (root e x : Node) (he : e ∈ root.listed)
    (hd : e.entry.type = FileType.DIRECTORY) (hx : x ∈ e.listed) : x ∈ root.listed := by
  rw [Node.listed_eq] at he ⊢
  exact listedList_trans _ _ (le_refl _) e he hd x hx

/-- An entry in the listing of a frame's directory is an entry of the namespace. -/
theorem Good.mem_listed {w : Walk} {root : Node} {f : Frame} (h : Good w root f) (e : Node)
    (he : e ∈ f.dir.entries) : e ∈ root.listed := by
  have h1 : e ∈ f.dir.listed := by
    rw [Node.listed_eq]; exact mem_listedList_self _ _ he
  rcases h.dir with hd | ⟨hd, ht⟩
  · rw [← hd]; exact h1
  · exact listed_trans root f.dir e hd ht h1

theorem Good.head_mem {w : Walk} {root : Node} {f : Frame} (h : Good w root f) (e : Node)
    (t : List Node) (he : f.todo = e :: t) : e ∈ root.listed := by
  obtain ⟨pre, hp⟩ := h.todo
  apply h.mem_listed
  rw [hp, he]; simp

theorem stepFrame_dir (w : Walk) (frames : List Frame) (sh : Shared) (i sel : Nat)
    (f : Frame) (o : Outcome) (h : stepFrame w frames sh i sel f = some o) :
    o.frame.dir = f.dir ∧ (o.frame.todo = f.todo ∨ o.frame.todo = f.todo.tail ∨
      o.frame.todo = f.dir.entries) := by
  unfold stepFrame at h
  repeat' split at h
  all_goals (try simp at h)
  all_goals (try subst h)
  all_goals simp_all [returns, goto, continue_]

theorem stepFrame_child_dir (w : Walk) (frames : List Frame) (sh : Shared) (i sel : Nat)
    (f : Frame) (o : Outcome) (c : Frame) (h : stepFrame w frames sh i sel f = some o)
    (hc : o.child = some c) :
    f.pc = PC.select ∧ ∃ e t, f.todo = e :: t ∧ c.dir = e ∧ c.todo = [] := by
  unfold stepFrame at h
  repeat' split at h
  all_goals (try simp at h)
  all_goals (try subst h)
  all_goals simp_all [returns, goto, continue_, childFrame]
  all_goals (subst hc; simp)

theorem stepFrame_attr (w : Walk) (frames : List Frame) (sh : Shared) (i sel : Nat)
    (f : Frame) (o : Outcome) (a : Inode) (h : stepFrame w frames sh i sel f = some o)
    (hg : ∀ a, (f.pc = PC.gotInode a ∨ f.pc = PC.addLength a) →
      ∃ e t, f.todo = e :: t ∧ e.entry.type = FileType.FILE ∧ e.getInode = Except.ok a ∧
        ∃ c, w.mode = Mode.usage c)
    (ha : o.frame.pc = PC.gotInode a ∨ o.frame.pc = PC.addLength a) :
    ∃ e t, o.frame.todo = e :: t ∧ e.entry.type = FileType.FILE ∧ e.getInode = Except.ok a ∧
      ∃ c, w.mode = Mode.usage c := by
  unfold stepFrame at h
  repeat' split at h
  all_goals (try simp at h)
  all_goals (try subst h)
  all_goals simp_all [returns, goto, continue_]

theorem stepFrame_count (w : Walk) (frames : List Frame) (sh : Shared) (i sel : Nat)
    (f : Frame) (o : Outcome) (h : stepFrame w frames sh i sel f = some o)
    (hg : ∀ a, (f.pc = PC.gotInode a ∨ f.pc = PC.addLength a) →
      ∃ e t, f.todo = e :: t ∧ e.entry.type = FileType.FILE ∧ e.getInode = Except.ok a ∧
        ∃ c, w.mode = Mode.usage c)
    (ha : o.frame.pc = PC.addInodes) :
    ∃ e t, o.frame.todo = e :: t ∧ (w.mode = Mode.delete → e.entry.type ≠ FileType.DIRECTORY) := by
  unfold stepFrame at h
  repeat' split at h
  all_goals (try simp at h)
  all_goals (try subst h)
  all_goals simp_all [returns, goto, continue_]
  obtain ⟨e, ht, hf, _⟩ := hg
  exact ⟨e, ht, fun _ => by simp [hf]⟩

theorem stepFrame_sel (w : Walk) (frames : List Frame) (sh : Shared) (i sel : Nat)
    (f : Frame) (o : Outcome) (h : stepFrame w frames sh i sel f = some o)
    (hg : (f.pc = PC.select ∨ ∃ c, f.pc = PC.call c) →
      ∃ e t, f.todo = e :: t ∧ e.entry.type = FileType.DIRECTORY)
    (ha : o.frame.pc = PC.select ∨ ∃ c, o.frame.pc = PC.call c) :
    ∃ e t, o.frame.todo = e :: t ∧ e.entry.type = FileType.DIRECTORY := by
  unfold stepFrame at h
  repeat' split at h
  all_goals (try simp at h)
  all_goals (try subst h)
  all_goals simp_all [returns, goto, continue_]

theorem stepFrame_self (w : Walk) (frames : List Frame) (sh : Shared) (i sel : Nat)
    (f : Frame) (o : Outcome) (h : stepFrame w frames sh i sel f = some o)
    (ha : o.frame.pc = PC.countSelf) : w.mode = Mode.delete := by
  unfold stepFrame at h
  repeat' split at h
  all_goals (try simp at h)
  all_goals (try subst h)
  all_goals simp_all [returns, goto, continue_]

theorem stepFrame_good (w : Walk) (root : Node) (frames : List Frame) (sh : Shared) (i sel : Nat)
    (f : Frame) (o : Outcome) (h : stepFrame w frames sh i sel f = some o) (hg : Good w root f) :
    Good w root o.frame ∧ ∀ c, o.child = some c → Good w root c := by
  obtain ⟨hd, ht⟩ := stepFrame_dir w _ _ _ _ _ _ h
  constructor
  · refine ⟨by rw [hd]; exact hg.dir, ?_, ?_, ?_, ?_, ?_⟩
    · obtain ⟨pre, hpre⟩ := hg.todo
      rw [hd]
      rcases ht with ht | ht | ht
      · exact ⟨pre, by rw [ht]; exact hpre⟩
      · rw [ht]
        cases hl : f.todo with
        | nil => exact ⟨pre, by simpa [hl] using hpre⟩
        | cons e t => exact ⟨pre ++ [e], by simp [hpre, hl]⟩
      · exact ⟨[], by simp [ht]⟩
    · intro a ha
      exact stepFrame_attr w _ _ _ _ _ _ a h hg.attr ha
    · intro ha
      exact stepFrame_count w _ _ _ _ _ _ h hg.attr ha
    · intro ha
      exact stepFrame_sel w _ _ _ _ _ _ h hg.sel ha
    · intro ha
      exact stepFrame_self w _ _ _ _ _ _ h ha
  · intro c hc
    obtain ⟨hpc, e, t, hto, hcd, hct⟩ := stepFrame_child_dir w _ _ _ _ _ _ c h hc
    obtain ⟨e', t', hto', hdir⟩ := hg.sel (Or.inl hpc)
    rw [hto] at hto'
    cases hto'
    have hcpc := (stepFrame_child w _ _ _ _ _ _ c h hc).1
    refine ⟨Or.inr ⟨by rw [hcd]; exact hg.head_mem e t hto, by rw [hcd]; exact hdir⟩,
      ⟨c.dir.entries, by simp [hct]⟩, ?_, ?_, ?_, ?_⟩
    · intro a ha; rw [hcpc] at ha; simp at ha
    · intro ha; rw [hcpc] at ha; simp at ha
    · intro ha; rw [hcpc] at ha; simp at ha
    · intro ha; rw [hcpc] at ha; simp at ha
/-! ## Walks in which every RPC succeeds take no error path -/

theorem getD_none_of_all_none (l : List (Option String)) (i : Nat) (h : ∀ c ∈ l, c = none) :
    l.getD i none = none := by
  rw [List.getD_eq_getElem?_getD]
  cases hi : l[i]? with
  | none => rfl
  | some c => simpa using h c (List.mem_iff_getElem?.mpr ⟨i, hi⟩)

theorem readyCases_noErr (slots threads k : Nat) (r : SelCase) (rs : List SelCase)
    (h : readyCases none false slots threads = r :: rs) :
    (r :: rs)[k % (rs.length + 1)]?.getD r = SelCase.acquire := by
  simp only [readyCases, List.nil_append, Bool.false_eq_true, if_false] at h
  split_ifs at h
  · simp at h
    obtain ⟨h1, h2⟩ := h
    subst h1; subst h2
    simp

theorem stepFrame_noErr_local (w : Walk) (frames : List Frame) (sh : Shared) (i sel : Nat)
    (f : Frame) (o : Outcome) (h : stepFrame w frames sh i sel f = some o)
    (hlist : f.dir.listErr = none) (hdel : w.mode = Mode.delete → f.dir.delErr = none)
    (hhead : ∀ e t, f.todo = e :: t → e.answersOk w.mode)
    (herr : sh.errCh.getD i none = none) (hcan : sh.cancelled = false)
    (hcall : ∀ (c : Nat) (g : Frame), frames[c]? = some g → ∀ e, g.pc ≠ PC.ret (some e))
    (hf : f.noErr) :
    o.frame.noErr ∧ (∀ c, o.child = some c → c.noErr) ∧ o.shared.errCh = sh.errCh ∧
      o.shared.cancelled = false := by
  obtain ⟨hf1, hf2, hf3⟩ := hf
  unfold stepFrame at h
  repeat' split at h
  all_goals (try simp at h)
  all_goals (try subst h)
  all_goals simp_all [returns, goto, continue_, childFrame, Frame.noErr, Shared.log,
    Node.answersOk]
  all_goals first
    | done
    | (rename_i h1 h2; have h3 := readyCases_noErr _ _ sel _ _ h1; rw [h3] at h2; cases h2)
    | (rename_i h1 h2 _; have h3 := readyCases_noErr _ _ sel _ _ h1; rw [h3] at h2; cases h2)
    | (rename_i h1 h2; exact hcall _ _ h1 _ h2)

theorem TreeOk.dir_ok {w : Walk} {root : Node} {f : Frame} (hok : TreeOk w.mode root)
    (hg : Good w root f) :
    f.dir.listErr = none ∧ (w.mode = Mode.delete → f.dir.delErr = none) := by
  obtain ⟨h1, h2, h3⟩ := hok
  rcases hg.dir with hd | ⟨hd, ht⟩
  · rw [hd]; exact ⟨h1, h2⟩
  · have := h3 _ hd
    refine ⟨this.1 ht, fun hm => ?_⟩
    have h4 := this.2
    rw [hm] at h4
    exact h4

theorem NoErr_advance (w : Walk) (root : Node) (i sel : Nat) (s : State)
    (hok : TreeOk w.mode root) (hg : ∀ f ∈ s.frames, Good w root f) (h : NoErr s) :
    NoErr (advance w i sel s) := by
  rcases advance_eq w i sel s with he | ⟨f, o, hf, ho, he⟩
  · rw [he]; exact h
  · rw [he]
    have hfm : f ∈ s.frames := List.mem_iff_getElem?.mpr ⟨i, hf⟩
    have hgf := hg f hfm
    obtain ⟨hl, hd⟩ := hok.dir_ok hgf
    have key := stepFrame_noErr_local w s.frames s.shared i sel f o ho hl hd
      (fun e t ht => hok.2.2 e (hgf.head_mem e t ht))
      (getD_none_of_all_none _ _ h.errCh) h.cancelled
      (fun c g hc e => (h.frames g (List.mem_iff_getElem?.mpr ⟨c, hc⟩)).2.1 e)
      (h.frames f hfm)
    obtain ⟨k1, k2, k3, k4⟩ := key
    constructor
    · intro g hgm
      simp only [List.mem_append, Option.mem_toList, Option.mem_def] at hgm
      rcases hgm with hgm | hgm
      · rcases List.mem_or_eq_of_mem_set hgm with hgm | hgm
        · exact h.frames g hgm
        · rw [hgm]; exact k1
      · exact k2 g hgm
    · intro c hc
      simp only [k3, List.mem_append, List.mem_map] at hc
      rcases hc with hc | ⟨_, _, hc⟩
      · exact h.errCh c hc
      · exact hc.symm
    · exact k4

theorem Good_advance (w : Walk) (root : Node) (i sel : Nat) (s : State)
    (hg : ∀ f ∈ s.frames, Good w root f) : ∀ f ∈ (advance w i sel s).frames, Good w root f := by
  rcases advance_eq w i sel s with he | ⟨f, o, hf, ho, he⟩
  · rw [he]; exact hg
  · rw [he]
    have hfm : f ∈ s.frames := List.mem_iff_getElem?.mpr ⟨i, hf⟩
    obtain ⟨k1, k2⟩ := stepFrame_good w root _ _ _ _ _ _ ho (hg f hfm)
    intro g hgm
    simp only [List.mem_append, Option.mem_toList, Option.mem_def] at hgm
    rcases hgm with hgm | hgm
    · rcases List.mem_or_eq_of_mem_set hgm with hgm | hgm
      · exact hg g hgm
      · rw [hgm]; exact k1
    · exact k2 g hgm
/-! ## Join: in a walk without errors a frame returns after everything it started -/

theorem stepFrame_past (w : Walk) (frames : List Frame) (sh : Shared) (i sel : Nat)
    (f : Frame) (o : Outcome) (h : stepFrame w frames sh i sel f = some o) (hp : f.past) :
    o.frame.past ∧ o.child = none := by
  unfold Frame.past at hp ⊢
  unfold stepFrame at h
  repeat' split at h
  all_goals (try simp at h)
  all_goals (try subst h)
  all_goals simp_all [returns, goto, continue_]

theorem stepFrame_done (w : Walk) (frames : List Frame) (sh : Shared) (i sel : Nat)
    (f : Frame) (o : Outcome) (h : stepFrame w frames sh i sel f = some o) (hp : f.done) :
    o.frame.done := by
  unfold Frame.done at hp ⊢
  unfold stepFrame at h
  repeat' split at h
  all_goals (try simp at h)
  all_goals (try subst h)
  all_goals simp_all [returns, goto, continue_]

theorem Frame.done.past {f : Frame} (h : f.done) : f.past := by
  unfold Frame.done at h
  unfold Frame.past
  tauto

theorem stepFrame_enter_past (w : Walk) (frames : List Frame) (sh : Shared) (i sel : Nat)
    (f : Frame) (o : Outcome) (h : stepFrame w frames sh i sel f = some o) (hp : ¬ f.past)
    (ho : o.frame.past) (hn : o.frame.noErr) : f.pc = PC.wait ∧ waitDone frames i = true := by
  unfold Frame.past at hp ho
  unfold Frame.noErr at hn
  unfold stepFrame at h
  repeat' split at h
  all_goals (try simp at h)
  all_goals (try subst h)
  all_goals simp_all [returns, goto, continue_]

theorem stepFrame_at_call (w : Walk) (frames : List Frame) (sh : Shared) (i sel c : Nat)
    (f : Frame) (o : Outcome) (h : stepFrame w frames sh i sel f = some o)
    (hp : f.pc = PC.call c) : ∃ g r, frames[c]? = some g ∧ g.pc = PC.ret r := by
  unfold stepFrame at h
  repeat' split at h
  all_goals (try simp at h)
  all_goals (try subst h)
  all_goals simp_all [returns, goto, continue_]

theorem waitDone_true (frames : List Frame) (i : Nat) (h : waitDone frames i = true) (g : Frame)
    (hg : g ∈ frames) (hk : g.kind = Kind.spawned i) : g.pc = PC.finished := by
  unfold waitDone at h
  rw [List.all_eq_true] at h
  simpa [hk] using h g hg

theorem Joined_advance (w : Walk) (i sel : Nat) (s : State) (hwf : WF s)
    (hne : NoErr (advance w i sel s)) (h : Joined s) : Joined (advance w i sel s) := by
  rcases advance_eq w i sel s with he | ⟨f, o, hf, ho, he⟩
  · rw [he]; exact h
  · rw [he] at hne ⊢
    have hi : i < s.frames.length := (List.getElem?_eq_some.mp hf).1
    have hk := stepFrame_kind w _ _ _ _ _ _ ho
    have hon : o.frame.noErr := by
      apply hne.frames
      simp only [List.mem_append]
      left
      exact List.mem_iff_getElem?.mpr ⟨i, by simp [List.getElem?_set_self hi]⟩
    constructor
    · intro k p g fp hg hkind hfp hpast
      have hpk : p < k := (WF_advance w i sel s hwf |> fun h' => by
        rw [he] at h'; exact h'.parent_lt k g p hg hkind)
      simp only [getElem?_set_append _ _ _ _ _ _ hf] at hg hfp
      by_cases p1 : p = i
      · -- the parent is the frame that moved
        subst p1
        simp only [if_true] at hfp
        cases hfp
        have hkp : ¬ k = p := by omega
        simp only [hkp, if_false] at hg
        by_cases hold : f.past
        · -- it was past before: so was the child, which did not move
          split_ifs at hg with k2 k3
          · exact h.child k p g f hg hkind hf hold
          · have := (stepFrame_past w _ _ _ _ _ _ ho hold).2
            rw [this] at hg; cases hg
        · obtain ⟨hw, hwd⟩ := stepFrame_enter_past w _ _ _ _ _ _ ho hold hpast hon
          split_ifs at hg with k2 k3
          · have hgm : g ∈ s.frames := List.mem_iff_getElem?.mpr ⟨k, hg⟩
            rcases hkind with hkind | hkind
            · rcases h.inline k p g hg hkind with hgp | ⟨fp', hfp', hcall⟩
              · exact hgp
              · rw [hf] at hfp'; cases hfp'
                rw [hw] at hcall; cases hcall
            · have := waitDone_true _ _ hwd g hgm hkind
              exact Or.inr (Or.inr (Or.inr this))
          · have hc := (stepFrame_child w _ _ _ _ _ _ g ho hg).2
            rcases hc with ⟨_, hc⟩ | ⟨_, hc⟩ <;>
              · unfold Frame.past at hpast
                rw [hc] at hpast
                simp at hpast
      · -- the parent did not move
        simp only [p1, if_false] at hfp
        have hpl : p < s.frames.length := by
          by_contra hcon
          simp only [hcon, if_false] at hfp
          split_ifs at hfp with p3
          split_ifs at hg with k1 k2 k3
          · omega
          · have := (List.getElem?_eq_some.mp hg).1; omega
          · omega
        simp only [hpl, if_true] at hfp
        split_ifs at hg with k1 k2 k3
        · cases hg; subst k1
          rw [hk] at hkind
          exact stepFrame_done w _ _ _ _ _ _ ho (h.child k p f fp hf hkind hfp hpast)
        · exact h.child k p g fp hg hkind hfp hpast
        · subst k3
          have hc := (stepFrame_child w _ _ _ _ _ _ g ho hg).2
          rcases hc with ⟨hc, _⟩ | ⟨hc, _⟩ <;>
            · rw [hc] at hkind
              simp at hkind
              exact absurd hkind.symm p1
    · intro k p g hg hkind
      simp only [getElem?_set_append _ _ _ _ _ _ hf] at hg ⊢
      split_ifs at hg with k1 k2 k3
      · cases hg; subst k1
        rw [hk] at hkind
        have hpk := hwf.parent_lt _ _ _ hf (Or.inl hkind)
        rcases h.inline k p f hf hkind with hgp | ⟨fp', hfp', hcall⟩
        · exact Or.inl (stepFrame_done w _ _ _ _ _ _ ho hgp)
        · right
          have hpk' : ¬ p = k := by omega
          have hpl : p < s.frames.length := by omega
          exact ⟨fp', by simp [hpk', hpl, hfp'], hcall⟩
      · rcases h.inline k p g hg hkind with hgp | ⟨fp', hfp', hcall⟩
        · exact Or.inl hgp
        · by_cases hpi : p = i
          · subst hpi
            rw [hf] at hfp'; cases hfp'
            obtain ⟨g', r, hg', hr⟩ := stepFrame_at_call w _ _ _ _ _ _ _ ho hcall
            rw [hg] at hg'; cases hg'
            exact Or.inl (Or.inl ⟨r, hr⟩)
          · right
            have hpl : p < s.frames.length := (List.getElem?_eq_some.mp hfp').1
            exact ⟨fp', by simp [hpi, hpl, hfp'], hcall⟩
      · subst k3
        have hc := (stepFrame_child w _ _ _ _ _ _ g ho hg).2
        rcases hc with ⟨hc, hpc⟩ | ⟨hc, _⟩
        · rw [hc] at hkind
          simp at hkind
          subst hkind
          right
          exact ⟨o.frame, by simp, hpc⟩
        · rw [hc] at hkind; simp at hkind

theorem all_done (s : State) (hwf : WF s) (hj : Joined s) (f0 : Frame)
    (h0 : s.frames[0]? = some f0) (hp : f0.done) :
    ∀ (n k : Nat) (g : Frame), k ≤ n → s.frames[k]? = some g → g.done := by
  intro n
  induction n with
  | zero =>
    intro k g hk hg
    have : k = 0 := by omega
    subst this
    rw [h0] at hg; cases hg; exact hp
  | succ n ih =>
    intro k g hk hg
    cases hkind : g.kind with
    | top =>
      have := hwf.top_zero k g hg hkind
      exact ih k g (by omega) hg
    | inline p =>
      have hlt := hwf.parent_lt k g p hg (Or.inl hkind)
      have hpl : p < s.frames.length := by
        have := (List.getElem?_eq_some.mp hg).1; omega
      have hfp : s.frames[p]? = some s.frames[p] := List.getElem?_eq_getElem hpl
      exact hj.child k p g _ hg (Or.inl hkind) hfp (ih p _ (by omega) hfp).past
    | spawned p =>
      have hlt := hwf.parent_lt k g p hg (Or.inr hkind)
      have hpl : p < s.frames.length := by
        have := (List.getElem?_eq_some.mp hg).1; omega
      have hfp : s.frames[p]? = some s.frames[p] := List.getElem?_eq_getElem hpl
      exact hj.child k p g _ hg (Or.inr hkind) hfp (ih p _ (by omega) hfp).past
/-! ## The invariants along a run -/

theorem step_cases (w : Walk) (s : State) (c : Nat × Nat) :
    step w s c = s ∨ ∃ i sel, step w s c = advance w i sel s := by
  unfold step
  split
  · exact Or.inl rfl
  · split
    · exact Or.inl rfl
    · exact Or.inr ⟨_, _, rfl⟩

theorem Sound_advance (w : Walk) (root : Node) (i sel : Nat) (s : State)
    (hok : TreeOk w.mode root) (h : Sound w root s) : Sound w root (advance w i sel s) := by
  have hne := NoErr_advance w root i sel s hok h.good h.noErr
  exact ⟨WF_advance w i sel s h.wf, Good_advance w root i sel s h.good, hne,
    Joined_advance w i sel s h.wf hne h.joined⟩

theorem Sound_init (w : Walk) (root : Node) (fsId epoch parentInodeId dirInodeId : Nat)
    (name : String) : Sound w root (initState fsId epoch parentInodeId dirInodeId name root) := by
  refine ⟨WF_init _ _ _ _ _ _, ?_, ?_, ?_⟩
  · intro f hf
    simp only [initState, List.mem_singleton] at hf
    subst hf
    exact ⟨Or.inl rfl, ⟨root.entries, by simp⟩, by simp, by simp, by simp, by simp⟩
  · refine ⟨?_, ?_, rfl⟩
    · intro f hf
      simp only [initState, List.mem_singleton] at hf
      subst hf
      simp [Frame.noErr]
    · intro c hc
      simpa [initState] using hc
  · constructor
    · intro k p g fp hg hkind
      cases k <;> simp [initState] at hg
      subst hg
      simp at hkind
    · intro k p g hg hkind
      cases k <;> simp [initState] at hg
      subst hg
      simp at hkind

/-- When the top call of a walk without errors has returned, every frame is past its work. -/
theorem Sound.frames_done {w : Walk} {root : Node} {s : State} (h : Sound w root s)
    (r : Option String) (hr : topResult s = some r) : r = none ∧ ∀ f ∈ s.frames, f.done := by
  unfold topResult at hr
  cases h0 : s.frames[0]? with
  | none => simp [h0] at hr
  | some f0 =>
    simp only [h0] at hr
    have hpc : f0.pc = PC.ret r := by
      cases hpc : f0.pc <;> simp only [hpc] at hr <;> try cases hr
      rfl
    have hm0 : f0 ∈ s.frames := List.mem_iff_getElem?.mpr ⟨0, h0⟩
    constructor
    · cases r with
      | none => rfl
      | some e => exact absurd hpc ((h.noErr.frames f0 hm0).2.1 e)
    · intro f hf
      obtain ⟨k, hk⟩ := List.mem_iff_getElem?.mp hf
      exact DingoAdm.all_done s h.wf h.joined f0 h0 (Or.inl ⟨_, hpc⟩) k k f (le_refl _) hk

theorem pend_done {M : Type} [AddCommMonoid M] (x : Node → M) (y : PC → M) (f : Frame)
    (h : f.done) : pend x y f = 0 := by
  unfold Frame.done at h
  unfold pend
  rcases h with ⟨r, h⟩ | ⟨r, h⟩ | h | h <;> simp [h]

theorem total_done {M : Type} [AddCommMonoid M] (x : Node → M) (y : PC → M)
    (frames : List Frame) (h : ∀ f ∈ frames, f.done) : total (pend x y) frames = 0 := by
  induction frames with
  | nil => rfl
  | cons f fs ih =>
    simp only [total, List.map_cons, List.sum_cons]
    rw [pend_done x y f (h f (by simp))]
    have := ih (fun g hg => h g (by simp [hg]))
    simp only [total] at this
    rw [this, add_zero]
/-! ## Without slots no goroutine is started -/

theorem readyCases_zero (errCh : Option String) (cancelled : Bool) (slots k : Nat) (r : SelCase)
    (rs : List SelCase) (h : readyCases errCh cancelled slots 0 = r :: rs) :
    (r :: rs)[k % (rs.length + 1)]?.getD r ≠ SelCase.acquire := by
  have hmem : (r :: rs)[k % (rs.length + 1)]?.getD r ∈ r :: rs := by
    have hlt : k % (rs.length + 1) < (r :: rs).length := by
      simp only [List.length_cons]
      exact Nat.mod_lt _ (by omega)
    rw [List.getElem?_eq_getElem hlt]
    simp only [Option.getD_some]
    exact List.getElem_mem _
  intro hc
  rw [hc, ← h] at hmem
  unfold readyCases at hmem
  cases errCh <;> cases cancelled <;> simp at hmem

theorem readyCases_zero_getD (errCh : Option String) (cancelled : Bool) (slots k : Nat)
    (r : SelCase) (rs : List SelCase) (h : readyCases errCh cancelled slots 0 = r :: rs) :
    (r :: rs).getD (k % (r :: rs).length) r ≠ SelCase.acquire := by
  have := readyCases_zero errCh cancelled slots k r rs h
  simpa [List.getD_eq_getElem?_getD] using this

/-- With `threads = 0` a step adds no goroutine start to the trace. -/
theorem stepFrame_noSpawn (w : Walk) (frames : List Frame) (sh : Shared) (i sel : Nat)
    (f : Frame) (o : Outcome) (h : stepFrame w frames sh i sel f = some o)
    (h0 : w.threads = 0) (p c : Nat) (hs : Event.spawn p c ∉ sh.trace) :
    Event.spawn p c ∉ o.shared.trace := by
  unfold stepFrame at h
  rw [h0] at h
  repeat' split at h
  all_goals (try simp at h)
  all_goals (try subst h)
  all_goals first
    | (simp [returns, goto, continue_, Shared.log]; exact hs)
    | (rename_i h1 _ h2; exact absurd h2 (readyCases_zero_getD _ _ _ sel _ _ h1))

theorem noSpawn_run (w : Walk) (h0 : w.threads = 0) (p c : Nat) (sched : List (Nat × Nat))
    (s : State) (hs : Event.spawn p c ∉ s.shared.trace) :
    Event.spawn p c ∉ (run w sched s).shared.trace := by
  induction sched generalizing s with
  | nil => exact hs
  | cons x xs ih =>
    simp only [run, List.foldl_cons]
    apply ih
    rcases step_cases w s x with he | ⟨i, sel, he⟩
    · rw [he]; exact hs
    · rw [he]
      rcases advance_eq w i sel s with he2 | ⟨f, o, hf, ho, he2⟩
      · rw [he2]; exact hs
      · rw [he2]
        exact stepFrame_noSpawn w _ _ _ _ _ _ ho h0 p c hs
/-! ## Exhaustive exploration: soundness -/

theorem readyCases_length (errCh : Option String) (cancelled : Bool) (slots threads : Nat) :
    (readyCases errCh cancelled slots threads).length = 0 ∨
    (readyCases errCh cancelled slots threads).length = 1 ∨
    (readyCases errCh cancelled slots threads).length = 2 ∨
    (readyCases errCh cancelled slots threads).length = 3 := by
  unfold readyCases
  cases errCh <;> cases cancelled <;> by_cases h : slots < threads <;> simp [h]

theorem getD_mod_six (errCh : Option String) (cancelled : Bool) (slots threads sel : Nat)
    (r : SelCase) (rs : List SelCase) (h : readyCases errCh cancelled slots threads = r :: rs) :
    (r :: rs).getD (sel % 6 % (r :: rs).length) r = (r :: rs).getD (sel % (r :: rs).length) r := by
  have hl := readyCases_length errCh cancelled slots threads
  rw [h] at hl
  have : sel % 6 % (r :: rs).length = sel % (r :: rs).length := by
    rcases hl with hl | hl | hl | hl
    · simp at hl
    · rw [hl]; omega
    · rw [hl]; omega
    · rw [hl]; omega
  rw [this]

/-- The `select` choice matters only modulo 6. -/
theorem stepFrame_sel_mod (w : Walk) (frames : List Frame) (sh : Shared) (i sel : Nat)
    (f : Frame) : stepFrame w frames sh i (sel % 6) f = stepFrame w frames sh i sel f := by
  unfold stepFrame
  split
  case h_6 =>
    split
    · rfl
    · split
      · rfl
      · rename_i h1
        rw [getD_mod_six _ _ _ _ sel _ _ h1]
  all_goals rfl

theorem readyCases_threads (errCh : Option String) (cancelled : Bool) (slots k : Nat) :
    readyCases errCh cancelled slots k =
      readyCases errCh cancelled slots (if slots < k then slots + 1 else 0) := by
  unfold readyCases
  by_cases h : slots < k <;> simp [h]

/-- The concurrency bound matters only through `slots < threads`. -/
theorem stepFrame_threads (m : Mode) (k : Nat) (frames : List Frame) (sh : Shared) (i sel : Nat)
    (f : Frame) :
    stepFrame ⟨m, k⟩ frames sh i sel f =
      stepFrame ⟨m, if sh.slots < k then sh.slots + 1 else 0⟩ frames sh i sel f := by
  unfold stepFrame
  simp only [readyCases_threads _ _ sh.slots k]

theorem advance_mem_successors (m : Mode) (k i sel : Nat) (s : State)
    (hi : i < s.frames.length) : advance ⟨m, k⟩ i sel s ∈ successors m s := by
  have e : advance ⟨m, k⟩ i sel s =
      advance ⟨m, if s.shared.slots < k then s.shared.slots + 1 else 0⟩ i (sel % 6) s := by
    unfold advance
    cases hf : s.frames[i]? with
    | none => rfl
    | some f =>
      simp only
      rw [stepFrame_sel_mod, stepFrame_threads m k]
  rw [e]
  unfold successors
  simp only [List.mem_flatMap, List.mem_range, List.mem_map, List.mem_cons,
    List.mem_singleton]
  refine ⟨i, hi, if s.shared.slots < k then s.shared.slots + 1 else 0, ?_,
    sel % 6, Nat.mod_lt _ (by norm_num), rfl⟩
  split_ifs
  · right; left; rfl
  · left; rfl

theorem closedUnder_step (m : Mode) (S : List State) (h : closedUnder m S = true) (k : Nat)
    (c : Nat × Nat) (s : State) (hs : s ∈ S) : step ⟨m, k⟩ s c ∈ S := by
  rcases step_cases ⟨m, k⟩ s c with he | ⟨i, sel, he⟩
  · rw [he]; exact hs
  · rw [he]
    by_cases hi : i < s.frames.length
    · have := advance_mem_successors m k i sel s hi
      unfold closedUnder at h
      rw [List.all_eq_true] at h
      have h2 := h s hs
      rw [List.all_eq_true] at h2
      have h3 := h2 _ this
      simpa using h3
    · have : advance ⟨m, k⟩ i sel s = s := by
        unfold advance
        rw [List.getElem?_eq_none (by omega)]
      rw [this]; exact hs

/-- A set of states closed under the steps of the machine contains every run from its members,
whatever the schedule and the concurrency bound. -/
theorem closedUnder_run (m : Mode) (S : List State) (h : closedUnder m S = true) (k : Nat)
    (sched : List (Nat × Nat)) (s : State) (hs : s ∈ S) : run ⟨m, k⟩ sched s ∈ S := by
  induction sched generalizing s with
  | nil => exact hs
  | cons c cs ih => exact ih _ (closedUnder_step m S h k c s hs)

theorem deletesOf_eq_filter (tr : List Event) :
    deletesOf tr = (callsOf tr).filter Call.isDelete := by
  induction tr with
  | nil => rfl
  | cons ev t ih =>
    cases ev with
    | rpc i c ok => cases c <;> simp [deletesOf, callsOf, Call.isDelete, ih]
    | spawn p c => simp [deletesOf, callsOf, ih]
    | inline p c => simp [deletesOf, callsOf, ih]
    | cancel p => simp [deletesOf, callsOf, ih]
    | ret p r => simp [deletesOf, callsOf, ih]

theorem filter_delCalls (fsId epoch : Nat) (l : List Node) :
    Multiset.filter (fun c => Call.isDelete c = true) (l.map (Node.delCalls fsId epoch)).sum =
      (l.map (Node.deleteCall fsId epoch) : Multiset Call) := by
  induction l with
  | nil => simp
  | cons e t ih =>
    simp only [List.map_cons, List.sum_cons, Multiset.filter_add, ih]
    rw [← Multiset.cons_coe, ← Multiset.singleton_add]
    congr 1
    unfold Node.delCalls Node.deleteCall
    split_ifs
    · rw [Multiset.insert_eq_cons, Multiset.filter_cons_of_neg _ (by simp [Call.isDelete]),
        Multiset.filter_singleton]
      simp [Call.isDelete]
    · rw [Multiset.filter_singleton]
      simp [Call.isDelete]

/-- The delete calls among the RPCs of a delete walk: one per listed entry and one for the
target. -/
theorem filter_deleteCalls (fsId epoch parentInodeId dirInodeId : Nat) (name : String)
    (root : Node) :
    Multiset.filter (fun c => Call.isDelete c = true)
      (deleteCalls fsId epoch parentInodeId dirInodeId name root) =
      (root.listed.map (Node.deleteCall fsId epoch) : Multiset Call) +
        {Call.DeleteDirectory fsId parentInodeId name epoch} := by
  unfold deleteCalls
  rw [Multiset.filter_add, Multiset.filter_add, filter_delCalls, Multiset.filter_singleton,
    Multiset.filter_singleton]
  simp [Call.isDelete]

set_option maxRecDepth 1000000 in
theorem scenarioDeleteStates_closed :
    closedUnder Mode.delete scenarioDeleteStates = true ∧
    initState 1 7 1 2 "a" scenarioTree ∈ scenarioDeleteStates := by
  decide!

set_option maxRecDepth 1000000 in
theorem scenarioDeleteStates_order : ∀ s ∈ scenarioDeleteStates, topResult s ≠ none →
    topResult s = some none ∧ s.shared.inodes = 4 ∧
    deletesOf s.shared.trace =
      [Call.DeleteFile 1 2 "f1" 7, Call.DeleteFile 1 4 "f2" 7, Call.DeleteDirectory 1 2 "b" 7,
       Call.DeleteDirectory 1 1 "a" 7] := by
  decide!

theorem scenarioTree_delete_ok : TreeOk Mode.delete scenarioTree := by
  simp [TreeOk, scenarioTree, dirEntry, fileEntry, Node.listed, listedList, Node.answersOk,
    Node.listErr, Node.entry, Node.delErr]

/-! ## The usage walk: conservation of the totals -/

theorem listedList_cons_tail (e : Node) (t : List Node) :
    (listedList (e :: t)).tail =
      (if e.entry.type = FileType.DIRECTORY then e.listed else []) ++ listedList t := by
  simp [listedList]

theorem stepFrame_gotInode (chk : Bool) (w : Walk) (frames : List Frame) (sh : Shared)
    (i sel : Nat) (f : Frame) (a : Inode) (hm : w.mode = Mode.usage chk)
    (hpc : f.pc = PC.gotInode a) :
    stepFrame w frames sh i sel f =
      if dedup chk a = true then
        (if a.ino ∈ sh.seen then some (continue_ f sh)
         else some (goto f { sh with seen := a.ino :: sh.seen } (PC.addLength a)))
      else some (goto f sh (PC.addLength a)) := by
  simp only [stepFrame, hpc, hm, dedup]

/-- What a step of a usage walk without errors does to the totals, unless it is the
`LoadOrStore` on `inodeMap`. -/
theorem stepFrame_usage (chk : Bool) (w : Walk) (root : Node) (frames : List Frame) (sh : Shared)
    (i sel : Nat) (f : Frame) (o : Outcome) (h : stepFrame w frames sh i sel f = some o)
    (hm : w.mode = Mode.usage chk) (hg : Good w root f) (hn : o.frame.noErr)
    (hd : ∀ a, f.pc = PC.gotInode a → dedup chk a = false) :
    o.shared.seen = sh.seen ∧
    pend (Node.key chk) (inflightKey chk) o.frame +
      ofChild (pend (Node.key chk) (inflightKey chk)) o.child =
      pend (Node.key chk) (inflightKey chk) f ∧
    (o.shared.length + (pend (Node.bytes chk) (inflightBytes chk) o.frame +
      ofChild (pend (Node.bytes chk) (inflightBytes chk)) o.child)) % 2 ^ 64 =
      (sh.length + pend (Node.bytes chk) (inflightBytes chk) f) % 2 ^ 64 ∧
    (o.shared.inodes + (pend (Node.count chk) (inflightCount chk) o.frame +
      ofChild (pend (Node.count chk) (inflightCount chk)) o.child)) % 2 ^ 64 =
      (sh.inodes + pend (Node.count chk) (inflightCount chk) f) % 2 ^ 64 := by
  have hattr := hg.attr
  have hsel := hg.sel
  have hcount := hg.count
  have hself := hg.self
  by_cases hgi : ∃ a, f.pc = PC.gotInode a
  · obtain ⟨a, hpc⟩ := hgi
    rw [stepFrame_gotInode chk w frames sh i sel f a hm hpc] at h
    have hda := hd a hpc
    simp only [hda, Bool.false_eq_true, if_false, Option.some.injEq] at h
    subst h
    obtain ⟨e, t, hto, hty, _⟩ := hattr a (Or.inl hpc)
    simp [goto, pend, ofChild, hpc, inflightBytes, inflightCount, inflightKey, hda]
  unfold Frame.noErr at hn
  unfold stepFrame at h
  simp only [hm] at h
  repeat' split at h
  all_goals (try simp at h)
  all_goals (try subst h)
  all_goals simp_all [returns, goto, continue_, childFrame, pend, ofChild, Node.listed_eq,
    listedList_cons_tail, listedList, Shared.log, inflightBytes, inflightCount, inflightKey,
    Node.bytes, Node.count, Node.key, Node.attr, u64, dedup]
  all_goals (first | done | omega | (refine ⟨add_comm _ _, ?_, ?_⟩ <;> omega))

theorem sum_insert_sdiff (L : Nat → Nat) (D S : Finset Nat) (x : Nat) (hx : x ∉ S) :
    ∑ y ∈ insert x D \ S, L y = L x + ∑ y ∈ D \ insert x S, L y := by
  have h1 : insert x D \ S = insert x (D \ insert x S) := by
    ext y
    simp only [Finset.mem_sdiff, Finset.mem_insert]
    constructor
    · rintro ⟨h | h, hs⟩
      · exact Or.inl h
      · by_cases hy : y = x
        · exact Or.inl hy
        · exact Or.inr ⟨h, fun hc => hc.elim hy hs⟩
    · rintro (h | ⟨h, hs⟩)
      · subst h; exact ⟨Or.inl rfl, hx⟩
      · exact ⟨Or.inr h, fun hc => hs (Or.inr hc)⟩
  rw [h1, Finset.sum_insert]
  simp

theorem card_insert_sdiff (D S : Finset Nat) (x : Nat) (hx : x ∉ S) :
    (insert x D \ S).card = 1 + (D \ insert x S).card := by
  have := sum_insert_sdiff (fun _ => 1) D S x hx
  simpa using this

theorem inodeLength_eq (chk : Bool) (root : Node) (hc : Consistent chk root) (a : Inode)
    (ha : a ∈ root.attrs) (hd : dedup chk a = true) : inodeLength chk root a.ino = a.length := by
  unfold inodeLength
  cases hfind : root.attrs.find? fun b => dedup chk b && decide (b.ino = a.ino) with
  | none =>
    rw [List.find?_eq_none] at hfind
    have := hfind a ha
    simp [hd] at this
  | some b =>
    have hb := List.find?_some hfind
    have hbm := List.mem_of_find?_eq_some hfind
    simp only [Bool.and_eq_true, decide_eq_true_eq] at hb
    exact hc b hbm a ha hb.1 hd hb.2

theorem Good.attr_mem {w : Walk} {root : Node} {f : Frame} (hg : Good w root f) (a : Inode)
    (hpc : f.pc = PC.gotInode a) : a ∈ root.attrs := by
  obtain ⟨e, t, hto, hty, hget, _⟩ := hg.attr a (Or.inl hpc)
  have hm := hg.head_mem e t hto
  unfold Node.attrs
  rw [List.mem_filterMap]
  exact ⟨e, hm, by simp [Node.attr, hty, hget]⟩

theorem unseen_eq (chk : Bool) (s s' : State)
    (h1 : total (pend (Node.key chk) (inflightKey chk)) s'.frames =
      total (pend (Node.key chk) (inflightKey chk)) s.frames)
    (h2 : s'.shared.seen = s.shared.seen) : unseen chk s' = unseen chk s := by
  simp only [unseen, h1, h2]

theorem unseen_skip (chk : Bool) (s s' : State) (a : Nat)
    (h1 : total (pend (Node.key chk) (inflightKey chk)) s.frames =
      {a} + total (pend (Node.key chk) (inflightKey chk)) s'.frames)
    (h2 : s'.shared.seen = s.shared.seen) (ha : a ∈ s.shared.seen) :
    unseen chk s' = unseen chk s := by
  simp only [unseen, h1, h2, Multiset.toFinset_add, Multiset.toFinset_singleton]
  rw [← Finset.insert_eq, Finset.insert_sdiff_of_mem]
  simpa using ha

theorem unseen_store (chk : Bool) (s s' : State) (a : Nat) (L : Nat → Nat)
    (h1 : total (pend (Node.key chk) (inflightKey chk)) s.frames =
      {a} + total (pend (Node.key chk) (inflightKey chk)) s'.frames)
    (h2 : s'.shared.seen = a :: s.shared.seen) (ha : a ∉ s.shared.seen) :
    ∑ x ∈ unseen chk s, L x = L a + ∑ x ∈ unseen chk s', L x ∧
    (unseen chk s).card = 1 + (unseen chk s').card := by
  have hns : a ∉ s.shared.seen.toFinset := by simpa using ha
  simp only [unseen, h1, h2, Multiset.toFinset_add, Multiset.toFinset_singleton,
    List.toFinset_cons, ← Finset.insert_eq]
  exact ⟨sum_insert_sdiff L _ _ a hns, card_insert_sdiff _ _ a hns⟩

theorem UsageInv_advance (chk : Bool) (w : Walk) (root : Node) (i sel : Nat) (s : State)
    (hm : w.mode = Mode.usage chk) (hc : Consistent chk root)
    (hg : ∀ f ∈ s.frames, Good w root f) (hne : NoErr (advance w i sel s))
    (h : UsageInv chk root s) : UsageInv chk root (advance w i sel s) := by
  rcases advance_eq w i sel s with he | ⟨f, o, hf, ho, he⟩
  · rw [he]; exact h
  · have hfr : (advance w i sel s).frames = s.frames.set i o.frame ++ o.child.toList := by
      rw [he]
    have hs1 : (advance w i sel s).shared.length = o.shared.length := by rw [he]
    have hs2 : (advance w i sel s).shared.inodes = o.shared.inodes := by rw [he]
    have hs3 : (advance w i sel s).shared.seen = o.shared.seen := by rw [he]
    generalize advance w i sel s = s' at hne hfr hs1 hs2 hs3 ⊢
    have hi : i < s.frames.length := (List.getElem?_eq_some.mp hf).1
    have hfm : f ∈ s.frames := List.mem_iff_getElem?.mpr ⟨i, hf⟩
    have hgf := hg f hfm
    have hon : o.frame.noErr := by
      apply hne.frames
      rw [hfr, List.mem_append]
      left
      exact List.mem_iff_getElem?.mpr ⟨i, by simp [List.getElem?_set_self hi]⟩
    have tK := total_step (pend (Node.key chk) (inflightKey chk)) s.frames i f o.frame o.child hf
    have tB := total_step (pend (Node.bytes chk) (inflightBytes chk)) s.frames i f o.frame
      o.child hf
    have tC := total_step (pend (Node.count chk) (inflightCount chk)) s.frames i f o.frame
      o.child hf
    rw [← hfr] at tK tB tC
    obtain ⟨hB, hC⟩ := h
    by_cases hd : ∀ a, f.pc = PC.gotInode a → dedup chk a = false
    · obtain ⟨k1, k2, k3, k4⟩ := stepFrame_usage chk w root _ _ _ _ _ _ ho hm hgf hon hd
      have hK : total (pend (Node.key chk) (inflightKey chk)) s'.frames =
          total (pend (Node.key chk) (inflightKey chk)) s.frames := by
        rw [add_assoc, k2] at tK
        exact add_right_cancel tK
      have hU := unseen_eq chk s s' hK (hs3.trans k1)
      constructor
      · rw [hU, hs1]; omega
      · rw [hU, hs2]; omega
    · push_neg at hd
      obtain ⟨a, hpc, hda⟩ := hd
      simp only [Bool.not_eq_false] at hda
      rw [stepFrame_gotInode chk w _ _ _ _ f a hm hpc] at ho
      simp only [hda, if_true] at ho
      obtain ⟨e, t, hto, hty, hget, _⟩ := hgf.attr a (Or.inl hpc)
      have hL := inodeLength_eq chk root hc a (hgf.attr_mem a hpc) hda
      have htl : (listedList f.todo).tail = listedList f.todo.tail := by
        rw [hto, listedList_cons_tail]; simp [hty]
      have pKf : pend (Node.key chk) (inflightKey chk) f =
          {a.ino} + ((listedList f.todo.tail).map (Node.key chk)).sum := by
        simp [pend, hpc, inflightKey, hda, htl]
      have pBf : pend (Node.bytes chk) (inflightBytes chk) f =
          ((listedList f.todo.tail).map (Node.bytes chk)).sum := by
        simp [pend, hpc, inflightBytes, hda, htl]
      have pCf : pend (Node.count chk) (inflightCount chk) f =
          ((listedList f.todo.tail).map (Node.count chk)).sum := by
        simp [pend, hpc, inflightCount, hda, htl]
      rw [pKf] at tK
      rw [pBf] at tB
      rw [pCf] at tC
      split_ifs at ho with hs
      · -- the key is in `inodeMap` already: `continue`
        simp only [Option.some.injEq] at ho
        subst ho
        simp only [continue_, pend, ofChild, add_zero] at tK tB tC hs1 hs2 hs3
        have hK : total (pend (Node.key chk) (inflightKey chk)) s.frames =
            {a.ino} + total (pend (Node.key chk) (inflightKey chk)) s'.frames := by
          rw [← add_assoc] at tK
          have := add_right_cancel tK
          rw [← this, add_comm]
        have hU := unseen_skip chk s s' a.ino hK hs3 hs
        constructor
        · rw [hU, hs1]; omega
        · rw [hU, hs2]; omega
      · -- the key is stored
        simp only [Option.some.injEq] at ho
        subst ho
        simp only [goto, pend, ofChild, add_zero, inflightKey, inflightBytes, inflightCount,
          htl, zero_add] at tK tB tC hs1 hs2 hs3
        have hK : total (pend (Node.key chk) (inflightKey chk)) s.frames =
            {a.ino} + total (pend (Node.key chk) (inflightKey chk)) s'.frames := by
          rw [← add_assoc] at tK
          have := add_right_cancel tK
          rw [← this, add_comm]
        obtain ⟨u1, u2⟩ := unseen_store chk s s' a.ino (inodeLength chk root) hK hs3 hs
        constructor
        · rw [u1, hL] at hB
          rw [hs1]; omega
        · rw [u2] at hC
          rw [hs2]; omega

theorem UsageInv_init (chk : Bool) (root : Node) (fsId epoch parentInodeId dirInodeId : Nat)
    (name : String) : UsageInv chk root (initState fsId epoch parentInodeId dirInodeId name root) := by
  constructor <;> simp [initState, unseen, total, pend, usageBytes, usageInodes]

/-- The invariants hold along every run of a usage walk in which every RPC succeeds. -/
theorem usage_run (chk : Bool) (w : Walk) (root : Node) (hm : w.mode = Mode.usage chk)
    (hok : TreeOk w.mode root) (hc : Consistent chk root) (sched : List (Nat × Nat)) (s : State)
    (h : Sound w root s) (hu : UsageInv chk root s) :
    Sound w root (run w sched s) ∧ UsageInv chk root (run w sched s) := by
  induction sched generalizing s with
  | nil => exact ⟨h, hu⟩
  | cons c cs ih =>
    simp only [run, List.foldl_cons]
    rcases step_cases w s c with he | ⟨i, sel, he⟩
    · rw [he]; exact ih s h hu
    · rw [he]
      have hs := Sound_advance w root i sel s hok h
      exact ih _ hs (UsageInv_advance chk w root i sel s hm hc h.good hs.noErr hu)

theorem toInt64_congr (a b : Nat) (h : a % 2 ^ 64 = b % 2 ^ 64) : toInt64 a = toInt64 b := by
  simp only [toInt64, h]

/-- The result of a usage walk in which every RPC succeeds, under every schedule and every
concurrency bound: the totals of the namespace, once the schedule is long enough for the walk
to return. -/
theorem usage_result (root : Node) (fsId dirInode : Nat) (chk : Bool) (epoch threads : Nat)
    (sched : List (Nat × Nat)) (hok : TreeOk (Mode.usage chk) root) (hc : Consistent chk root)
    (hlen : walkBound root ≤ sched.length) :
    GetDirectorySizeAndInodes root fsId dirInode chk epoch threads sched =
      some (toInt64 (usageBytes chk root), toInt64 (usageInodes chk root + 1), none) := by
  unfold GetDirectorySizeAndInodes
  have hinit := Sound_init ⟨Mode.usage chk, threads⟩ root fsId epoch 0 dirInode ""
  obtain ⟨hs, hu⟩ := usage_run chk ⟨Mode.usage chk, threads⟩ root rfl hok hc sched _ hinit
    (UsageInv_init chk root fsId epoch 0 dirInode "")
  have hret := run_returns ⟨Mode.usage chk, threads⟩ sched _ hinit.wf
    (by simpa [initState, total, Frame.fuel, walkBound] using hlen)
  cases hr : topResult (run ⟨Mode.usage chk, threads⟩ sched (initState fsId epoch 0 dirInode "" root)) with
  | none => exact absurd hr hret
  | some r =>
    obtain ⟨hrn, hp⟩ := hs.frames_done r hr
    subst hrn
    simp only [hr]
    have hB := hu.bytes
    have hC := hu.inodes
    have hU : unseen chk (run ⟨Mode.usage chk, threads⟩ sched
        (initState fsId epoch 0 dirInode "" root)) = ∅ := by
      simp only [unseen, total_done _ _ _ hp]
      simp
    rw [hU, total_done _ _ _ hp] at hB hC
    simp only [Finset.sum_empty, Finset.card_empty, add_zero] at hB hC
    rw [toInt64_congr _ _ hB, toInt64_congr (u64 _) (usageInodes chk root + 1)
      (by unfold u64; omega)]
/-! ## The delete walk: conservation of the calls and of the counter -/

theorem callsOf_append (a b : List Event) : callsOf (a ++ b) = callsOf a ++ callsOf b := by
  induction a with
  | nil => rfl
  | cons ev tr ih => cases ev <;> simp [callsOf, ih]

theorem stepFrame_args (w : Walk) (frames : List Frame) (sh : Shared) (i sel : Nat)
    (f : Frame) (o : Outcome) (h : stepFrame w frames sh i sel f = some o) :
    (o.frame.fsId = f.fsId ∧ o.frame.epoch = f.epoch) ∧
      ∀ c, o.child = some c → c.fsId = f.fsId ∧ c.epoch = f.epoch := by
  unfold stepFrame at h
  repeat' split at h
  all_goals (try simp at h)
  all_goals (try subst h)
  all_goals simp_all [returns, goto, continue_, childFrame]

/-- What a step of a delete walk without errors does to the calls and the counter. -/
theorem stepFrame_delete (w : Walk) (root : Node) (frames : List Frame) (sh : Shared)
    (i sel : Nat) (f : Frame) (o : Outcome) (h : stepFrame w frames sh i sel f = some o)
    (hm : w.mode = Mode.delete) (hg : Good w root f) (hn : o.frame.noErr) :
    (callsOf o.shared.trace : Multiset Call) + (pendCalls f.fsId f.epoch o.frame +
      ofChild (pendCalls f.fsId f.epoch) o.child) =
      (callsOf sh.trace : Multiset Call) + pendCalls f.fsId f.epoch f ∧
    (o.shared.inodes + (pendCount o.frame + ofChild pendCount o.child)) % 2 ^ 64 =
      (sh.inodes + pendCount f) % 2 ^ 64 := by
  have hattr := hg.attr
  have hsel := hg.sel
  have hcount := hg.count
  unfold Frame.noErr at hn
  unfold stepFrame at h
  simp only [hm] at h
  repeat' split at h
  all_goals (try simp at h)
  all_goals (try subst h)
  all_goals simp_all [returns, goto, continue_, childFrame, pendDel, pendCalls, pendCount, ofChild,
    Node.listed_eq, listedList_cons_tail, listedList, Shared.log, callsOf_append, callsOf,
    Node.delCalls, Frame.listCall, Frame.delCall, u64]
  all_goals first
    | done
    | omega
    | (obtain ⟨e, ⟨t, ht⟩, hty⟩ := hcount
       simp [ht, listedList, hty] <;> omega)
    | (refine ⟨?_, ?_⟩ <;> first
        | omega
        | (simp only [← Multiset.singleton_add, ← Multiset.coe_add, Multiset.coe_singleton]
           abel))
    | (simp only [← Multiset.singleton_add, ← Multiset.coe_add, Multiset.coe_singleton] <;> abel)

theorem stepFrame_inodes (w : Walk) (frames : List Frame) (sh : Shared) (i sel : Nat)
    (f : Frame) (o : Outcome) (h : stepFrame w frames sh i sel f = some o) :
    o.shared.inodes = sh.inodes ∨ o.shared.inodes = u64 (sh.inodes + 1) := by
  unfold stepFrame at h
  repeat' split at h
  all_goals (try simp at h)
  all_goals (try subst h)
  all_goals simp_all [returns, goto, continue_, Shared.log]

theorem pendDel_done {M : Type} [AddCommMonoid M] (x : Node → M) (a b : Frame → M) (c : M)
    (f : Frame) (h : f.done) : pendDel x a b c f = 0 := by
  unfold Frame.done at h
  unfold pendDel
  rcases h with ⟨r, h⟩ | ⟨r, h⟩ | h | h <;> simp [h]

theorem total_zero {M : Type} [AddCommMonoid M] (φ : Frame → M) (frames : List Frame)
    (h : ∀ f ∈ frames, φ f = 0) : total φ frames = 0 := by
  induction frames with
  | nil => rfl
  | cons f fs ih =>
    simp only [total, List.map_cons, List.sum_cons]
    rw [h f (by simp)]
    have := ih (fun g hg => h g (by simp [hg]))
    simp only [total] at this
    rw [this, add_zero]

theorem DeleteInv_advance (w : Walk) (root : Node) (fsId epoch : Nat) (allCalls : Multiset Call)
    (n i sel : Nat) (s : State) (hm : w.mode = Mode.delete)
    (hg : ∀ f ∈ s.frames, Good w root f) (hne : NoErr (advance w i sel s))
    (h : DeleteInv fsId epoch allCalls n s) : DeleteInv fsId epoch allCalls n (advance w i sel s) := by
  rcases advance_eq w i sel s with he | ⟨f, o, hf, ho, he⟩
  · rw [he]; exact h
  · have hfr : (advance w i sel s).frames = s.frames.set i o.frame ++ o.child.toList := by
      rw [he]
    have hs1 : (advance w i sel s).shared.trace = o.shared.trace := by rw [he]
    have hs2 : (advance w i sel s).shared.inodes = o.shared.inodes := by rw [he]
    generalize advance w i sel s = s' at hne hfr hs1 hs2 ⊢
    have hi : i < s.frames.length := (List.getElem?_eq_some.mp hf).1
    have hfm : f ∈ s.frames := List.mem_iff_getElem?.mpr ⟨i, hf⟩
    have hgf := hg f hfm
    have hon : o.frame.noErr := by
      apply hne.frames
      rw [hfr, List.mem_append]
      left
      exact List.mem_iff_getElem?.mpr ⟨i, by simp [List.getElem?_set_self hi]⟩
    obtain ⟨hfs, hep⟩ := h.args f hfm
    have tK := total_step (pendCalls fsId epoch) s.frames i f o.frame o.child hf
    have tC := total_step pendCount s.frames i f o.frame o.child hf
    rw [← hfr] at tK tC
    obtain ⟨k1, k2⟩ := stepFrame_delete w root _ _ _ _ _ _ ho hm hgf hon
    rw [hfs, hep] at k1
    obtain ⟨a1, a2⟩ := stepFrame_args w _ _ _ _ _ _ ho
    refine ⟨?_, ?_, ?_, ?_⟩
    · intro g hgm
      rw [hfr] at hgm
      simp only [List.mem_append, Option.mem_toList, Option.mem_def] at hgm
      rcases hgm with hgm | hgm
      · rcases List.mem_or_eq_of_mem_set hgm with hgm | hgm
        · exact h.args g hgm
        · rw [hgm, a1.1, a1.2]; exact ⟨hfs, hep⟩
      · have := a2 g hgm
        rw [this.1, this.2]; exact ⟨hfs, hep⟩
    · have hc := h.calls
      rw [hs1]
      have e1 : (callsOf o.shared.trace : Multiset Call) + total (pendCalls fsId epoch) s'.frames +
          pendCalls fsId epoch f = allCalls + pendCalls fsId epoch f := by
        rw [add_assoc, tK, ← hc]
        rw [add_assoc (total _ _), ← add_assoc (callsOf o.shared.trace : Multiset Call),
          add_comm (callsOf o.shared.trace : Multiset Call), add_assoc, k1]
        abel
      exact add_right_cancel e1
    · have hc := h.inodes
      rw [hs2]
      omega
    · rw [hs2]
      rcases stepFrame_inodes w _ _ _ _ _ _ ho with e | e
      · rw [e]; exact h.bound
      · rw [e]; unfold u64; exact Nat.mod_lt _ (by norm_num)

theorem DeleteInv_init (root : Node) (fsId epoch parentInodeId dirInodeId : Nat)
    (name : String) :
    DeleteInv fsId epoch (deleteCalls fsId epoch parentInodeId dirInodeId name root)
      (root.listed.length + 1) (initState fsId epoch parentInodeId dirInodeId name root) := by
  refine ⟨?_, ?_, ?_, ?_⟩
  · intro f hf
    simp only [initState, List.mem_singleton] at hf
    subst hf
    exact ⟨rfl, rfl⟩
  · simp [initState, total, pendCalls, pendDel, deleteCalls, callsOf, Frame.listCall,
      Frame.delCall]
  · simp [initState, total, pendCount, pendDel]
  · simp [initState]

/-- The invariants hold along every run of a delete walk in which every RPC succeeds. -/
theorem delete_run (w : Walk) (root : Node) (fsId epoch : Nat) (allCalls : Multiset Call)
    (n : Nat) (hm : w.mode = Mode.delete) (hok : TreeOk w.mode root)
    (sched : List (Nat × Nat)) (s : State) (h : Sound w root s)
    (hu : DeleteInv fsId epoch allCalls n s) :
    Sound w root (run w sched s) ∧ DeleteInv fsId epoch allCalls n (run w sched s) := by
  induction sched generalizing s with
  | nil => exact ⟨h, hu⟩
  | cons c cs ih =>
    simp only [run, List.foldl_cons]
    rcases step_cases w s c with he | ⟨i, sel, he⟩
    · rw [he]; exact ih s h hu
    · rw [he]
      have hs := Sound_advance w root i sel s hok h
      exact ih _ hs (DeleteInv_advance w root fsId epoch allCalls n i sel s hm h.good hs.noErr hu)

/-- The result of a delete walk in which every RPC succeeds, under every schedule and every
concurrency bound, once the schedule is long enough for the walk to return: no error, one count
per entry and one for the target, and the RPCs issued are those of the namespace, each once. -/
theorem delete_result (root : Node) (fsId epoch parentInodeId dirInodeId : Nat) (name : String)
    (threads : Nat) (sched : List (Nat × Nat)) (hok : TreeOk Mode.delete root)
    (hlen : walkBound root ≤ sched.length) :
    deleteDirectory root fsId epoch parentInodeId dirInodeId name threads sched =
      some (some ((root.listed.length + 1) % 2 ^ 64), none) ∧
    (callsOf (run ⟨Mode.delete, threads⟩ sched
      (initState fsId epoch parentInodeId dirInodeId name root)).shared.trace : Multiset Call) =
      deleteCalls fsId epoch parentInodeId dirInodeId name root := by
  unfold deleteDirectory
  have hinit := Sound_init ⟨Mode.delete, threads⟩ root fsId epoch parentInodeId dirInodeId name
  obtain ⟨hs, hu⟩ := delete_run ⟨Mode.delete, threads⟩ root fsId epoch _ _ rfl hok sched _ hinit
    (DeleteInv_init root fsId epoch parentInodeId dirInodeId name)
  have hret := run_returns ⟨Mode.delete, threads⟩ sched _ hinit.wf
    (by simpa [initState, total, Frame.fuel, walkBound] using hlen)
  cases hr : topResult (run ⟨Mode.delete, threads⟩ sched
      (initState fsId epoch parentInodeId dirInodeId name root)) with
  | none => exact absurd hr hret
  | some r =>
    obtain ⟨hrn, hp⟩ := hs.frames_done r hr
    subst hrn
    simp only [hr]
    have hB := hu.calls
    have hC := hu.inodes
    have hb := hu.bound
    rw [total_zero (pendCalls fsId epoch) _
      (fun f hf => pendDel_done _ _ _ _ f (hp f hf))] at hB
    rw [total_zero pendCount _ (fun f hf => pendDel_done _ _ _ _ f (hp f hf))] at hC
    simp only [add_zero] at hB hC
    rw [Nat.mod_eq_of_lt hb] at hC
    exact ⟨by rw [hC], hB⟩
/-! ## The listing of the root stands in the trace -/

theorem stepFrame_listed (w : Walk) (frames : List Frame) (sh : Shared) (i sel : Nat)
    (f : Frame) (o : Outcome) (h : stepFrame w frames sh i sel f = some o) :
    o.frame.pc ≠ PC.list ∧ o.frame.dirInodeId = f.dirInodeId ∧
      (∀ ev ∈ sh.trace, ev ∈ o.shared.trace) ∧
      (f.pc = PC.list →
        ∃ ok, Event.rpc i (Call.ListDentry f.fsId f.dirInodeId f.epoch) ok ∈ o.shared.trace) := by
  unfold stepFrame at h
  repeat' split at h
  all_goals (try simp at h)
  all_goals (try subst h)
  all_goals simp_all [returns, goto, continue_, Shared.log]

theorem RootListed_advance (w : Walk) (i sel : Nat) (s : State) (h : RootListed s) :
    RootListed (advance w i sel s) := by
  rcases advance_eq w i sel s with he | ⟨f, o, hf, ho, he⟩
  · rw [he]; exact h
  · rw [he]
    obtain ⟨h1, h2, h3, h4⟩ := stepFrame_listed w _ _ _ _ _ _ ho
    obtain ⟨⟨h5, h6⟩, _⟩ := stepFrame_args w _ _ _ _ _ _ ho
    have hi : i < s.frames.length := (List.getElem?_eq_some.mp hf).1
    intro g hg hpc
    simp only at hg
    rw [getElem?_set_append _ _ _ f _ _ hf] at hg
    by_cases h0 : 0 = i
    · subst h0
      simp only [ite_true, Option.some.injEq] at hg
      subst hg
      rw [h5, h6, h2]
      by_cases hl : f.pc = PC.list
      · exact h4 hl
      · obtain ⟨ok, hev⟩ := h f hf hl
        exact ⟨ok, h3 _ hev⟩
    · have hpos : 0 < s.frames.length := by omega
      simp only [h0, ite_false, hpos, ite_true] at hg
      obtain ⟨ok, hev⟩ := h g hg hpc
      exact ⟨ok, h3 _ hev⟩

theorem RootListed_run (w : Walk) (sched : List (Nat × Nat)) (s : State) (h : RootListed s) :
    RootListed (run w sched s) := by
  induction sched generalizing s with
  | nil => exact h
  | cons x xs ih =>
    simp only [run, List.foldl_cons]
    apply ih
    rcases step_cases w s x with he | ⟨i, sel, he⟩
    · rw [he]; exact h
    · rw [he]; exact RootListed_advance w i sel s h

/-- A walk that has returned has listed its root. -/
theorem listed_of_returned (w : Walk) (sched : List (Nat × Nat))
    (fsId epoch parentInodeId dirInodeId : Nat) (name : String) (root : Node)
    (h : topResult (run w sched (initState fsId epoch parentInodeId dirInodeId name root)) ≠
      none) :
    ∃ ok, Event.rpc 0 (Call.ListDentry fsId dirInodeId epoch) ok ∈
      (run w sched (initState fsId epoch parentInodeId dirInodeId name root)).shared.trace := by
  have hR : RootListed (initState fsId epoch parentInodeId dirInodeId name root) := by
    intro f hf hpc
    simp only [initState, List.getElem?_cons_zero, Option.some.injEq] at hf
    subst hf
    simp at hpc
  have hR1 := RootListed_run w sched _ hR
  -- the arguments of frame 0 are those of the call
  have hargs : ∀ (sched : List (Nat × Nat)) (s : State),
      (∀ f, s.frames[0]? = some f → f.fsId = fsId ∧ f.dirInodeId = dirInodeId ∧
        f.epoch = epoch) →
      ∀ f, (run w sched s).frames[0]? = some f → f.fsId = fsId ∧ f.dirInodeId = dirInodeId ∧
        f.epoch = epoch := by
    intro sched
    induction sched with
    | nil => intro s hs; exact hs
    | cons x xs ih =>
      intro s hs
      simp only [run, List.foldl_cons]
      apply ih
      rcases step_cases w s x with he | ⟨i, sel, he⟩
      · rw [he]; exact hs
      · rw [he]
        rcases advance_eq w i sel s with he2 | ⟨f, o, hf, ho, he2⟩
        · rw [he2]; exact hs
        · rw [he2]
          intro g hg
          simp only at hg
          rw [getElem?_set_append _ _ _ f _ _ hf] at hg
          have hi : i < s.frames.length := (List.getElem?_eq_some.mp hf).1
          by_cases h0 : 0 = i
          · subst h0
            simp only [ite_true, Option.some.injEq] at hg
            subst hg
            obtain ⟨_, h2, _, _⟩ := stepFrame_listed w _ _ _ _ _ _ ho
            obtain ⟨⟨h5, h6⟩, _⟩ := stepFrame_args w _ _ _ _ _ _ ho
            obtain ⟨k1, k2, k3⟩ := hs f hf
            exact ⟨by rw [h5, k1], by rw [h2, k2], by rw [h6, k3]⟩
          · have hpos : 0 < s.frames.length := by omega
            simp only [h0, ite_false, hpos, ite_true] at hg
            exact hs g hg
  cases hf : (run w sched (initState fsId epoch parentInodeId dirInodeId name root)).frames[0]? with
  | none => simp [topResult, hf] at h
  | some f =>
    obtain ⟨k1, k2, k3⟩ := hargs sched _ (by
      intro g hg
      simp only [initState, List.getElem?_cons_zero, Option.some.injEq] at hg
      subst hg
      exact ⟨rfl, rfl, rfl⟩) f hf
    have hpc : f.pc ≠ PC.list := by
      intro hpc
      simp [topResult, hf, hpc] at h
    obtain ⟨ok, hev⟩ := hR1 f hf hpc
    rw [k1, k2, k3] at hev
    exact ⟨ok, hev⟩

/-! ## The usage walk: the RPCs issued -/

/-- What a step of a usage walk without errors does to the calls. -/
theorem stepFrame_useCalls (chk : Bool) (w : Walk) (root : Node) (frames : List Frame)
    (sh : Shared) (i sel : Nat) (f : Frame) (o : Outcome)
    (h : stepFrame w frames sh i sel f = some o)
    (hm : w.mode = Mode.usage chk) (hg : Good w root f) (hn : o.frame.noErr) :
    (callsOf o.shared.trace : Multiset Call) + (pendUse f.fsId f.epoch o.frame +
      ofChild (pendUse f.fsId f.epoch) o.child) =
      (callsOf sh.trace : Multiset Call) + pendUse f.fsId f.epoch f := by
  have hattr := hg.attr
  have hsel := hg.sel
  have hcount := hg.count
  unfold Frame.noErr at hn
  unfold stepFrame at h
  simp only [hm] at h
  repeat' split at h
  all_goals (try simp at h)
  all_goals (try subst h)
  all_goals simp_all [returns, goto, continue_, childFrame, pendUse, ofChild,
    Node.listed_eq, listedList_cons_tail, listedList, Shared.log, callsOf_append, callsOf,
    Node.useCalls, headCalls, Frame.listCall]
  all_goals first
    | done
    | (simp only [← Multiset.singleton_add, ← Multiset.coe_add, Multiset.coe_singleton]
       abel)
    | exact add_comm _ _
    | (obtain ⟨e, ⟨t, ht⟩, hty, _⟩ := hattr
       simp [ht, listedList, hty])

theorem pendUse_done (fsId epoch : Nat) (f : Frame) (h : f.done) : pendUse fsId epoch f = 0 := by
  unfold Frame.done at h
  unfold pendUse
  rcases h with ⟨r, h⟩ | ⟨r, h⟩ | h | h <;> simp [h]

theorem UseInv_advance (chk : Bool) (w : Walk) (root : Node) (fsId epoch : Nat)
    (allCalls : Multiset Call) (i sel : Nat) (s : State) (hm : w.mode = Mode.usage chk)
    (hg : ∀ f ∈ s.frames, Good w root f) (hne : NoErr (advance w i sel s))
    (h : UseInv fsId epoch allCalls s) : UseInv fsId epoch allCalls (advance w i sel s) := by
  rcases advance_eq w i sel s with he | ⟨f, o, hf, ho, he⟩
  · rw [he]; exact h
  · have hfr : (advance w i sel s).frames = s.frames.set i o.frame ++ o.child.toList := by
      rw [he]
    have hs1 : (advance w i sel s).shared.trace = o.shared.trace := by rw [he]
    generalize advance w i sel s = s' at hne hfr hs1 ⊢
    have hi : i < s.frames.length := (List.getElem?_eq_some.mp hf).1
    have hfm : f ∈ s.frames := List.mem_iff_getElem?.mpr ⟨i, hf⟩
    have hgf := hg f hfm
    have hon : o.frame.noErr := by
      apply hne.frames
      rw [hfr, List.mem_append]
      left
      exact List.mem_iff_getElem?.mpr ⟨i, by simp [List.getElem?_set_self hi]⟩
    obtain ⟨hfs, hep⟩ := h.args f hfm
    have tK := total_step (pendUse fsId epoch) s.frames i f o.frame o.child hf
    rw [← hfr] at tK
    have k1 := stepFrame_useCalls chk w root _ _ _ _ _ _ ho hm hgf hon
    rw [hfs, hep] at k1
    obtain ⟨a1, a2⟩ := stepFrame_args w _ _ _ _ _ _ ho
    refine ⟨?_, ?_⟩
    · intro g hgm
      rw [hfr] at hgm
      simp only [List.mem_append, Option.mem_toList, Option.mem_def] at hgm
      rcases hgm with hgm | hgm
      · rcases List.mem_or_eq_of_mem_set hgm with hgm | hgm
        · exact h.args g hgm
        · rw [hgm, a1.1, a1.2]; exact ⟨hfs, hep⟩
      · have := a2 g hgm
        rw [this.1, this.2]; exact ⟨hfs, hep⟩
    · have hc := h.calls
      rw [hs1]
      have e1 : (callsOf o.shared.trace : Multiset Call) + total (pendUse fsId epoch) s'.frames +
          pendUse fsId epoch f = allCalls + pendUse fsId epoch f := by
        rw [add_assoc, tK, ← hc]
        rw [add_assoc (total _ _), ← add_assoc (callsOf o.shared.trace : Multiset Call),
          add_comm (callsOf o.shared.trace : Multiset Call), add_assoc, k1]
        abel
      exact add_right_cancel e1

theorem UseInv_init (root : Node) (fsId epoch parentInodeId dirInodeId : Nat) (name : String) :
    UseInv fsId epoch (usageCalls fsId epoch dirInodeId root)
      (initState fsId epoch parentInodeId dirInodeId name root) := by
  refine ⟨?_, ?_⟩
  · intro f hf
    simp only [initState, List.mem_singleton] at hf
    subst hf
    exact ⟨rfl, rfl⟩
  · simp [initState, total, pendUse, usageCalls, callsOf, Frame.listCall]

theorem use_run (chk : Bool) (w : Walk) (root : Node) (fsId epoch : Nat)
    (allCalls : Multiset Call) (hm : w.mode = Mode.usage chk) (hok : TreeOk w.mode root)
    (sched : List (Nat × Nat)) (s : State) (h : Sound w root s)
    (hu : UseInv fsId epoch allCalls s) :
    Sound w root (run w sched s) ∧ UseInv fsId epoch allCalls (run w sched s) := by
  induction sched generalizing s with
  | nil => exact ⟨h, hu⟩
  | cons c cs ih =>
    simp only [run, List.foldl_cons]
    rcases step_cases w s c with he | ⟨i, sel, he⟩
    · rw [he]; exact ih s h hu
    · rw [he]
      have hs := Sound_advance w root i sel s hok h
      exact ih _ hs (UseInv_advance chk w root fsId epoch allCalls i sel s hm h.good hs.noErr hu)

/-- The RPCs of a usage walk in which every RPC succeeds, under every schedule and every
concurrency bound, once the schedule is long enough for the walk to return: those of the
namespace, each once. -/
theorem usage_calls (root : Node) (fsId dirInode : Nat) (chk : Bool) (epoch threads : Nat)
    (sched : List (Nat × Nat)) (hok : TreeOk (Mode.usage chk) root)
    (hlen : walkBound root ≤ sched.length) :
    (callsOf (run ⟨Mode.usage chk, threads⟩ sched
      (initState fsId epoch 0 dirInode "" root)).shared.trace : Multiset Call) =
      usageCalls fsId epoch dirInode root := by
  have hinit := Sound_init ⟨Mode.usage chk, threads⟩ root fsId epoch 0 dirInode ""
  obtain ⟨hs, hu⟩ := use_run chk ⟨Mode.usage chk, threads⟩ root fsId epoch _ rfl hok sched _
    hinit (UseInv_init root fsId epoch 0 dirInode "")
  have hret := run_returns ⟨Mode.usage chk, threads⟩ sched _ hinit.wf
    (by simpa [initState, total, Frame.fuel, walkBound] using hlen)
  cases hr : topResult (run ⟨Mode.usage chk, threads⟩ sched
      (initState fsId epoch 0 dirInode "" root)) with
  | none => exact absurd hr hret
  | some r =>
    obtain ⟨_, hp⟩ := hs.frames_done r hr
    have hB := hu.calls
    rw [total_zero (pendUse fsId epoch) _ (fun f hf => pendUse_done _ _ f (hp f hf))] at hB
    simpa using hB

/-! ## Totals of a namespace: lemmas -/

theorem usageBytes_eq (chk : Bool) (root : Node) :
    usageBytes chk root = bytesOf chk root root.listed := rfl

theorem usageInodes_eq (chk : Bool) (root : Node) :
    usageInodes chk root = inodesOf chk root.listed := rfl

theorem mem_attrs_of_mem {root : Node} {e : Node} {a : Inode} (he : e ∈ root.listed)
    (ha : e.attr = some a) : a ∈ root.attrs := by
  unfold Node.attrs
  rw [List.mem_filterMap]
  exact ⟨e, he, ha⟩

/-- Without dedup every file adds its length and every entry counts once. -/
theorem plain_entry (chk : Bool) (root : Node) (h : chk = false ∨ NoHardlinks root) (e : Node)
    (he : e ∈ root.listed) :
    Node.bytes chk e = e.fileLength ∧ Node.count chk e = 1 ∧ Node.key chk e = 0 := by
  unfold Node.bytes Node.count Node.key Node.fileLength
  cases ha : e.attr with
  | none => simp
  | some a =>
    have hd : dedup chk a = false := by
      rcases h with h | h
      · simp [dedup, h]
      · have := h a (mem_attrs_of_mem he ha)
        simp [dedup]
        intro _
        exact this
    simp [hd]

theorem plain_totals (chk : Bool) (root : Node) (h : chk = false ∨ NoHardlinks root) :
    usageBytes chk root = fileBytes root ∧ usageInodes chk root = root.listed.length ∧
      Consistent chk root := by
  have hk : (root.listed.map (Node.key chk)).sum = 0 := by
    apply List.sum_eq_zero
    intro x hx
    obtain ⟨e, he, rfl⟩ := List.mem_map.mp hx
    exact (plain_entry chk root h e he).2.2
  have hb : root.listed.map (Node.bytes chk) = root.listed.map Node.fileLength :=
    List.map_congr_left fun e he => (plain_entry chk root h e he).1
  have hc : root.listed.map (Node.count chk) = root.listed.map fun _ => 1 :=
    List.map_congr_left fun e he => (plain_entry chk root h e he).2.1
  refine ⟨?_, ?_, ?_⟩
  · simp [usageBytes, fileBytes, hk, hb]
  · simp [usageInodes, hk, hc]
  · intro a ha b _ hda
    exfalso
    unfold Node.attrs at ha
    obtain ⟨e, he, hea⟩ := List.mem_filterMap.mp ha
    have := (plain_entry chk root h e he).2.2
    simp [Node.key, hea, hda] at this

theorem sum_map_filter_split {M : Type} [AddCommMonoid M] (f : Node → M) (p : Node → Bool)
    (l : List Node) :
    (l.map f).sum = ((l.filter fun e => !p e).map f).sum + ((l.filter p).map f).sum := by
  induction l with
  | nil => simp
  | cons e t ih =>
    cases hp : p e
    · simp [List.filter_cons, hp, ih, add_assoc]
    · simp only [List.map_cons, List.sum_cons, List.filter_cons, hp, Bool.not_true,
        Bool.false_eq_true, if_false, if_true, ih]
      abel

/-- The sequential walk of some entries of the namespace, from any state. -/
theorem foldl_visit (chk : Bool) (root : Node) (hc : Consistent chk root) (l : List Node)
    (hl : ∀ e ∈ l, e ∈ root.listed) (st : SeqState) :
    (l.foldl (visit chk) st).length % 2 ^ 64 =
      (st.length + (l.map (Node.bytes chk)).sum +
        ∑ y ∈ (l.map (Node.key chk)).sum.toFinset \ st.seen.toFinset, inodeLength chk root y) %
        2 ^ 64 ∧
    (l.foldl (visit chk) st).inodes % 2 ^ 64 =
      (st.inodes + (l.map (Node.count chk)).sum +
        ((l.map (Node.key chk)).sum.toFinset \ st.seen.toFinset).card) % 2 ^ 64 := by
  induction l generalizing st with
  | nil => simp
  | cons e t ih =>
    have ht : ∀ e ∈ t, e ∈ root.listed := fun x hx => hl x (by simp [hx])
    simp only [List.foldl_cons, List.map_cons, List.sum_cons]
    cases ha : e.attr with
    | none =>
      have hv : visit chk st e = { st with inodes := u64 (st.inodes + 1) } := by
        simp only [visit, ha]
      obtain ⟨i1, i2⟩ := ih ht (visit chk st e)
      rw [i1, i2, hv]
      simp only [Node.bytes, Node.count, Node.key, ha, zero_add, u64]
      constructor <;> first | trivial | omega
    | some a =>
      cases hd : dedup chk a
      · have hv : visit chk st e =
            { st with length := u64 (st.length + a.length), inodes := u64 (st.inodes + 1) } := by
          simp [visit, ha, hd]
        obtain ⟨i1, i2⟩ := ih ht (visit chk st e)
        rw [i1, i2, hv]
        simp only [Node.bytes, Node.count, Node.key, ha, hd, zero_add, u64,
          Bool.false_eq_true, if_false]
        constructor <;> first | trivial | omega
      · have hL := inodeLength_eq chk root hc a (mem_attrs_of_mem (hl e (by simp)) ha) hd
        by_cases hs : a.ino ∈ st.seen
        · have hv : visit chk st e = st := by
            simp [visit, ha, hd, hs]
          obtain ⟨i1, i2⟩ := ih ht (visit chk st e)
          rw [i1, i2, hv]
          have hs' : a.ino ∈ st.seen.toFinset := by simpa using hs
          simp only [Node.bytes, Node.count, Node.key, ha, hd, if_true, zero_add,
            Multiset.toFinset_add, Multiset.toFinset_singleton, ← Finset.insert_eq,
            Finset.insert_sdiff_of_mem _ hs', add_zero]
          exact ⟨trivial, trivial⟩
        · have hv : visit chk st e =
              { length := u64 (st.length + a.length), inodes := u64 (st.inodes + 1),
                seen := a.ino :: st.seen } := by
            simp [visit, ha, hd, hs]
          obtain ⟨i1, i2⟩ := ih ht (visit chk st e)
          rw [i1, i2, hv]
          have hs' : a.ino ∉ st.seen.toFinset := by simpa using hs
          have e1 := sum_insert_sdiff (inodeLength chk root) (t.map (Node.key chk)).sum.toFinset
            st.seen.toFinset a.ino hs'
          have e2 := card_insert_sdiff (t.map (Node.key chk)).sum.toFinset
            st.seen.toFinset a.ino hs'
          simp only [Node.bytes, Node.count, Node.key, ha, hd, if_true,
            zero_add, Multiset.toFinset_add, Multiset.toFinset_singleton, ← Finset.insert_eq,
            add_zero, List.toFinset_cons, u64, e1, e2, hL]
          constructor <;> first | trivial | omega

theorem sequentialWalk_eq (chk : Bool) (root : Node) (hc : Consistent chk root) :
    sequentialWalk chk root =
      (toInt64 (usageBytes chk root), toInt64 (usageInodes chk root + 1), none) := by
  obtain ⟨h1, h2⟩ := foldl_visit chk root hc root.listed (fun _ h => h)
    { length := 0, inodes := 0, seen := [] }
  simp only [List.toFinset_nil, Finset.sdiff_empty, zero_add] at h1 h2
  unfold sequentialWalk
  simp only
  rw [toInt64_congr _ _ h1, toInt64_congr (u64 _) (usageInodes chk root + 1)
    (by unfold u64 usageInodes; omega)]
  rfl

theorem mem_sum_map (f : Node → Multiset Nat) (l : List Node) (y : Nat) :
    y ∈ (l.map f).sum ↔ ∃ e ∈ l, y ∈ f e := by
  induction l with
  | nil => simp
  | cons e t ih => simp [ih]

theorem sum_map_const (f : Node → Nat) (c : Nat) (l : List Node) (h : ∀ e ∈ l, f e = c) :
    (l.map f).sum = l.length * c := by
  induction l with
  | nil => simp
  | cons e t ih =>
    simp only [List.map_cons, List.sum_cons, List.length_cons]
    rw [h e (by simp), ih fun x hx => h x (by simp [hx])]
    ring

theorem refers_attr {x : Nat} {e : Node} (h : e.refers x = true) :
    ∃ a, e.attr = some a ∧ a.ino = x := by
  unfold Node.refers at h
  cases ha : e.attr with
  | none => simp [ha] at h
  | some a => exact ⟨a, rfl, by simpa [ha] using h⟩

/-- Without dedup, `n` entries for one physical inode of length `L` add `n * L` bytes and count
`n` times. -/
theorem group_plain (root : Node) (x L n : Nat)
    (hG : ∀ e ∈ root.listed, ∀ a, e.attr = some a → a.ino = x → a.length = L)
    (hn : (root.listed.filter (Node.refers x)).length = n) :
    usageBytes false root =
      bytesOf false root (root.listed.filter fun e => !e.refers x) + n * L ∧
    usageInodes false root = inodesOf false (root.listed.filter fun e => !e.refers x) + n := by
  have hk : ∀ l : List Node, (l.map (Node.key false)).sum = 0 := by
    intro l
    apply List.sum_eq_zero
    intro y hy
    obtain ⟨e, _, rfl⟩ := List.mem_map.mp hy
    unfold Node.key
    cases e.attr <;> simp [dedup]
  have hb : ((root.listed.filter (Node.refers x)).map (Node.bytes false)).sum = n * L := by
    rw [← hn]
    apply sum_map_const
    intro e he
    obtain ⟨hm, hr⟩ := List.mem_filter.mp he
    obtain ⟨a, ha, hx⟩ := refers_attr hr
    simp [Node.bytes, ha, dedup, hG e hm a ha hx]
  have hc : ((root.listed.filter (Node.refers x)).map (Node.count false)).sum = n := by
    rw [← hn, sum_map_const (Node.count false) 1]
    · simp
    · intro e he
      obtain ⟨_, hr⟩ := List.mem_filter.mp he
      obtain ⟨a, ha, _⟩ := refers_attr hr
      simp [Node.count, ha, dedup]
  constructor
  · simp only [usageBytes, bytesOf, hk, Multiset.toFinset_zero, Finset.sum_empty, add_zero]
    rw [sum_map_filter_split (Node.bytes false) (Node.refers x), hb]
  · simp only [usageInodes, inodesOf, hk, Multiset.toFinset_zero, Finset.card_empty, add_zero]
    rw [sum_map_filter_split (Node.count false) (Node.refers x), hc]

/-- With dedup, `n >= 1` entries for one physical inode of length `L` and link count 2 or more
add `L` bytes and count once. -/
theorem group_dedup (root : Node) (x L n : Nat) (hc : Consistent true root)
    (hG : ∀ e ∈ root.listed, ∀ a, e.attr = some a → a.ino = x → 2 ≤ a.nlink ∧ a.length = L)
    (hn : (root.listed.filter (Node.refers x)).length = n) (h1 : 1 ≤ n) :
    usageBytes true root =
      bytesOf true root (root.listed.filter fun e => !e.refers x) + L ∧
    usageInodes true root = inodesOf true (root.listed.filter fun e => !e.refers x) + 1 := by
  have hg : ∀ e ∈ root.listed.filter (Node.refers x), ∃ a, e.attr = some a ∧ a.ino = x ∧
      dedup true a = true ∧ a.length = L ∧ a ∈ root.attrs := by
    intro e he
    obtain ⟨hm, hr⟩ := List.mem_filter.mp he
    obtain ⟨a, ha, hx⟩ := refers_attr hr
    obtain ⟨g1, g2⟩ := hG e hm a ha hx
    exact ⟨a, ha, hx, by simp [dedup, g1], g2, mem_attrs_of_mem hm ha⟩
  have hb : ((root.listed.filter (Node.refers x)).map (Node.bytes true)).sum = 0 := by
    apply List.sum_eq_zero
    intro y hy
    obtain ⟨e, he, rfl⟩ := List.mem_map.mp hy
    obtain ⟨a, ha, _, hd, _⟩ := hg e he
    simp [Node.bytes, ha, hd]
  have hcn : ((root.listed.filter (Node.refers x)).map (Node.count true)).sum = 0 := by
    apply List.sum_eq_zero
    intro y hy
    obtain ⟨e, he, rfl⟩ := List.mem_map.mp hy
    obtain ⟨a, ha, _, hd, _⟩ := hg e he
    simp [Node.count, ha, hd]
  obtain ⟨e0, he0⟩ : ∃ e0, e0 ∈ root.listed.filter (Node.refers x) := by
    cases hl : root.listed.filter (Node.refers x) with
    | nil => rw [hl] at hn; simp at hn; omega
    | cons e t => exact ⟨e, by simp⟩
  obtain ⟨a0, ha0, hx0, hd0, hL0, hm0⟩ := hg e0 he0
  have hLen : inodeLength true root x = L := by
    rw [← hx0, inodeLength_eq true root hc a0 hm0 hd0, hL0]
  have hkeys : (root.listed.map (Node.key true)).sum.toFinset =
      insert x ((root.listed.filter fun e => !e.refers x).map (Node.key true)).sum.toFinset := by
    ext y
    simp only [Multiset.mem_toFinset, Finset.mem_insert, mem_sum_map]
    constructor
    · rintro ⟨e, he, hy⟩
      by_cases hr : e.refers x = true
      · left
        obtain ⟨a, ha, hx, hd, _⟩ := hg e (List.mem_filter.mpr ⟨he, hr⟩)
        simp [Node.key, ha, hd] at hy
        rw [hy, hx]
      · right
        exact ⟨e, List.mem_filter.mpr ⟨he, by simpa using hr⟩, hy⟩
    · rintro (hy | ⟨e, he, hy⟩)
      · refine ⟨e0, (List.mem_filter.mp he0).1, ?_⟩
        simp [Node.key, ha0, hd0, hy, hx0]
      · exact ⟨e, (List.mem_filter.mp he).1, hy⟩
  have hnot : x ∉ ((root.listed.filter fun e => !e.refers x).map (Node.key true)).sum.toFinset := by
    simp only [Multiset.mem_toFinset, mem_sum_map]
    rintro ⟨e, he, hy⟩
    obtain ⟨_, hr⟩ := List.mem_filter.mp he
    unfold Node.key at hy
    cases ha : e.attr with
    | none => simp [ha] at hy
    | some a =>
      simp only [ha] at hy
      split_ifs at hy
      · simp at hy
        simp [Node.refers, ha, hy] at hr
      · simp at hy
  constructor
  · simp only [usageBytes, bytesOf, hkeys]
    rw [Finset.sum_insert hnot, hLen, sum_map_filter_split (Node.bytes true) (Node.refers x), hb]
    omega
  · simp only [usageInodes, inodesOf, hkeys]
    rw [Finset.card_insert_of_not_mem hnot,
      sum_map_filter_split (Node.count true) (Node.refers x), hcn]
    omega
/-! ## Claims about the usage walk -/

theorem scenarioTree_ok (chk : Bool) :
    TreeOk (Mode.usage chk) scenarioTree ∧ NoHardlinks scenarioTree ∧
      fileBytes scenarioTree = 30 ∧ scenarioTree.listed.length = 3 ∧
      walkBound scenarioTree = 64 := by
  refine ⟨?_, ?_, ?_, ?_, ?_⟩
  · simp [TreeOk, scenarioTree, dirEntry, fileEntry, Node.listed, listedList, Node.answersOk,
      Node.listErr, Node.entry, Node.getInode]
  · simp [NoHardlinks, Node.attrs, scenarioTree, dirEntry, fileEntry, Node.listed, listedList,
      Node.attr, Node.entry, Node.getInode]
  · simp [fileBytes, Node.fileLength, scenarioTree, dirEntry, fileEntry, Node.listed, listedList,
      Node.attr, Node.entry, Node.getInode]
  · simp [scenarioTree, dirEntry, fileEntry, Node.listed, listedList, Node.entry]
  · simp [walkBound, scenarioTree, dirEntry, fileEntry, sizeList, Node.size, Node.entries]

/-- C1 (amended): in a finite tree-shaped namespace in which every `ListDentry` and `GetInode`
call succeeds, with `isFsCheck = false` or no file of link count 2 or more, under every
concurrency bound and every schedule long enough for the walk to return,
`GetDirectorySizeAndInodes` returns with nil error `totalBytes` = the sum of the lengths of all
`FILE` entries of the subtree and `totalInodes` = the number of listed entries + 1, provided both
numbers are below 2^63 (the counters are `uint64`, the results `int64`); and on the tree
`/a{f1: 10 bytes, b{f2: 20 bytes}}` it returns `(30, 4)`. -/
theorem GetDirectorySizeAndInodes_totals :
    (∀ (root : Node) (fsId dirInode : Nat) (isFsCheck : Bool) (epoch threads : Nat)
      (sched : List (Nat × Nat)), TreeOk (Mode.usage isFsCheck) root →
      (isFsCheck = false ∨ NoHardlinks root) → walkBound root ≤ sched.length →
      fileBytes root < 2 ^ 63 → root.listed.length + 1 < 2 ^ 63 →
      GetDirectorySizeAndInodes root fsId dirInode isFsCheck epoch threads sched =
        some ((fileBytes root : Int), (root.listed.length : Int) + 1, none)) ∧
    (∀ (fsId dirInode : Nat) (isFsCheck : Bool) (epoch threads : Nat) (sched : List (Nat × Nat)),
      walkBound scenarioTree ≤ sched.length →
      GetDirectorySizeAndInodes scenarioTree fsId dirInode isFsCheck epoch threads sched =
        some (30, 4, none)) := by
  have general : ∀ (root : Node) (fsId dirInode : Nat) (isFsCheck : Bool) (epoch threads : Nat)
      (sched : List (Nat × Nat)), TreeOk (Mode.usage isFsCheck) root →
      (isFsCheck = false ∨ NoHardlinks root) → walkBound root ≤ sched.length →
      fileBytes root < 2 ^ 63 → root.listed.length + 1 < 2 ^ 63 →
      GetDirectorySizeAndInodes root fsId dirInode isFsCheck epoch threads sched =
        some ((fileBytes root : Int), (root.listed.length : Int) + 1, none) := by
    intro root fsId dirInode isFsCheck epoch threads sched hok hnl hlen hb hn
    obtain ⟨h1, h2, h3⟩ := plain_totals isFsCheck root hnl
    rw [usage_result root fsId dirInode isFsCheck epoch threads sched hok h3 hlen, h1, h2]
    have e1 : toInt64 (fileBytes root) = (fileBytes root : Int) := by
      have : fileBytes root % 2 ^ 64 = fileBytes root := Nat.mod_eq_of_lt (by omega)
      simp only [toInt64, this]
      rw [if_pos hb]
    have e2 : toInt64 (root.listed.length + 1) = (root.listed.length : Int) + 1 := by
      have : (root.listed.length + 1) % 2 ^ 64 = root.listed.length + 1 :=
        Nat.mod_eq_of_lt (by omega)
      simp only [toInt64, this]
      rw [if_pos hn]
      push_cast
      rfl
    rw [e1, e2]
  refine ⟨general, ?_⟩
  intro fsId dirInode isFsCheck epoch threads sched hlen
  obtain ⟨h1, h2, h3, h4, _⟩ := scenarioTree_ok isFsCheck
  have := general scenarioTree fsId dirInode isFsCheck epoch threads sched h1 (Or.inr h2) hlen
    (by rw [h3]; norm_num) (by rw [h4]; norm_num)
  rw [this, h3, h4]
  rfl

/-- Witness of `GetDirectorySizeAndInodes_totals` on the scenario tree with dedup on, 8 threads
and the schedule that always picks the first enabled frame. -/
theorem GetDirectorySizeAndInodes_totals_witness :
    TreeOk (Mode.usage true) scenarioTree ∧ NoHardlinks scenarioTree ∧
    walkBound scenarioTree ≤ (List.replicate 64 ((0 : Nat), (0 : Nat))).length ∧
    GetDirectorySizeAndInodes scenarioTree 1 2 true 7 8 (List.replicate 64 (0, 0)) =
      some (30, 4, none) :=
  ⟨(scenarioTree_ok true).1, (scenarioTree_ok true).2.1,
    by rw [(scenarioTree_ok true).2.2.2.2]; simp,
    GetDirectorySizeAndInodes_totals.2 1 2 true 7 8 (List.replicate 64 (0, 0))
      (by rw [(scenarioTree_ok true).2.2.2.2]; simp)⟩

theorem overflowTree_ok :
    TreeOk (Mode.usage false) overflowTree ∧ fileBytes overflowTree = 2 ^ 63 ∧
      overflowTree.listed.length = 2 ∧ walkBound overflowTree = 46 := by
  refine ⟨?_, ?_, ?_, ?_⟩
  · simp [TreeOk, overflowTree, dirEntry, fileEntry, Node.listed, listedList, Node.answersOk,
      Node.listErr, Node.entry, Node.getInode]
  · simp [fileBytes, Node.fileLength, overflowTree, dirEntry, fileEntry, Node.listed, listedList,
      Node.attr, Node.entry, Node.getInode]
  · simp [overflowTree, dirEntry, fileEntry, Node.listed, listedList, Node.entry]
  · simp [walkBound, overflowTree, dirEntry, fileEntry, sizeList, Node.size, Node.entries]

/-- C1 (counterexample): on a directory with two files of 2^62 bytes each, with every RPC
succeeding and `isFsCheck = false`, the sum of the file lengths is 2^63 but
`GetDirectorySizeAndInodes` returns `totalBytes = -2^63`: `int64(summary.Length)` wraps. -/
theorem GetDirectorySizeAndInodes_overflow :
    TreeOk (Mode.usage false) overflowTree ∧
    walkBound overflowTree ≤ (List.replicate 46 ((0 : Nat), (0 : Nat))).length ∧
    (fileBytes overflowTree : Int) = 9223372036854775808 ∧
    GetDirectorySizeAndInodes overflowTree 1 2 false 7 8 (List.replicate 46 (0, 0)) =
      some (-9223372036854775808, 3, none) := by
  obtain ⟨h1, h2, h3, h4⟩ := overflowTree_ok
  refine ⟨h1, by rw [h4]; simp, by rw [h2]; norm_num, ?_⟩
  obtain ⟨p1, p2, p3⟩ := plain_totals false overflowTree (Or.inl rfl)
  rw [usage_result overflowTree 1 2 false 7 8 _ h1 p3 (by rw [h4]; simp), p1, p2, h2, h3]
  simp [toInt64]
theorem hardlinkTree_ok (L : Nat) (chk : Bool) :
    TreeOk (Mode.usage chk) (hardlinkTree L) ∧ Consistent chk (hardlinkTree L) ∧
      walkBound (hardlinkTree L) = 46 ∧
      (∀ e ∈ (hardlinkTree L).listed, ∀ a, e.attr = some a → a.ino = 7 →
        2 ≤ a.nlink ∧ a.length = L) ∧
      ((hardlinkTree L).listed.filter (Node.refers 7)).length = 2 ∧
      (hardlinkTree L).listed.filter (fun e => !e.refers 7) = [] := by
  refine ⟨?_, ?_, ?_, ?_, ?_, ?_⟩
  · simp [TreeOk, hardlinkTree, dirEntry, fileEntry, Node.listed, listedList, Node.answersOk,
      Node.listErr, Node.entry, Node.getInode]
  · intro a ha b hb _ _ _
    simp [Node.attrs, hardlinkTree, dirEntry, fileEntry, Node.listed, listedList,
      Node.attr, Node.entry, Node.getInode] at ha hb
    rw [ha, hb]
  · simp [walkBound, hardlinkTree, dirEntry, fileEntry, sizeList, Node.size, Node.entries]
  · intro e he a ha _
    simp [hardlinkTree, dirEntry, fileEntry, Node.listed, listedList, Node.entry] at he
    rcases he with he | he <;> subst he <;>
      simp [Node.attr, Node.entry, Node.getInode] at ha <;> subst ha <;> simp
  · simp [hardlinkTree, dirEntry, fileEntry, Node.listed, listedList, Node.entry, Node.refers,
      Node.attr, Node.getInode, List.filter]
  · simp [hardlinkTree, dirEntry, fileEntry, Node.listed, listedList, Node.entry, Node.refers,
      Node.attr, Node.getInode, List.filter]

/-- C4: hardlink dedup of bytes.  In a namespace in which every RPC of the usage walk succeeds,
let `n >= 2` listed entries reference the physical inode `x`, each with link count 2 or more and
length `L`.  Under every concurrency bound and every schedule long enough for the walk to return,
`GetDirectorySizeAndInodes` with `isFsCheck = true` returns what the other entries add plus `L`
once, and with `isFsCheck = false` what the other entries add plus `n * L`; for two entries
alone in a directory these are `L` and `2 * L`. -/
theorem GetDirectorySizeAndInodes_hardlink_bytes :
    (∀ (root : Node) (x L n fsId dirInode epoch threads : Nat) (sched : List (Nat × Nat)),
      (∀ chk, TreeOk (Mode.usage chk) root) → Consistent true root →
      (∀ e ∈ root.listed, ∀ a, e.attr = some a → a.ino = x → 2 ≤ a.nlink ∧ a.length = L) →
      (root.listed.filter (Node.refers x)).length = n → 2 ≤ n →
      walkBound root ≤ sched.length →
      (GetDirectorySizeAndInodes root fsId dirInode true epoch threads sched).map (fun r => r.1) =
        some (toInt64 (bytesOf true root (root.listed.filter fun e => !e.refers x) + L)) ∧
      (GetDirectorySizeAndInodes root fsId dirInode false epoch threads sched).map (fun r => r.1) =
        some (toInt64 (bytesOf false root (root.listed.filter fun e => !e.refers x) + n * L))) ∧
    (∀ (L fsId dirInode epoch threads : Nat) (sched : List (Nat × Nat)), L < 2 ^ 62 →
      walkBound (hardlinkTree L) ≤ sched.length →
      (GetDirectorySizeAndInodes (hardlinkTree L) fsId dirInode true epoch threads sched).map
        (fun r => r.1) = some (L : Int) ∧
      (GetDirectorySizeAndInodes (hardlinkTree L) fsId dirInode false epoch threads sched).map
        (fun r => r.1) = some (2 * (L : Int))) := by
  have general : ∀ (root : Node) (x L n fsId dirInode epoch threads : Nat)
      (sched : List (Nat × Nat)),
      (∀ chk, TreeOk (Mode.usage chk) root) → Consistent true root →
      (∀ e ∈ root.listed, ∀ a, e.attr = some a → a.ino = x → 2 ≤ a.nlink ∧ a.length = L) →
      (root.listed.filter (Node.refers x)).length = n → 2 ≤ n →
      walkBound root ≤ sched.length →
      (GetDirectorySizeAndInodes root fsId dirInode true epoch threads sched).map (fun r => r.1) =
        some (toInt64 (bytesOf true root (root.listed.filter fun e => !e.refers x) + L)) ∧
      (GetDirectorySizeAndInodes root fsId dirInode false epoch threads sched).map (fun r => r.1) =
        some (toInt64 (bytesOf false root (root.listed.filter fun e => !e.refers x) + n * L)) := by
    intro root x L n fsId dirInode epoch threads sched hok hc hG hn h2 hlen
    have g1 := (group_dedup root x L n hc hG hn (by omega)).1
    have g2 := (group_plain root x L n (fun e he a ha hx => (hG e he a ha hx).2) hn).1
    rw [usage_result root fsId dirInode true epoch threads sched (hok true) hc hlen,
      usage_result root fsId dirInode false epoch threads sched (hok false)
        (plain_totals false root (Or.inl rfl)).2.2 hlen, g1, g2]
    exact ⟨rfl, rfl⟩
  refine ⟨general, ?_⟩
  intro L fsId dirInode epoch threads sched hL hlen
  obtain ⟨_, k2, _, k4, k5, k6⟩ := hardlinkTree_ok L true
  obtain ⟨r1, r2⟩ := general (hardlinkTree L) 7 L 2 fsId dirInode epoch threads sched
    (fun chk => (hardlinkTree_ok L chk).1) k2 k4 k5 (le_refl _) hlen
  rw [r1, r2, k6]
  have e1 : toInt64 (bytesOf true (hardlinkTree L) [] + L) = (L : Int) := by
    have h1 : (bytesOf true (hardlinkTree L) [] + L) % 2 ^ 64 = L := by
      simp [bytesOf]; omega
    simp only [toInt64, h1]
    rw [if_pos (by omega)]
  have e2 : toInt64 (bytesOf false (hardlinkTree L) [] + 2 * L) = 2 * (L : Int) := by
    have h1 : (bytesOf false (hardlinkTree L) [] + 2 * L) % 2 ^ 64 = 2 * L := by
      simp [bytesOf]; omega
    simp only [toInt64, h1]
    rw [if_pos (by omega)]
    push_cast
    rfl
  rw [e1, e2]
  exact ⟨rfl, rfl⟩

/-- Witness of `GetDirectorySizeAndInodes_hardlink_bytes`: two entries for one inode of 5 bytes. -/
theorem GetDirectorySizeAndInodes_hardlink_bytes_witness :
    (5 : Nat) < 2 ^ 62 ∧
    walkBound (hardlinkTree 5) ≤ (List.replicate 46 ((0 : Nat), (0 : Nat))).length ∧
    (GetDirectorySizeAndInodes (hardlinkTree 5) 1 2 true 7 8 (List.replicate 46 (0, 0))).map
      (fun r => r.1) = some ((5 : Nat) : Int) ∧
    (GetDirectorySizeAndInodes (hardlinkTree 5) 1 2 false 7 8 (List.replicate 46 (0, 0))).map
      (fun r => r.1) = some (2 * ((5 : Nat) : Int)) :=
  ⟨by norm_num, by rw [(hardlinkTree_ok 5 true).2.2.1]; simp,
    GetDirectorySizeAndInodes_hardlink_bytes.2 5 1 2 7 8 (List.replicate 46 (0, 0))
      (by norm_num) (by rw [(hardlinkTree_ok 5 true).2.2.1]; simp)⟩


/-- C5 (amended): hardlink dedup and the inode-occurrence count.  In a namespace in which every
RPC of the usage walk succeeds, let `n >= 2` listed entries reference the physical inode `x`, each
with link count 2 or more.  Under every concurrency bound and every schedule long enough for the
walk to return, the walk with `isFsCheck = false` counts these entries `n` times, and the walk
with `isFsCheck = true` counts them once: a deduplicated entry is skipped whole by `continue`,
bytes and inode occurrence alike.  For two entries alone in a directory `totalInodes` is
`1 + 1` with dedup and `2 + 1` without (the `+ 1` is the root). -/
theorem GetDirectorySizeAndInodes_hardlink_inodes :
    (∀ (root : Node) (x L n fsId dirInode epoch threads : Nat) (sched : List (Nat × Nat)),
      (∀ chk, TreeOk (Mode.usage chk) root) → Consistent true root →
      (∀ e ∈ root.listed, ∀ a, e.attr = some a → a.ino = x → 2 ≤ a.nlink ∧ a.length = L) →
      (root.listed.filter (Node.refers x)).length = n → 2 ≤ n →
      walkBound root ≤ sched.length →
      (GetDirectorySizeAndInodes root fsId dirInode true epoch threads sched).map
        (fun r => r.2.1) =
        some (toInt64 (inodesOf true (root.listed.filter fun e => !e.refers x) + 1 + 1)) ∧
      (GetDirectorySizeAndInodes root fsId dirInode false epoch threads sched).map
        (fun r => r.2.1) =
        some (toInt64 (inodesOf false (root.listed.filter fun e => !e.refers x) + n + 1))) ∧
    (∀ (L fsId dirInode epoch threads : Nat) (sched : List (Nat × Nat)),
      walkBound (hardlinkTree L) ≤ sched.length →
      (GetDirectorySizeAndInodes (hardlinkTree L) fsId dirInode true epoch threads sched).map
        (fun r => r.2.1) = some 2 ∧
      (GetDirectorySizeAndInodes (hardlinkTree L) fsId dirInode false epoch threads sched).map
        (fun r => r.2.1) = some 3) := by
  have general : ∀ (root : Node) (x L n fsId dirInode epoch threads : Nat)
      (sched : List (Nat × Nat)),
      (∀ chk, TreeOk (Mode.usage chk) root) → Consistent true root →
      (∀ e ∈ root.listed, ∀ a, e.attr = some a → a.ino = x → 2 ≤ a.nlink ∧ a.length = L) →
      (root.listed.filter (Node.refers x)).length = n → 2 ≤ n →
      walkBound root ≤ sched.length →
      (GetDirectorySizeAndInodes root fsId dirInode true epoch threads sched).map
        (fun r => r.2.1) =
        some (toInt64 (inodesOf true (root.listed.filter fun e => !e.refers x) + 1 + 1)) ∧
      (GetDirectorySizeAndInodes root fsId dirInode false epoch threads sched).map
        (fun r => r.2.1) =
        some (toInt64 (inodesOf false (root.listed.filter fun e => !e.refers x) + n + 1)) := by
    intro root x L n fsId dirInode epoch threads sched hok hc hG hn h2 hlen
    have g1 := (group_dedup root x L n hc hG hn (by omega)).2
    have g2 := (group_plain root x L n (fun e he a ha hx => (hG e he a ha hx).2) hn).2
    rw [usage_result root fsId dirInode true epoch threads sched (hok true) hc hlen,
      usage_result root fsId dirInode false epoch threads sched (hok false)
        (plain_totals false root (Or.inl rfl)).2.2 hlen, g1, g2]
    exact ⟨rfl, rfl⟩
  refine ⟨general, ?_⟩
  intro L fsId dirInode epoch threads sched hlen
  obtain ⟨_, k2, _, k4, k5, k6⟩ := hardlinkTree_ok L true
  obtain ⟨r1, r2⟩ := general (hardlinkTree L) 7 L 2 fsId dirInode epoch threads sched
    (fun chk => (hardlinkTree_ok L chk).1) k2 k4 k5 (le_refl _) hlen
  rw [r1, r2, k6]
  simp [inodesOf, toInt64]

/-- Witness of `GetDirectorySizeAndInodes_hardlink_inodes`: two entries for one inode. -/
theorem GetDirectorySizeAndInodes_hardlink_inodes_witness :
    walkBound (hardlinkTree 5) ≤ (List.replicate 46 ((0 : Nat), (0 : Nat))).length ∧
    (GetDirectorySizeAndInodes (hardlinkTree 5) 1 2 true 7 8 (List.replicate 46 (0, 0))).map
      (fun r => r.2.1) = some 2 ∧
    (GetDirectorySizeAndInodes (hardlinkTree 5) 1 2 false 7 8 (List.replicate 46 (0, 0))).map
      (fun r => r.2.1) = some 3 :=
  ⟨by rw [(hardlinkTree_ok 5 true).2.2.1]; simp,
    GetDirectorySizeAndInodes_hardlink_inodes.2 5 1 2 7 8 (List.replicate 46 (0, 0))
      (by rw [(hardlinkTree_ok 5 true).2.2.1]; simp)⟩

set_option maxRecDepth 100000 in
/-- C5 (counterexample): a directory holding two entries for one physical inode (link count 2,
5 bytes).  With `isFsCheck = true` the walk returns `totalInodes = 2`: the two entries have
incremented the counter by 1, not by 2 (the other 1 is the root); with `isFsCheck = false` it
returns 3. -/
theorem GetDirectorySizeAndInodes_dedup_skips_inode :
    GetDirectorySizeAndInodes (hardlinkTree 5) 1 2 true 7 8 (List.replicate 46 (0, 0)) =
      some (5, 2, none) ∧
    GetDirectorySizeAndInodes (hardlinkTree 5) 1 2 false 7 8 (List.replicate 46 (0, 0)) =
      some (10, 3, none) := by
  decide

/-- C6: determinism across concurrency levels.  For every finite tree in which every RPC of the
usage walk succeeds and one physical inode has one length, for every concurrency bound
`threads` and every schedule (which frame moves next, and so which sub-directories find a free
slot and are spawned and which are walked inline) long enough for the walk to return,
`GetDirectorySizeAndInodes` returns what the purely sequential walk returns. -/
theorem GetDirectorySizeAndInodes_deterministic (root : Node) (fsId dirInode : Nat)
    (isFsCheck : Bool) (epoch threads : Nat) (sched : List (Nat × Nat))
    (hok : TreeOk (Mode.usage isFsCheck) root) (hc : Consistent isFsCheck root)
    (hlen : walkBound root ≤ sched.length) :
    GetDirectorySizeAndInodes root fsId dirInode isFsCheck epoch threads sched =
      some (sequentialWalk isFsCheck root) := by
  rw [usage_result root fsId dirInode isFsCheck epoch threads sched hok hc hlen,
    sequentialWalk_eq isFsCheck root hc]

/-- Witness of `GetDirectorySizeAndInodes_deterministic`: the hardlink tree with dedup on, 64
threads, under the schedule that always picks the last enabled frame. -/
theorem GetDirectorySizeAndInodes_deterministic_witness :
    TreeOk (Mode.usage true) (hardlinkTree 5) ∧ Consistent true (hardlinkTree 5) ∧
    walkBound (hardlinkTree 5) ≤ (List.replicate 46 ((7 : Nat), (2 : Nat))).length ∧
    GetDirectorySizeAndInodes (hardlinkTree 5) 1 2 true 7 64 (List.replicate 46 (7, 2)) =
      some (sequentialWalk true (hardlinkTree 5)) :=
  ⟨(hardlinkTree_ok 5 true).1, (hardlinkTree_ok 5 true).2.1,
    by rw [(hardlinkTree_ok 5 true).2.2.1]; simp,
    GetDirectorySizeAndInodes_deterministic (hardlinkTree 5) 1 2 true 7 64
      (List.replicate 46 (7, 2)) (hardlinkTree_ok 5 true).1 (hardlinkTree_ok 5 true).2.1
      (by rw [(hardlinkTree_ok 5 true).2.2.1]; simp)⟩


/-! ## Claims about the delete walk -/

/-- C2: in a finite tree-shaped namespace in which every `ListDentry`, `DeleteFile` and
`DeleteDirectory` call succeeds, under every concurrency bound and every schedule long enough
for the walk to return, `deleteDirectory` issues exactly one `DeleteFile` per non-directory
entry of the subtree and exactly one `DeleteDirectory` per directory of the subtree and for the
target (the delete calls of the trace, as a multiset, are one call per listed entry plus the
call for the target), and returns a summary with `Inodes` = number of entries + 1 (a count that
fits the `uint64` counter) and nil error; on the tree `/a{f1, b{f2}}` it deletes `f1`, `f2`,
then `b`, then `a`, in this order, and reports 4. -/
theorem deleteDirectory_deletes_subtree :
    (∀ (root : Node) (fsId epoch parentInodeId dirInodeId : Nat) (name : String)
      (threads : Nat) (sched : List (Nat × Nat)), TreeOk Mode.delete root →
      walkBound root ≤ sched.length → root.listed.length + 1 < 2 ^ 64 →
      deleteDirectory root fsId epoch parentInodeId dirInodeId name threads sched =
        some (some (root.listed.length + 1), none) ∧
      (deletesOf (run ⟨Mode.delete, threads⟩ sched
        (initState fsId epoch parentInodeId dirInodeId name root)).shared.trace :
          Multiset Call) =
        (root.listed.map (Node.deleteCall fsId epoch) : Multiset Call) +
          {Call.DeleteDirectory fsId parentInodeId name epoch}) ∧
    (∀ (threads : Nat) (sched : List (Nat × Nat)), walkBound scenarioTree ≤ sched.length →
      deleteDirectory scenarioTree 1 7 1 2 "a" threads sched = some (some 4, none) ∧
      deletesOf (run ⟨Mode.delete, threads⟩ sched
        (initState 1 7 1 2 "a" scenarioTree)).shared.trace =
        [Call.DeleteFile 1 2 "f1" 7, Call.DeleteFile 1 4 "f2" 7,
         Call.DeleteDirectory 1 2 "b" 7, Call.DeleteDirectory 1 1 "a" 7]) := by
  constructor
  · intro root fsId epoch parentInodeId dirInodeId name threads sched hok hlen hn
    obtain ⟨h1, h2⟩ := delete_result root fsId epoch parentInodeId dirInodeId name threads sched
      hok hlen
    refine ⟨by rw [h1, Nat.mod_eq_of_lt hn], ?_⟩
    rw [deletesOf_eq_filter, ← filter_deleteCalls, ← h2, Multiset.filter_coe]
    congr 2
    funext c
    simp
  · intro threads sched hlen
    have hret := run_returns ⟨Mode.delete, threads⟩ sched _ (WF_init 1 7 1 2 "a" scenarioTree)
      (by simpa [initState, total, Frame.fuel, walkBound] using hlen)
    have hmem := closedUnder_run Mode.delete _ scenarioDeleteStates_closed.1 threads sched _
      scenarioDeleteStates_closed.2
    obtain ⟨k1, k2, k3⟩ := scenarioDeleteStates_order _ hmem hret
    refine ⟨?_, k3⟩
    unfold deleteDirectory
    simp only [k1, k2]

/-- Witness of `deleteDirectory_deletes_subtree` on the scenario tree with 2 threads. -/
theorem deleteDirectory_deletes_subtree_witness :
    TreeOk Mode.delete scenarioTree ∧
    walkBound scenarioTree ≤ (List.replicate 64 ((1 : Nat), (0 : Nat))).length ∧
    deleteDirectory scenarioTree 1 7 1 2 "a" 2 (List.replicate 64 (1, 0)) =
      some (some 4, none) ∧
    deletesOf (run ⟨Mode.delete, 2⟩ (List.replicate 64 (1, 0))
      (initState 1 7 1 2 "a" scenarioTree)).shared.trace =
      [Call.DeleteFile 1 2 "f1" 7, Call.DeleteFile 1 4 "f2" 7,
       Call.DeleteDirectory 1 2 "b" 7, Call.DeleteDirectory 1 1 "a" 7] :=
  ⟨scenarioTree_delete_ok, by rw [(scenarioTree_ok true).2.2.2.2]; simp,
    deleteDirectory_deletes_subtree.2 2 (List.replicate 64 (1, 0))
      (by rw [(scenarioTree_ok true).2.2.2.2]; simp)⟩

/-! ## Post-order deletion -/

theorem stepFrame_DStep (K : Nat) (frames : List Frame) (sh : Shared) (i sel : Nat) (f : Frame)
    (o : Outcome) (h : stepFrame ⟨Mode.delete, K⟩ frames sh i sel f = some o)
    (h1 : (∀ a, f.pc ≠ PC.gotInode a) ∧ (∀ a, f.pc ≠ PC.addLength a))
    (h2 : f.pc = PC.select → ∃ e t, f.todo = e :: t)
    (h3 : (f.pc = PC.wgDone ∨ f.pc = PC.finished ∨ ∃ r, f.pc = PC.send r) →
      ∃ p, f.kind = Kind.spawned p) :
    DStep frames sh i f o := by
  obtain ⟨h1a, h1b⟩ := h1
  cases hpc : f.pc with
  | list =>
    simp only [stepFrame, hpc] at h
    cases hl : f.dir.listErr with
    | none => simp only [hl, Option.some.injEq] at h; subst h; exact DStep.listOk hpc hl
    | some e => simp only [hl, Option.some.injEq] at h; subst h; exact DStep.listErr e hpc hl
  | loop =>
    simp only [stepFrame, hpc] at h
    cases ht : f.todo with
    | nil => simp only [ht, Option.some.injEq] at h; subst h; exact DStep.loopNil hpc ht
    | cons e t =>
      simp only [ht] at h
      by_cases hty : e.entry.type = FileType.DIRECTORY
      · simp only [hty, ne_eq, not_true_eq_false, ite_false, Option.some.injEq] at h
        subst h; exact DStep.loopDir e t hpc ht hty
      · simp only [ne_eq, hty, not_false_eq_true, ite_true] at h
        cases hd : e.delErr with
        | none =>
          simp only [hd, Option.some.injEq] at h; subst h
          exact DStep.fileOk e t hpc ht hty hd
        | some err =>
          simp only [hd, Option.some.injEq] at h; subst h
          exact DStep.fileErr e t err hpc ht hty hd
  | gotInode a => exact absurd hpc (h1a a)
  | addLength a => exact absurd hpc (h1b a)
  | addInodes =>
    simp only [stepFrame, hpc, Option.some.injEq] at h
    subst h; exact DStep.addInodes hpc
  | select =>
    obtain ⟨e, t, ht⟩ := h2 hpc
    simp only [stepFrame, hpc, ht] at h
    split at h
    · simp only [Option.some.injEq] at h; subst h
      have := @DStep.selInline frames sh i f e t hpc ht
      rw [ht] at this
      exact this
    · split at h
      · simp only [Option.some.injEq] at h; subst h; exact DStep.selRecv e t _ hpc ht
      · simp only [Option.some.injEq] at h; subst h; exact DStep.selCtx e t hpc ht
      · simp only [Option.some.injEq] at h; subst h
        have := @DStep.selAcquire frames sh i f e t hpc ht
        rw [ht] at this
        exact this
  | cancel err =>
    simp only [stepFrame, hpc, Option.some.injEq] at h
    subst h; exact DStep.cancel err hpc
  | call c =>
    simp only [stepFrame, hpc] at h
    cases hg : frames[c]? with
    | none => simp [hg] at h
    | some g =>
      simp only [hg] at h
      split at h
      · simp only [Option.some.injEq] at h; subst h; exact DStep.callOk c g hpc hg (by assumption)
      · simp only [Option.some.injEq] at h; subst h
        exact DStep.callErr c g _ hpc hg (by assumption)
      · simp at h
  | wait =>
    simp only [stepFrame, hpc] at h
    split at h
    · simp only [Option.some.injEq] at h; subst h; exact DStep.wait hpc (by assumption)
    · simp at h
  | final =>
    simp only [stepFrame, hpc] at h
    cases he : sh.errCh.getD i none with
    | some err =>
      simp only [he, Option.some.injEq] at h; subst h; exact DStep.finalTake err hpc he
    | none =>
      simp only [he] at h
      cases hd : f.dir.delErr with
      | none => simp only [hd, Option.some.injEq] at h; subst h; exact DStep.finalOk hpc he hd
      | some err =>
        simp only [hd, Option.some.injEq] at h; subst h; exact DStep.finalErr err hpc he hd
  | countSelf =>
    simp only [stepFrame, hpc, Option.some.injEq] at h
    subst h; exact DStep.countSelf hpc
  | ret r =>
    simp only [stepFrame, hpc] at h
    split at h
    · simp only [Option.some.injEq] at h; subst h; exact DStep.release _ r hpc (by assumption)
    · simp at h
  | send r =>
    obtain ⟨p, hk⟩ := h3 (Or.inr (Or.inr ⟨r, hpc⟩))
    simp only [stepFrame, hpc, hk] at h
    cases r with
    | none => simp only [Option.some.injEq] at h; subst h; exact DStep.sendNone hpc
    | some err =>
      simp only at h
      cases he : sh.errCh.getD p none with
      | none => simp only [he, Option.some.injEq] at h; subst h; exact DStep.sendErr p err hpc hk he
      | some e1 =>
        simp only [he, Option.some.injEq] at h; subst h; exact DStep.sendFull p err e1 hpc hk he
  | wgDone =>
    simp only [stepFrame, hpc, Option.some.injEq] at h
    subst h; exact DStep.wgDone hpc
  | finished => simp [stepFrame, hpc] at h

theorem after_frames (s : State) (i0 : Nat) (f : Frame) (o : Outcome)
    (hf : s.frames[i0]? = some f) (j : Nat) (g : Frame)
    (hg : (after s i0 o).frames[j]? = some g) :
    (j = i0 ∧ g = o.frame) ∨ (j ≠ i0 ∧ s.frames[j]? = some g) ∨
      (j = s.frames.length ∧ o.child = some g) := by
  unfold after at hg
  simp only at hg
  rw [getElem?_set_append _ _ _ f _ _ hf] at hg
  split_ifs at hg with h1 h2 h3
  · left; exact ⟨h1, (Option.some.inj hg).symm⟩
  · right; left; exact ⟨h1, hg⟩
  · right; right; exact ⟨h3, hg⟩

theorem after_old (s : State) (i0 : Nat) (f : Frame) (o : Outcome)
    (hf : s.frames[i0]? = some f) (j : Nat) (g : Frame) (hg : s.frames[j]? = some g) :
    (j = i0 ∧ g = f ∧ (after s i0 o).frames[j]? = some o.frame) ∨
      (j ≠ i0 ∧ (after s i0 o).frames[j]? = some g) := by
  have hj : j < s.frames.length := (List.getElem?_eq_some.mp hg).1
  unfold after
  simp only
  rw [getElem?_set_append _ _ _ f _ _ hf]
  by_cases h1 : j = i0
  · left
    subst h1
    rw [hf] at hg
    exact ⟨rfl, (Option.some.inj hg).symm, by simp⟩
  · right; simp [h1, hj, hg]

theorem after_length (s : State) (i0 : Nat) (o : Outcome) :
    s.frames.length ≤ (after s i0 o).frames.length := by
  simp [after]

theorem DStep.static {frames : List Frame} {sh : Shared} {i : Nat} {f : Frame} {o : Outcome}
    (h : DStep frames sh i f o) :
    o.frame.kind = f.kind ∧ o.frame.dir = f.dir ∧ o.frame.fsId = f.fsId ∧
      o.frame.epoch = f.epoch ∧ o.frame.parentInodeId = f.parentInodeId ∧
      o.frame.name = f.name := by
  cases h <;> simp [returns, goto, continue_]

theorem DStep.child {frames : List Frame} {sh : Shared} {i : Nat} {f : Frame} {o : Outcome}
    (h : DStep frames sh i f o) (c : Frame) (hc : o.child = some c) :
    f.pc = PC.select ∧ c.pc = PC.list ∧ c.todo = [] ∧ c.childOf i ∧
      ∃ e t, f.todo = e :: t ∧ c.dir = e ∧
        ((c.kind = Kind.inline i ∧ o.frame.pc = PC.call frames.length ∧ o.frame.todo = f.todo) ∨
         (c.kind = Kind.spawned i ∧ o.frame.pc = PC.loop ∧ o.frame.todo = t)) := by
  cases h <;> simp [returns, goto, continue_] at hc
  · subst hc
    refine ⟨by assumption, rfl, rfl, Or.inl rfl, ?_⟩
    rename_i e t hpc ht
    exact ⟨e, t, ht, rfl, Or.inl ⟨rfl, rfl, rfl⟩⟩
  · subst hc
    refine ⟨by assumption, rfl, rfl, Or.inr rfl, ?_⟩
    rename_i e t hpc ht
    exact ⟨e, t, ht, rfl, Or.inr ⟨rfl, rfl, by simp [ht]⟩⟩

theorem DStep.trace {frames : List Frame} {sh : Shared} {i : Nat} {f : Frame} {o : Outcome}
    (h : DStep frames sh i f o) :
    ∃ evs, o.shared.trace = sh.trace ++ evs ∧ ∀ ev ∈ evs, ev.frame = i := by
  cases h
  all_goals simp only [returns, goto, continue_, Shared.log, List.append_assoc]
  all_goals first
    | exact ⟨[], (List.append_nil _).symm, fun _ h => absurd h (List.not_mem_nil _)⟩
    | exact ⟨_, rfl, by simp [Event.frame]⟩

theorem after_trace (s : State) (i0 : Nat) (o : Outcome) :
    (after s i0 o).shared.trace = o.shared.trace := rfl

theorem Post.len_after {s : State} {i0 : Nat} {f : Frame} {o : Outcome} (h : Post s)
    (hd : DStep s.frames s.shared i0 f o) :
    (after s i0 o).shared.errCh.length = (after s i0 o).frames.length := by
  have := h.len
  cases hd <;> simp [after, returns, goto, continue_, Shared.log, this]

theorem Post.evs_after {s : State} {i0 : Nat} {f : Frame} {o : Outcome} (h : Post s)
    (hf : s.frames[i0]? = some f) (hd : DStep s.frames s.shared i0 f o) :
    ∀ ev ∈ (after s i0 o).shared.trace, ev.frame < (after s i0 o).frames.length := by
  intro ev hev
  have hi : i0 < s.frames.length := (List.getElem?_eq_some.mp hf).1
  have hl := after_length s i0 o
  obtain ⟨evs, h1, h2⟩ := hd.trace
  rw [after_trace, h1, List.mem_append] at hev
  rcases hev with hev | hev
  · exact lt_of_lt_of_le (h.evs ev hev) hl
  · rw [h2 ev hev]; omega

theorem Post.pcs_after {s : State} {i0 : Nat} {f : Frame} {o : Outcome} (h : Post s)
    (hf : s.frames[i0]? = some f) (hd : DStep s.frames s.shared i0 f o) :
    ∀ (i : Nat) (fi : Frame), (after s i0 o).frames[i]? = some fi →
      (∀ a, fi.pc ≠ PC.gotInode a) ∧ (∀ a, fi.pc ≠ PC.addLength a) := by
  intro i fi hfi
  rcases after_frames s i0 f o hf i fi hfi with ⟨rfl, rfl⟩ | ⟨_, hold⟩ | ⟨rfl, hc⟩
  · cases hd <;> simp [returns, goto, continue_]
  · exact h.pcs i fi hold
  · obtain ⟨_, hp, _⟩ := hd.child fi hc
    simp [hp]

/-- The events a step of frame `i0` adds do not belong to another frame. -/
theorem DStep.mem_trace {frames : List Frame} {sh : Shared} {i : Nat} {f : Frame} {o : Outcome}
    (h : DStep frames sh i f o) (ev : Event) (hev : ev ∈ o.shared.trace) (hne : ev.frame ≠ i) :
    ev ∈ sh.trace := by
  obtain ⟨evs, h1, h2⟩ := h.trace
  rw [h1, List.mem_append] at hev
  rcases hev with hev | hev
  · exact hev
  · exact absurd (h2 ev hev) hne

theorem DStep.trace_mono {frames : List Frame} {sh : Shared} {i : Nat} {f : Frame} {o : Outcome}
    (h : DStep frames sh i f o) (ev : Event) (hev : ev ∈ sh.trace) : ev ∈ o.shared.trace := by
  obtain ⟨evs, h1, _⟩ := h.trace
  rw [h1, List.mem_append]
  exact Or.inl hev

theorem Post.retDone_after {s : State} {i0 : Nat} {f : Frame} {o : Outcome} (h : Post s)
    (hf : s.frames[i0]? = some f) (hd : DStep s.frames s.shared i0 f o) :
    ∀ (i : Nat) (fi : Frame) (r : Option String), (after s i0 o).frames[i]? = some fi →
      Event.ret i r ∈ (after s i0 o).shared.trace → fi.done := by
  intro i fi r hfi hr
  rw [after_trace] at hr
  have hi : i0 < s.frames.length := (List.getElem?_eq_some.mp hf).1
  rcases after_frames s i0 f o hf i fi hfi with ⟨rfl, rfl⟩ | ⟨hne, hold⟩ | ⟨rfl, hc⟩
  · have hD := h.retDone i f r hf
    cases hd <;>
      simp_all [returns, goto, continue_, Shared.log, Frame.done]
  · exact h.retDone i fi r hold (hd.mem_trace _ hr (by simpa [Event.frame] using hne))
  · have := h.evs _ (hd.mem_trace _ hr (by simp [Event.frame]; omega))
    simp [Event.frame] at this

theorem Post.retVal_after {s : State} {i0 : Nat} {f : Frame} {o : Outcome} (h : Post s)
    (hf : s.frames[i0]? = some f) (hd : DStep s.frames s.shared i0 f o) :
    ∀ (i : Nat) (fi : Frame) (r : Option String), (after s i0 o).frames[i]? = some fi →
      (fi.pc = PC.ret r ∨ fi.pc = PC.send r) → Event.ret i r ∈ (after s i0 o).shared.trace := by
  intro i fi r hfi hr
  rw [after_trace]
  rcases after_frames s i0 f o hf i fi hfi with ⟨rfl, rfl⟩ | ⟨hne, hold⟩ | ⟨rfl, hc⟩
  · have hD := h.retVal i f r hf
    cases hd <;>
      simp_all [returns, goto, continue_, Shared.log]
  · exact hd.trace_mono _ (h.retVal i fi r hold hr)
  · obtain ⟨_, hp, _⟩ := hd.child fi hc
    simp [hp] at hr

theorem Post.retUniq_after {s : State} {i0 : Nat} {f : Frame} {o : Outcome} (h : Post s)
    (hf : s.frames[i0]? = some f) (hd : DStep s.frames s.shared i0 f o) :
    ∀ (i : Nat) (r r1 : Option String), Event.ret i r ∈ (after s i0 o).shared.trace →
      Event.ret i r1 ∈ (after s i0 o).shared.trace → r = r1 := by
  intro i r r1 hr hr1
  rw [after_trace] at hr hr1
  by_cases hne : i = i0
  · subst hne
    have hD := h.retDone i f r hf
    have hD1 := h.retDone i f r1 hf
    have hU := h.retUniq i r r1
    cases hd <;>
      simp_all [returns, goto, continue_, Shared.log, Frame.done]
  · exact h.retUniq i r r1 (hd.mem_trace _ hr (by simpa [Event.frame] using hne))
      (hd.mem_trace _ hr1 (by simpa [Event.frame] using hne))

theorem Post.emp_after {s : State} {i0 : Nat} {f : Frame} {o : Outcome} (h : Post s)
    (hf : s.frames[i0]? = some f) (hd : DStep s.frames s.shared i0 f o) :
    ∀ (i : Nat) (fi : Frame), (after s i0 o).frames[i]? = some fi →
      (fi.pc = PC.wait ∨ fi.pc = PC.final) → fi.todo = [] := by
  intro i fi hfi hpc
  rcases after_frames s i0 f o hf i fi hfi with ⟨rfl, rfl⟩ | ⟨hne, hold⟩ | ⟨rfl, hc⟩
  · have hD := h.emp i f hf
    cases hd <;>
      simp_all [returns, goto, continue_, Shared.log]
  · exact h.emp i fi hold hpc
  · obtain ⟨_, _, hp, _⟩ := hd.child fi hc
    exact hp

theorem after_static {s : State} {i0 : Nat} {f : Frame} {o : Outcome}
    (hf : s.frames[i0]? = some f) (hd : DStep s.frames s.shared i0 f o) (j : Nat) (g : Frame)
    (hg : s.frames[j]? = some g) :
    ∃ g1, (after s i0 o).frames[j]? = some g1 ∧ g1.kind = g.kind ∧ g1.dir = g.dir := by
  rcases after_old s i0 f o hf j g hg with ⟨_, h2, h3⟩ | ⟨_, h2⟩
  · subst h2
    exact ⟨o.frame, h3, hd.static.1, hd.static.2.1⟩
  · exact ⟨g, h2, rfl, rfl⟩

theorem after_child {s : State} {i0 : Nat} {f : Frame} {o : Outcome} (c : Frame)
    (hf : s.frames[i0]? = some f) (hc : o.child = some c) :
    (after s i0 o).frames[s.frames.length]? = some c := by
  have hi : i0 < s.frames.length := (List.getElem?_eq_some.mp hf).1
  unfold after
  simp only
  rw [getElem?_set_append _ _ _ f _ _ hf]
  simp [hc]
  omega

theorem Handled.keep {s : State} {i0 : Nat} {f : Frame} {o : Outcome}
    (hf : s.frames[i0]? = some f) (hd : DStep s.frames s.shared i0 f o) {i : Nat}
    {fi fi1 : Frame} {e : Node} (h : Handled s i fi e) (h1 : fi1.fsId = fi.fsId)
    (h2 : fi1.epoch = fi.epoch) : Handled (after s i0 o) i fi1 e := by
  obtain ⟨ha, hb⟩ := h
  refine ⟨fun hty => ?_, fun hty => ?_⟩
  · have := hd.trace_mono _ (ha hty)
    simpa [Frame.fileCall, h1, h2, after_trace] using this
  · obtain ⟨j, g, hg, hk, hdir⟩ := hb hty
    obtain ⟨g1, hg1, hk1, hd1⟩ := after_static hf hd j g hg
    exact ⟨j, g1, hg1, by simpa [Frame.childOf, hk1] using hk, by rw [hd1, hdir]⟩

theorem Post.cur_after {s : State} {i0 : Nat} {f : Frame} {o : Outcome} (h : Post s)
    (hf : s.frames[i0]? = some f) (hd : DStep s.frames s.shared i0 f o) :
    ∀ (i : Nat) (fi : Frame), (after s i0 o).frames[i]? = some fi →
      (fi.pc = PC.addInodes → ∃ e t, fi.todo = e :: t ∧ e.entry.type ≠ FileType.DIRECTORY ∧
        Event.rpc i (fi.fileCall e) true ∈ (after s i0 o).shared.trace) ∧
      (fi.pc = PC.select → ∃ e t, fi.todo = e :: t ∧ e.entry.type = FileType.DIRECTORY) ∧
      (∀ c, fi.pc = PC.call c → ∃ e t g, fi.todo = e :: t ∧
        e.entry.type = FileType.DIRECTORY ∧
        (after s i0 o).frames[c]? = some g ∧ g.kind = Kind.inline i ∧ g.dir = e) := by
  intro i fi hfi
  rcases after_frames s i0 f o hf i fi hfi with ⟨rfl, rfl⟩ | ⟨hne, hold⟩ | ⟨rfl, hc⟩
  · obtain ⟨h1, h2, h3⟩ := h.cur i f hf
    cases hd
    case fileOk e t hpc ht hty hdel =>
      refine ⟨fun _ => ⟨e, t, ht, hty, ?_⟩, by simp [goto], by simp [goto]⟩
      simp [after_trace, goto, Shared.log, Frame.fileCall]
    case loopDir e t hpc ht hty =>
      exact ⟨by simp [goto], fun _ => ⟨e, t, ht, hty⟩, by simp [goto]⟩
    case selInline e t hpc ht =>
      obtain ⟨e1, t1, ht1, hty⟩ := h2 hpc
      rw [ht] at ht1
      obtain ⟨rfl, rfl⟩ := List.cons.inj ht1
      refine ⟨by simp, by simp, fun c hc => ?_⟩
      simp only [PC.call.injEq] at hc
      subst hc
      exact ⟨e, t, _, ht, hty, after_child _ hf rfl, rfl, rfl⟩
    all_goals simp [returns, goto, continue_]
  · obtain ⟨h1, h2, h3⟩ := h.cur i fi hold
    refine ⟨fun hpc => ?_, h2, fun c hpc => ?_⟩
    · obtain ⟨e, t, ht, hty, hev⟩ := h1 hpc
      exact ⟨e, t, ht, hty, hd.trace_mono _ hev⟩
    · obtain ⟨e, t, g, ht, hty, hg, hk, hdir⟩ := h3 c hpc
      obtain ⟨g1, hg1, hk1, hd1⟩ := after_static hf hd c g hg
      exact ⟨e, t, g1, ht, hty, hg1, by rw [hk1, hk], by rw [hd1, hdir]⟩
  · obtain ⟨_, hp, _⟩ := hd.child fi hc
    simp [hp]

theorem Post.prog_after {s : State} {i0 : Nat} {f : Frame} {o : Outcome} (h : Post s)
    (hf : s.frames[i0]? = some f) (hd : DStep s.frames s.shared i0 f o) :
    ∀ (i : Nat) (fi : Frame), (after s i0 o).frames[i]? = some fi → fi.active →
      ∃ pre, fi.dir.entries = pre ++ fi.todo ∧ ∀ e ∈ pre, Handled (after s i0 o) i fi e := by
  intro i fi hfi hact
  rcases after_frames s i0 f o hf i fi hfi with ⟨rfl, rfl⟩ | ⟨hne, hold⟩ | ⟨rfl, hc⟩
  · have hst := hd.static
    have hP := h.prog i f hf
    obtain ⟨h1, h2, h3⟩ := h.cur i f hf
    -- the entries handled before stay handled
    have keep : ∀ pre : List Node, (∀ e ∈ pre, Handled s i f e) →
        ∀ e ∈ pre, Handled (after s i o) i o.frame e :=
      fun pre hp e he => (hp e he).keep hf hd hst.2.2.1 hst.2.2.2.1
    cases hd
    case listOk hpc hl => exact ⟨[], by simp, by simp⟩
    case loopNil hpc ht =>
      obtain ⟨pre, hp1, hp2⟩ := hP (by simp [Frame.active, hpc])
      exact ⟨pre, hp1, keep pre hp2⟩
    case fileOk e t hpc ht hty hdel =>
      obtain ⟨pre, hp1, hp2⟩ := hP (by simp [Frame.active, hpc])
      exact ⟨pre, hp1, keep pre hp2⟩
    case loopDir e t hpc ht hty =>
      obtain ⟨pre, hp1, hp2⟩ := hP (by simp [Frame.active, hpc])
      exact ⟨pre, hp1, keep pre hp2⟩
    case addInodes hpc =>
      obtain ⟨pre, hp1, hp2⟩ := hP (by simp [Frame.active, hpc])
      obtain ⟨e, t, ht, hty, hev⟩ := h1 hpc
      refine ⟨pre ++ [e], by simp [continue_, hp1, ht], fun x hx => ?_⟩
      rcases List.mem_append.mp hx with hx | hx
      · exact keep pre hp2 x hx
      · simp only [List.mem_singleton] at hx
        subst hx
        exact ⟨fun _ => by simpa [after_trace, continue_, Frame.fileCall] using hev,
          fun hty1 => absurd hty1 hty⟩
    case selInline e t hpc ht =>
      obtain ⟨pre, hp1, hp2⟩ := hP (by simp [Frame.active, hpc])
      exact ⟨pre, hp1, keep pre hp2⟩
    case selAcquire e t hpc ht =>
      obtain ⟨pre, hp1, hp2⟩ := hP (by simp [Frame.active, hpc])
      obtain ⟨e1, t1, ht1, hty⟩ := h2 hpc
      rw [ht] at ht1
      obtain ⟨rfl, rfl⟩ := List.cons.inj ht1
      refine ⟨pre ++ [e], by simp [hp1, ht], fun x hx => ?_⟩
      rcases List.mem_append.mp hx with hx | hx
      · exact keep pre hp2 x hx
      · simp only [List.mem_singleton] at hx
        subst hx
        exact ⟨fun hty1 => absurd hty hty1,
          fun _ => ⟨_, _, after_child _ hf rfl, Or.inr rfl, rfl⟩⟩
    case callOk c g hpc hg hr =>
      obtain ⟨pre, hp1, hp2⟩ := hP (by simp [Frame.active, hpc])
      obtain ⟨e, t, g1, ht, hty, hg1, hk, hdir⟩ := h3 c hpc
      refine ⟨pre ++ [e], by simp [continue_, hp1, ht], fun x hx => ?_⟩
      rcases List.mem_append.mp hx with hx | hx
      · exact keep pre hp2 x hx
      · simp only [List.mem_singleton] at hx
        subst hx
        obtain ⟨g2, hg2, hk2, hd2⟩ := after_static hf (DStep.callOk c g hpc hg hr) c g1 hg1
        exact ⟨fun hty1 => absurd hty hty1,
          fun _ => ⟨c, g2, hg2, Or.inl (by rw [hk2, hk]), by rw [hd2, hdir]⟩⟩
    case wait hpc hw =>
      obtain ⟨pre, hp1, hp2⟩ := hP (by simp [Frame.active, hpc])
      exact ⟨pre, hp1, keep pre hp2⟩
    all_goals simp [Frame.active, returns, goto, continue_] at hact
  · obtain ⟨pre, hp1, hp2⟩ := h.prog i fi hold hact
    exact ⟨pre, hp1, fun e he => (hp2 e he).keep hf hd rfl rfl⟩
  · obtain ⟨_, hp, _⟩ := hd.child fi hc
    simp [Frame.active, hp] at hact

theorem Post.joined_after {s : State} {i0 : Nat} {f : Frame} {o : Outcome} (h : Post s)
    (hf : s.frames[i0]? = some f) (hd : DStep s.frames s.shared i0 f o) :
    ∀ (i j : Nat) (fi g : Frame), (after s i0 o).frames[i]? = some fi → fi.pc = PC.final →
      (after s i0 o).frames[j]? = some g → g.kind = Kind.spawned i → g.pc = PC.finished := by
  intro i j fi g hfi hpc hg hk
  rcases after_frames s i0 f o hf j g hg with ⟨hji, hgo⟩ | ⟨hnej, holdj⟩ | ⟨rfl, hcj⟩
  · -- the goroutine itself moves
    subst hgo
    rw [hd.static.1] at hk
    rcases after_frames s i0 f o hf i fi hfi with ⟨hii, _⟩ | ⟨hne, hold⟩ | ⟨rfl, hc⟩
    · have := h.wf.parent_lt i0 f i hf (Or.inr hk)
      omega
    · have := h.joined i i0 fi f hold hpc hf hk
      cases hd <;> simp_all
    · obtain ⟨_, hp, _⟩ := hd.child fi hc
      simp [hp] at hpc
  · rcases after_frames s i0 f o hf i fi hfi with ⟨rfl, rfl⟩ | ⟨hne, hold⟩ | ⟨rfl, hc⟩
    · cases hd
      case wait hpc1 hw => exact waitDone_true _ _ hw g (List.mem_iff_getElem?.mpr ⟨j, holdj⟩) hk
      all_goals simp [returns, goto, continue_] at hpc
    · exact h.joined i j fi g hold hpc holdj hk
    · obtain ⟨_, hp, _⟩ := hd.child fi hc
      simp [hp] at hpc
  · obtain ⟨_, hp, _, hco, _⟩ := hd.child g hcj
    rcases after_frames s i0 f o hf i fi hfi with ⟨rfl, rfl⟩ | ⟨hne, hold⟩ | ⟨rfl, hc⟩
    · cases hd <;> simp_all [returns, goto, continue_]
    · rcases hco with hco | hco
      · rw [hk] at hco; simp at hco
      · rw [hk] at hco
        simp only [Kind.spawned.injEq] at hco
        exact absurd hco hne
    · obtain ⟨_, hp, _⟩ := hd.child fi hc
      simp [hp] at hpc

theorem Post.failed_after {s : State} {i0 : Nat} {f : Frame} {o : Outcome} (h : Post s)
    (hf : s.frames[i0]? = some f) (hd : DStep s.frames s.shared i0 f o) :
    ∀ (i : Nat) (fi : Frame) (c : Call), (after s i0 o).frames[i]? = some fi →
      Event.rpc i c false ∈ (after s i0 o).shared.trace → fi.done := by
  intro i fi c hfi hr
  rw [after_trace] at hr
  have hi : i0 < s.frames.length := (List.getElem?_eq_some.mp hf).1
  rcases after_frames s i0 f o hf i fi hfi with ⟨rfl, rfl⟩ | ⟨hne, hold⟩ | ⟨rfl, hc⟩
  · have hD := h.failed i f c hf
    cases hd <;>
      simp_all [returns, goto, continue_, Shared.log, Frame.done]
  · exact h.failed i fi c hold (hd.mem_trace _ hr (by simpa [Event.frame] using hne))
  · have := h.evs _ (hd.mem_trace _ hr (by simp [Event.frame]; omega))
    simp [Event.frame] at this

theorem Post.delDir_pc {s : State} (h : Post s) (i : Nat) (f : Frame) (hf : s.frames[i]? = some f)
    (a b : Nat) (n : String) (ep : Nat) (ok : Bool)
    (hev : Event.rpc i (Call.DeleteDirectory a b n ep) ok ∈ s.shared.trace) :
    f.pc = PC.countSelf ∨ f.done := by
  obtain ⟨pre, post, hsplit⟩ := List.append_of_mem hev
  exact (h.hist i f hf pre post a b n ep ok hsplit).1

theorem Post.fileFail_after {s : State} {i0 : Nat} {f : Frame} {o : Outcome} (h : Post s)
    (hf : s.frames[i0]? = some f) (hd : DStep s.frames s.shared i0 f o) :
    ∀ (i : Nat) (a b : Nat) (n : String) (ep : Nat),
      Event.rpc i (Call.DeleteFile a b n ep) false ∈ (after s i0 o).shared.trace →
      ∀ (a1 b1 : Nat) (n1 : String) (ep1 : Nat) (ok : Bool),
        Event.rpc i (Call.DeleteDirectory a1 b1 n1 ep1) ok ∉ (after s i0 o).shared.trace := by
  intro i a b n ep hr a1 b1 n1 ep1 ok hr1
  rw [after_trace] at hr hr1
  by_cases hne : i = i0
  · subst hne
    have hD := h.failed i f (Call.DeleteFile a b n ep) hf
    have hP := h.delDir_pc i f hf a1 b1 n1 ep1 ok
    have hF : Event.rpc i (Call.DeleteFile a b n ep) false ∈ s.shared.trace →
        Event.rpc i (Call.DeleteDirectory a1 b1 n1 ep1) ok ∈ s.shared.trace → False :=
      fun x y => h.fileFail i a b n ep x a1 b1 n1 ep1 ok y
    cases hd <;>
      simp_all [returns, goto, continue_, Shared.log, Frame.done, Frame.fileCall]
  · exact h.fileFail i a b n ep (hd.mem_trace _ hr (by simpa [Event.frame] using hne))
      a1 b1 n1 ep1 ok (hd.mem_trace _ hr1 (by simpa [Event.frame] using hne))

theorem DStep.errCh_length {frames : List Frame} {sh : Shared} {i : Nat} {f : Frame}
    {o : Outcome} (h : DStep frames sh i f o) : o.shared.errCh.length = sh.errCh.length := by
  cases h <;> simp [returns, goto, continue_, Shared.log]

theorem after_errCh {s : State} {i0 : Nat} {f : Frame} {o : Outcome} (h : Post s)
    (hd : DStep s.frames s.shared i0 f o) (i : Nat) (hi : i < s.frames.length) :
    (after s i0 o).shared.errCh.getD i none = o.shared.errCh.getD i none := by
  have h1 := hd.errCh_length
  have h2 := h.len
  simp only [after, List.getD_eq_getElem?_getD]
  rw [List.getElem?_append_left (by omega)]

theorem DStep.errCh_other {frames : List Frame} {sh : Shared} {i0 : Nat} {f : Frame}
    {o : Outcome} (h : DStep frames sh i0 f o) (i : Nat) (hne : i ≠ i0)
    (he : sh.errCh.getD i none ≠ none) : o.shared.errCh.getD i none ≠ none := by
  have hne1 : i0 ≠ i := fun x => hne x.symm
  cases h
  case sendErr p err hpc hk hnone =>
    by_cases hp : p = i
    · subst hp
      have hlt : p < sh.errCh.length := by
        by_contra hlt
        simp [List.getD_eq_getElem?_getD, List.getElem?_eq_none (not_lt.mp hlt)] at he
      simp [goto, List.getD_eq_getElem?_getD, List.getElem?_set, hlt]
    · simpa [goto, List.getD_eq_getElem?_getD, List.getElem?_set, hp] using he
  all_goals simpa [returns, goto, continue_, Shared.log, List.getD_eq_getElem?_getD,
    List.getElem?_set, hne1] using he

theorem Taken.after_other {s : State} {i0 : Nat} {f : Frame} {o : Outcome}
    (hd : DStep s.frames s.shared i0 f o) {i : Nat} {fi : Frame} (h : Taken s i fi) :
    Taken (after s i0 o) i fi := by
  rcases h with h | ⟨e, h⟩
  · exact Or.inl h
  · exact Or.inr ⟨e, hd.trace_mono _ h⟩

theorem Taken.after_self {s : State} {i0 : Nat} {f : Frame} {o : Outcome}
    (hd : DStep s.frames s.shared i0 f o) (h : Taken s i0 f) :
    Taken (after s i0 o) i0 o.frame := by
  rcases h with ⟨e, h⟩ | ⟨e, h⟩
  · right
    cases hd <;> simp_all [after_trace, returns, goto, continue_, Shared.log]
  · exact Or.inr ⟨e, hd.trace_mono _ h⟩

/-- A step of frame `i0` leaves an error in its own `errCh`, unless the step takes it. -/
theorem DStep.errCh_self {s : State} {i0 : Nat} {f : Frame} {o : Outcome}
    (hd : DStep s.frames s.shared i0 f o) (hp : ∀ p, f.kind = Kind.spawned p → p ≠ i0)
    (he : s.shared.errCh.getD i0 none ≠ none) :
    o.shared.errCh.getD i0 none ≠ none ∨ Taken (after s i0 o) i0 o.frame := by
  cases hd
  case selRecv e t err hpc ht => right; left; exact ⟨err, rfl⟩
  case finalTake err hpc h1 =>
    right; right
    exact ⟨err, by simp [after_trace, returns, Shared.log]⟩
  case sendErr p err hpc hk hnone =>
    left
    have := hp p hk
    simpa [goto, List.getD_eq_getElem?_getD, List.getElem?_set, this] using he
  all_goals
    left
    simpa [returns, goto, continue_, Shared.log] using he

theorem Post.spawnedOk_after {s : State} {i0 : Nat} {f : Frame} {o : Outcome} (h : Post s)
    (hf : s.frames[i0]? = some f) (hd : DStep s.frames s.shared i0 f o)
    (hwf : WF (after s i0 o)) :
    ∀ (i j : Nat) (fi g : Frame), (after s i0 o).frames[i]? = some fi →
      (after s i0 o).frames[j]? = some g → g.kind = Kind.spawned i →
      (g.pc = PC.wgDone ∨ g.pc = PC.finished) →
      Event.ret j none ∈ (after s i0 o).shared.trace ∨
        (after s i0 o).shared.errCh.getD i none ≠ none ∨ Taken (after s i0 o) i fi := by
  intro i j fi g hfi hg hk hpc
  have hi0 : i0 < s.frames.length := (List.getElem?_eq_some.mp hf).1
  have hij : i < j := hwf.parent_lt j g i hg (Or.inr hk)
  rcases after_frames s i0 f o hf j g hg with ⟨hji, hgo⟩ | ⟨hnej, holdj⟩ | ⟨rfl, hcj⟩
  · -- the goroutine moves
    subst hgo
    subst hji
    have hkf : f.kind = Kind.spawned i := by rw [← hd.static.1]; exact hk
    rcases after_frames s j f o hf i fi hfi with ⟨hii, _⟩ | ⟨hne, hold⟩ | ⟨hii, hc⟩
    · omega
    · have hlt : i < s.frames.length := (List.getElem?_eq_some.mp hold).1
      have hO := h.spawnedOk i j fi f hold hf hkf
      have hV := h.retVal j f none hf
      rw [after_errCh h hd i hlt]
      cases hd
      case sendErr p err hpc1 hk1 hnone =>
        right; left
        rw [hkf] at hk1
        simp only [Kind.spawned.injEq] at hk1
        subst hk1
        have hl := h.len
        simp [goto, List.getD_eq_getElem?_getD, List.getElem?_set, hl, hlt]
      case sendFull p err err1 hpc1 hk1 hfull =>
        right; left
        rw [hkf] at hk1
        simp only [Kind.spawned.injEq] at hk1
        subst hk1
        show s.shared.errCh.getD i none ≠ none
        rw [hfull]
        simp
      case sendNone hpc1 =>
        left
        exact hV (Or.inr hpc1)
      case wgDone hpc1 =>
        rcases hO (Or.inl hpc1) with h1 | h1 | h1
        · exact Or.inl h1
        · exact Or.inr (Or.inl h1)
        · exact Or.inr (Or.inr h1)
      all_goals simp [returns, goto, continue_] at hpc
    · omega
  · rcases after_frames s i0 f o hf i fi hfi with ⟨hii, hfo⟩ | ⟨hne, hold⟩ | ⟨hii, hc⟩
    · -- the spawning frame moves
      subst hii
      subst hfo
      have hO := h.spawnedOk i j f g hf holdj hk hpc
      rw [after_errCh h hd i hi0]
      rcases hO with h1 | h1 | h1
      · exact Or.inl (hd.trace_mono _ h1)
      · exact Or.inr (hd.errCh_self
          (fun p hp hpi => by
            have := h.wf.parent_lt i f p hf (Or.inr hp)
            omega) h1)
      · exact Or.inr (Or.inr (h1.after_self hd))
    · have hlt : i < s.frames.length := (List.getElem?_eq_some.mp hold).1
      rw [after_errCh h hd i hlt]
      rcases h.spawnedOk i j fi g hold holdj hk hpc with h1 | h1 | h1
      · exact Or.inl (hd.trace_mono _ h1)
      · exact Or.inr (Or.inl (hd.errCh_other i hne h1))
      · exact Or.inr (Or.inr (h1.after_other hd))
    · have := (List.getElem?_eq_some.mp holdj).1
      omega
  · obtain ⟨_, hp, _⟩ := hd.child g hcj
    simp [hp] at hpc

theorem Post.inlineOk_after {s : State} {i0 : Nat} {f : Frame} {o : Outcome} (h : Post s)
    (hf : s.frames[i0]? = some f) (hd : DStep s.frames s.shared i0 f o)
    (hwf : WF (after s i0 o)) :
    ∀ (i j : Nat) (fi g : Frame), (after s i0 o).frames[i]? = some fi →
      (after s i0 o).frames[j]? = some g → g.kind = Kind.inline i →
      fi.pc = PC.call j ∨ Event.ret j none ∈ (after s i0 o).shared.trace ∨
        Taken (after s i0 o) i fi := by
  intro i j fi g hfi hg hk
  have hi0 : i0 < s.frames.length := (List.getElem?_eq_some.mp hf).1
  have hij : i < j := hwf.parent_lt j g i hg (Or.inl hk)
  rcases after_frames s i0 f o hf j g hg with ⟨hji, hgo⟩ | ⟨hnej, holdj⟩ | ⟨hjl, hcj⟩
  · -- the callee moves
    subst hgo
    subst hji
    have hkf : f.kind = Kind.inline i := by rw [← hd.static.1]; exact hk
    rcases after_frames s j f o hf i fi hfi with ⟨hii, _⟩ | ⟨hne, hold⟩ | ⟨hii, hc⟩
    · omega
    · rcases h.inlineOk i j fi f hold hf hkf with h1 | h1 | h1
      · exact Or.inl h1
      · exact Or.inr (Or.inl (hd.trace_mono _ h1))
      · exact Or.inr (Or.inr (h1.after_other hd))
    · omega
  · rcases after_frames s i0 f o hf i fi hfi with ⟨hii, hfo⟩ | ⟨hne, hold⟩ | ⟨hii, hc⟩
    · -- the caller moves
      subst hii
      subst hfo
      rcases h.inlineOk i j f g hf holdj hk with h1 | h1 | h1
      · have hV := h.retVal j g none holdj
        cases hd
        case callOk c g1 hpc1 hg1 hr1 =>
          rw [hpc1] at h1
          simp only [PC.call.injEq] at h1
          subst h1
          rw [holdj] at hg1
          simp only [Option.some.injEq] at hg1
          subst hg1
          exact Or.inr (Or.inl (hV (Or.inl hr1)))
        case callErr c g1 err hpc1 hg1 hr1 =>
          right; right; right
          exact ⟨err, by simp [after_trace, returns, Shared.log]⟩
        all_goals simp_all
      · exact Or.inr (Or.inl (hd.trace_mono _ h1))
      · exact Or.inr (Or.inr (h1.after_self hd))
    · rcases h.inlineOk i j fi g hold holdj hk with h1 | h1 | h1
      · exact Or.inl h1
      · exact Or.inr (Or.inl (hd.trace_mono _ h1))
      · exact Or.inr (Or.inr (h1.after_other hd))
    · have := (List.getElem?_eq_some.mp holdj).1
      omega
  · -- the callee was just created
    obtain ⟨_, _, _, _, e, t, _, _, hcase⟩ := hd.child g hcj
    rcases hcase with ⟨hk1, hpc1, _⟩ | ⟨hk1, _⟩
    · rw [hk] at hk1
      simp only [Kind.inline.injEq] at hk1
      subst hk1
      rcases after_frames s i f o hf i fi hfi with ⟨_, hfo⟩ | ⟨hne, _⟩ | ⟨hii, _⟩
      · left; rw [hfo, hpc1, hjl]
      · exact absurd rfl hne
      · omega
    · rw [hk] at hk1; simp at hk1

theorem append_split {α : Type} (t evs pre post : List α) (x : α)
    (h : t ++ evs = pre ++ x :: post) :
    (∃ post1, t = pre ++ x :: post1) ∨ ∃ evs1, pre = t ++ evs1 ∧ evs = evs1 ++ x :: post := by
  rcases List.append_eq_append_iff.mp h with ⟨a, h1, h2⟩ | ⟨c, h1, h2⟩
  · exact Or.inr ⟨a, h1, h2⟩
  · cases c with
    | nil =>
      simp only [List.nil_append] at h2
      simp only [List.append_nil] at h1
      exact Or.inr ⟨[], by simp [h1], by simp [h2]⟩
    | cons y c1 =>
      simp only [List.cons_append, List.cons.injEq] at h2
      obtain ⟨rfl, _⟩ := h2
      exact Or.inl ⟨c1, h1⟩

/-- A `DeleteDirectory` call in the trace after a step was either there before, or it is the call
the step made at the final `select` with an empty `errCh`. -/
theorem DStep.hist_split {frames : List Frame} {sh : Shared} {i0 : Nat} {f : Frame}
    {o : Outcome} (hd : DStep frames sh i0 f o) (i : Nat) (pre post : List Event) (a b : Nat)
    (n : String) (ep : Nat) (ok : Bool)
    (htr : o.shared.trace = pre ++ Event.rpc i (Call.DeleteDirectory a b n ep) ok :: post) :
    (∃ post1, sh.trace = pre ++ Event.rpc i (Call.DeleteDirectory a b n ep) ok :: post1) ∨
    (i = i0 ∧ pre = sh.trace ∧ f.pc = PC.final ∧ sh.errCh.getD i0 none = none ∧
      o.child = none ∧ (o.frame.pc = PC.countSelf ∨ o.frame.done)) := by
  cases hd
  all_goals simp only [returns, goto, continue_, Shared.log, List.append_assoc,
    List.singleton_append] at htr
  case finalErr err hpc h1 h2 =>
    rcases append_split _ _ _ _ _ htr with h3 | ⟨evs1, h3, h4⟩
    · exact Or.inl h3
    · right
      rcases evs1 with _ | ⟨y, _ | ⟨z, l⟩⟩ <;> simp at h4
      · obtain ⟨⟨rfl, _⟩, _⟩ := h4
        exact ⟨rfl, by simpa using h3, hpc, h1, rfl, Or.inr (Or.inl ⟨_, rfl⟩)⟩
  case finalOk hpc h1 h2 =>
    rcases append_split _ _ _ _ _ htr with h3 | ⟨evs1, h3, h4⟩
    · exact Or.inl h3
    · right
      rcases evs1 with _ | ⟨y, l⟩ <;> simp at h4
      · obtain ⟨⟨rfl, _⟩, _⟩ := h4
        exact ⟨rfl, by simpa using h3, hpc, h1, rfl, Or.inl rfl⟩
  all_goals first
    | exact Or.inl ⟨post, htr⟩
    | (rcases append_split _ _ _ _ _ htr with h3 | ⟨evs1, h3, h4⟩
       · exact Or.inl h3
       · exfalso
         rcases evs1 with _ | ⟨y, _ | ⟨z, l⟩⟩ <;> simp [Frame.fileCall] at h4)

theorem Processed.carry {s : State} {i0 : Nat} {f : Frame} {o : Outcome}
    (hf : s.frames[i0]? = some f) (hd : DStep s.frames s.shared i0 f o) {i : Nat}
    {fi fi1 : Frame} {pre : List Event} (h : Processed s.frames pre i fi)
    (h1 : fi1.fsId = fi.fsId) (h2 : fi1.epoch = fi.epoch) (h3 : fi1.dir = fi.dir)
    (hnc : ∀ c, o.child = some c → ¬ c.childOf i) :
    Processed (after s i0 o).frames pre i fi1 := by
  obtain ⟨ha, hb⟩ := h
  refine ⟨fun e he => ?_, fun j g hg hk => ?_⟩
  · rw [h3] at he
    obtain ⟨hx, hy⟩ := ha e he
    refine ⟨fun hty => ?_, fun hty => ?_⟩
    · simpa [Frame.fileCall, h1, h2] using hx hty
    · obtain ⟨j, g, hg, hk, hdir, hr⟩ := hy hty
      obtain ⟨g1, hg1, hk1, hd1⟩ := after_static hf hd j g hg
      exact ⟨j, g1, hg1, by simpa [Frame.childOf, hk1] using hk, by rw [hd1, hdir], hr⟩
  · rcases after_frames s i0 f o hf j g hg with ⟨hji, hgo⟩ | ⟨_, hold⟩ | ⟨_, hc⟩
    · subst hji
      subst hgo
      exact hb j f hf (by simpa [Frame.childOf, hd.static.1] using hk)
    · exact hb j g hold hk
    · exact absurd hk (hnc g hc)

theorem Post.processed_final {s : State} (h : Post s) (i : Nat) (f : Frame)
    (hf : s.frames[i]? = some f) (hpc : f.pc = PC.final)
    (he : s.shared.errCh.getD i none = none) : Processed s.frames s.shared.trace i f := by
  have hnt : ¬ Taken s i f := by
    rintro (⟨e, h1⟩ | ⟨e, h1⟩)
    · rw [hpc] at h1; simp at h1
    · have := h.retDone i f _ hf h1
      simp [Frame.done, hpc] at this
  have hC : ∀ (j : Nat) (g : Frame), s.frames[j]? = some g → g.childOf i →
      Event.ret j none ∈ s.shared.trace := by
    intro j g hg hk
    rcases hk with hk | hk
    · rcases h.inlineOk i j f g hf hg hk with h1 | h1 | h1
      · rw [hpc] at h1; simp at h1
      · exact h1
      · exact absurd h1 hnt
    · have hfin := h.joined i j f g hf hpc hg hk
      rcases h.spawnedOk i j f g hf hg hk (Or.inr hfin) with h1 | h1 | h1
      · exact h1
      · exact absurd he h1
      · exact absurd h1 hnt
  refine ⟨fun e hmem => ?_, hC⟩
  obtain ⟨pre, hp1, hp2⟩ := h.prog i f hf (by simp [Frame.active, hpc])
  rw [h.emp i f hf (Or.inr hpc), List.append_nil] at hp1
  rw [hp1] at hmem
  obtain ⟨hx, hy⟩ := hp2 e hmem
  refine ⟨hx, fun hty => ?_⟩
  obtain ⟨j, g, hg, hk, hdir⟩ := hy hty
  exact ⟨j, g, hg, hk, hdir, hC j g hg hk⟩

theorem Post.hist_after {s : State} {i0 : Nat} {f : Frame} {o : Outcome} (h : Post s)
    (hf : s.frames[i0]? = some f) (hd : DStep s.frames s.shared i0 f o) :
    ∀ (i : Nat) (fi : Frame), (after s i0 o).frames[i]? = some fi →
      ∀ (pre post : List Event) (a b : Nat) (n : String) (ep : Nat) (ok : Bool),
        (after s i0 o).shared.trace =
          pre ++ Event.rpc i (Call.DeleteDirectory a b n ep) ok :: post →
        (fi.pc = PC.countSelf ∨ fi.done) ∧ Processed (after s i0 o).frames pre i fi := by
  intro i fi hfi pre post a b n ep ok htr
  rw [after_trace] at htr
  have hst := hd.static
  rcases hd.hist_split i pre post a b n ep ok htr with ⟨post1, hold⟩ | ⟨hii, hpre, hpc, he, hnc, hpc1⟩
  · rcases after_frames s i0 f o hf i fi hfi with ⟨hi, hfo⟩ | ⟨hne, holdf⟩ | ⟨hi, hc⟩
    · subst hi
      subst hfo
      obtain ⟨hp, hP⟩ := h.hist i f hf pre post1 a b n ep ok hold
      have hnsel : f.pc ≠ PC.select := by
        rcases hp with hp | hp
        · rw [hp]; simp
        · intro hs; simp [Frame.done, hs] at hp
      refine ⟨?_, hP.carry hf hd hst.2.2.1 hst.2.2.2.1 hst.2.1
        (fun c hc => absurd (hd.child c hc).1 hnsel)⟩
      cases hd <;> simp_all [returns, goto, continue_, Frame.done]
    · obtain ⟨hp, hP⟩ := h.hist i fi holdf pre post1 a b n ep ok hold
      refine ⟨hp, hP.carry hf hd rfl rfl rfl (fun c hc hco => ?_)⟩
      obtain ⟨_, _, _, hc0, _⟩ := hd.child c hc
      rcases hco with hco | hco <;> rcases hc0 with hc0 | hc0 <;> rw [hco] at hc0 <;>
        simp at hc0
      all_goals exact hne hc0
    · have hmem : Event.rpc i (Call.DeleteDirectory a b n ep) ok ∈ s.shared.trace := by
        rw [hold]; simp
      have := h.evs _ hmem
      simp only [Event.frame] at this
      omega
  · subst hii
    subst hpre
    rcases after_frames s i f o hf i fi hfi with ⟨_, hfo⟩ | ⟨hne, _⟩ | ⟨hi, _⟩
    · subst hfo
      refine ⟨hpc1, (h.processed_final i f hf hpc he).carry hf hd hst.2.2.1 hst.2.2.2.1 hst.2.1
        (fun c hc => ?_)⟩
      rw [hnc] at hc
      simp at hc
    · exact absurd rfl hne
    · have := (List.getElem?_eq_some.mp hf).1
      omega

theorem Post_advance (K i0 sel : Nat) (s : State) (h : Post s) :
    Post (advance ⟨Mode.delete, K⟩ i0 sel s) := by
  have hwf := WF_advance ⟨Mode.delete, K⟩ i0 sel s h.wf
  rcases advance_eq ⟨Mode.delete, K⟩ i0 sel s with he | ⟨f, o, hf, ho, he⟩
  · rw [he]; exact h
  · have hd : DStep s.frames s.shared i0 f o :=
      stepFrame_DStep K _ _ _ _ _ _ ho (h.pcs i0 f hf)
        (fun hpc => by
          obtain ⟨e, t, ht, _⟩ := (h.cur i0 f hf).2.1 hpc
          exact ⟨e, t, ht⟩)
        (h.wf.epilogue i0 f hf)
    have hafter : advance ⟨Mode.delete, K⟩ i0 sel s = after s i0 o := he
    rw [hafter] at hwf ⊢
    exact
      { wf := hwf
        len := h.len_after hd
        evs := h.evs_after hf hd
        pcs := h.pcs_after hf hd
        retDone := h.retDone_after hf hd
        retVal := h.retVal_after hf hd
        retUniq := h.retUniq_after hf hd
        prog := h.prog_after hf hd
        cur := h.cur_after hf hd
        emp := h.emp_after hf hd
        joined := h.joined_after hf hd
        spawnedOk := h.spawnedOk_after hf hd hwf
        inlineOk := h.inlineOk_after hf hd hwf
        failed := h.failed_after hf hd
        fileFail := h.fileFail_after hf hd
        hist := h.hist_after hf hd }

theorem Post_init (fsId epoch parentInodeId dirInodeId : Nat) (name : String) (root : Node) :
    Post (initState fsId epoch parentInodeId dirInodeId name root) := by
  have hfr : ∀ (i : Nat) (f : Frame),
      (initState fsId epoch parentInodeId dirInodeId name root).frames[i]? = some f →
      f.pc = PC.list ∧ f.kind = Kind.top := by
    intro i f hf
    cases i with
    | zero =>
      simp only [initState, List.getElem?_cons_zero, Option.some.injEq] at hf
      subst hf
      exact ⟨rfl, rfl⟩
    | succ k => simp [initState] at hf
  have htr : (initState fsId epoch parentInodeId dirInodeId name root).shared.trace = [] := rfl
  constructor
  · exact WF_init _ _ _ _ _ _
  · rfl
  · intro ev hev; rw [htr] at hev; simp at hev
  · intro i f hf; simp [(hfr i f hf).1]
  · intro i f r _ hev; rw [htr] at hev; simp at hev
  · intro i f r hf hpc; simp [(hfr i f hf).1] at hpc
  · intro i r r1 hev; rw [htr] at hev; simp at hev
  · intro i f hf hact; simp [Frame.active, (hfr i f hf).1] at hact
  · intro i f hf; simp [(hfr i f hf).1]
  · intro i f hf hpc; simp [(hfr i f hf).1] at hpc
  · intro i j f g hf hpc; simp [(hfr i f hf).1] at hpc
  · intro i j f g _ hg hk; simp [(hfr j g hg).2] at hk
  · intro i j f g _ hg hk; simp [(hfr j g hg).2] at hk
  · intro i f c _ hev; rw [htr] at hev; simp at hev
  · intro i a b n ep hev; rw [htr] at hev; simp at hev
  · intro i f _ pre post a b n ep ok hev
    rw [htr] at hev
    simp at hev

theorem Post_interleave (K : Nat) (sched : List (Nat × Nat)) (s : State) (h : Post s) :
    Post (interleave ⟨Mode.delete, K⟩ sched s) := by
  induction sched generalizing s with
  | nil => exact h
  | cons c cs ih => exact ih _ (Post_advance K c.1 c.2 s h)

theorem Post_step (K : Nat) (s : State) (c : Nat × Nat) (h : Post s) :
    Post (step ⟨Mode.delete, K⟩ s c) := by
  unfold step
  split
  · exact h
  · split
    · exact h
    · exact Post_advance _ _ _ _ h

theorem Post_run (K : Nat) (sched : List (Nat × Nat)) (s : State) (h : Post s) :
    Post (run ⟨Mode.delete, K⟩ sched s) := by
  induction sched generalizing s with
  | nil => exact h
  | cons c cs ih => exact ih _ (Post_step K s c h)

theorem Post.postOrder {s : State} (h : Post s) : PostOrder s := by
  intro i f hf
  refine ⟨fun pre post a b n ep ok htr => (h.hist i f hf pre post a b n ep ok htr).2, ?_⟩
  rintro (⟨a, b, n, ep, hev⟩ | ⟨j, g, err, hg, hk, hev⟩) a1 b1 n1 ep1 ok hdd
  · exact h.fileFail i a b n ep hev a1 b1 n1 ep1 ok hdd
  · obtain ⟨pre, post, hsplit⟩ := List.append_of_mem hdd
    have hP := (h.hist i f hf pre post a1 b1 n1 ep1 ok hsplit).2
    have hnone : Event.ret j none ∈ s.shared.trace := by
      rw [hsplit]
      exact List.mem_append_left _ (hP.2 j g hg hk)
    have := h.retUniq j _ _ hnone hev
    simp at this

/-! ## Claims about post-order deletion -/

/-- C3: post-order deletion.  For every namespace (whatever RPCs fail in it), every concurrency
bound and every schedule, in the state reached by any interleaving of the goroutines of
`deleteDirectoryAndData` (also one in which goroutines keep running after the top call
returned, `interleave`; and in every state of `run`): whenever the trace contains a
`DeleteDirectory` call of a frame, then within the events before that call `DeleteFile`
succeeded for every non-directory entry listed for the frame, every listed sub-directory has a
recursive call of the frame, spawned or inline, that returned nil, and every recursive call the
frame started returned nil; and if a `DeleteFile` of the frame failed or one of its recursive
calls returned an error, the trace contains no `DeleteDirectory` call of the frame. -/
theorem deleteDirectoryAndData_post_order (root : Node)
    (fsId epoch parentInodeId dirInodeId : Nat) (name : String) (threads : Nat)
    (sched : List (Nat × Nat)) :
    PostOrder (interleave ⟨Mode.delete, threads⟩ sched
      (initState fsId epoch parentInodeId dirInodeId name root)) ∧
    PostOrder (run ⟨Mode.delete, threads⟩ sched
      (initState fsId epoch parentInodeId dirInodeId name root)) :=
  ⟨(Post_interleave threads sched _ (Post_init fsId epoch parentInodeId dirInodeId name root)).postOrder,
   (Post_run threads sched _ (Post_init fsId epoch parentInodeId dirInodeId name root)).postOrder⟩

set_option maxRecDepth 100000 in
/-- Witness of `deleteDirectoryAndData_post_order`: in a run on `/a{f1, b{f2}}` the
`DeleteDirectory` call of the top frame is the eighth event and everything listed for `a` was
processed within the seven events before it; in an interleaving on `/a{b{f2}, f1}` in which
`DeleteFile` of `f1` fails, the trace has no `DeleteDirectory` call for `a`. -/
theorem deleteDirectoryAndData_post_order_witness :
    (run ⟨Mode.delete, 2⟩ (List.replicate 64 (1, 0))
        (initState 1 7 1 2 "a" scenarioTree)).frames[0]? =
      some ⟨Kind.top, 1, 7, 1, 2, "a", scenarioTree, [], PC.ret none⟩ ∧
    (run ⟨Mode.delete, 2⟩ (List.replicate 64 (1, 0))
        (initState 1 7 1 2 "a" scenarioTree)).shared.trace =
      [Event.rpc 0 (Call.ListDentry 1 2 7) true, Event.rpc 0 (Call.DeleteFile 1 2 "f1" 7) true,
       Event.spawn 0 1, Event.rpc 1 (Call.ListDentry 1 4 7) true,
       Event.rpc 1 (Call.DeleteFile 1 4 "f2" 7) true,
       Event.rpc 1 (Call.DeleteDirectory 1 2 "b" 7) true, Event.ret 1 none] ++
      Event.rpc 0 (Call.DeleteDirectory 1 1 "a" 7) true :: [Event.ret 0 none] ∧
    Processed
      (run ⟨Mode.delete, 2⟩ (List.replicate 64 (1, 0))
        (initState 1 7 1 2 "a" scenarioTree)).frames
      [Event.rpc 0 (Call.ListDentry 1 2 7) true, Event.rpc 0 (Call.DeleteFile 1 2 "f1" 7) true,
       Event.spawn 0 1, Event.rpc 1 (Call.ListDentry 1 4 7) true,
       Event.rpc 1 (Call.DeleteFile 1 4 "f2" 7) true,
       Event.rpc 1 (Call.DeleteDirectory 1 2 "b" 7) true, Event.ret 1 none]
      0 ⟨Kind.top, 1, 7, 1, 2, "a", scenarioTree, [], PC.ret none⟩ ∧
    (interleave ⟨Mode.delete, 2⟩ ((List.range 40).map fun k => (k % 2, 0))
        (initState 1 7 1 2 "a" failTree)).frames[0]? =
      some ⟨Kind.top, 1, 7, 1, 2, "a", failTree, failTree.entries.tail,
        PC.ret (some "EIO")⟩ ∧
    Event.rpc 0 (Call.DeleteFile 1 2 "f1" 7) false ∈
      (interleave ⟨Mode.delete, 2⟩ ((List.range 40).map fun k => (k % 2, 0))
        (initState 1 7 1 2 "a" failTree)).shared.trace ∧
    Event.rpc 0 (Call.DeleteDirectory 1 1 "a" 7) true ∉
      (interleave ⟨Mode.delete, 2⟩ ((List.range 40).map fun k => (k % 2, 0))
        (initState 1 7 1 2 "a" failTree)).shared.trace :=
  ⟨by decide, by decide,
   ((deleteDirectoryAndData_post_order scenarioTree 1 7 1 2 "a" 2
      (List.replicate 64 (1, 0))).2 0 _ (by decide)).1 _ [Event.ret 0 none] 1 1 "a" 7 true
      (by decide),
   by decide, by decide,
   ((deleteDirectoryAndData_post_order failTree 1 7 1 2 "a" 2
      ((List.range 40).map fun k => (k % 2, 0))).1 0
      ⟨Kind.top, 1, 7, 1, 2, "a", failTree, failTree.entries.tail, PC.ret (some "EIO")⟩
      (by decide)).2
      (Or.inl ⟨1, 2, "f1", 7, by decide⟩) 1 1 "a" 7 true⟩

/-! ## Claims about the delete command -/

/-- C7: root protection.  For every delete request whose `options.name` is `"/"` after
`strings.TrimSpace`, and whatever the outside world would answer, `runDelete` returns the error
"root directory can not be deleted" and has asked nothing of the outside world: no epoch
lookup, no router initialisation, no path resolution, no list and no delete call. -/
theorem runDelete_root_rejected (env : Env) (options : deleteOptions)
    (h : TrimSpace options.name = "/") :
    runDelete env options =
      some (Exit.returned (some (Err.plain "root directory can not be deleted")), []) := by
  simp [runDelete, h]

/-- Witness of `runDelete_root_rejected`: the request `--path /` with surrounding blanks in the
name. -/
theorem runDelete_root_rejected_witness :
    TrimSpace (deleteOptions.mk 1 "/" " /\t" "/" 8 "plain").name = "/" ∧
    runDelete ⟨fun _ => Except.ok 7, fun _ => none, fun _ _ _ => Except.ok 1,
        fun _ _ _ => Except.ok [], fun _ => scenarioTree, [], fun _ => none⟩
      (deleteOptions.mk 1 "/" " /\t" "/" 8 "plain") =
      some (Exit.returned (some (Err.plain "root directory can not be deleted")), []) :=
  ⟨by decide, runDelete_root_rejected _ _ (by decide)⟩

/-! ## Claims about the concurrency bound -/

set_option maxRecDepth 100000 in
/-- C8, as stated, fails: with `threads = 0` on the namespace `/a{f1: 10 bytes, b{f2: 20 bytes}}`
`GetDirectorySizeAndInodes` returns `(30, 4, nil)` and `deleteDirectory` returns a summary with
`Inodes = 4` and a nil error, and both have issued the `ListDentry` of the root. -/
theorem threads_zero_not_rejected :
    GetDirectorySizeAndInodes scenarioTree 1 2 true 7 0 (List.replicate 64 (0, 0)) =
      some (30, 4, none) ∧
    Event.rpc 0 (Call.ListDentry 1 2 7) true ∈
      (run ⟨Mode.usage true, 0⟩ (List.replicate 64 (0, 0))
        (initState 1 7 0 2 "" scenarioTree)).shared.trace ∧
    deleteDirectory scenarioTree 1 7 1 2 "a" 0 (List.replicate 64 (0, 0)) =
      some (some 4, none) ∧
    Event.rpc 0 (Call.ListDentry 1 2 7) true ∈
      (run ⟨Mode.delete, 0⟩ (List.replicate 64 (0, 0))
        (initState 1 7 1 2 "a" scenarioTree)).shared.trace := by
  decide

/-- C8, amended: with `threads = 0` the walks are not rejected.  For every namespace in which
every RPC of the walk succeeds and every schedule long enough for the walk to return,
`GetDirectorySizeAndInodes` returns the totals of the namespace with a nil error and
`deleteDirectory` returns the number of entries plus one with a nil error, as with any other
bound; no goroutine is ever started (every sub-directory is walked inline), and the
`ListDentry` of the root has been issued. -/
theorem threads_zero_walks_inline :
    (∀ (root : Node) (fsId dirInode : Nat) (chk : Bool) (epoch : Nat)
      (sched : List (Nat × Nat)), TreeOk (Mode.usage chk) root → Consistent chk root →
      walkBound root ≤ sched.length →
      GetDirectorySizeAndInodes root fsId dirInode chk epoch 0 sched =
        some (toInt64 (usageBytes chk root), toInt64 (usageInodes chk root + 1), none) ∧
      (∀ p c, Event.spawn p c ∉
        (run ⟨Mode.usage chk, 0⟩ sched (initState fsId epoch 0 dirInode "" root)).shared.trace) ∧
      ∃ ok, Event.rpc 0 (Call.ListDentry fsId dirInode epoch) ok ∈
        (run ⟨Mode.usage chk, 0⟩ sched (initState fsId epoch 0 dirInode "" root)).shared.trace) ∧
    (∀ (root : Node) (fsId epoch parentInodeId dirInodeId : Nat) (name : String)
      (sched : List (Nat × Nat)), TreeOk Mode.delete root → walkBound root ≤ sched.length →
      deleteDirectory root fsId epoch parentInodeId dirInodeId name 0 sched =
        some (some ((root.listed.length + 1) % 2 ^ 64), none) ∧
      (∀ p c, Event.spawn p c ∉
        (run ⟨Mode.delete, 0⟩ sched
          (initState fsId epoch parentInodeId dirInodeId name root)).shared.trace) ∧
      ∃ ok, Event.rpc 0 (Call.ListDentry fsId dirInodeId epoch) ok ∈
        (run ⟨Mode.delete, 0⟩ sched
          (initState fsId epoch parentInodeId dirInodeId name root)).shared.trace) := by
  constructor
  · intro root fsId dirInode chk epoch sched hok hc hlen
    refine ⟨usage_result root fsId dirInode chk epoch 0 sched hok hc hlen,
      fun p c => noSpawn_run _ rfl p c sched _ (by simp [initState]), ?_⟩
    exact listed_of_returned _ sched fsId epoch 0 dirInode "" root
      (run_returns _ sched _ (WF_init fsId epoch 0 dirInode "" root)
        (by simpa [initState, total, Frame.fuel, walkBound] using hlen))
  · intro root fsId epoch parentInodeId dirInodeId name sched hok hlen
    refine ⟨(delete_result root fsId epoch parentInodeId dirInodeId name 0 sched hok hlen).1,
      fun p c => noSpawn_run _ rfl p c sched _ (by simp [initState]), ?_⟩
    exact listed_of_returned _ sched fsId epoch parentInodeId dirInodeId name root
      (run_returns _ sched _ (WF_init fsId epoch parentInodeId dirInodeId name root)
        (by simpa [initState, total, Frame.fuel, walkBound] using hlen))

/-- Witness of `threads_zero_walks_inline` on the scenario namespace. -/
theorem threads_zero_walks_inline_witness :
    TreeOk Mode.delete scenarioTree ∧
    walkBound scenarioTree ≤ (List.replicate 64 ((0 : Nat), (0 : Nat))).length ∧
    deleteDirectory scenarioTree 1 7 1 2 "a" 0 (List.replicate 64 (0, 0)) =
      some (some ((scenarioTree.listed.length + 1) % 2 ^ 64), none) ∧
    (∀ p c, Event.spawn p c ∉
      (run ⟨Mode.delete, 0⟩ (List.replicate 64 (0, 0))
        (initState 1 7 1 2 "a" scenarioTree)).shared.trace) ∧
    ∃ ok, Event.rpc 0 (Call.ListDentry 1 2 7) ok ∈
      (run ⟨Mode.delete, 0⟩ (List.replicate 64 (0, 0))
        (initState 1 7 1 2 "a" scenarioTree)).shared.trace :=
  ⟨scenarioTree_delete_ok, by rw [(scenarioTree_ok true).2.2.2.2]; simp,
    threads_zero_walks_inline.2 scenarioTree 1 7 1 2 "a" (List.replicate 64 (0, 0))
      scenarioTree_delete_ok (by rw [(scenarioTree_ok true).2.2.2.2]; simp)⟩

/-! ## Claims about the RPC invoker -/

theorem retryLoop_trace {C R : Type} (errno : Errno C) (rpc : Rpc) (net : Remote R)
    (address : String) (retryTimes attempt : Nat) :
    ∀ ev ∈ (retryLoop errno rpc net address retryTimes attempt).2,
      ev = RpcEvent.Stub_Func address ∨ ev = RpcEvent.Sleep rpc.RpcRetryDelay := by
  induction retryTimes generalizing attempt with
  | zero =>
    intro ev hev
    unfold retryLoop at hev
    split at hev <;> simp at hev <;> exact Or.inl hev
  | succ k ih =>
    intro ev hev
    unfold retryLoop at hev
    split at hev
    · simp only [List.mem_cons] at hev
      rcases hev with hev | hev | hev
      · exact Or.inl hev
      · exact Or.inr hev
      · exact ih _ ev hev
    · split at hev
      · simp only [List.mem_cons] at hev
        rcases hev with hev | hev | hev
        · exact Or.inl hev
        · exact Or.inr hev
        · exact ih _ ev hev
      · simp at hev; exact Or.inl hev

theorem requestLoop_skip {C R : Type} (errno : Errno C) (rpc : Rpc) (net : Remote R)
    (pre l : List String) (h : ∀ x ∈ pre, net.connect x ≠ none) :
    requestLoop errno rpc net (pre ++ l) =
      (pre.map (fun x => ⟨x, errno.ERR_RPC_FAILED, none⟩) ++ (requestLoop errno rpc net l).1,
       pre.map (fun x => RpcEvent.GetConnection x rpc.RpcTimeout) ++
         (requestLoop errno rpc net l).2) := by
  induction pre with
  | nil => simp
  | cons x xs ih =>
    have hx := h x (List.mem_cons_self _ _)
    have ih1 := ih (fun y hy => h y (List.mem_cons_of_mem _ hy))
    cases hc : net.connect x with
    | none => exact absurd hc hx
    | some e =>
      show requestLoop errno rpc net (x :: (xs ++ l)) = _
      simp only [requestLoop, hc, ih1, List.map_cons, List.cons_append]

theorem requestLoop_connected {C R : Type} (errno : Errno C) (rpc : Rpc) (net : Remote R)
    (a : String) (post : List String) (h : net.connect a = none) :
    requestLoop errno rpc net (a :: post) =
      ([(retryLoop errno rpc net a rpc.RpcRetryTimes.toNat 0).1],
       RpcEvent.GetConnection a rpc.RpcTimeout :: RpcEvent.NewRpcClient a ::
         (retryLoop errno rpc net a rpc.RpcRetryTimes.toNat 0).2 ++
           [RpcEvent.PutConnection a]) := by
  simp only [requestLoop, h]

theorem GetRpcResponse_trace {C R : Type} (errno : Errno C) (rpc : Rpc) (net : Remote R) :
    (GetRpcResponse errno rpc net).2 = (requestLoop errno rpc net rpc.Addrs).2 := by
  unfold GetRpcResponse
  simp only
  split <;> rfl

/-- C9, as stated, fails: with the candidates `["a", "b"]` and no connection to `"a"`, the
pool is asked for a connection to `"b"` and the stub is called against `"b"`. -/
theorem GetRpcResponse_tries_next_address :
    (GetRpcResponse exampleErrno ⟨["a", "b"], 5, 3, 10, "ListDentry", false⟩
      ⟨fun x => if x = "a" then some "refused" else none, fun _ _ => Except.ok (7 : Nat),
       fun _ => false⟩) =
      ((some 7, 0),
       [RpcEvent.GetConnection "a" 5, RpcEvent.GetConnection "b" 5, RpcEvent.NewRpcClient "b",
        RpcEvent.Stub_Func "b", RpcEvent.PutConnection "b"]) := by
  decide

/-- C9, amended: `GetRpcResponse` asks the pool for connections in list order until the first
one is obtained and calls the stub against that address only: when the connections to the
addresses `pre` fail and the connection to `a` is obtained, what it does is one
`GetConnection` per address of `pre`, then `GetConnection`, `NewRpcClient`, calls of the stub
against `a` with sleeps of `RpcRetryDelay`, and `PutConnection` for `a`; no address after `a`
is passed to the pool or called.  In particular, when the connection to the first address is
obtained only the first address is used; and when no connection is obtained, every address was
passed to the pool once and the stub was never called. -/
theorem GetRpcResponse_first_connected {C R : Type} (errno : Errno C) (rpc : Rpc)
    (net : Remote R) :
    (∀ (pre : List String) (a : String) (post : List String), rpc.Addrs = pre ++ a :: post →
      (∀ x ∈ pre, net.connect x ≠ none) → net.connect a = none →
      ∃ calls, (GetRpcResponse errno rpc net).2 =
          pre.map (fun x => RpcEvent.GetConnection x rpc.RpcTimeout) ++
            (RpcEvent.GetConnection a rpc.RpcTimeout :: RpcEvent.NewRpcClient a :: calls ++
              [RpcEvent.PutConnection a]) ∧
        ∀ ev ∈ calls, ev = RpcEvent.Stub_Func a ∨ ev = RpcEvent.Sleep rpc.RpcRetryDelay) ∧
    ((∀ x ∈ rpc.Addrs, net.connect x ≠ none) →
      (GetRpcResponse errno rpc net).2 =
        rpc.Addrs.map (fun x => RpcEvent.GetConnection x rpc.RpcTimeout)) := by
  constructor
  · intro pre a post hA hpre ha
    refine ⟨(retryLoop errno rpc net a rpc.RpcRetryTimes.toNat 0).2, ?_,
      retryLoop_trace errno rpc net a _ _⟩
    rw [GetRpcResponse_trace, hA, requestLoop_skip errno rpc net pre _ hpre,
      requestLoop_connected errno rpc net a post ha]
  · intro hall
    rw [GetRpcResponse_trace]
    have := requestLoop_skip errno rpc net rpc.Addrs [] hall
    rw [List.append_nil] at this
    rw [this]
    simp [requestLoop]

/-- Witness of `GetRpcResponse_first_connected`: the candidates `["a", "b", "c"]` with no
connection to `"a"`. -/
theorem GetRpcResponse_first_connected_witness :
    ∃ calls, (GetRpcResponse exampleErrno ⟨["a", "b", "c"], 5, 3, 10, "ListDentry", false⟩
        ⟨fun x => if x = "a" then some "refused" else none, fun _ _ => Except.ok (7 : Nat),
         fun _ => false⟩).2 =
        ["a"].map (fun x => RpcEvent.GetConnection x 5) ++
          (RpcEvent.GetConnection "b" 5 :: RpcEvent.NewRpcClient "b" :: calls ++
            [RpcEvent.PutConnection "b"]) ∧
      ∀ ev ∈ calls, ev = RpcEvent.Stub_Func "b" ∨ ev = RpcEvent.Sleep 10 :=
  (GetRpcResponse_first_connected exampleErrno ⟨["a", "b", "c"], 5, 3, 10, "ListDentry", false⟩
    ⟨fun x => if x = "a" then some "refused" else none, fun _ _ => Except.ok (7 : Nat),
     fun _ => false⟩).1 ["a"] "b" ["c"] rfl (by decide) (by decide)

theorem sleeps_append (l1 l2 : List RpcEvent) : sleeps (l1 ++ l2) = sleeps l1 ++ sleeps l2 := by
  induction l1 with
  | nil => rfl
  | cons ev t ih => cases ev <;> simp [sleeps, ih]

theorem stubCalls_append (l1 l2 : List RpcEvent) :
    stubCalls (l1 ++ l2) = stubCalls l1 ++ stubCalls l2 := by
  induction l1 with
  | nil => rfl
  | cons ev t ih => cases ev <;> simp [stubCalls, ih]

theorem sleeps_connects (l : List String) (t : Nat) :
    sleeps (l.map (fun x => RpcEvent.GetConnection x t)) = [] ∧
    stubCalls (l.map (fun x => RpcEvent.GetConnection x t)) = [] := by
  induction l with
  | nil => exact ⟨rfl, rfl⟩
  | cons x xs ih => simpa [sleeps, stubCalls] using ih

/-- The retry loop after `n` transient failures followed by a response that needs no retry,
with at least `n` retries left. -/
theorem retryLoop_success {C R : Type} (errno : Errno C) (rpc : Rpc) (net : Remote R)
    (a : String) (res : R) (n : Nat) :
    ∀ (retryTimes attempt : Nat), n ≤ retryTimes →
      (∀ k, k < n → transient net a (attempt + k)) →
      net.stub a (attempt + n) = Except.ok res → net.CheckRpcNeedRetry res = false →
      (retryLoop errno rpc net a retryTimes attempt).1 = ⟨a, errno.ERR_OK, some res⟩ ∧
      sleeps (retryLoop errno rpc net a retryTimes attempt).2 =
        List.replicate n rpc.RpcRetryDelay ∧
      stubCalls (retryLoop errno rpc net a retryTimes attempt).2 = List.replicate (n + 1) a := by
  induction n with
  | zero =>
    intro retryTimes attempt _ _ hok hnr
    simp only [Nat.add_zero] at hok
    cases retryTimes with
    | zero => simp [retryLoop, hok, sleeps, stubCalls]
    | succ k => simp [retryLoop, hok, hnr, sleeps, stubCalls]
  | succ m ih =>
    intro retryTimes attempt hle hfail hok hnr
    cases retryTimes with
    | zero => omega
    | succ k =>
      have h0 := hfail 0 (by omega)
      simp only [Nat.add_zero] at h0
      have ih1 := ih k (attempt + 1) (by omega)
        (fun j hj => by
          have := hfail (j + 1) (by omega)
          rwa [show attempt + (j + 1) = attempt + 1 + j by omega] at this)
        (by rwa [show attempt + (m + 1) = attempt + 1 + m by omega] at hok) hnr
      obtain ⟨i1, i2, i3⟩ := ih1
      unfold transient at h0
      cases hs : net.stub a attempt with
      | error e =>
        simp only [retryLoop, hs, sleeps, stubCalls, i1, i2, i3]
        exact ⟨trivial, by simp [List.replicate_succ], by simp [List.replicate_succ]⟩
      | ok r =>
        rw [hs] at h0
        simp only at h0
        simp only [retryLoop, hs, h0, ite_true, sleeps, stubCalls, i1, i2, i3]
        exact ⟨trivial, by simp [List.replicate_succ], by simp [List.replicate_succ]⟩

theorem collect_skip {C R : Type} (errno : Errno C) (pre : List String) (rs : List (Result C R))
    (hcode : pre ≠ [] → errno.GetCode errno.ERR_RPC_FAILED ≠ errno.GetCode errno.ERR_OK) :
    collect errno (pre.map (fun x => (⟨x, errno.ERR_RPC_FAILED, none⟩ : Result C R)) ++ rs) =
      ((collect errno rs).1, pre.map (fun _ => errno.ERR_RPC_FAILED) ++ (collect errno rs).2) := by
  induction pre with
  | nil => simp
  | cons x xs ih =>
    have hc := hcode (by simp)
    have ih1 := ih (fun _ => hc)
    show collect errno ((⟨x, errno.ERR_RPC_FAILED, none⟩ : Result C R) ::
      (xs.map (fun x => (⟨x, errno.ERR_RPC_FAILED, none⟩ : Result C R)) ++ rs)) = _
    rw [collect, if_pos hc, ih1]
    rfl

/-- C10: retry with backoff.  When the connections to the addresses before `a` fail and the
connection to `a` is obtained (`a` is the attempted endpoint; in the plain case it is the
first address), and for `1 ≤ N ≤ RpcRetryTimes` the calls `1 .. N-1` against `a` fail
transiently (transport error or a response `CheckRpcNeedRetry` classifies as retryable) and
call `N` returns a response that needs no retry, then `GetRpcResponse` returns the response of
call `N` with `ERR_OK`, having called the stub `N` times against `a` and slept exactly `N-1`
times, each time for `RpcRetryDelay`: `(N-1) * RpcRetryDelay` in total.  (If addresses were
skipped, the code of `ERR_RPC_FAILED` is taken to differ from that of `ERR_OK`.) -/
theorem GetRpcResponse_retry_backoff {C R : Type} (errno : Errno C) (rpc : Rpc)
    (net : Remote R) (pre : List String) (a : String) (post : List String) (N : Nat) (res : R)
    (hcode : pre ≠ [] → errno.GetCode errno.ERR_RPC_FAILED ≠ errno.GetCode errno.ERR_OK)
    (hA : rpc.Addrs = pre ++ a :: post) (hpre : ∀ x ∈ pre, net.connect x ≠ none)
    (ha : net.connect a = none) (hN1 : 1 ≤ N) (hN : (N : Int) ≤ rpc.RpcRetryTimes)
    (hfail : ∀ k, k + 1 < N → transient net a k)
    (hok : net.stub a (N - 1) = Except.ok res) (hnr : net.CheckRpcNeedRetry res = false) :
    (GetRpcResponse errno rpc net).1 = (some res, errno.ERR_OK) ∧
    sleeps (GetRpcResponse errno rpc net).2 = List.replicate (N - 1) rpc.RpcRetryDelay ∧
    (sleeps (GetRpcResponse errno rpc net).2).sum = (N - 1) * rpc.RpcRetryDelay ∧
    stubCalls (GetRpcResponse errno rpc net).2 = List.replicate N a := by
  have hbud : N - 1 ≤ rpc.RpcRetryTimes.toNat := by
    have h0 : 0 ≤ rpc.RpcRetryTimes := by omega
    have h1 : ((N - 1 : Nat) : Int) ≤ rpc.RpcRetryTimes := by omega
    exact (Int.le_toNat h0).mpr h1
  obtain ⟨r1, r2, r3⟩ := retryLoop_success errno rpc net a res (N - 1) rpc.RpcRetryTimes.toNat 0
    hbud (fun k hk => by simpa using hfail k (by omega)) (by simpa using hok) hnr
  have hreq := requestLoop_skip errno rpc net pre (a :: post) hpre
  rw [requestLoop_connected errno rpc net a post ha] at hreq
  have hsl : sleeps (GetRpcResponse errno rpc net).2 = List.replicate (N - 1) rpc.RpcRetryDelay := by
    rw [GetRpcResponse_trace, hA, hreq]
    simp [sleeps_append, (sleeps_connects pre rpc.RpcTimeout).1, sleeps, r2]
  refine ⟨?_, hsl, ?_, ?_⟩
  · unfold GetRpcResponse
    simp only [hA, hreq, r1]
    rw [collect_skip errno pre _ hcode]
    simp [collect]
  · rw [hsl]; simp
  · rw [Nat.sub_add_cancel hN1] at r3
    rw [GetRpcResponse_trace, hA, hreq]
    simp [stubCalls_append, (sleeps_connects pre rpc.RpcTimeout).2, stubCalls, r3]

/-- Witness of `GetRpcResponse_retry_backoff`: a budget of 3, a transport error, a retryable
response, then a response that needs no retry (`N = 3`). -/
theorem GetRpcResponse_retry_backoff_witness :
    (GetRpcResponse exampleErrno ⟨["a", "b"], 5, 3, 10, "ListDentry", false⟩
      ⟨fun _ => none,
       fun _ k => if k = 0 then Except.error "timeout" else Except.ok k,
       fun r => decide (r = 1)⟩).1 = (some 2, exampleErrno.ERR_OK) ∧
    sleeps (GetRpcResponse exampleErrno ⟨["a", "b"], 5, 3, 10, "ListDentry", false⟩
      ⟨fun _ => none,
       fun _ k => if k = 0 then Except.error "timeout" else Except.ok k,
       fun r => decide (r = 1)⟩).2 = List.replicate (3 - 1) 10 ∧
    (sleeps (GetRpcResponse exampleErrno ⟨["a", "b"], 5, 3, 10, "ListDentry", false⟩
      ⟨fun _ => none,
       fun _ k => if k = 0 then Except.error "timeout" else Except.ok k,
       fun r => decide (r = 1)⟩).2).sum = (3 - 1) * 10 ∧
    stubCalls (GetRpcResponse exampleErrno ⟨["a", "b"], 5, 3, 10, "ListDentry", false⟩
      ⟨fun _ => none,
       fun _ k => if k = 0 then Except.error "timeout" else Except.ok k,
       fun r => decide (r = 1)⟩).2 = List.replicate 3 "a" :=
  GetRpcResponse_retry_backoff exampleErrno ⟨["a", "b"], 5, 3, 10, "ListDentry", false⟩
    ⟨fun _ => none, fun _ k => if k = 0 then Except.error "timeout" else Except.ok k,
     fun r => decide (r = 1)⟩ [] "a" ["b"] 3 2 (fun h => absurd rfl h) rfl (by simp) rfl
    (by decide) (by decide)
    (fun k hk => by
      have : k = 0 ∨ k = 1 := by omega
      rcases this with rfl | rfl <;> simp [transient])
    rfl rfl

/-- The retry loop when every call fails with a transport error: the failure `Result` with the
error of the last call. -/
theorem retryLoop_exhausted {C R : Type} (errno : Errno C) (rpc : Rpc) (net : Remote R)
    (a : String) (retryTimes : Nat) :
    ∀ attempt : Nat, (∀ k, k ≤ retryTimes → ∃ e, net.stub a (attempt + k) = Except.error e) →
      ∃ e, net.stub a (attempt + retryTimes) = Except.error e ∧
        (retryLoop errno rpc net a retryTimes attempt).1 =
          ⟨a, errno.E errno.ERR_RPC_FAILED e, none⟩ := by
  induction retryTimes with
  | zero =>
    intro attempt h
    obtain ⟨e, he⟩ := h 0 (le_refl _)
    simp only [Nat.add_zero] at he
    exact ⟨e, by simpa using he, by simp [retryLoop, he]⟩
  | succ k ih =>
    intro attempt h
    obtain ⟨e0, he0⟩ := h 0 (by omega)
    simp only [Nat.add_zero] at he0
    obtain ⟨e, he, hr⟩ := ih (attempt + 1) (fun j hj => by
      obtain ⟨e, he⟩ := h (j + 1) (by omega)
      exact ⟨e, by rwa [show attempt + 1 + j = attempt + (j + 1) by omega]⟩)
    refine ⟨e, by rwa [show attempt + (k + 1) = attempt + 1 + k by omega], ?_⟩
    simp only [retryLoop, he0, hr]

/-- The retry loop when every call returns a retryable response: the last response, recorded
with `ERR_OK`. -/
theorem retryLoop_retryable {C R : Type} (errno : Errno C) (rpc : Rpc) (net : Remote R)
    (a : String) (retryTimes : Nat) :
    ∀ attempt : Nat,
      (∀ k, k ≤ retryTimes → ∃ res, net.stub a (attempt + k) = Except.ok res ∧
        net.CheckRpcNeedRetry res = true) →
      ∃ res, net.stub a (attempt + retryTimes) = Except.ok res ∧
        (retryLoop errno rpc net a retryTimes attempt).1 = ⟨a, errno.ERR_OK, some res⟩ := by
  induction retryTimes with
  | zero =>
    intro attempt h
    obtain ⟨res, he, _⟩ := h 0 (le_refl _)
    simp only [Nat.add_zero] at he
    exact ⟨res, by simpa using he, by simp [retryLoop, he]⟩
  | succ k ih =>
    intro attempt h
    obtain ⟨r0, he0, hn0⟩ := h 0 (by omega)
    simp only [Nat.add_zero] at he0
    obtain ⟨res, he, hr⟩ := ih (attempt + 1) (fun j hj => by
      obtain ⟨e, he, hn⟩ := h (j + 1) (by omega)
      exact ⟨e, by rwa [show attempt + 1 + j = attempt + (j + 1) by omega], hn⟩)
    refine ⟨res, by rwa [show attempt + (k + 1) = attempt + 1 + k by omega], ?_⟩
    simp only [retryLoop, he0, hn0, ite_true, hr]

/-- The stub calls and the sleeps of the retry loop: one call more than sleeps, at most
`retryTimes` sleeps, each of `RpcRetryDelay`. -/
theorem retryLoop_bounded {C R : Type} (errno : Errno C) (rpc : Rpc) (net : Remote R)
    (a : String) (retryTimes : Nat) :
    ∀ attempt : Nat,
      (stubCalls (retryLoop errno rpc net a retryTimes attempt).2).length =
        (sleeps (retryLoop errno rpc net a retryTimes attempt).2).length + 1 ∧
      (sleeps (retryLoop errno rpc net a retryTimes attempt).2).length ≤ retryTimes ∧
      (∀ d ∈ sleeps (retryLoop errno rpc net a retryTimes attempt).2, d = rpc.RpcRetryDelay) ∧
      ∀ x ∈ stubCalls (retryLoop errno rpc net a retryTimes attempt).2, x = a := by
  induction retryTimes with
  | zero =>
    intro attempt
    unfold retryLoop
    split <;> simp [sleeps, stubCalls]
  | succ k ih =>
    intro attempt
    obtain ⟨i1, i2, i3, i4⟩ := ih (attempt + 1)
    unfold retryLoop
    split
    · simp only [sleeps, stubCalls, List.length_cons, List.mem_cons]
      refine ⟨by omega, by omega, ?_, ?_⟩
      · rintro d (hd | hd)
        · exact hd
        · exact i3 d hd
      · rintro x (hx | hx)
        · exact hx
        · exact i4 x hx
    · split
      · simp only [sleeps, stubCalls, List.length_cons, List.mem_cons]
        refine ⟨by omega, by omega, ?_, ?_⟩
        · rintro d (hd | hd)
          · exact hd
          · exact i3 d hd
        · rintro x (hx | hx)
          · exact hx
          · exact i4 x hx
      · simp [sleeps, stubCalls]

theorem requestLoop_bounded {C R : Type} (errno : Errno C) (rpc : Rpc) (net : Remote R)
    (l : List String) :
    (stubCalls (requestLoop errno rpc net l).2).length ≤
        (sleeps (requestLoop errno rpc net l).2).length + 1 ∧
      (sleeps (requestLoop errno rpc net l).2).length ≤ rpc.RpcRetryTimes.toNat ∧
      ∀ d ∈ sleeps (requestLoop errno rpc net l).2, d = rpc.RpcRetryDelay := by
  induction l with
  | nil => simp [requestLoop, sleeps, stubCalls]
  | cons x xs ih =>
    cases hc : net.connect x with
    | some e =>
      simp only [requestLoop, hc, sleeps, stubCalls]
      exact ih
    | none =>
      obtain ⟨i1, i2, i3, _⟩ := retryLoop_bounded errno rpc net x rpc.RpcRetryTimes.toNat 0
      simp only [requestLoop, hc, sleeps, stubCalls, sleeps_append, stubCalls_append,
        List.append_nil, List.length_append, List.length_nil, Nat.add_zero]
      exact ⟨by omega, i2, i3⟩

theorem collect_failed {C R : Type} (errno : Errno C) (pre : List String) (r : Result C R)
    (hcode : errno.GetCode errno.ERR_RPC_FAILED ≠ errno.GetCode errno.ERR_OK)
    (hr : errno.GetCode r.err ≠ errno.GetCode errno.ERR_OK) :
    collect errno (pre.map (fun x => (⟨x, errno.ERR_RPC_FAILED, none⟩ : Result C R)) ++ [r]) =
      (none, pre.map (fun _ => errno.ERR_RPC_FAILED) ++ [r.err]) := by
  rw [collect_skip errno pre _ (fun _ => hcode)]
  simp [collect, hr]

theorem collect_ok {C R : Type} (errno : Errno C) (pre : List String) (a : String)
    (res : Option R)
    (hcode : pre ≠ [] → errno.GetCode errno.ERR_RPC_FAILED ≠ errno.GetCode errno.ERR_OK) :
    collect errno (pre.map (fun x => (⟨x, errno.ERR_RPC_FAILED, none⟩ : Result C R)) ++
        [⟨a, errno.ERR_OK, res⟩]) =
      (res, pre.map (fun _ => errno.ERR_RPC_FAILED)) := by
  rw [collect_skip errno pre _ hcode]
  simp [collect]

theorem GetRpcResponse_connected {C R : Type} (errno : Errno C) (rpc : Rpc) (net : Remote R)
    (pre : List String) (a : String) (post : List String) (hA : rpc.Addrs = pre ++ a :: post)
    (hpre : ∀ x ∈ pre, net.connect x ≠ none) (ha : net.connect a = none) :
    requestLoop errno rpc net rpc.Addrs =
      (pre.map (fun x => ⟨x, errno.ERR_RPC_FAILED, none⟩) ++
          [(retryLoop errno rpc net a rpc.RpcRetryTimes.toNat 0).1],
       pre.map (fun x => RpcEvent.GetConnection x rpc.RpcTimeout) ++
         (RpcEvent.GetConnection a rpc.RpcTimeout :: RpcEvent.NewRpcClient a ::
           (retryLoop errno rpc net a rpc.RpcRetryTimes.toNat 0).2 ++
             [RpcEvent.PutConnection a])) := by
  rw [hA, requestLoop_skip errno rpc net pre _ hpre, requestLoop_connected errno rpc net a post ha]

/-- C11 fails on the code: when the connection to the attempted endpoint `a` is obtained and
every call fails with a transport error until the budget is used up, `GetRpcResponse` returns
a nil response with `ERR_OK` as soon as an address follows `a` in the candidate list (the
errors collected are fewer than the candidates); it returns the aggregated `ERR_RPC_FAILED`
only when `a` is the last candidate.  The codes of `ERR_RPC_FAILED` and of
`ERR_RPC_FAILED.E(err)` are taken to differ from that of `ERR_OK`. -/
theorem GetRpcResponse_exhausted_reports_ok {C R : Type} (errno : Errno C) (rpc : Rpc)
    (net : Remote R) (pre : List String) (a : String) (post : List String)
    (hE : ∀ e, errno.GetCode (errno.E errno.ERR_RPC_FAILED e) ≠ errno.GetCode errno.ERR_OK)
    (hcode : errno.GetCode errno.ERR_RPC_FAILED ≠ errno.GetCode errno.ERR_OK)
    (hA : rpc.Addrs = pre ++ a :: post) (hpre : ∀ x ∈ pre, net.connect x ≠ none)
    (ha : net.connect a = none)
    (hfail : ∀ k, k ≤ rpc.RpcRetryTimes.toNat → ∃ e, net.stub a k = Except.error e) :
    (post ≠ [] → (GetRpcResponse errno rpc net).1 = (none, errno.ERR_OK)) ∧
    (post = [] → ∃ vecErrs, vecErrs.length = rpc.Addrs.length ∧
      (GetRpcResponse errno rpc net).1 = (none, errno.joinE errno.ERR_RPC_FAILED vecErrs)) := by
  obtain ⟨e, _, hr⟩ := retryLoop_exhausted errno rpc net a rpc.RpcRetryTimes.toNat 0
    (fun k hk => by simpa using hfail k hk)
  have hreq := GetRpcResponse_connected errno rpc net pre a post hA hpre ha
  have hcol := @collect_failed C R errno pre ⟨a, errno.E errno.ERR_RPC_FAILED e, none⟩
    hcode (hE e)
  constructor
  · intro hpost
    unfold GetRpcResponse
    simp only [hreq, hr, hcol]
    have hlen : ¬ (pre.map (fun _ => errno.ERR_RPC_FAILED) ++
        [errno.E errno.ERR_RPC_FAILED e]).length ≥ rpc.Addrs.length := by
      rw [hA]
      cases post with
      | nil => exact absurd rfl hpost
      | cons y ys => simp
    rw [if_neg hlen]
  · intro hpost
    refine ⟨pre.map (fun _ => errno.ERR_RPC_FAILED) ++ [errno.E errno.ERR_RPC_FAILED e], ?_, ?_⟩
    · rw [hA, hpost]; simp
    · unfold GetRpcResponse
      simp only [hreq, hr, hcol]
      have hlen : (pre.map (fun _ => errno.ERR_RPC_FAILED) ++
          [errno.E errno.ERR_RPC_FAILED e]).length ≥ rpc.Addrs.length := by
        rw [hA, hpost]; simp
      rw [if_pos hlen]

/-- Witness of `GetRpcResponse_exhausted_reports_ok`: the candidates `["a", "b"]`, a budget of
one retry, and a stub that always fails with a transport error: two calls against `"a"`, one
sleep, and the result is `(nil, ERR_OK)`. -/
theorem GetRpcResponse_exhausted_reports_ok_witness :
    GetRpcResponse exampleErrno ⟨["a", "b"], 5, 1, 10, "ListDentry", false⟩
      ⟨fun _ => none, fun _ _ => (Except.error "timeout" : Except String Nat),
       fun _ => false⟩ =
      ((none, exampleErrno.ERR_OK),
       [RpcEvent.GetConnection "a" 5, RpcEvent.NewRpcClient "a", RpcEvent.Stub_Func "a",
        RpcEvent.Sleep 10, RpcEvent.Stub_Func "a", RpcEvent.PutConnection "a"]) ∧
    (GetRpcResponse exampleErrno ⟨["a", "b"], 5, 1, 10, "ListDentry", false⟩
      ⟨fun _ => none, fun _ _ => (Except.error "timeout" : Except String Nat),
       fun _ => false⟩).1 = (none, exampleErrno.ERR_OK) :=
  ⟨by decide,
   (GetRpcResponse_exhausted_reports_ok exampleErrno
      ⟨["a", "b"], 5, 1, 10, "ListDentry", false⟩
      ⟨fun _ => none, fun _ _ => (Except.error "timeout" : Except String Nat), fun _ => false⟩
      [] "a" ["b"] (fun _ => by simp [exampleErrno]) (by decide) rfl (by simp) rfl
      (fun _ _ => ⟨"timeout", rfl⟩)).1 (by simp)⟩

/-- C12, as stated, fails: with one candidate, a budget of two retries and a stub whose every
response is classified retryable, `GetRpcResponse` calls the stub three times, sleeps twice,
and returns the last response with `ERR_OK`. -/
theorem GetRpcResponse_retryable_returned_ok :
    GetRpcResponse exampleErrno ⟨["a"], 5, 2, 10, "ListDentry", false⟩
      ⟨fun _ => none, fun _ k => (Except.ok (100 + k) : Except String Nat), fun _ => true⟩ =
      ((some 102, exampleErrno.ERR_OK),
       [RpcEvent.GetConnection "a" 5, RpcEvent.NewRpcClient "a", RpcEvent.Stub_Func "a",
        RpcEvent.Sleep 10, RpcEvent.Stub_Func "a", RpcEvent.Sleep 10, RpcEvent.Stub_Func "a",
        RpcEvent.PutConnection "a"]) := by
  decide

/-- C12, amended: when the connection to the attempted endpoint `a` is obtained and every call
returns a response that `CheckRpcNeedRetry` classifies as retryable until the budget is used
up, `GetRpcResponse` records no failure: it returns the response of the last call (call number
`max(RpcRetryTimes, 0) + 1`) together with `ERR_OK`.  (If addresses were skipped, the code of
`ERR_RPC_FAILED` is taken to differ from that of `ERR_OK`.) -/
theorem GetRpcResponse_retryable_exhausted {C R : Type} (errno : Errno C) (rpc : Rpc)
    (net : Remote R) (pre : List String) (a : String) (post : List String)
    (hcode : pre ≠ [] → errno.GetCode errno.ERR_RPC_FAILED ≠ errno.GetCode errno.ERR_OK)
    (hA : rpc.Addrs = pre ++ a :: post) (hpre : ∀ x ∈ pre, net.connect x ≠ none)
    (ha : net.connect a = none)
    (hretry : ∀ k, k ≤ rpc.RpcRetryTimes.toNat → ∃ res, net.stub a k = Except.ok res ∧
      net.CheckRpcNeedRetry res = true) :
    ∃ res, net.stub a rpc.RpcRetryTimes.toNat = Except.ok res ∧
      net.CheckRpcNeedRetry res = true ∧
      (GetRpcResponse errno rpc net).1 = (some res, errno.ERR_OK) := by
  obtain ⟨res, hres, hr⟩ := retryLoop_retryable errno rpc net a rpc.RpcRetryTimes.toNat 0
    (fun k hk => by simpa using hretry k hk)
  simp only [Nat.zero_add] at hres
  obtain ⟨res1, h1, h2⟩ := hretry _ (le_refl _)
  rw [hres] at h1
  cases h1
  refine ⟨res, hres, h2, ?_⟩
  have hreq := GetRpcResponse_connected errno rpc net pre a post hA hpre ha
  unfold GetRpcResponse
  simp only [hreq, hr, collect_ok errno pre a (some res) hcode]
  have hlen : ¬ (pre.map (fun _ => errno.ERR_RPC_FAILED)).length ≥ rpc.Addrs.length := by
    rw [hA]; simp
  rw [if_neg hlen]

/-- Witness of `GetRpcResponse_retryable_exhausted`: one candidate, a budget of two retries,
every response retryable. -/
theorem GetRpcResponse_retryable_exhausted_witness :
    ∃ res, (Except.ok (100 + (2 : Int).toNat) : Except String Nat) = Except.ok res ∧
      true = true ∧
      (GetRpcResponse exampleErrno ⟨["a"], 5, 2, 10, "ListDentry", false⟩
        ⟨fun _ => none, fun _ k => (Except.ok (100 + k) : Except String Nat),
         fun _ => true⟩).1 = (some res, exampleErrno.ERR_OK) :=
  GetRpcResponse_retryable_exhausted exampleErrno ⟨["a"], 5, 2, 10, "ListDentry", false⟩
    ⟨fun _ => none, fun _ k => (Except.ok (100 + k) : Except String Nat), fun _ => true⟩
    [] "a" [] (fun h => absurd rfl h) rfl (by simp) rfl (fun k _ => ⟨100 + k, rfl, rfl⟩)

/-- C13: permanent application errors are not retried.  When the connection to the attempted
endpoint `a` is obtained and the first call returns, without transport error, a response that
`CheckRpcNeedRetry` classifies as not retryable, then whatever the retry budget
`GetRpcResponse` has called the stub exactly once, has not slept, and returns that response
(with `ERR_OK`; the status inside the response is the caller's to read).  (If addresses were
skipped, the code of `ERR_RPC_FAILED` is taken to differ from that of `ERR_OK`.) -/
theorem GetRpcResponse_permanent_not_retried {C R : Type} (errno : Errno C) (rpc : Rpc)
    (net : Remote R) (pre : List String) (a : String) (post : List String) (res : R)
    (hcode : pre ≠ [] → errno.GetCode errno.ERR_RPC_FAILED ≠ errno.GetCode errno.ERR_OK)
    (hA : rpc.Addrs = pre ++ a :: post) (hpre : ∀ x ∈ pre, net.connect x ≠ none)
    (ha : net.connect a = none) (hok : net.stub a 0 = Except.ok res)
    (hnr : net.CheckRpcNeedRetry res = false) :
    (GetRpcResponse errno rpc net).1 = (some res, errno.ERR_OK) ∧
    stubCalls (GetRpcResponse errno rpc net).2 = [a] ∧
    sleeps (GetRpcResponse errno rpc net).2 = [] := by
  obtain ⟨r1, r2, r3⟩ := retryLoop_success errno rpc net a res 0 rpc.RpcRetryTimes.toNat 0
    (Nat.zero_le _) (fun k hk => absurd hk (Nat.not_lt_zero k)) (by simpa using hok) hnr
  have hreq := GetRpcResponse_connected errno rpc net pre a post hA hpre ha
  refine ⟨?_, ?_, ?_⟩
  · unfold GetRpcResponse
    simp only [hreq, r1, collect_ok errno pre a (some res) hcode]
    have hlen : ¬ (pre.map (fun _ => errno.ERR_RPC_FAILED)).length ≥ rpc.Addrs.length := by
      rw [hA]; simp
    rw [if_neg hlen]
  · rw [GetRpcResponse_trace, hreq]
    simp [stubCalls_append, (sleeps_connects pre rpc.RpcTimeout).2, stubCalls, r3]
  · rw [GetRpcResponse_trace, hreq]
    simp [sleeps_append, (sleeps_connects pre rpc.RpcTimeout).1, sleeps, r2]

/-- Witness of `GetRpcResponse_permanent_not_retried`: a budget of 3 and a first response that
needs no retry. -/
theorem GetRpcResponse_permanent_not_retried_witness :
    (GetRpcResponse exampleErrno ⟨["a", "b"], 5, 3, 10, "ListDentry", false⟩
      ⟨fun _ => none, fun _ _ => (Except.ok 404 : Except String Nat),
       fun _ => false⟩).1 = (some 404, exampleErrno.ERR_OK) ∧
    stubCalls (GetRpcResponse exampleErrno ⟨["a", "b"], 5, 3, 10, "ListDentry", false⟩
      ⟨fun _ => none, fun _ _ => (Except.ok 404 : Except String Nat),
       fun _ => false⟩).2 = ["a"] ∧
    sleeps (GetRpcResponse exampleErrno ⟨["a", "b"], 5, 3, 10, "ListDentry", false⟩
      ⟨fun _ => none, fun _ _ => (Except.ok 404 : Except String Nat),
       fun _ => false⟩).2 = [] :=
  GetRpcResponse_permanent_not_retried exampleErrno ⟨["a", "b"], 5, 3, 10, "ListDentry", false⟩
    ⟨fun _ => none, fun _ _ => (Except.ok 404 : Except String Nat), fun _ => false⟩
    [] "a" ["b"] 404 (fun h => absurd rfl h) rfl (by simp) rfl rfl rfl

/-- C20: bounded retry.  `GetRpcResponse` is a total function (its retry loop runs on the
retries left, which only decrease), and in every call, with `N = RpcRetryTimes`, the stub is
invoked at most `max(N, 0) + 1` times, the invoker sleeps at most `max(N, 0)` times, each time
for exactly `RpcRetryDelay`, and every stub call but the first follows one sleep, whether the
call before it failed with a transport error or returned a retryable response: both consume
the same budget. -/
theorem GetRpcResponse_bounded_retry {C R : Type} (errno : Errno C) (rpc : Rpc)
    (net : Remote R) :
    ((stubCalls (GetRpcResponse errno rpc net).2).length : Int) ≤
        max rpc.RpcRetryTimes 0 + 1 ∧
    ((sleeps (GetRpcResponse errno rpc net).2).length : Int) ≤ max rpc.RpcRetryTimes 0 ∧
    (∀ d ∈ sleeps (GetRpcResponse errno rpc net).2, d = rpc.RpcRetryDelay) ∧
    (stubCalls (GetRpcResponse errno rpc net).2).length ≤
      (sleeps (GetRpcResponse errno rpc net).2).length + 1 := by
  rw [GetRpcResponse_trace]
  obtain ⟨h1, h2, h3⟩ := requestLoop_bounded errno rpc net rpc.Addrs
  have hmax : ((rpc.RpcRetryTimes.toNat : Nat) : Int) = max rpc.RpcRetryTimes 0 :=
    Int.toNat_eq_max _
  refine ⟨?_, ?_, h3, h1⟩
  · rw [← hmax]; omega
  · rw [← hmax]; omega

/-! ## Epoch and slots along every execution -/

theorem stepFrame_epoch (w : Walk) (frames : List Frame) (sh : Shared) (i sel : Nat)
    (f : Frame) (o : Outcome) (h : stepFrame w frames sh i sel f = some o) :
    ∀ (j : Nat) (c : Call) (ok : Bool), Event.rpc j c ok ∈ o.shared.trace →
      Event.rpc j c ok ∈ sh.trace ∨ c.epoch = f.epoch := by
  intro j c ok hev
  unfold stepFrame at h
  repeat' split at h
  all_goals (try simp at h)
  all_goals (try subst h)
  all_goals simp only [returns, goto, continue_, Shared.log, List.mem_append,
    List.mem_singleton, Event.rpc.injEq, reduceCtorEq, or_false] at hev
  all_goals first
    | exact Or.inl hev
    | (rcases hev with hev | ⟨_, rfl, _⟩
       · exact Or.inl hev
       · exact Or.inr rfl)

theorem EpochInv_advance (w : Walk) (ep i sel : Nat) (s : State) (h : EpochInv ep s) :
    EpochInv ep (advance w i sel s) := by
  rcases advance_eq w i sel s with he | ⟨f, o, hf, ho, he⟩
  · rw [he]; exact h
  · rw [he]
    have hfm : f ∈ s.frames := List.mem_iff_getElem?.mpr ⟨i, hf⟩
    have hep := h.frames f hfm
    obtain ⟨a1, a2⟩ := stepFrame_args w _ _ _ _ _ _ ho
    refine ⟨?_, ?_⟩
    · intro g hgm
      simp only [List.mem_append, Option.mem_toList, Option.mem_def] at hgm
      rcases hgm with hgm | hgm
      · rcases List.mem_or_eq_of_mem_set hgm with hgm | hgm
        · exact h.frames g hgm
        · rw [hgm, a1.2]; exact hep
      · rw [(a2 g hgm).2]; exact hep
    · intro j c ok hev
      rcases stepFrame_epoch w _ _ _ _ _ _ ho j c ok hev with h1 | h1
      · exact h.calls j c ok h1
      · rw [h1]; exact hep

theorem EpochInv_init (fsId epoch parentInodeId dirInodeId : Nat) (name : String) (root : Node) :
    EpochInv epoch (initState fsId epoch parentInodeId dirInodeId name root) := by
  refine ⟨?_, ?_⟩
  · intro f hf
    simp only [initState, List.mem_singleton] at hf
    subst hf
    rfl
  · intro j c ok hev
    simp [initState] at hev

theorem EpochInv_run (w : Walk) (ep : Nat) (sched : List (Nat × Nat)) (s : State)
    (h : EpochInv ep s) : EpochInv ep (run w sched s) := by
  induction sched generalizing s with
  | nil => exact h
  | cons x xs ih =>
    simp only [run, List.foldl_cons]
    apply ih
    rcases step_cases w s x with he | ⟨i, sel, he⟩
    · rw [he]; exact h
    · rw [he]; exact EpochInv_advance w ep i sel s h

theorem EpochInv_interleave (w : Walk) (ep : Nat) (sched : List (Nat × Nat)) (s : State)
    (h : EpochInv ep s) : EpochInv ep (interleave w sched s) := by
  induction sched generalizing s with
  | nil => exact h
  | cons x xs ih => exact ih _ (EpochInv_advance w ep x.1 x.2 s h)

theorem readyCases_acquire (errCh : Option String) (cancelled : Bool) (slots threads k : Nat)
    (r : SelCase) (rs : List SelCase)
    (h : readyCases errCh cancelled slots threads = r :: rs)
    (hk : (r :: rs).getD (k % (r :: rs).length) r = SelCase.acquire) : slots < threads := by
  have hmem : (r :: rs).getD (k % (r :: rs).length) r ∈ r :: rs := by
    have hlt : k % (r :: rs).length < (r :: rs).length := Nat.mod_lt _ (by simp)
    rw [List.getD_eq_getElem?_getD, List.getElem?_eq_getElem hlt]
    simp only [Option.getD_some]
    exact List.getElem_mem _
  rw [hk, ← h] at hmem
  unfold readyCases at hmem
  by_contra hc
  cases errCh <;> cases cancelled <;> simp [hc] at hmem

/-- What a step does to the slots: they follow the goroutines that hold one. -/
theorem stepFrame_slots (w : Walk) (frames : List Frame) (sh : Shared) (i sel : Nat)
    (f : Frame) (o : Outcome) (h : stepFrame w frames sh i sel f = some o)
    (hs : f.holds ≤ sh.slots) (hb : sh.slots ≤ w.threads) :
    o.shared.slots + f.holds = sh.slots + (o.frame.holds + ofChild Frame.holds o.child) ∧
      o.shared.slots ≤ w.threads := by
  cases hk : f.kind
  all_goals
    unfold stepFrame at h
    repeat' split at h
    all_goals (try simp at h)
    all_goals (try subst h)
    all_goals simp_all [returns, goto, continue_, Shared.log, Frame.holds, ofChild, childFrame]
    all_goals first
      | omega
      | (have h1 := readyCases_acquire _ _ _ _ sel _ _ ‹readyCases _ _ _ _ = _ :: _›
           (by simpa [List.getD_eq_getElem?_getD] using ‹_ = SelCase.acquire›)
         omega)

theorem le_total (φ : Frame → Nat) (frames : List Frame) (f : Frame) (h : f ∈ frames) :
    φ f ≤ total φ frames := by
  unfold total
  exact List.single_le_sum (fun _ _ => Nat.zero_le _) _ (List.mem_map_of_mem φ h)

theorem SlotInv_advance (w : Walk) (i sel : Nat) (s : State) (h : SlotInv w.threads s) :
    SlotInv w.threads (advance w i sel s) := by
  rcases advance_eq w i sel s with he | ⟨f, o, hf, ho, he⟩
  · rw [he]; exact h
  · rw [he]
    have hfm : f ∈ s.frames := List.mem_iff_getElem?.mpr ⟨i, hf⟩
    have hle := le_total Frame.holds s.frames f hfm
    have hsl := h.slots
    unfold holders at hsl
    obtain ⟨k1, k2⟩ := stepFrame_slots w _ _ _ _ _ _ ho (by omega) h.bound
    have tK := total_step Frame.holds s.frames i f o.frame o.child hf
    refine ⟨?_, k2⟩
    show o.shared.slots = total Frame.holds (s.frames.set i o.frame ++ o.child.toList)
    omega

theorem SlotInv_init (threads fsId epoch parentInodeId dirInodeId : Nat) (name : String)
    (root : Node) : SlotInv threads (initState fsId epoch parentInodeId dirInodeId name root) := by
  refine ⟨?_, ?_⟩
  · simp [initState, holders, total, Frame.holds]
  · simp [initState]

theorem SlotInv_run (w : Walk) (sched : List (Nat × Nat)) (s : State)
    (h : SlotInv w.threads s) : SlotInv w.threads (run w sched s) := by
  induction sched generalizing s with
  | nil => exact h
  | cons x xs ih =>
    simp only [run, List.foldl_cons]
    apply ih
    rcases step_cases w s x with he | ⟨i, sel, he⟩
    · rw [he]; exact h
    · rw [he]; exact SlotInv_advance w i sel s h

theorem SlotInv_interleave (w : Walk) (sched : List (Nat × Nat)) (s : State)
    (h : SlotInv w.threads s) : SlotInv w.threads (interleave w sched s) := by
  induction sched generalizing s with
  | nil => exact h
  | cons x xs ih => exact ih _ (SlotInv_advance w x.1 x.2 s h)

theorem readyCases_cancelled (errCh : Option String) (slots threads : Nat) :
    readyCases errCh true slots threads ≠ [] := by
  unfold readyCases
  cases errCh <;> simp

/-- What a step does about cancellation: `ctx` stays done, a step taken while `ctx` is done
starts no inline call, and the step that calls `cancel()` leaves `ctx` done and logs nothing
but its return behind the call. -/
theorem stepFrame_cancelled (w : Walk) (frames : List Frame) (sh : Shared) (i sel : Nat)
    (f : Frame) (o : Outcome) (h : stepFrame w frames sh i sel f = some o) :
    ∃ evs, o.shared.trace = sh.trace ++ evs ∧
      (sh.cancelled = true → o.shared.cancelled = true ∧ ∀ p c, Event.inline p c ∉ evs) ∧
      ∀ (evs1 post : List Event) (j : Nat), evs = evs1 ++ Event.cancel j :: post →
        o.shared.cancelled = true ∧ ∀ p c, Event.inline p c ∉ post := by
  unfold stepFrame at h
  repeat' split at h
  all_goals (try simp at h)
  all_goals (try subst h)
  all_goals simp only [returns, goto, continue_, Shared.log, List.append_assoc,
    List.singleton_append]
  all_goals first
    | (refine ⟨[], (List.append_nil _).symm, fun hc => ⟨hc, ?_⟩, ?_⟩
       · simp
       · intro evs1 post j he
         simp at he)
    | (refine ⟨_, rfl, ?_, ?_⟩
       · intro hc
         first
           | (refine ⟨hc, ?_⟩
              simp
              done)
           | (refine ⟨trivial, ?_⟩
              simp)
           | (exfalso
              have hr := ‹readyCases _ _ _ _ = []›
              rw [hc] at hr
              exact readyCases_cancelled _ _ _ hr)
       · intro evs1 post j he
         rcases evs1 with _ | ⟨y, _ | ⟨z, l⟩⟩ <;> simp at he
         all_goals
           obtain ⟨_, rfl⟩ := he
           refine ⟨trivial, ?_⟩
           simp)

theorem append_split_rest {α : Type} (t evs pre post : List α) (x : α)
    (h : t ++ evs = pre ++ x :: post) :
    (∃ post1, t = pre ++ x :: post1 ∧ post = post1 ++ evs) ∨
      ∃ evs1, pre = t ++ evs1 ∧ evs = evs1 ++ x :: post := by
  rcases append_split t evs pre post x h with ⟨post1, h1⟩ | h2
  · left
    refine ⟨post1, h1, ?_⟩
    rw [h1, List.append_assoc, List.cons_append] at h
    have := List.append_cancel_left h
    simp only [List.cons.injEq, true_and] at this
    exact this.symm
  · exact Or.inr h2

theorem CancelInv_advance (w : Walk) (i sel : Nat) (s : State) (h : CancelInv s) :
    CancelInv (advance w i sel s) := by
  rcases advance_eq w i sel s with he | ⟨f, o, hf, ho, he⟩
  · rw [he]; exact h
  · rw [he]
    obtain ⟨evs, h1, h2, h3⟩ := stepFrame_cancelled w _ _ _ _ _ _ ho
    intro pre post j htr
    simp only at htr
    rw [h1] at htr
    rcases append_split_rest _ _ _ _ _ htr with ⟨post1, k1, k2⟩ | ⟨evs1, _, k2⟩
    · obtain ⟨c1, c2⟩ := h pre post1 j k1
      obtain ⟨d1, d2⟩ := h2 c1
      refine ⟨d1, fun p c hm => ?_⟩
      rw [k2, List.mem_append] at hm
      rcases hm with hm | hm
      · exact c2 p c hm
      · exact d2 p c hm
    · exact h3 evs1 post j k2

theorem CancelInv_init (fsId epoch parentInodeId dirInodeId : Nat) (name : String)
    (root : Node) : CancelInv (initState fsId epoch parentInodeId dirInodeId name root) := by
  intro pre post j htr
  simp [initState] at htr

theorem CancelInv_run (w : Walk) (sched : List (Nat × Nat)) (s : State) (h : CancelInv s) :
    CancelInv (run w sched s) := by
  induction sched generalizing s with
  | nil => exact h
  | cons x xs ih =>
    simp only [run, List.foldl_cons]
    apply ih
    rcases step_cases w s x with he | ⟨i, sel, he⟩
    · rw [he]; exact h
    · rw [he]; exact CancelInv_advance w i sel s h

theorem CancelInv_interleave (w : Walk) (sched : List (Nat × Nat)) (s : State)
    (h : CancelInv s) : CancelInv (interleave w sched s) := by
  induction sched generalizing s with
  | nil => exact h
  | cons x xs ih => exact ih _ (CancelInv_advance w x.1 x.2 s h)

theorem readyCases_recvErr (errCh : Option String) (cancelled : Bool) (slots threads k : Nat)
    (r : SelCase) (rs : List SelCase) (err : String)
    (h : readyCases errCh cancelled slots threads = r :: rs)
    (hk : (r :: rs).getD (k % (r :: rs).length) r = SelCase.recvErr err) : errCh = some err := by
  have hmem : (r :: rs).getD (k % (r :: rs).length) r ∈ r :: rs := by
    have hlt : k % (r :: rs).length < (r :: rs).length := Nat.mod_lt _ (by simp)
    rw [List.getD_eq_getElem?_getD, List.getElem?_eq_getElem hlt]
    simp only [Option.getD_some]
    exact List.getElem_mem _
  rw [hk, ← h] at hmem
  unfold readyCases at hmem
  cases errCh <;> cases cancelled <;> by_cases hs : slots < threads <;> simp [hs] at hmem
  all_goals simp [hmem]

/-- Where the error a frame holds after a step comes from. -/
theorem stepFrame_err_source (w : Walk) (frames : List Frame) (sh : Shared) (i sel : Nat)
    (f : Frame) (o : Outcome) (h : stepFrame w frames sh i sel f = some o) (e : String)
    (he : o.frame.err = some e) :
    f.err = some e ∨ f.dir.listErr = some e ∨
    (∃ (n : Node) (t : List Node) (c : Bool), f.todo = n :: t ∧ n.getInode = Except.error e ∧
      w.mode = Mode.usage c) ∨
    (∃ (n : Node) (t : List Node), f.todo = n :: t ∧ n.delErr = some e ∧ w.mode = Mode.delete) ∨
    sh.errCh.getD i none = some e ∨ e = cancelError w.mode ∨
    (∃ (c : Nat) (g : Frame), frames[c]? = some g ∧ g.pc = PC.ret (some e)) ∨
    (f.dir.delErr = some e ∧ w.mode = Mode.delete) := by
  unfold stepFrame at h
  repeat' split at h
  all_goals (try simp at h)
  all_goals (try subst h)
  all_goals simp only [returns, goto, continue_, Frame.err, Option.some.injEq,
    reduceCtorEq] at he
  all_goals (try subst he)
  all_goals first
    | (left; simp [Frame.err, *]; done)
    | (right; left; assumption)
    | (right; right; left; exact ⟨_, _, _, ‹_›, ‹_›, ‹_›⟩)
    | (right; right; right; left; exact ⟨_, _, ‹_›, ‹_›, ‹_›⟩)
    | (right; right; right; right; left; assumption)
    | (right; right; right; right; left
       exact readyCases_recvErr _ _ _ _ sel _ _ _ ‹readyCases _ _ _ _ = _ :: _› ‹_›)
    | (right; right; right; right; right; left; simp [cancelError, *]; done)
    | (right; right; right; right; right; right; left; exact ⟨_, _, ‹_›, ‹_›⟩)
    | (right; right; right; right; right; right; right; exact ⟨‹_›, ‹_›⟩)

/-- Where an error in an `errCh` after a step comes from. -/
theorem stepFrame_errCh_source (w : Walk) (frames : List Frame) (sh : Shared) (i sel : Nat)
    (f : Frame) (o : Outcome) (h : stepFrame w frames sh i sel f = some o) (e : String)
    (he : some e ∈ o.shared.errCh) : some e ∈ sh.errCh ∨ f.err = some e := by
  unfold stepFrame at h
  repeat' split at h
  all_goals (try simp at h)
  all_goals (try subst h)
  all_goals simp only [returns, goto, continue_, Shared.log] at he
  all_goals first
    | exact Or.inl he
    | (rcases List.mem_or_eq_of_mem_set he with h1 | h1
       · exact Or.inl h1
       · first
           | (right
              simp only [Option.some.injEq] at h1
              simp [Frame.err, *])
           | cases h1)

theorem getD_mem (l : List (Option String)) (i : Nat) (e : String)
    (h : l.getD i none = some e) : some e ∈ l := by
  rw [List.getD_eq_getElem?_getD] at h
  cases hi : l[i]? with
  | none => simp [hi] at h
  | some v =>
    simp only [hi, Option.getD_some] at h
    subst h
    exact List.mem_iff_getElem?.mpr ⟨i, hi⟩

theorem Allowed.of_dir {w : Walk} {root : Node} {f : Frame} (hg : Good w root f) (e : String)
    (he : e ∈ f.dir.errors w.mode) : Allowed w.mode root e := by
  rcases hg.dir with hd | ⟨hd, _⟩
  · right; left; rw [← hd]; exact he
  · right; right; exact ⟨f.dir, hd, he⟩

theorem ErrInv_advance (w : Walk) (root : Node) (i sel : Nat) (s : State)
    (h : ErrInv w root s) : ErrInv w root (advance w i sel s) := by
  have hgood := Good_advance w root i sel s h.good
  rcases advance_eq w i sel s with he | ⟨f, o, hf, ho, he⟩
  · rw [he]; exact h
  · rw [he] at hgood ⊢
    have hfm : f ∈ s.frames := List.mem_iff_getElem?.mpr ⟨i, hf⟩
    have hg := h.good f hfm
    refine ⟨hgood, ?_, ?_⟩
    · intro g hgm e hge
      simp only [List.mem_append, Option.mem_toList, Option.mem_def] at hgm
      rcases hgm with hgm | hgm
      · rcases List.mem_or_eq_of_mem_set hgm with hgm | hgm
        · exact h.frames g hgm e hge
        · subst hgm
          rcases stepFrame_err_source w _ _ _ _ _ _ ho e hge with
            h1 | h1 | ⟨n, t, c, h1, h2, h3⟩ | ⟨n, t, h1, h2, h3⟩ | h1 | h1 | ⟨c, g, h1, h2⟩ |
            ⟨h1, h2⟩
          · exact h.frames f hfm e h1
          · exact Allowed.of_dir hg e (by simp [Node.errors, h1])
          · right; right
            exact ⟨n, hg.head_mem n t h1, by simp [Node.errors, h2, h3]⟩
          · right; right
            exact ⟨n, hg.head_mem n t h1, by simp [Node.errors, h2, h3]⟩
          · exact h.errCh e (getD_mem _ _ _ h1)
          · exact Or.inl h1
          · exact h.frames g (List.mem_iff_getElem?.mpr ⟨c, h1⟩) e (by simp [Frame.err, h2])
          · exact Allowed.of_dir hg e (by simp [Node.errors, h1, h2])
      · obtain ⟨hp, _⟩ := stepFrame_child w _ _ _ _ _ _ g ho hgm
        simp [Frame.err, hp] at hge
    · intro e hmem
      simp only [List.mem_append, List.mem_map] at hmem
      rcases hmem with hmem | ⟨_, _, hmem⟩
      · rcases stepFrame_errCh_source w _ _ _ _ _ _ ho e hmem with h1 | h1
        · exact h.errCh e h1
        · exact h.frames f hfm e h1
      · cases hmem

theorem ErrInv_init (w : Walk) (root : Node) (fsId epoch parentInodeId dirInodeId : Nat)
    (name : String) : ErrInv w root (initState fsId epoch parentInodeId dirInodeId name root) := by
  refine ⟨(Sound_init w root fsId epoch parentInodeId dirInodeId name).good, ?_, ?_⟩
  · intro f hf e he
    simp only [initState, List.mem_singleton] at hf
    subst hf
    simp [Frame.err] at he
  · intro e he
    simp [initState] at he

theorem ErrInv_run (w : Walk) (root : Node) (sched : List (Nat × Nat)) (s : State)
    (h : ErrInv w root s) : ErrInv w root (run w sched s) := by
  induction sched generalizing s with
  | nil => exact h
  | cons x xs ih =>
    simp only [run, List.foldl_cons]
    apply ih
    rcases step_cases w s x with he | ⟨i, sel, he⟩
    · rw [he]; exact h
    · rw [he]; exact ErrInv_advance w root i sel s h

theorem ErrInv_interleave (w : Walk) (root : Node) (sched : List (Nat × Nat)) (s : State)
    (h : ErrInv w root s) : ErrInv w root (interleave w sched s) := by
  induction sched generalizing s with
  | nil => exact h
  | cons x xs ih => exact ih _ (ErrInv_advance w root x.1 x.2 s h)

/-- The error of the top call, once it has returned one, is a single allowed error. -/
theorem ErrInv.top {w : Walk} {root : Node} {s : State} (h : ErrInv w root s) (e : String)
    (hr : topResult s = some (some e)) : Allowed w.mode root e := by
  unfold topResult at hr
  cases h0 : s.frames[0]? with
  | none => simp [h0] at hr
  | some f0 =>
    simp only [h0] at hr
    have hpc : f0.pc = PC.ret (some e) := by
      cases hpc : f0.pc <;> simp only [hpc] at hr <;> try cases hr
      rfl
    exact h.frames f0 (List.mem_iff_getElem?.mpr ⟨0, h0⟩) e (by simp [Frame.err, hpc])

/-! ## Claims about cancellation and errors of the walks -/

set_option maxRecDepth 100000 in
/-- C14, as stated, fails.  A usage walk and a delete walk of `/a{d1{x, y{}}, f1, d2{}}` with
three slots, in which `ListDentry` of `x` fails: the branch of `d1` receives the error and calls
`cancel()` (the seventh event); after that the top branch, which is in the middle of `/a`,
still issues the RPC for the file `f1`, and at the `select` for `d2` it takes a free slot and
starts a goroutine, which issues `ListDentry`. -/
theorem cancel_does_not_stop_rpcs :
    (run ⟨Mode.usage false, 3⟩
      (List.replicate 4 (0, 0) ++ List.replicate 4 (1, 0) ++ List.replicate 4 (2, 0) ++
        List.replicate 4 (1, 0) ++ List.replicate 6 (0, 0) ++ [(0, 1), (2, 0)])
      (initState 1 7 0 2 "" cancelTree)).shared.trace =
      [Event.rpc 0 (Call.ListDentry 1 2 7) true, Event.spawn 0 1,
       Event.rpc 1 (Call.ListDentry 1 10 7) true, Event.spawn 1 2,
       Event.rpc 2 (Call.ListDentry 1 11 7) false, Event.ret 2 (some "ELIST"),
       Event.cancel 1, Event.ret 1 (some "ELIST"),
       Event.rpc 0 (Call.GetInode 1 13 2 7) true, Event.spawn 0 3,
       Event.rpc 3 (Call.ListDentry 1 14 7) true] ∧
    (run ⟨Mode.delete, 3⟩
      (List.replicate 3 (0, 0) ++ List.replicate 3 (1, 0) ++ List.replicate 4 (2, 0) ++
        List.replicate 3 (1, 0) ++ List.replicate 3 (0, 0) ++ [(0, 1), (2, 0)])
      (initState 1 7 1 2 "a" cancelTree)).shared.trace =
      [Event.rpc 0 (Call.ListDentry 1 2 7) true, Event.spawn 0 1,
       Event.rpc 1 (Call.ListDentry 1 10 7) true, Event.spawn 1 2,
       Event.rpc 2 (Call.ListDentry 1 11 7) false, Event.ret 2 (some "ELIST"),
       Event.cancel 1, Event.ret 1 (some "ELIST"),
       Event.rpc 0 (Call.DeleteFile 1 2 "f1" 7) true, Event.spawn 0 3,
       Event.rpc 3 (Call.ListDentry 1 14 7) true] := by
  decide

/-- C14, amended: cancellation is looked at only at the `select` a branch executes for a
sub-directory entry.  In every execution of either walk (every namespace, bound and schedule;
`run`, and `interleave` where goroutines run on after the top call returned), once `cancel()`
has been called `ctx` stays done and no inline recursive call is started any more: no `inline`
event stands behind a `cancel` event in the trace (the `ctx.Done()` case is ready, so
`default:` is not taken). -/
theorem no_inline_call_after_cancel (w : Walk) (root : Node)
    (fsId epoch parentInodeId dirInodeId : Nat) (name : String) (sched : List (Nat × Nat)) :
    (∀ (pre post : List Event) (i : Nat),
      (run w sched (initState fsId epoch parentInodeId dirInodeId name root)).shared.trace =
        pre ++ Event.cancel i :: post →
      (run w sched (initState fsId epoch parentInodeId dirInodeId name root)).shared.cancelled =
        true ∧ ∀ p c, Event.inline p c ∉ post) ∧
    CancelInv (interleave w sched (initState fsId epoch parentInodeId dirInodeId name root)) :=
  ⟨CancelInv_run w sched _ (CancelInv_init fsId epoch parentInodeId dirInodeId name root),
   CancelInv_interleave w sched _ (CancelInv_init fsId epoch parentInodeId dirInodeId name root)⟩

set_option maxRecDepth 100000 in
/-- Witness of `no_inline_call_after_cancel`: the usage walk of `/a{d1{x, y{}}, f1, d2{}}` in
which `cancel()` is the seventh event. -/
theorem no_inline_call_after_cancel_witness :
    (run ⟨Mode.usage false, 3⟩
      (List.replicate 4 (0, 0) ++ List.replicate 4 (1, 0) ++ List.replicate 4 (2, 0) ++
        List.replicate 4 (1, 0) ++ List.replicate 6 (0, 0) ++ [(0, 1), (2, 0)])
      (initState 1 7 0 2 "" cancelTree)).shared.cancelled = true ∧
    ∀ p c, Event.inline p c ∉
      [Event.ret 1 (some "ELIST"), Event.rpc 0 (Call.GetInode 1 13 2 7) true, Event.spawn 0 3,
       Event.rpc 3 (Call.ListDentry 1 14 7) true] :=
  (no_inline_call_after_cancel ⟨Mode.usage false, 3⟩ cancelTree 1 7 0 2 ""
    (List.replicate 4 (0, 0) ++ List.replicate 4 (1, 0) ++ List.replicate 4 (2, 0) ++
      List.replicate 4 (1, 0) ++ List.replicate 6 (0, 0) ++ [(0, 1), (2, 0)])).1
    [Event.rpc 0 (Call.ListDentry 1 2 7) true, Event.spawn 0 1,
     Event.rpc 1 (Call.ListDentry 1 10 7) true, Event.spawn 1 2,
     Event.rpc 2 (Call.ListDentry 1 11 7) false, Event.ret 2 (some "ELIST")]
    [Event.ret 1 (some "ELIST"), Event.rpc 0 (Call.GetInode 1 13 2 7) true, Event.spawn 0 3,
     Event.rpc 3 (Call.ListDentry 1 14 7) true] 1 (by decide)
/-! ## Claims about summaries, epochs, visits and slots -/

/-- C16: no partial summary on the error path.  For every namespace, bound and schedule:
whenever the walk (the top call of `GetDirSummarySize` / `deleteDirectoryAndData`) returns an
error, `GetDirectorySizeAndInodes` returns `(0, 0, err)` and `deleteDirectory` returns
`(nil, err)`; so a result that carries an error carries no bytes, no inodes and no summary,
whatever was accumulated in the shared summary before the failure. -/
theorem no_partial_summary (root : Node) (fsId epoch parentInodeId dirInodeId : Nat)
    (name : String) (isFsCheck : Bool) (threads : Nat) (sched : List (Nat × Nat)) :
    (∀ err, topResult (run ⟨Mode.usage isFsCheck, threads⟩ sched
        (initState fsId epoch 0 dirInodeId "" root)) = some (some err) →
      GetDirectorySizeAndInodes root fsId dirInodeId isFsCheck epoch threads sched =
        some (0, 0, some err)) ∧
    (∀ b n err, GetDirectorySizeAndInodes root fsId dirInodeId isFsCheck epoch threads sched =
        some (b, n, some err) → b = 0 ∧ n = 0) ∧
    (∀ err, topResult (run ⟨Mode.delete, threads⟩ sched
        (initState fsId epoch parentInodeId dirInodeId name root)) = some (some err) →
      deleteDirectory root fsId epoch parentInodeId dirInodeId name threads sched =
        some (none, some err)) ∧
    (∀ summary err, deleteDirectory root fsId epoch parentInodeId dirInodeId name threads sched =
        some (summary, some err) → summary = none) := by
  refine ⟨?_, ?_, ?_, ?_⟩
  · intro err h
    simp [GetDirectorySizeAndInodes, h]
  · intro b n err h
    unfold GetDirectorySizeAndInodes at h
    simp only at h
    split at h <;> simp at h
    exact ⟨h.1.symm, h.2.1.symm⟩
  · intro err h
    simp [deleteDirectory, h]
  · intro summary err h
    unfold deleteDirectory at h
    simp only at h
    split at h <;> simp at h
    exact h.1.symm

set_option maxRecDepth 100000 in
/-- Witness of `no_partial_summary`: the usage walk of `/a{f1: 10 bytes, f2}` in which
`GetInode` of `f2` fails has added 10 bytes and 1 inode to the shared summary, and returns
`(0, 0, EIO)`; the delete walk of `/a{b{f2}, f1}` in which `DeleteFile` of `f1` fails has
counted 2 deleted inodes, and returns `(nil, EIO)`. -/
theorem no_partial_summary_witness :
    (run ⟨Mode.usage false, 8⟩ (List.replicate 6 (0, 0))
      (initState 1 7 0 2 "" partialTree)).shared.length = 10 ∧
    (run ⟨Mode.usage false, 8⟩ (List.replicate 6 (0, 0))
      (initState 1 7 0 2 "" partialTree)).shared.inodes = 1 ∧
    GetDirectorySizeAndInodes partialTree 1 2 false 7 8 (List.replicate 6 (0, 0)) =
      some (0, 0, some "EIO") ∧
    (run ⟨Mode.delete, 0⟩ (List.replicate 20 (0, 0))
      (initState 1 7 1 2 "a" failTree)).shared.inodes = 2 ∧
    deleteDirectory failTree 1 7 1 2 "a" 0 (List.replicate 20 (0, 0)) =
      some (none, some "EIO") :=
  ⟨by decide, by decide,
   (no_partial_summary partialTree 1 7 0 2 "" false 8 (List.replicate 6 (0, 0))).1 "EIO"
     (by decide),
   by decide,
   (no_partial_summary failTree 1 7 1 2 "a" false 0 (List.replicate 20 (0, 0))).2.2.1 "EIO"
     (by decide)⟩

/-- C17: epoch immutability.  In every execution of either walk (every namespace, whatever
fails, every bound and schedule; `run`, and `interleave` where goroutines run on after the top
call returned), every RPC in the trace, issued by whatever frame at whatever depth, spawned or
inline, carries the epoch given to the top-level call. -/
theorem epoch_immutable (w : Walk) (root : Node) (fsId epoch parentInodeId dirInodeId : Nat)
    (name : String) (sched : List (Nat × Nat)) :
    (∀ (i : Nat) (c : Call) (ok : Bool),
      Event.rpc i c ok ∈
        (run w sched (initState fsId epoch parentInodeId dirInodeId name root)).shared.trace →
      c.epoch = epoch) ∧
    (∀ (i : Nat) (c : Call) (ok : Bool),
      Event.rpc i c ok ∈
        (interleave w sched
          (initState fsId epoch parentInodeId dirInodeId name root)).shared.trace →
      c.epoch = epoch) :=
  ⟨(EpochInv_run w epoch sched _
      (EpochInv_init fsId epoch parentInodeId dirInodeId name root)).calls,
   (EpochInv_interleave w epoch sched _
      (EpochInv_init fsId epoch parentInodeId dirInodeId name root)).calls⟩

set_option maxRecDepth 100000 in
/-- Witness of `epoch_immutable`: the `DeleteFile` of `f2`, issued by the goroutine of `b` in a
delete walk of `/a{f1, b{f2}}` started with epoch 7. -/
theorem epoch_immutable_witness :
    Event.rpc 1 (Call.DeleteFile 1 4 "f2" 7) true ∈
      (run ⟨Mode.delete, 2⟩ (List.replicate 64 (1, 0))
        (initState 1 7 1 2 "a" scenarioTree)).shared.trace ∧
    (Call.DeleteFile 1 4 "f2" 7).epoch = 7 :=
  ⟨by decide,
   (epoch_immutable ⟨Mode.delete, 2⟩ scenarioTree 1 7 1 2 "a" (List.replicate 64 (1, 0))).1
     1 (Call.DeleteFile 1 4 "f2" 7) true (by decide)⟩

/-- C18: exactly one visit per entry.  In a finite namespace in which every RPC of the walk
succeeds, under every concurrency bound and every schedule long enough for the walk to return,
the RPCs in the trace are, as a multiset: for the usage walk one `ListDentry` for the root, one
`ListDentry` per listed directory entry and one `GetInode` per listed file entry; for the
delete walk one `ListDentry` for the target and per listed directory entry, one `DeleteFile`
per listed non-directory entry, one `DeleteDirectory` per listed directory entry and one for
the target.  Nothing is skipped and nothing is issued twice. -/
theorem walk_visits_each_entry_once :
    (∀ (root : Node) (fsId dirInode : Nat) (isFsCheck : Bool) (epoch threads : Nat)
      (sched : List (Nat × Nat)), TreeOk (Mode.usage isFsCheck) root →
      walkBound root ≤ sched.length →
      (callsOf (run ⟨Mode.usage isFsCheck, threads⟩ sched
        (initState fsId epoch 0 dirInode "" root)).shared.trace : Multiset Call) =
        {Call.ListDentry fsId dirInode epoch} +
          (root.listed.map (Node.useCalls fsId epoch)).sum) ∧
    (∀ (root : Node) (fsId epoch parentInodeId dirInodeId : Nat) (name : String)
      (threads : Nat) (sched : List (Nat × Nat)), TreeOk Mode.delete root →
      walkBound root ≤ sched.length →
      (callsOf (run ⟨Mode.delete, threads⟩ sched
        (initState fsId epoch parentInodeId dirInodeId name root)).shared.trace :
          Multiset Call) =
        {Call.ListDentry fsId dirInodeId epoch} +
          (root.listed.map (Node.delCalls fsId epoch)).sum +
          {Call.DeleteDirectory fsId parentInodeId name epoch}) :=
  ⟨fun root fsId dirInode isFsCheck epoch threads sched hok hlen =>
     usage_calls root fsId dirInode isFsCheck epoch threads sched hok hlen,
   fun root fsId epoch parentInodeId dirInodeId name threads sched hok hlen =>
     (delete_result root fsId epoch parentInodeId dirInodeId name threads sched hok hlen).2⟩

/-- Witness of `walk_visits_each_entry_once`: the usage walk of `/a{f1, b{f2}}` with two
slots. -/
theorem walk_visits_each_entry_once_witness :
    TreeOk (Mode.usage true) scenarioTree ∧
    walkBound scenarioTree ≤ (List.replicate 64 ((1 : Nat), (0 : Nat))).length ∧
    (callsOf (run ⟨Mode.usage true, 2⟩ (List.replicate 64 (1, 0))
      (initState 1 7 0 2 "" scenarioTree)).shared.trace : Multiset Call) =
      {Call.ListDentry 1 2 7} + (scenarioTree.listed.map (Node.useCalls 1 7)).sum :=
  ⟨(scenarioTree_ok true).1, by rw [(scenarioTree_ok true).2.2.2.2]; simp,
   walk_visits_each_entry_once.1 scenarioTree 1 2 true 7 2 (List.replicate 64 (1, 0))
     (scenarioTree_ok true).1 (by rw [(scenarioTree_ok true).2.2.2.2]; simp)⟩

set_option maxRecDepth 100000 in
/-- C19, as stated, fails: recursions into sub-directories for which no slot is free run
inline, next to the goroutines.  With one slot, the usage walk of `/a{d1{}, d2{}}` has two
recursions in flight at once, the goroutine of `d1` and the inline call for `d2`; with no slot,
the delete walk of `/a{f1, b{f2}}` has the inline recursion into `b` in flight. -/
theorem in_flight_exceeds_bound :
    inFlight (run ⟨Mode.usage false, 1⟩ (List.replicate 7 (0, 0))
      (initState 1 7 0 2 "" twoDirs)) = 2 ∧
    (run ⟨Mode.usage false, 1⟩ (List.replicate 7 (0, 0))
      (initState 1 7 0 2 "" twoDirs)).frames.map (fun f => (f.kind, f.pc)) =
      [(Kind.top, PC.call 2), (Kind.spawned 0, PC.list), (Kind.inline 0, PC.list)] ∧
    inFlight (run ⟨Mode.delete, 0⟩ (List.replicate 5 (0, 0))
      (initState 1 7 1 2 "a" scenarioTree)) = 1 := by
  decide

/-- C19, amended: the bound is on the goroutines.  In every execution of either walk (every
namespace, whatever fails, every bound `threads` and schedule; `run`, and `interleave`), the
slots taken in `concurrent` are exactly those of the goroutines started for a sub-directory
that have not yet executed `<-concurrent`, i.e. a goroutine exists only with a slot it acquired
at its `go` statement and gives the slot back when its recursion has returned; and their
number never exceeds `threads`. -/
theorem spawned_goroutines_bounded (w : Walk) (root : Node)
    (fsId epoch parentInodeId dirInodeId : Nat) (name : String) (sched : List (Nat × Nat)) :
    (holders (run w sched (initState fsId epoch parentInodeId dirInodeId name root)) ≤
        w.threads ∧
      (run w sched (initState fsId epoch parentInodeId dirInodeId name root)).shared.slots =
        holders (run w sched (initState fsId epoch parentInodeId dirInodeId name root))) ∧
    (holders (interleave w sched (initState fsId epoch parentInodeId dirInodeId name root)) ≤
        w.threads ∧
      (interleave w sched
          (initState fsId epoch parentInodeId dirInodeId name root)).shared.slots =
        holders (interleave w sched
          (initState fsId epoch parentInodeId dirInodeId name root))) := by
  have h1 := SlotInv_run w sched _
    (SlotInv_init w.threads fsId epoch parentInodeId dirInodeId name root)
  have h2 := SlotInv_interleave w sched _
    (SlotInv_init w.threads fsId epoch parentInodeId dirInodeId name root)
  exact ⟨⟨by rw [← h1.slots]; exact h1.bound, h1.slots⟩,
    ⟨by rw [← h2.slots]; exact h2.bound, h2.slots⟩⟩

set_option maxRecDepth 100000 in
/-- Witness of `spawned_goroutines_bounded`: with one slot, in the usage walk of
`/a{d1{}, d2{}}` one goroutine holds the slot while `d2` is walked inline. -/
theorem spawned_goroutines_bounded_witness :
    holders (run ⟨Mode.usage false, 1⟩ (List.replicate 7 (0, 0))
      (initState 1 7 0 2 "" twoDirs)) = 1 ∧
    holders (run ⟨Mode.usage false, 1⟩ (List.replicate 7 (0, 0))
      (initState 1 7 0 2 "" twoDirs)) ≤ 1 :=
  ⟨by decide,
   (spawned_goroutines_bounded ⟨Mode.usage false, 1⟩ twoDirs 1 7 0 2 ""
     (List.replicate 7 (0, 0))).1.1⟩

/-! ## Returns and joins along every execution -/

theorem Silent.refl (i : Nat) (sh : Shared) : Silent i sh sh :=
  ⟨rfl, rfl, rfl, Or.inl rfl⟩

theorem Silent.log (i : Nat) (sh : Shared) (c : Call) (ok : Bool) :
    Silent i sh (sh.log (Event.rpc i c ok)) :=
  ⟨rfl, rfl, rfl, Or.inr ⟨c, ok, rfl⟩⟩

theorem stepFrame_WStep (w : Walk) (frames : List Frame) (sh : Shared) (i sel : Nat) (f : Frame)
    (o : Outcome) (h : stepFrame w frames sh i sel f = some o) : WStep frames sh i f o := by
  cases hpc : f.pc with
  | list =>
    simp only [stepFrame, hpc] at h
    cases hl : f.dir.listErr with
    | none =>
      simp only [hl, Option.some.injEq] at h; subst h
      exact WStep.move _ _ _ (Or.inl hpc) (Or.inl rfl) (Silent.log _ _ _ _)
    | some e =>
      simp only [hl, Option.some.injEq] at h; subst h
      exact WStep.fail e _ (Or.inl hpc) (Silent.log _ _ _ _)
  | loop =>
    simp only [stepFrame, hpc] at h
    have hin : f.inLoop := Or.inr (Or.inl hpc)
    have hp3 : f.pc = PC.list ∨ f.pc = PC.loop ∨ f.pc = PC.select := Or.inr (Or.inl hpc)
    repeat' split at h
    all_goals simp only [Option.some.injEq] at h
    all_goals subst h
    all_goals first
      | exact WStep.move f.todo PC.wait sh hin (by simp [PC.onward]) (Silent.refl _ _)
      | exact WStep.move f.todo PC.addInodes sh hin (by simp [PC.onward]) (Silent.refl _ _)
      | exact WStep.move f.todo PC.select sh hin (by simp [PC.onward]) (Silent.refl _ _)
      | exact WStep.move f.todo (PC.gotInode _) _ hin (by simp [PC.onward]) (Silent.log _ _ _ _)
      | exact WStep.move f.todo PC.addInodes _ hin (by simp [PC.onward]) (Silent.log _ _ _ _)
      | exact WStep.fail _ _ hp3 (Silent.log _ _ _ _)
  | gotInode a =>
    simp only [stepFrame, hpc] at h
    have hin : f.inLoop := Or.inr (Or.inr (Or.inl ⟨a, hpc⟩))
    repeat' split at h
    all_goals simp only [Option.some.injEq] at h
    all_goals subst h
    all_goals first
      | exact WStep.move f.todo.tail PC.loop sh hin (by simp [PC.onward]) (Silent.refl _ _)
      | exact WStep.move f.todo (PC.addLength a) sh hin (by simp [PC.onward]) (Silent.refl _ _)
      | exact WStep.move f.todo (PC.addLength a) _ hin (by simp [PC.onward])
          ⟨rfl, rfl, rfl, Or.inl rfl⟩
  | addLength a =>
    simp only [stepFrame, hpc, Option.some.injEq] at h
    subst h
    exact WStep.move f.todo PC.addInodes _ (Or.inr (Or.inr (Or.inr (Or.inl ⟨a, hpc⟩))))
      (by simp [PC.onward]) ⟨rfl, rfl, rfl, Or.inl rfl⟩
  | addInodes =>
    simp only [stepFrame, hpc] at h
    have hin : f.inLoop := Or.inr (Or.inr (Or.inr (Or.inr (Or.inl hpc))))
    repeat' split at h
    all_goals simp only [Option.some.injEq] at h
    all_goals subst h
    all_goals first
      | exact WStep.move f.todo.tail PC.loop _ hin (by simp [PC.onward]) ⟨rfl, rfl, rfl, Or.inl rfl⟩
      | exact WStep.move f.todo PC.select _ hin (by simp [PC.onward]) ⟨rfl, rfl, rfl, Or.inl rfl⟩
  | select =>
    simp only [stepFrame, hpc] at h
    have hin : f.inLoop := Or.inr (Or.inr (Or.inr (Or.inr (Or.inr hpc))))
    cases ht : f.todo with
    | nil =>
      simp only [ht, Option.some.injEq] at h; subst h
      have := @WStep.move frames sh i f f.todo.tail PC.loop sh hin (by simp [PC.onward])
        (Silent.refl i sh)
      simpa [continue_, ht] using this
    | cons e t =>
      simp only [ht] at h
      split at h
      · simp only [Option.some.injEq] at h; subst h
        have := @WStep.inline frames sh i f e t hpc ht
        rw [ht] at this
        exact this
      · rename_i r rs hr
        split at h
        · rename_i err hsel
          simp only [Option.some.injEq] at h; subst h
          exact WStep.recv err hpc (readyCases_recvErr _ _ _ _ sel r rs err hr hsel)
        · simp only [Option.some.injEq] at h; subst h
          exact WStep.fail _ sh (Or.inr (Or.inr hpc)) (Silent.refl _ _)
        · simp only [Option.some.injEq] at h; subst h
          have := @WStep.acquire frames sh i f e t hpc ht
          rw [ht] at this
          exact this
  | cancel err =>
    simp only [stepFrame, hpc, Option.some.injEq] at h
    subst h; exact WStep.cancel err hpc
  | call c =>
    simp only [stepFrame, hpc] at h
    cases hg : frames[c]? with
    | none => simp [hg] at h
    | some g =>
      simp only [hg] at h
      split at h
      · simp only [Option.some.injEq] at h; subst h; exact WStep.callOk c g hpc hg (by assumption)
      · simp only [Option.some.injEq] at h; subst h
        exact WStep.callErr c g _ hpc hg (by assumption)
      · simp at h
  | wait =>
    simp only [stepFrame, hpc] at h
    split at h
    · simp only [Option.some.injEq] at h; subst h; exact WStep.wait hpc (by assumption)
    · simp at h
  | final =>
    simp only [stepFrame, hpc] at h
    cases he : sh.errCh.getD i none with
    | some err =>
      simp only [he, Option.some.injEq] at h; subst h; exact WStep.finalTake err hpc he
    | none =>
      simp only [he] at h
      repeat' split at h
      all_goals simp only [Option.some.injEq] at h
      all_goals subst h
      all_goals first
        | exact WStep.finalOk hpc he
        | exact WStep.finalFail _ _ hpc he (Silent.log _ _ _ _)
        | exact WStep.finalDel _ hpc he (Silent.log _ _ _ _)
  | countSelf =>
    simp only [stepFrame, hpc, Option.some.injEq] at h
    subst h; exact WStep.countSelf _ hpc ⟨rfl, rfl, rfl, Or.inl rfl⟩
  | ret r =>
    simp only [stepFrame, hpc] at h
    split at h
    · simp only [Option.some.injEq] at h; subst h; exact WStep.release _ r hpc (by assumption)
    · simp at h
  | send r =>
    simp only [stepFrame, hpc] at h
    cases hk : f.kind with
    | spawned p =>
      cases r with
      | none =>
        simp only [hk, Option.some.injEq] at h; subst h
        exact WStep.sendSkip none hpc (fun _ _ _ hr => by cases hr)
      | some err =>
        simp only [hk] at h
        cases he : sh.errCh.getD p none with
        | none =>
          simp only [he, Option.some.injEq] at h; subst h
          exact WStep.sendErr p err hpc hk he
        | some e1 =>
          simp only [he, Option.some.injEq] at h; subst h
          refine WStep.sendSkip _ hpc ?_
          intro p1 err1 hk1 _
          rw [hk] at hk1
          cases hk1
          rw [he]; simp
    | top =>
      simp only [hk, Option.some.injEq] at h; subst h
      exact WStep.sendSkip r hpc (fun _ _ hk1 _ => by rw [hk] at hk1; cases hk1)
    | inline c =>
      simp only [hk, Option.some.injEq] at h; subst h
      exact WStep.sendSkip r hpc (fun _ _ hk1 _ => by rw [hk] at hk1; cases hk1)
  | wgDone =>
    simp only [stepFrame, hpc, Option.some.injEq] at h
    subst h; exact WStep.wgDone hpc
  | finished => simp [stepFrame, hpc] at h

theorem WStep.kind_eq {frames : List Frame} {sh : Shared} {i : Nat} {f : Frame} {o : Outcome}
    (h : WStep frames sh i f o) : o.frame.kind = f.kind := by
  cases h <;> simp [returns, goto, continue_]

theorem WStep.child_spec {frames : List Frame} {sh : Shared} {i : Nat} {f : Frame} {o : Outcome}
    (h : WStep frames sh i f o) (c : Frame) (hc : o.child = some c) :
    f.pc = PC.select ∧ c.pc = PC.list ∧
      ((c.kind = Kind.inline i ∧ o.frame.pc = PC.call frames.length ∧
          o.shared = sh.log (Event.inline i frames.length)) ∨
       (c.kind = Kind.spawned i ∧ o.frame.pc = PC.loop ∧
          o.shared = { sh with slots := sh.slots + 1 }.log (Event.spawn i frames.length))) := by
  cases h <;> simp [returns, goto, continue_] at hc
  · subst hc
    exact ⟨by assumption, rfl, Or.inl ⟨rfl, rfl, rfl⟩⟩
  · subst hc
    exact ⟨by assumption, rfl, Or.inr ⟨rfl, rfl, rfl⟩⟩

theorem WStep.trace_ext {frames : List Frame} {sh : Shared} {i : Nat} {f : Frame} {o : Outcome}
    (h : WStep frames sh i f o) :
    ∃ evs, o.shared.trace = sh.trace ++ evs ∧ ∀ ev ∈ evs, ev.frame = i := by
  cases h
  case move todo pc sh' hpc hto hs =>
    rcases hs.trace with h1 | ⟨c, ok, h1⟩
    · exact ⟨[], by simpa using h1, by simp⟩
    · exact ⟨_, h1, by simp [Event.frame]⟩
  case fail err sh' hpc hs =>
    rcases hs.trace with h1 | ⟨c, ok, h1⟩
    · exact ⟨[Event.ret i (some err)], by simp [returns, Shared.log, h1], by simp [Event.frame]⟩
    · exact ⟨[Event.rpc i c ok, Event.ret i (some err)], by simp [returns, Shared.log, h1],
        by simp [Event.frame]⟩
  case finalFail err sh' hpc he hs =>
    rcases hs.trace with h1 | ⟨c, ok, h1⟩
    · exact ⟨[Event.ret i (some err)], by simp [returns, Shared.log, h1], by simp [Event.frame]⟩
    · exact ⟨[Event.rpc i c ok, Event.ret i (some err)], by simp [returns, Shared.log, h1],
        by simp [Event.frame]⟩
  case finalDel sh' hpc he hs =>
    rcases hs.trace with h1 | ⟨c, ok, h1⟩
    · exact ⟨[], by simpa [goto] using h1, by simp⟩
    · exact ⟨_, h1, by simp [Event.frame]⟩
  case countSelf sh' hpc hs =>
    rcases hs.trace with h1 | ⟨c, ok, h1⟩
    · exact ⟨[Event.ret i none], by simp [returns, Shared.log, h1], by simp [Event.frame]⟩
    · exact ⟨[Event.rpc i c ok, Event.ret i none], by simp [returns, Shared.log, h1],
        by simp [Event.frame]⟩
  all_goals simp only [returns, goto, continue_, Shared.log, List.append_assoc]
  all_goals first
    | exact ⟨[], (List.append_nil _).symm, fun _ h => absurd h (List.not_mem_nil _)⟩
    | exact ⟨_, rfl, by simp [Event.frame]⟩

theorem WStep.trace_mem {frames : List Frame} {sh : Shared} {i : Nat} {f : Frame} {o : Outcome}
    (h : WStep frames sh i f o) (ev : Event) (hev : ev ∈ o.shared.trace) (hne : ev.frame ≠ i) :
    ev ∈ sh.trace := by
  obtain ⟨evs, h1, h2⟩ := h.trace_ext
  rw [h1, List.mem_append] at hev
  rcases hev with hev | hev
  · exact hev
  · exact absurd (h2 ev hev) hne

theorem WStep.trace_keep {frames : List Frame} {sh : Shared} {i : Nat} {f : Frame} {o : Outcome}
    (h : WStep frames sh i f o) (ev : Event) (hev : ev ∈ sh.trace) : ev ∈ o.shared.trace := by
  obtain ⟨evs, h1, _⟩ := h.trace_ext
  rw [h1, List.mem_append]
  exact Or.inl hev

/-- The `ret` events a step adds: the one of the value the frame returns with this step. -/
theorem WStep.ret_new {frames : List Frame} {sh : Shared} {i : Nat} {f : Frame} {o : Outcome}
    (h : WStep frames sh i f o) (j : Nat) (r : Option String)
    (hev : Event.ret j r ∈ o.shared.trace) :
    Event.ret j r ∈ sh.trace ∨ (j = i ∧ o.frame.pc = PC.ret r ∧ ¬ f.done) := by
  cases h
  case move todo pc sh' hpc hto hs =>
    left
    rcases hs.trace with h1 | ⟨c, ok, h1⟩
    · rw [← h1]; exact hev
    · simp only at hev; rw [h1] at hev; simpa using hev
  case fail err sh' hpc hs =>
    have hnd : ¬ f.done := by
      unfold Frame.done
      rcases hpc with h | h | h <;> simp [h]
    rcases hs.trace with h1 | ⟨c, ok, h1⟩
    · simp only [returns, Shared.log, h1, List.mem_append, List.mem_singleton,
        Event.ret.injEq] at hev
      rcases hev with hev | ⟨rfl, rfl⟩
      · exact Or.inl hev
      · exact Or.inr ⟨rfl, rfl, hnd⟩
    · simp only [returns, Shared.log, h1, List.mem_append, List.mem_singleton,
        Event.ret.injEq] at hev
      rcases hev with (hev | hev) | ⟨rfl, rfl⟩
      · exact Or.inl hev
      · cases hev
      · exact Or.inr ⟨rfl, rfl, hnd⟩
  case finalFail err sh' hpc he hs =>
    have hnd : ¬ f.done := by
      unfold Frame.done; simp [hpc]
    rcases hs.trace with h1 | ⟨c, ok, h1⟩
    · simp only [returns, Shared.log, h1, List.mem_append, List.mem_singleton,
        Event.ret.injEq] at hev
      rcases hev with hev | ⟨rfl, rfl⟩
      · exact Or.inl hev
      · exact Or.inr ⟨rfl, rfl, hnd⟩
    · simp only [returns, Shared.log, h1, List.mem_append, List.mem_singleton,
        Event.ret.injEq] at hev
      rcases hev with (hev | hev) | ⟨rfl, rfl⟩
      · exact Or.inl hev
      · cases hev
      · exact Or.inr ⟨rfl, rfl, hnd⟩
  case finalDel sh' hpc he hs =>
    left
    rcases hs.trace with h1 | ⟨c, ok, h1⟩
    · simp only [goto] at hev; rw [← h1]; exact hev
    · simp only [goto] at hev; rw [h1] at hev; simpa using hev
  case countSelf sh' hpc hs =>
    have hnd : ¬ f.done := by
      unfold Frame.done; simp [hpc]
    rcases hs.trace with h1 | ⟨c, ok, h1⟩
    · simp only [returns, Shared.log, h1, List.mem_append, List.mem_singleton,
        Event.ret.injEq] at hev
      rcases hev with hev | ⟨rfl, rfl⟩
      · exact Or.inl hev
      · exact Or.inr ⟨rfl, rfl, hnd⟩
    · simp only [returns, Shared.log, h1, List.mem_append, List.mem_singleton,
        Event.ret.injEq] at hev
      rcases hev with (hev | hev) | ⟨rfl, rfl⟩
      · exact Or.inl hev
      · cases hev
      · exact Or.inr ⟨rfl, rfl, hnd⟩
  all_goals
    simp only [returns, goto, continue_, Shared.log, List.mem_append, List.mem_singleton,
      Event.ret.injEq, List.mem_cons, List.not_mem_nil, or_false] at hev
  all_goals first
    | exact Or.inl hev
    | (rcases hev with hev | ⟨rfl, rfl⟩
       · exact Or.inl hev
       · exact Or.inr ⟨rfl, rfl, by unfold Frame.done; simp_all⟩)
    | (rcases hev with (hev | hev) | ⟨rfl, rfl⟩
       · exact Or.inl hev
       · cases hev
       · exact Or.inr ⟨rfl, rfl, by unfold Frame.done; simp_all⟩)
    | (rcases hev with hev | hev
       · exact Or.inl hev
       · cases hev)

theorem WStep.done {frames : List Frame} {sh : Shared} {i : Nat} {f : Frame} {o : Outcome}
    (h : WStep frames sh i f o) (hd : f.done) : o.frame.done := by
  unfold Frame.done at hd ⊢
  cases h
  case move todo pc sh' hpc hto hs =>
    unfold Frame.inLoop at hpc
    rcases hd with ⟨r, hd⟩ | ⟨r, hd⟩ | hd | hd <;> simp [hd] at hpc
  all_goals simp_all [returns, goto, continue_]

theorem WStep.not_finished {frames : List Frame} {sh : Shared} {i : Nat} {f : Frame}
    {o : Outcome} (h : WStep frames sh i f o) : f.pc ≠ PC.finished := by
  intro hfin
  cases h
  case move todo pc sh' hpc hto hs =>
    unfold Frame.inLoop at hpc
    simp [hfin] at hpc
  all_goals simp_all

theorem WStep.errCh_len {frames : List Frame} {sh : Shared} {i : Nat} {f : Frame}
    {o : Outcome} (h : WStep frames sh i f o) : o.shared.errCh.length = sh.errCh.length := by
  cases h
  case move todo pc sh' hpc hto hs => simp [hs.errCh]
  case fail err sh' hpc hs => simp [returns, Shared.log, hs.errCh]
  case finalFail err sh' hpc he hs => simp [returns, Shared.log, hs.errCh]
  case finalDel sh' hpc he hs => simp [goto, hs.errCh]
  case countSelf sh' hpc hs => simp [returns, Shared.log, hs.errCh]
  all_goals simp [returns, goto, continue_, Shared.log]

theorem JoinInv.len_step {s : State} {i0 : Nat} {f : Frame} {o : Outcome} (h : JoinInv s)
    (hd : WStep s.frames s.shared i0 f o) :
    (after s i0 o).shared.errCh.length = (after s i0 o).frames.length := by
  have h1 := hd.errCh_len
  have h2 := h.len
  simp [after, h1, h2]

theorem JoinInv.evs_step {s : State} {i0 : Nat} {f : Frame} {o : Outcome} (h : JoinInv s)
    (hf : s.frames[i0]? = some f) (hd : WStep s.frames s.shared i0 f o) :
    ∀ ev ∈ (after s i0 o).shared.trace, ev.frame < (after s i0 o).frames.length := by
  intro ev hev
  have hi : i0 < s.frames.length := (List.getElem?_eq_some.mp hf).1
  have hl := after_length s i0 o
  obtain ⟨evs, h1, h2⟩ := hd.trace_ext
  rw [after_trace, h1, List.mem_append] at hev
  rcases hev with hev | hev
  · exact lt_of_lt_of_le (h.evs ev hev) hl
  · rw [h2 ev hev]; omega

theorem JoinInv.retDone_step {s : State} {i0 : Nat} {f : Frame} {o : Outcome} (h : JoinInv s)
    (hf : s.frames[i0]? = some f) (hd : WStep s.frames s.shared i0 f o) :
    ∀ (i : Nat) (fi : Frame) (r : Option String), (after s i0 o).frames[i]? = some fi →
      Event.ret i r ∈ (after s i0 o).shared.trace → fi.done := by
  intro i fi r hfi hr
  rw [after_trace] at hr
  rcases hd.ret_new i r hr with hold | ⟨rfl, hpc, _⟩
  · rcases after_frames s i0 f o hf i fi hfi with ⟨rfl, rfl⟩ | ⟨hne, holdf⟩ | ⟨rfl, hc⟩
    · exact hd.done (h.retDone i f r hf hold)
    · exact h.retDone i fi r holdf hold
    · have := h.evs _ hold
      simp [Event.frame] at this
  · rcases after_frames s i f o hf i fi hfi with ⟨_, rfl⟩ | ⟨hne, _⟩ | ⟨hl, _⟩
    · exact Or.inl ⟨r, hpc⟩
    · exact absurd rfl hne
    · have := (List.getElem?_eq_some.mp hf).1
      omega

theorem JoinInv.retVal_step {s : State} {i0 : Nat} {f : Frame} {o : Outcome} (h : JoinInv s)
    (hf : s.frames[i0]? = some f) (hd : WStep s.frames s.shared i0 f o) :
    ∀ (i : Nat) (fi : Frame) (r : Option String), (after s i0 o).frames[i]? = some fi →
      (fi.pc = PC.ret r ∨ fi.pc = PC.send r) → Event.ret i r ∈ (after s i0 o).shared.trace := by
  intro i fi r hfi hr
  rw [after_trace]
  rcases after_frames s i0 f o hf i fi hfi with ⟨rfl, rfl⟩ | ⟨hne, hold⟩ | ⟨rfl, hc⟩
  · have hD := h.retVal i f r hf
    cases hd
    case move todo pc sh' hpc hto hs =>
      unfold PC.onward at hto
      simp only at hr
      rcases hr with hr | hr <;> simp [hr] at hto
    all_goals simp_all [returns, goto, continue_, Shared.log]
  · exact hd.trace_keep _ (h.retVal i fi r hold hr)
  · obtain ⟨_, hp, _⟩ := hd.child_spec fi hc
    simp [hp] at hr

theorem JoinInv.retUniq_step {s : State} {i0 : Nat} {f : Frame} {o : Outcome} (h : JoinInv s)
    (hf : s.frames[i0]? = some f) (hd : WStep s.frames s.shared i0 f o) :
    ∀ (i : Nat) (r r1 : Option String), Event.ret i r ∈ (after s i0 o).shared.trace →
      Event.ret i r1 ∈ (after s i0 o).shared.trace → r = r1 := by
  intro i r r1 hr hr1
  rw [after_trace] at hr hr1
  rcases hd.ret_new i r hr with hold | ⟨rfl, hpc, hnd⟩
  · rcases hd.ret_new i r1 hr1 with hold1 | ⟨rfl, hpc1, hnd1⟩
    · exact h.retUniq i r r1 hold hold1
    · exact absurd (h.retDone i f r hf hold) hnd1
  · rcases hd.ret_new i r1 hr1 with hold1 | ⟨_, hpc1, hnd1⟩
    · exact absurd (h.retDone i f r1 hf hold1) hnd
    · rw [hpc] at hpc1
      exact PC.ret.inj hpc1

/-- A frame that is past its `wg.Wait()` without an error after a step was so before, or the
step is the return of `wg.Wait()`. -/
theorem WStep.past_source {frames : List Frame} {sh : Shared} {i : Nat} {f : Frame}
    {o : Outcome} (h : WStep frames sh i f o)
    (hc : o.frame.pc = PC.final ∨ o.frame.pc = PC.countSelf ∨
      Event.ret i none ∈ o.shared.trace) :
    (f.pc = PC.final ∨ f.pc = PC.countSelf ∨ Event.ret i none ∈ sh.trace) ∨
      (f.pc = PC.wait ∧ waitDone frames i = true) := by
  rcases hc with hc | hc | hc
  · cases h
    case move todo pc sh' hpc hto hs =>
      unfold PC.onward at hto
      simp only at hc
      simp [hc] at hto
    case wait hpc hw => exact Or.inr ⟨hpc, hw⟩
    all_goals simp [returns, goto, continue_] at hc
  · cases h
    case move todo pc sh' hpc hto hs =>
      unfold PC.onward at hto
      simp only at hc
      simp [hc] at hto
    case finalDel sh' hpc he hs => exact Or.inl (Or.inl hpc)
    all_goals simp [returns, goto, continue_] at hc
  · rcases h.ret_new i none hc with hold | ⟨_, hpc, _⟩
    · exact Or.inl (Or.inr (Or.inr hold))
    · cases h
      case move todo pc sh' hpc1 hto hs =>
        unfold PC.onward at hto
        simp only at hpc
        simp [hpc] at hto
      case finalOk hpc1 he => exact Or.inl (Or.inl hpc1)
      case countSelf sh' hpc1 hs => exact Or.inl (Or.inr (Or.inl hpc1))
      all_goals simp [returns, goto, continue_] at hpc

theorem JoinInv.joined_step {s : State} {i0 : Nat} {f : Frame} {o : Outcome} (h : JoinInv s)
    (hf : s.frames[i0]? = some f) (hd : WStep s.frames s.shared i0 f o) :
    ∀ (i j : Nat) (fi g : Frame), (after s i0 o).frames[i]? = some fi →
      (fi.pc = PC.final ∨ fi.pc = PC.countSelf ∨
        Event.ret i none ∈ (after s i0 o).shared.trace) →
      (after s i0 o).frames[j]? = some g → g.kind = Kind.spawned i → g.pc = PC.finished := by
  intro i j fi g hfi hcond hg hk
  rw [after_trace] at hcond
  have hi0 : i0 < s.frames.length := (List.getElem?_eq_some.mp hf).1
  -- the condition on a frame other than the one that moves held before
  have hother : i ≠ i0 → s.frames[i]? = some fi →
      (fi.pc = PC.final ∨ fi.pc = PC.countSelf ∨ Event.ret i none ∈ s.shared.trace) := by
    intro hne _
    rcases hcond with hc | hc | hc
    · exact Or.inl hc
    · exact Or.inr (Or.inl hc)
    · exact Or.inr (Or.inr (hd.trace_mem _ hc (by simpa [Event.frame] using hne)))
  rcases after_frames s i0 f o hf j g hg with ⟨hji, hgo⟩ | ⟨hnej, holdj⟩ | ⟨hjl, hcj⟩
  · -- the goroutine itself moves
    subst hgo
    subst hji
    rw [hd.kind_eq] at hk
    have hlt := h.wf.parent_lt j f i hf (Or.inr hk)
    rcases after_frames s j f o hf i fi hfi with ⟨hii, _⟩ | ⟨hne, hold⟩ | ⟨hii, _⟩
    · omega
    · exact absurd (h.joined i j fi f hold (hother hne hold) hf hk) hd.not_finished
    · omega
  · rcases after_frames s i0 f o hf i fi hfi with ⟨hii, hfo⟩ | ⟨hne, hold⟩ | ⟨hii, hc⟩
    · subst hii
      subst hfo
      rcases hd.past_source hcond with hc | ⟨_, hw⟩
      · exact h.joined i j f g hf hc holdj hk
      · exact waitDone_true _ _ hw g (List.mem_iff_getElem?.mpr ⟨j, holdj⟩) hk
    · exact h.joined i j fi g hold (hother hne hold) holdj hk
    · have h1 := h.wf.parent_lt j g i holdj (Or.inr hk)
      have h2 := (List.getElem?_eq_some.mp holdj).1
      omega
  · -- the goroutine was just started
    obtain ⟨hsel, _, hcase⟩ := hd.child_spec g hcj
    rcases hcase with ⟨hk1, _⟩ | ⟨hk1, hloop, hsh⟩
    · rw [hk] at hk1; simp at hk1
    · rw [hk] at hk1
      simp only [Kind.spawned.injEq] at hk1
      subst hk1
      rcases after_frames s i f o hf i fi hfi with ⟨_, hfo⟩ | ⟨hne, _⟩ | ⟨hii, _⟩
      · subst hfo
        rcases hd.past_source hcond with hc | ⟨hw, _⟩
        · rcases hc with hc | hc | hc
          · rw [hsel] at hc; cases hc
          · rw [hsel] at hc; cases hc
          · have := h.retDone i f none hf hc
            unfold Frame.done at this
            simp [hsel] at this
        · rw [hsel] at hw; cases hw
      · exact absurd rfl hne
      · omega

theorem JoinInv.errCh_step {s : State} {i0 : Nat} {f : Frame} {o : Outcome} (h : JoinInv s)
    (hd : WStep s.frames s.shared i0 f o) (i : Nat) (hi : i < s.frames.length) :
    (after s i0 o).shared.errCh.getD i none = o.shared.errCh.getD i none := by
  have h1 := hd.errCh_len
  have h2 := h.len
  simp only [after, List.getD_eq_getElem?_getD]
  rw [List.getElem?_append_left (by omega)]

theorem WStep.chan_other {frames : List Frame} {sh : Shared} {i0 : Nat} {f : Frame}
    {o : Outcome} (h : WStep frames sh i0 f o) (i : Nat) (hne : i ≠ i0)
    (he : sh.errCh.getD i none ≠ none) : o.shared.errCh.getD i none ≠ none := by
  have hne1 : i0 ≠ i := fun x => hne x.symm
  cases h
  case move todo pc sh' hpc hto hs => simpa [hs.errCh] using he
  case fail err sh' hpc hs => simpa [returns, Shared.log, hs.errCh] using he
  case finalFail err sh' hpc he1 hs => simpa [returns, Shared.log, hs.errCh] using he
  case finalDel sh' hpc he1 hs => simpa [goto, hs.errCh] using he
  case countSelf sh' hpc hs => simpa [returns, Shared.log, hs.errCh] using he
  case sendErr p err hpc hk hnone =>
    by_cases hp : p = i
    · subst hp
      have hlt : p < sh.errCh.length := by
        by_contra hlt
        simp [List.getD_eq_getElem?_getD, List.getElem?_eq_none (not_lt.mp hlt)] at he
      simp [goto, List.getD_eq_getElem?_getD, List.getElem?_set, hlt]
    · simpa [goto, List.getD_eq_getElem?_getD, List.getElem?_set, hp] using he
  all_goals simpa [returns, goto, continue_, Shared.log, List.getD_eq_getElem?_getD,
    List.getElem?_set, hne1] using he

theorem Taken.step_other {s : State} {i0 : Nat} {f : Frame} {o : Outcome}
    (hd : WStep s.frames s.shared i0 f o) {i : Nat} {fi : Frame} (h : Taken s i fi) :
    Taken (after s i0 o) i fi := by
  rcases h with h | ⟨e, h⟩
  · exact Or.inl h
  · exact Or.inr ⟨e, hd.trace_keep _ h⟩

theorem Taken.step_self {s : State} {i0 : Nat} {f : Frame} {o : Outcome}
    (hd : WStep s.frames s.shared i0 f o) (h : Taken s i0 f) :
    Taken (after s i0 o) i0 o.frame := by
  rcases h with ⟨e, h⟩ | ⟨e, h⟩
  · right
    cases hd
    case move todo pc sh' hpc hto hs =>
      unfold Frame.inLoop at hpc
      simp [h] at hpc
    all_goals simp_all [after_trace, returns, goto, continue_, Shared.log]
  · exact Or.inr ⟨e, hd.trace_keep _ h⟩

/-- A step of frame `i0` leaves an error in its own `errCh`, unless the step takes it. -/
theorem WStep.chan_self {s : State} {i0 : Nat} {f : Frame} {o : Outcome}
    (hd : WStep s.frames s.shared i0 f o) (hp : ∀ p, f.kind = Kind.spawned p → p ≠ i0)
    (he : s.shared.errCh.getD i0 none ≠ none) :
    o.shared.errCh.getD i0 none ≠ none ∨ Taken (after s i0 o) i0 o.frame := by
  cases hd
  case move todo pc sh' hpc hto hs => left; simpa [hs.errCh] using he
  case fail err sh' hpc hs => left; simpa [returns, Shared.log, hs.errCh] using he
  case finalFail err sh' hpc he1 hs => exact absurd he1 he
  case finalDel sh' hpc he1 hs => exact absurd he1 he
  case finalOk hpc he1 => exact absurd he1 he
  case countSelf sh' hpc hs => left; simpa [returns, Shared.log, hs.errCh] using he
  case recv err hpc h1 => right; left; exact ⟨err, rfl⟩
  case finalTake err hpc h1 =>
    right; right
    exact ⟨err, by simp [after_trace, returns, Shared.log]⟩
  case sendErr p err hpc hk hnone =>
    left
    have := hp p hk
    simpa [goto, List.getD_eq_getElem?_getD, List.getElem?_set, this] using he
  all_goals
    left
    simpa [returns, goto, continue_, Shared.log] using he

theorem JoinInv.spawnedOk_step {s : State} {i0 : Nat} {f : Frame} {o : Outcome} (h : JoinInv s)
    (hf : s.frames[i0]? = some f) (hd : WStep s.frames s.shared i0 f o)
    (hwf : WF (after s i0 o)) :
    ∀ (i j : Nat) (fi g : Frame), (after s i0 o).frames[i]? = some fi →
      (after s i0 o).frames[j]? = some g → g.kind = Kind.spawned i →
      (g.pc = PC.wgDone ∨ g.pc = PC.finished) →
      Event.ret j none ∈ (after s i0 o).shared.trace ∨
        (after s i0 o).shared.errCh.getD i none ≠ none ∨ Taken (after s i0 o) i fi := by
  intro i j fi g hfi hg hk hpc
  have hi0 : i0 < s.frames.length := (List.getElem?_eq_some.mp hf).1
  have hij : i < j := hwf.parent_lt j g i hg (Or.inr hk)
  rcases after_frames s i0 f o hf j g hg with ⟨hji, hgo⟩ | ⟨hnej, holdj⟩ | ⟨rfl, hcj⟩
  · -- the goroutine moves
    subst hgo
    subst hji
    have hkf : f.kind = Kind.spawned i := by rw [← hd.kind_eq]; exact hk
    rcases after_frames s j f o hf i fi hfi with ⟨hii, _⟩ | ⟨hne, hold⟩ | ⟨hii, hc⟩
    · omega
    · have hlt : i < s.frames.length := (List.getElem?_eq_some.mp hold).1
      have hO := h.spawnedOk i j fi f hold hf hkf
      have hV := h.retVal j f none hf
      rw [h.errCh_step hd i hlt]
      cases hd
      case move todo pc sh' hpc1 hto hs =>
        unfold PC.onward at hto
        simp only at hpc
        rcases hpc with hpc | hpc <;> simp [hpc] at hto
      case sendErr p err hpc1 hk1 hnone =>
        right; left
        rw [hkf] at hk1
        simp only [Kind.spawned.injEq] at hk1
        subst hk1
        have hl := h.len
        simp [goto, List.getD_eq_getElem?_getD, List.getElem?_set, hl, hlt]
      case sendSkip r hpc1 hfull =>
        cases r with
        | none => left; exact hV (Or.inr hpc1)
        | some err =>
          right; left
          exact hfull i err hkf rfl
      case wgDone hpc1 =>
        rcases hO (Or.inl hpc1) with h1 | h1 | h1
        · exact Or.inl h1
        · exact Or.inr (Or.inl h1)
        · exact Or.inr (Or.inr h1)
      all_goals simp [returns, goto, continue_] at hpc
    · omega
  · rcases after_frames s i0 f o hf i fi hfi with ⟨hii, hfo⟩ | ⟨hne, hold⟩ | ⟨hii, hc⟩
    · -- the spawning frame moves
      subst hii
      subst hfo
      have hO := h.spawnedOk i j f g hf holdj hk hpc
      rw [h.errCh_step hd i hi0]
      rcases hO with h1 | h1 | h1
      · exact Or.inl (hd.trace_keep _ h1)
      · exact Or.inr (hd.chan_self
          (fun p hp hpi => by
            have := h.wf.parent_lt i f p hf (Or.inr hp)
            omega) h1)
      · exact Or.inr (Or.inr (h1.step_self hd))
    · have hlt : i < s.frames.length := (List.getElem?_eq_some.mp hold).1
      rw [h.errCh_step hd i hlt]
      rcases h.spawnedOk i j fi g hold holdj hk hpc with h1 | h1 | h1
      · exact Or.inl (hd.trace_keep _ h1)
      · exact Or.inr (Or.inl (hd.chan_other i hne h1))
      · exact Or.inr (Or.inr (h1.step_other hd))
    · have := (List.getElem?_eq_some.mp holdj).1
      omega
  · obtain ⟨_, hp, _⟩ := hd.child_spec g hcj
    simp [hp] at hpc

theorem JoinInv.inlineOk_step {s : State} {i0 : Nat} {f : Frame} {o : Outcome} (h : JoinInv s)
    (hf : s.frames[i0]? = some f) (hd : WStep s.frames s.shared i0 f o)
    (hwf : WF (after s i0 o)) :
    ∀ (i j : Nat) (fi g : Frame), (after s i0 o).frames[i]? = some fi →
      (after s i0 o).frames[j]? = some g → g.kind = Kind.inline i →
      fi.pc = PC.call j ∨ Event.ret j none ∈ (after s i0 o).shared.trace ∨
        Taken (after s i0 o) i fi := by
  intro i j fi g hfi hg hk
  have hi0 : i0 < s.frames.length := (List.getElem?_eq_some.mp hf).1
  have hij : i < j := hwf.parent_lt j g i hg (Or.inl hk)
  rcases after_frames s i0 f o hf j g hg with ⟨hji, hgo⟩ | ⟨hnej, holdj⟩ | ⟨hjl, hcj⟩
  · -- the callee moves
    subst hgo
    subst hji
    have hkf : f.kind = Kind.inline i := by rw [← hd.kind_eq]; exact hk
    rcases after_frames s j f o hf i fi hfi with ⟨hii, _⟩ | ⟨hne, hold⟩ | ⟨hii, hc⟩
    · omega
    · rcases h.inlineOk i j fi f hold hf hkf with h1 | h1 | h1
      · exact Or.inl h1
      · exact Or.inr (Or.inl (hd.trace_keep _ h1))
      · exact Or.inr (Or.inr (h1.step_other hd))
    · omega
  · rcases after_frames s i0 f o hf i fi hfi with ⟨hii, hfo⟩ | ⟨hne, hold⟩ | ⟨hii, hc⟩
    · -- the caller moves
      subst hii
      subst hfo
      rcases h.inlineOk i j f g hf holdj hk with h1 | h1 | h1
      · have hV := h.retVal j g none holdj
        cases hd
        case move todo pc sh' hpc1 hto hs =>
          unfold Frame.inLoop at hpc1
          simp [h1] at hpc1
        case callOk c g1 hpc1 hg1 hr1 =>
          rw [hpc1] at h1
          simp only [PC.call.injEq] at h1
          subst h1
          rw [holdj] at hg1
          simp only [Option.some.injEq] at hg1
          subst hg1
          exact Or.inr (Or.inl (hV (Or.inl hr1)))
        case callErr c g1 err hpc1 hg1 hr1 =>
          right; right; right
          exact ⟨err, by simp [after_trace, returns, Shared.log]⟩
        all_goals simp_all
      · exact Or.inr (Or.inl (hd.trace_keep _ h1))
      · exact Or.inr (Or.inr (h1.step_self hd))
    · rcases h.inlineOk i j fi g hold holdj hk with h1 | h1 | h1
      · exact Or.inl h1
      · exact Or.inr (Or.inl (hd.trace_keep _ h1))
      · exact Or.inr (Or.inr (h1.step_other hd))
    · have := (List.getElem?_eq_some.mp holdj).1
      omega
  · -- the callee was just created
    obtain ⟨_, _, hcase⟩ := hd.child_spec g hcj
    rcases hcase with ⟨hk1, hpc1, _⟩ | ⟨hk1, _⟩
    · rw [hk] at hk1
      simp only [Kind.inline.injEq] at hk1
      subst hk1
      rcases after_frames s i f o hf i fi hfi with ⟨_, hfo⟩ | ⟨hne, _⟩ | ⟨hii, _⟩
      · left; rw [hfo, hpc1, hjl]
      · exact absurd rfl hne
      · omega
    · rw [hk] at hk1; simp at hk1

theorem WStep.quiet_source {frames : List Frame} {sh : Shared} {i : Nat} {f : Frame}
    {o : Outcome} (h : WStep frames sh i f o)
    (hc : o.frame.pc = PC.countSelf ∨ Event.ret i none ∈ o.shared.trace) :
    (f.pc = PC.countSelf ∨ Event.ret i none ∈ sh.trace) ∨
      (f.pc = PC.final ∧ sh.errCh.getD i none = none) := by
  rcases hc with hc | hc
  · cases h
    case move todo pc sh' hpc hto hs =>
      unfold PC.onward at hto
      simp only at hc
      simp [hc] at hto
    case finalDel sh' hpc he hs => exact Or.inr ⟨hpc, he⟩
    all_goals simp [returns, goto, continue_] at hc
  · rcases h.ret_new i none hc with hold | ⟨_, hpc, _⟩
    · exact Or.inl (Or.inr hold)
    · cases h
      case move todo pc sh' hpc1 hto hs =>
        unfold PC.onward at hto
        simp only at hpc
        simp [hpc] at hto
      case finalOk hpc1 he => exact Or.inr ⟨hpc1, he⟩
      case countSelf sh' hpc1 hs => exact Or.inl (Or.inl hpc1)
      all_goals simp [returns, goto, continue_] at hpc

theorem WStep.chan_none_self {frames : List Frame} {sh : Shared} {i0 : Nat} {f : Frame}
    {o : Outcome} (h : WStep frames sh i0 f o) (hp : ∀ p, f.kind = Kind.spawned p → p ≠ i0)
    (he : sh.errCh.getD i0 none = none) : o.shared.errCh.getD i0 none = none := by
  cases h
  case move todo pc sh' hpc hto hs => simpa [hs.errCh] using he
  case fail err sh' hpc hs => simpa [returns, Shared.log, hs.errCh] using he
  case finalFail err sh' hpc he1 hs => simpa [returns, Shared.log, hs.errCh] using he
  case finalDel sh' hpc he1 hs => simpa [goto, hs.errCh] using he
  case countSelf sh' hpc hs => simpa [returns, Shared.log, hs.errCh] using he
  case recv err hpc h1 => rw [he] at h1; cases h1
  case finalTake err hpc h1 => rw [he] at h1; cases h1
  case sendErr p err hpc hk hnone =>
    have := hp p hk
    simpa [goto, List.getD_eq_getElem?_getD, List.getElem?_set, this] using he
  all_goals simpa [returns, goto, continue_, Shared.log] using he

theorem WStep.chan_none_other {frames : List Frame} {sh : Shared} {i0 : Nat} {f : Frame}
    {o : Outcome} (h : WStep frames sh i0 f o) (i : Nat) (hne : i ≠ i0)
    (he : sh.errCh.getD i none = none) :
    o.shared.errCh.getD i none = none ∨ (f.kind = Kind.spawned i ∧ f.pc ≠ PC.finished) := by
  have hne1 : i0 ≠ i := fun x => hne x.symm
  cases h
  case move todo pc sh' hpc hto hs => left; simpa [hs.errCh] using he
  case fail err sh' hpc hs => left; simpa [returns, Shared.log, hs.errCh] using he
  case finalFail err sh' hpc he1 hs => left; simpa [returns, Shared.log, hs.errCh] using he
  case finalDel sh' hpc he1 hs => left; simpa [goto, hs.errCh] using he
  case countSelf sh' hpc hs => left; simpa [returns, Shared.log, hs.errCh] using he
  case sendErr p err hpc hk hnone =>
    by_cases hp : p = i
    · right
      subst hp
      exact ⟨hk, by rw [hpc]; simp⟩
    · left
      simpa [goto, List.getD_eq_getElem?_getD, List.getElem?_set, hp] using he
  all_goals
    left
    simpa [returns, goto, continue_, Shared.log, List.getD_eq_getElem?_getD,
      List.getElem?_set, hne1] using he

theorem JoinInv.quiet_step {s : State} {i0 : Nat} {f : Frame} {o : Outcome} (h : JoinInv s)
    (hf : s.frames[i0]? = some f) (hd : WStep s.frames s.shared i0 f o) :
    ∀ (i : Nat) (fi : Frame), (after s i0 o).frames[i]? = some fi →
      (fi.pc = PC.countSelf ∨ Event.ret i none ∈ (after s i0 o).shared.trace) →
      (after s i0 o).shared.errCh.getD i none = none := by
  intro i fi hfi hcond
  rw [after_trace] at hcond
  have hi0 : i0 < s.frames.length := (List.getElem?_eq_some.mp hf).1
  have hpar : ∀ p, f.kind = Kind.spawned p → p ≠ i0 := by
    intro p hp hpi
    have := h.wf.parent_lt i0 f p hf (Or.inr hp)
    omega
  rcases after_frames s i0 f o hf i fi hfi with ⟨hii, hfo⟩ | ⟨hne, hold⟩ | ⟨hii, hc⟩
  · subst hii
    subst hfo
    rw [h.errCh_step hd i hi0]
    rcases hd.quiet_source hcond with hc | ⟨_, he⟩
    · exact hd.chan_none_self hpar (h.quiet i f hf hc)
    · exact hd.chan_none_self hpar he
  · have hlt : i < s.frames.length := (List.getElem?_eq_some.mp hold).1
    rw [h.errCh_step hd i hlt]
    have hco : fi.pc = PC.countSelf ∨ Event.ret i none ∈ s.shared.trace := by
      rcases hcond with hc | hc
      · exact Or.inl hc
      · exact Or.inr (hd.trace_mem _ hc (by simpa [Event.frame] using hne))
    rcases hd.chan_none_other i hne (h.quiet i fi hold hco) with h1 | ⟨hk, hnf⟩
    · exact h1
    · have hj : fi.pc = PC.final ∨ fi.pc = PC.countSelf ∨ Event.ret i none ∈ s.shared.trace :=
        Or.inr hco
      exact absurd (h.joined i i0 fi f hold hj hf hk) hnf
  · have h1 := hd.errCh_len
    have h2 := h.len
    obtain ⟨c, hcc⟩ : ∃ c, o.child = some c := ⟨fi, hc⟩
    simp only [after, List.getD_eq_getElem?_getD, hcc, Option.toList_some, List.map_cons,
      List.map_nil]
    rw [List.getElem?_append_right (by omega)]
    have : i - o.shared.errCh.length = 0 := by omega
    rw [this]
    rfl

theorem JoinInv_advance (w : Walk) (i0 sel : Nat) (s : State) (h : JoinInv s) :
    JoinInv (advance w i0 sel s) := by
  have hwf := WF_advance w i0 sel s h.wf
  rcases advance_eq w i0 sel s with he | ⟨f, o, hf, ho, he⟩
  · rw [he]; exact h
  · have hd : WStep s.frames s.shared i0 f o := stepFrame_WStep w _ _ _ _ _ _ ho
    have hafter : advance w i0 sel s = after s i0 o := he
    rw [hafter] at hwf ⊢
    exact
      { wf := hwf
        len := h.len_step hd
        evs := h.evs_step hf hd
        retDone := h.retDone_step hf hd
        retVal := h.retVal_step hf hd
        retUniq := h.retUniq_step hf hd
        joined := h.joined_step hf hd
        spawnedOk := h.spawnedOk_step hf hd hwf
        inlineOk := h.inlineOk_step hf hd hwf
        quiet := h.quiet_step hf hd }

theorem JoinInv_init (fsId epoch parentInodeId dirInodeId : Nat) (name : String) (root : Node) :
    JoinInv (initState fsId epoch parentInodeId dirInodeId name root) := by
  have hfr : ∀ (i : Nat) (f : Frame),
      (initState fsId epoch parentInodeId dirInodeId name root).frames[i]? = some f →
      f.pc = PC.list ∧ f.kind = Kind.top := by
    intro i f hf
    cases i with
    | zero =>
      simp only [initState, List.getElem?_cons_zero, Option.some.injEq] at hf
      subst hf
      exact ⟨rfl, rfl⟩
    | succ k => simp [initState] at hf
  have htr : (initState fsId epoch parentInodeId dirInodeId name root).shared.trace = [] := rfl
  constructor
  · exact WF_init _ _ _ _ _ _
  · rfl
  · intro ev hev; rw [htr] at hev; simp at hev
  · intro i f r _ hev; rw [htr] at hev; simp at hev
  · intro i f r hf hpc; simp [(hfr i f hf).1] at hpc
  · intro i r r1 hev; rw [htr] at hev; simp at hev
  · intro i j f g _ _ hg hk; simp [(hfr j g hg).2] at hk
  · intro i j f g _ hg hk; simp [(hfr j g hg).2] at hk
  · intro i j f g _ hg hk; simp [(hfr j g hg).2] at hk
  · intro i f hf hc
    rw [htr] at hc
    simp [(hfr i f hf).1] at hc

theorem JoinInv_interleave (w : Walk) (sched : List (Nat × Nat)) (s : State) (h : JoinInv s) :
    JoinInv (interleave w sched s) := by
  induction sched generalizing s with
  | nil => exact h
  | cons c cs ih => exact ih _ (JoinInv_advance w c.1 c.2 s h)

theorem JoinInv_run (w : Walk) (sched : List (Nat × Nat)) (s : State) (h : JoinInv s) :
    JoinInv (run w sched s) := by
  induction sched generalizing s with
  | nil => exact h
  | cons c cs ih =>
    simp only [run, List.foldl_cons]
    rcases step_cases w s c with he | ⟨i, sel, he⟩
    · rw [he]; exact ih s h
    · rw [he]; exact ih _ (JoinInv_advance w i sel s h)

/-- Once the top call has returned nil, every frame has returned nil and has come to rest. -/
theorem JoinInv.all_returned {s : State} (h : JoinInv s)
    (h0 : Event.ret 0 none ∈ s.shared.trace) :
    ∀ (n j : Nat) (g : Frame), j ≤ n → s.frames[j]? = some g →
      Event.ret j none ∈ s.shared.trace ∧ g.atRest := by
  have hnot : ∀ (p : Nat) (fp : Frame), s.frames[p]? = some fp →
      Event.ret p none ∈ s.shared.trace → ¬ Taken s p fp := by
    intro p fp hfp hp ht
    rcases ht with ⟨e, ht⟩ | ⟨e, ht⟩
    · have := h.retDone p fp none hfp hp
      unfold Frame.done at this
      simp [ht] at this
    · have := h.retUniq p none (some e) hp ht
      cases this
  have hrest : ∀ (j : Nat) (g : Frame), s.frames[j]? = some g →
      Event.ret j none ∈ s.shared.trace → (∀ p, g.kind ≠ Kind.spawned p) → g.atRest := by
    intro j g hg hr hk
    have hd := h.retDone j g none hg hr
    unfold Frame.atRest
    cases hkind : g.kind with
    | spawned p => exact absurd hkind (hk p)
    | top =>
      simp only
      rcases hd with hd | ⟨r, hd⟩ | hd | hd
      · exact hd
      · obtain ⟨p, hp⟩ := h.wf.epilogue j g hg (Or.inr (Or.inr ⟨r, hd⟩))
        rw [hkind] at hp; cases hp
      · obtain ⟨p, hp⟩ := h.wf.epilogue j g hg (Or.inl hd)
        rw [hkind] at hp; cases hp
      · obtain ⟨p, hp⟩ := h.wf.epilogue j g hg (Or.inr (Or.inl hd))
        rw [hkind] at hp; cases hp
    | inline c =>
      simp only
      rcases hd with hd | ⟨r, hd⟩ | hd | hd
      · exact hd
      · obtain ⟨p, hp⟩ := h.wf.epilogue j g hg (Or.inr (Or.inr ⟨r, hd⟩))
        rw [hkind] at hp; cases hp
      · obtain ⟨p, hp⟩ := h.wf.epilogue j g hg (Or.inl hd)
        rw [hkind] at hp; cases hp
      · obtain ⟨p, hp⟩ := h.wf.epilogue j g hg (Or.inr (Or.inl hd))
        rw [hkind] at hp; cases hp
  intro n
  induction n using Nat.strong_induction_on with
  | _ n ih =>
    intro j g hj hg
    cases hkind : g.kind with
    | top =>
      have hz := h.wf.top_zero j g hg hkind
      subst hz
      exact ⟨h0, hrest 0 g hg h0 (fun p hp => by rw [hkind] at hp; cases hp)⟩
    | inline p =>
      have hlt := h.wf.parent_lt j g p hg (Or.inl hkind)
      have hpl : p < s.frames.length := by
        have := (List.getElem?_eq_some.mp hg).1; omega
      have hfp : s.frames[p]? = some s.frames[p] := List.getElem?_eq_getElem hpl
      have hp := (ih p (by omega) p _ (le_refl _) hfp).1
      have hr : Event.ret j none ∈ s.shared.trace := by
        rcases h.inlineOk p j _ g hfp hg hkind with h1 | h1 | h1
        · have := h.retDone p _ none hfp hp
          unfold Frame.done at this
          simp [h1] at this
        · exact h1
        · exact absurd h1 (hnot p _ hfp hp)
      exact ⟨hr, hrest j g hg hr (fun q hq => by rw [hkind] at hq; cases hq)⟩
    | spawned p =>
      have hlt := h.wf.parent_lt j g p hg (Or.inr hkind)
      have hpl : p < s.frames.length := by
        have := (List.getElem?_eq_some.mp hg).1; omega
      have hfp : s.frames[p]? = some s.frames[p] := List.getElem?_eq_getElem hpl
      have hp := (ih p (by omega) p _ (le_refl _) hfp).1
      have hfin := h.joined p j _ g hfp (Or.inr (Or.inr hp)) hg hkind
      refine ⟨?_, ?_⟩
      · rcases h.spawnedOk p j _ g hfp hg hkind (Or.inr hfin) with h1 | h1 | h1
        · exact h1
        · exact absurd (h.quiet p _ hfp (Or.inr hp)) h1
        · exact absurd h1 (hnot p _ hfp hp)
      · unfold Frame.atRest
        rw [hkind]
        exact hfin

theorem atRest_stuck (w : Walk) (frames : List Frame) (sh : Shared) (i sel : Nat) (f : Frame)
    (h : f.atRest) : stepFrame w frames sh i sel f = none := by
  unfold Frame.atRest at h
  cases hk : f.kind with
  | spawned p =>
    rw [hk] at h
    simp only at h
    simp [stepFrame, h]
  | top =>
    rw [hk] at h
    obtain ⟨r, h⟩ := h
    simp [stepFrame, h, hk]
  | inline c =>
    rw [hk] at h
    obtain ⟨r, h⟩ := h
    simp [stepFrame, h, hk]

theorem interleave_rest (w : Walk) (s : State)
    (h : ∀ (j : Nat) (g : Frame), s.frames[j]? = some g → g.atRest) :
    ∀ sched : List (Nat × Nat), interleave w sched s = s := by
  intro sched
  induction sched with
  | nil => rfl
  | cons c cs ih =>
    have hadv : advance w c.1 c.2 s = s := by
      unfold advance
      cases hf : s.frames[c.1]? with
      | none => rfl
      | some f =>
        simp only
        rw [atRest_stuck w _ _ _ _ f (h c.1 f hf)]
    unfold interleave at ih ⊢
    simp only [List.foldl_cons]
    rw [hadv]
    exact ih

theorem JoinInv.joinedAfterWait {s : State} (h : JoinInv s) (w : Walk) : JoinedAfterWait w s := by
  constructor
  · intro i j f g hf hpc hg hk
    refine h.joined i j f g hf ?_ hg hk
    rcases hpc with hpc | hpc | hpc | hpc
    · exact Or.inl hpc
    · exact Or.inr (Or.inl hpc)
    · exact Or.inr (Or.inr (h.retVal i f none hf (Or.inl hpc)))
    · exact Or.inr (Or.inr (h.retVal i f none hf (Or.inr hpc)))
  · intro ht
    have h0 : Event.ret 0 none ∈ s.shared.trace := by
      unfold topResult at ht
      cases hf0 : s.frames[0]? with
      | none => simp [hf0] at ht
      | some f0 =>
        simp only [hf0] at ht
        have hpc : f0.pc = PC.ret none := by
          cases hpc : f0.pc <;> simp only [hpc] at ht <;> try cases ht
          rfl
        exact h.retVal 0 f0 none hf0 (Or.inl hpc)
    have hall : ∀ (j : Nat) (g : Frame), s.frames[j]? = some g → g.atRest :=
      fun j g hg => (h.all_returned h0 j j g (le_refl _) hg).2
    exact ⟨hall, interleave_rest w s hall⟩

/-! ## The wrapper and its deferred `cancel()` -/

theorem WF_ctxDone (s : State) (h : WF s) : WF s.ctxDone :=
  ⟨h.nonempty, h.parent_lt, h.call_ok, h.epilogue, h.top_zero⟩

theorem JoinInv_ctxDone (s : State) (h : JoinInv s) : JoinInv s.ctxDone :=
  ⟨WF_ctxDone s h.wf, h.len, h.evs, h.retDone, h.retVal, h.retUniq, h.joined, h.spawnedOk,
    h.inlineOk, h.quiet⟩

/-- The top call, once returned, stays returned: frame 0 takes no further step. -/
theorem topResult_advance (w : Walk) (i sel : Nat) (s : State) (hw : WF s)
    (h : topResult s ≠ none) : topResult (advance w i sel s) ≠ none := by
  rcases advance_eq w i sel s with he | ⟨f, o, hf, ho, he⟩
  · rw [he]; exact h
  · rw [he]
    unfold topResult at h ⊢
    cases h0 : s.frames[0]? with
    | none => simp [h0] at h
    | some f0 =>
      simp only [h0] at h
      have hlen : 0 < s.frames.length := (List.getElem?_eq_some.mp h0).1
      by_cases hi : i = 0
      · subst hi
        rw [h0] at hf
        cases hf
        exfalso
        have hk : f.kind = Kind.top := by
          cases hk : f.kind with
          | top => rfl
          | inline p => exact absurd (hw.parent_lt 0 f p h0 (Or.inl hk)) (by omega)
          | spawned p => exact absurd (hw.parent_lt 0 f p h0 (Or.inr hk)) (by omega)
        cases hpc : f.pc <;> simp only [hpc] at h <;> try exact h rfl
        unfold stepFrame at ho
        simp [hpc, hk] at ho
      · have hget : (s.frames.set i o.frame ++ o.child.toList)[0]? = some f0 := by
          rw [List.getElem?_append_left (by simpa using hlen), List.getElem?_set_ne hi]
          exact h0
        simp only [hget]
        exact h

/-- An invariant of the frame steps that does not read `ctx` holds along every execution of
the program. -/
theorem execute_inv (w : Walk) (P : State → Prop)
    (hadv : ∀ (i sel : Nat) (s : State), P s → P (advance w i sel s))
    (hdone : ∀ s : State, P s → P s.ctxDone) (moves : List Move) (p : Program)
    (h : P p.state) : P (execute w moves p).state := by
  induction moves generalizing p with
  | nil => exact h
  | cons m ms ih =>
    simp only [execute, List.foldl_cons]
    cases m with
    | frame i sel => exact ih _ (hadv i sel p.state h)
    | wrapperReturn =>
      simp only [Program.move]
      cases ht : topResult p.state with
      | none => exact ih p h
      | some r => exact ih _ (hdone p.state h)

/-- The executions in which the wrapper does not return are the interleavings of the frames. -/
theorem execute_frames (w : Walk) (sched : List (Nat × Nat)) (p : Program) :
    execute w (sched.map fun c => Move.frame c.1 c.2) p =
      { p with state := interleave w sched p.state } := by
  induction sched generalizing p with
  | nil => rfl
  | cons c cs ih =>
    simp only [List.map_cons, execute, List.foldl_cons, interleave]
    exact ih _

theorem JoinInv_execute (w : Walk) (moves : List Move) (p : Program) (h : JoinInv p.state) :
    JoinInv (execute w moves p).state :=
  execute_inv w JoinInv (fun i sel s hs => JoinInv_advance w i sel s hs) JoinInv_ctxDone moves p h
/-! ## Claims about joins, the cancellation signal and the counter -/

set_option maxRecDepth 100000 in
/-- C22, as stated, fails: the early returns do not pass `wg.Wait()`.  In the walks of
`/a{b{f2}, f1}` with one slot, in which the RPC for the file `f1` fails, the top call starts a
goroutine for `b` and then returns `EIO` for `f1` while that goroutine has not taken a step;
afterwards the goroutine issues its RPCs: `ListDentry` and `GetInode` in the usage walk, and in
the delete walk `ListDentry`, `DeleteFile` of `f2` and `DeleteDirectory` of `b`, although
`deleteDirectory` has returned the error. -/
theorem early_return_leaves_goroutines :
    (topResult (run ⟨Mode.delete, 1⟩ (List.replicate 4 (0, 0))
        (initState 1 7 1 2 "a" leakTree)) = some (some "EIO") ∧
      (run ⟨Mode.delete, 1⟩ (List.replicate 4 (0, 0))
        (initState 1 7 1 2 "a" leakTree)).frames[1]? =
        some ⟨Kind.spawned 0, 1, 7, 2, 4, "b", dirEntry "b" 4 2 [fileEntry "f2" 5 4 20 1], [],
          PC.list⟩ ∧
      (interleave ⟨Mode.delete, 1⟩ (List.replicate 12 (1, 0))
        (run ⟨Mode.delete, 1⟩ (List.replicate 4 (0, 0))
          (initState 1 7 1 2 "a" leakTree))).shared.trace =
        [Event.rpc 0 (Call.ListDentry 1 2 7) true, Event.spawn 0 1,
         Event.rpc 0 (Call.DeleteFile 1 2 "f1" 7) false, Event.ret 0 (some "EIO"),
         Event.rpc 1 (Call.ListDentry 1 4 7) true, Event.rpc 1 (Call.DeleteFile 1 4 "f2" 7) true,
         Event.rpc 1 (Call.DeleteDirectory 1 2 "b" 7) true, Event.ret 1 none]) ∧
    (topResult (run ⟨Mode.usage true, 1⟩ (List.replicate 5 (0, 0))
        (initState 1 7 0 2 "" leakTree)) = some (some "EIO") ∧
      (run ⟨Mode.usage true, 1⟩ (List.replicate 5 (0, 0))
        (initState 1 7 0 2 "" leakTree)).frames[1]? =
        some ⟨Kind.spawned 0, 1, 7, 2, 4, "b", dirEntry "b" 4 2 [fileEntry "f2" 5 4 20 1], [],
          PC.list⟩ ∧
      (interleave ⟨Mode.usage true, 1⟩ (List.replicate 12 (1, 0))
        (run ⟨Mode.usage true, 1⟩ (List.replicate 5 (0, 0))
          (initState 1 7 0 2 "" leakTree))).shared.trace =
        [Event.rpc 0 (Call.ListDentry 1 2 7) true, Event.spawn 0 1,
         Event.rpc 0 (Call.GetInode 1 3 2 7) false, Event.ret 0 (some "EIO"),
         Event.rpc 1 (Call.ListDentry 1 4 7) true, Event.rpc 1 (Call.GetInode 1 5 4 7) true,
         Event.ret 1 none]) := by
  decide

/-- C22, amended: only the return paths through `wg.Wait()` are joined.  In every execution of
either walk (every namespace, whatever fails, every bound and schedule; `run`, and `interleave`
where goroutines run on after the top call returned): a frame that is at the final `select`, at
the counter update behind its `DeleteDirectory`, or that has returned nil, has no goroutine of
its own left, each of them has ended; and when the top-level call has returned nil, every
frame of the walk has come to rest (each call has returned, each goroutine has ended), so that
no branch takes a step or issues an RPC any more. -/
theorem join_on_paths_through_wait (w : Walk) (root : Node)
    (fsId epoch parentInodeId dirInodeId : Nat) (name : String) (sched : List (Nat × Nat)) :
    JoinedAfterWait w (run w sched (initState fsId epoch parentInodeId dirInodeId name root)) ∧
    JoinedAfterWait w
      (interleave w sched (initState fsId epoch parentInodeId dirInodeId name root)) :=
  ⟨(JoinInv_run w sched _ (JoinInv_init fsId epoch parentInodeId dirInodeId name root)).joinedAfterWait w,
   (JoinInv_interleave w sched _
     (JoinInv_init fsId epoch parentInodeId dirInodeId name root)).joinedAfterWait w⟩

set_option maxRecDepth 100000 in
/-- Witness of `join_on_paths_through_wait`: the delete walk of `/a{f1, b{f2}}` with two slots
returns nil; its goroutine for `b` has ended, and further scheduling changes nothing. -/
theorem join_on_paths_through_wait_witness :
    topResult (run ⟨Mode.delete, 2⟩ (List.replicate 64 (1, 0))
      (initState 1 7 1 2 "a" scenarioTree)) = some none ∧
    (run ⟨Mode.delete, 2⟩ (List.replicate 64 (1, 0))
      (initState 1 7 1 2 "a" scenarioTree)).frames[1]? =
      some ⟨Kind.spawned 0, 1, 7, 2, 4, "b", dirEntry "b" 4 2 [fileEntry "f2" 5 4 20 1], [],
        PC.finished⟩ ∧
    ∀ sched : List (Nat × Nat),
      interleave ⟨Mode.delete, 2⟩ sched
        (run ⟨Mode.delete, 2⟩ (List.replicate 64 (1, 0))
          (initState 1 7 1 2 "a" scenarioTree)) =
      run ⟨Mode.delete, 2⟩ (List.replicate 64 (1, 0)) (initState 1 7 1 2 "a" scenarioTree) :=
  ⟨by decide, by decide,
   ((join_on_paths_through_wait ⟨Mode.delete, 2⟩ scenarioTree 1 7 1 2 "a"
     (List.replicate 64 (1, 0))).1.2 (by decide)).2⟩
/-! ## The cancellation signal along every execution -/

theorem after_kind {s : State} {i0 : Nat} {f : Frame} {o : Outcome}
    (hf : s.frames[i0]? = some f) (hd : WStep s.frames s.shared i0 f o) (j : Nat) (g : Frame)
    (hg : s.frames[j]? = some g) :
    ∃ g1, (after s i0 o).frames[j]? = some g1 ∧ g1.kind = g.kind := by
  rcases after_old s i0 f o hf j g hg with ⟨_, h2, h3⟩ | ⟨_, h2⟩
  · subst h2
    exact ⟨o.frame, h3, hd.kind_eq⟩
  · exact ⟨g, h2, rfl⟩

theorem WStep.flag {frames : List Frame} {sh : Shared} {i : Nat} {f : Frame} {o : Outcome}
    (h : WStep frames sh i f o) :
    (o.shared.cancelled = sh.cancelled ∧
        ∀ j, Event.cancel j ∈ o.shared.trace → Event.cancel j ∈ sh.trace) ∨
      (o.shared.cancelled = true ∧ Event.cancel i ∈ o.shared.trace) := by
  cases h
  case move todo pc sh' hpc hto hs =>
    left
    refine ⟨hs.cancelled, fun j hj => ?_⟩
    rcases hs.trace with h1 | ⟨c, ok, h1⟩
    · rw [← h1]; exact hj
    · simp only at hj; rw [h1] at hj; simpa using hj
  case fail err sh' hpc hs =>
    left
    refine ⟨by simp [returns, Shared.log, hs.cancelled], fun j hj => ?_⟩
    rcases hs.trace with h1 | ⟨c, ok, h1⟩
    · simpa [returns, Shared.log, h1] using hj
    · simpa [returns, Shared.log, h1] using hj
  case finalFail err sh' hpc he hs =>
    left
    refine ⟨by simp [returns, Shared.log, hs.cancelled], fun j hj => ?_⟩
    rcases hs.trace with h1 | ⟨c, ok, h1⟩
    · simpa [returns, Shared.log, h1] using hj
    · simpa [returns, Shared.log, h1] using hj
  case finalDel sh' hpc he hs =>
    left
    refine ⟨by simp [goto, hs.cancelled], fun j hj => ?_⟩
    rcases hs.trace with h1 | ⟨c, ok, h1⟩
    · simpa [goto, h1] using hj
    · simpa [goto, h1] using hj
  case countSelf sh' hpc hs =>
    left
    refine ⟨by simp [returns, Shared.log, hs.cancelled], fun j hj => ?_⟩
    rcases hs.trace with h1 | ⟨c, ok, h1⟩
    · simpa [returns, Shared.log, h1] using hj
    · simpa [returns, Shared.log, h1] using hj
  case cancel err hpc =>
    right
    simp [returns, Shared.log]
  all_goals
    left
    refine ⟨by simp [returns, goto, continue_, Shared.log], fun j hj => ?_⟩
    simpa [returns, goto, continue_, Shared.log] using hj

theorem getD_set_some (l : List (Option String)) (p k : Nat) (v : Option String) (e : String)
    (h : (l.set p v).getD k none = some e) : l.getD k none = some e ∨ (k = p ∧ v = some e) := by
  simp only [List.getD_eq_getElem?_getD, List.getElem?_set] at h ⊢
  by_cases hp : p = k
  · subst hp
    by_cases hlt : p < l.length
    · simp only [if_true, hlt] at h
      right
      exact ⟨rfl, by simpa using h⟩
    · simp [hlt] at h
  · left
    simpa [hp] using h

theorem WStep.chan_source {frames : List Frame} {sh : Shared} {i : Nat} {f : Frame}
    {o : Outcome} (h : WStep frames sh i f o) (k : Nat) (e : String)
    (he : o.shared.errCh.getD k none = some e) :
    sh.errCh.getD k none = some e ∨ (f.kind = Kind.spawned k ∧ f.pc = PC.send (some e)) := by
  cases h
  case move todo pc sh' hpc hto hs => left; simpa [hs.errCh] using he
  case fail err sh' hpc hs => left; simpa [returns, Shared.log, hs.errCh] using he
  case finalFail err sh' hpc he1 hs => left; simpa [returns, Shared.log, hs.errCh] using he
  case finalDel sh' hpc he1 hs => left; simpa [goto, hs.errCh] using he
  case countSelf sh' hpc hs => left; simpa [returns, Shared.log, hs.errCh] using he
  case recv err hpc h1 =>
    left
    simp only [goto] at he
    rcases getD_set_some _ _ _ _ _ he with h2 | ⟨_, h2⟩
    · exact h2
    · cases h2
  case finalTake err hpc h1 =>
    left
    simp only [returns, Shared.log] at he
    rcases getD_set_some _ _ _ _ _ he with h2 | ⟨_, h2⟩
    · exact h2
    · cases h2
  case sendErr p err hpc hk hnone =>
    simp only [goto] at he
    rcases getD_set_some _ _ _ _ _ he with h2 | ⟨h2, h3⟩
    · exact Or.inl h2
    · right
      subst h2
      cases h3
      exact ⟨hk, hpc⟩
  all_goals
    left
    simpa [returns, goto, continue_, Shared.log] using he

theorem WStep.recv_source {frames : List Frame} {sh : Shared} {i : Nat} {f : Frame}
    {o : Outcome} (h : WStep frames sh i f o) (e : String) (hpc : o.frame.pc = PC.cancel e) :
    sh.errCh.getD i none = some e := by
  cases h
  case move todo pc sh' hpc1 hto hs =>
    unfold PC.onward at hto
    simp only at hpc
    simp [hpc] at hto
  case recv err hpc1 h1 =>
    simp only [goto, PC.cancel.injEq] at hpc
    rw [← hpc]; exact h1
  all_goals simp [returns, goto, continue_] at hpc

/-- A `cancel` event a step adds is followed by the return of the frame, and by nothing else. -/
theorem WStep.cancel_split {frames : List Frame} {sh : Shared} {i : Nat} {f : Frame}
    {o : Outcome} (h : WStep frames sh i f o) :
    ∃ evs, o.shared.trace = sh.trace ++ evs ∧
      ∀ (evs1 post : List Event) (j : Nat), evs = evs1 ++ Event.cancel j :: post →
        evs1 = [] ∧ j = i ∧ ∃ e, post = [Event.ret i (some e)] ∧ f.pc = PC.cancel e := by
  cases h
  case move todo pc sh' hpc hto hs =>
    rcases hs.trace with h1 | ⟨c, ok, h1⟩
    · exact ⟨[], by simpa using h1, fun evs1 post j he => by simp at he⟩
    · refine ⟨_, h1, fun evs1 post j he => ?_⟩
      rcases evs1 with _ | ⟨y, _ | ⟨z, l⟩⟩ <;> simp at he
  case fail err sh' hpc hs =>
    rcases hs.trace with h1 | ⟨c, ok, h1⟩
    · refine ⟨[Event.ret i (some err)], by simp [returns, Shared.log, h1],
        fun evs1 post j he => ?_⟩
      rcases evs1 with _ | ⟨y, _ | ⟨z, l⟩⟩ <;> simp at he
    · refine ⟨[Event.rpc i c ok, Event.ret i (some err)], by simp [returns, Shared.log, h1],
        fun evs1 post j he => ?_⟩
      rcases evs1 with _ | ⟨y, _ | ⟨z, _ | ⟨z1, l⟩⟩⟩ <;> simp at he
  case finalFail err sh' hpc he1 hs =>
    rcases hs.trace with h1 | ⟨c, ok, h1⟩
    · refine ⟨[Event.ret i (some err)], by simp [returns, Shared.log, h1],
        fun evs1 post j he => ?_⟩
      rcases evs1 with _ | ⟨y, _ | ⟨z, l⟩⟩ <;> simp at he
    · refine ⟨[Event.rpc i c ok, Event.ret i (some err)], by simp [returns, Shared.log, h1],
        fun evs1 post j he => ?_⟩
      rcases evs1 with _ | ⟨y, _ | ⟨z, _ | ⟨z1, l⟩⟩⟩ <;> simp at he
  case finalDel sh' hpc he1 hs =>
    rcases hs.trace with h1 | ⟨c, ok, h1⟩
    · exact ⟨[], by simpa [goto] using h1, fun evs1 post j he => by simp at he⟩
    · refine ⟨_, h1, fun evs1 post j he => ?_⟩
      rcases evs1 with _ | ⟨y, _ | ⟨z, l⟩⟩ <;> simp at he
  case countSelf sh' hpc hs =>
    rcases hs.trace with h1 | ⟨c, ok, h1⟩
    · refine ⟨[Event.ret i none], by simp [returns, Shared.log, h1],
        fun evs1 post j he => ?_⟩
      rcases evs1 with _ | ⟨y, _ | ⟨z, l⟩⟩ <;> simp at he
    · refine ⟨[Event.rpc i c ok, Event.ret i none], by simp [returns, Shared.log, h1],
        fun evs1 post j he => ?_⟩
      rcases evs1 with _ | ⟨y, _ | ⟨z, _ | ⟨z1, l⟩⟩⟩ <;> simp at he
  case cancel err hpc =>
    refine ⟨[Event.cancel i, Event.ret i (some err)], by simp [returns, Shared.log],
      fun evs1 post j he => ?_⟩
    rcases evs1 with _ | ⟨y, _ | ⟨z, _ | ⟨z1, l⟩⟩⟩ <;> simp at he
    obtain ⟨rfl, rfl⟩ := he
    exact ⟨rfl, rfl, err, rfl, hpc⟩
  all_goals simp only [returns, goto, continue_, Shared.log, List.append_assoc]
  all_goals first
    | exact ⟨[], (List.append_nil _).symm, fun evs1 post j he => by simp at he⟩
    | (refine ⟨_, rfl, fun evs1 post j he => ?_⟩
       rcases evs1 with _ | ⟨y, _ | ⟨z, _ | ⟨z1, l⟩⟩⟩ <;> simp at he)

theorem SignalInv_advance (w : Walk) (d : Bool) (i0 sel : Nat) (s : State) (hj : JoinInv s)
    (h : SignalInv d s) : SignalInv d (advance w i0 sel s) := by
  rcases advance_eq w i0 sel s with he | ⟨f, o, hf, ho, he⟩
  · rw [he]; exact h
  · have hd : WStep s.frames s.shared i0 f o := stepFrame_WStep w _ _ _ _ _ _ ho
    have hafter : advance w i0 sel s = after s i0 o := he
    have hi0 : i0 < s.frames.length := (List.getElem?_eq_some.mp hf).1
    rw [hafter]
    have hkeep : ∀ (i : Nat) (e : String),
        (∃ (j : Nat) (g : Frame), s.frames[j]? = some g ∧ g.kind = Kind.spawned i ∧
          Event.ret j (some e) ∈ s.shared.trace) →
        ∃ (j : Nat) (g : Frame), (after s i0 o).frames[j]? = some g ∧
          g.kind = Kind.spawned i ∧ Event.ret j (some e) ∈ (after s i0 o).shared.trace := by
      rintro i e ⟨j, g, hg, hk, hr⟩
      obtain ⟨g1, hg1, hk1⟩ := after_kind hf hd j g hg
      exact ⟨j, g1, hg1, by rw [hk1]; exact hk, hd.trace_keep _ hr⟩
    have hchan : ∀ (i : Nat) (e : String), o.shared.errCh.getD i none = some e →
        ∃ (j : Nat) (g : Frame), (after s i0 o).frames[j]? = some g ∧
          g.kind = Kind.spawned i ∧ Event.ret j (some e) ∈ (after s i0 o).shared.trace := by
      intro i e hce
      rcases hd.chan_source i e hce with h1 | ⟨hk, hpc⟩
      · exact hkeep i e (h.chan i e h1)
      · have hr := hj.retVal i0 f (some e) hf (Or.inr hpc)
        obtain ⟨g1, hg1, hk1⟩ := after_kind hf hd i0 f hf
        exact ⟨i0, g1, hg1, by rw [hk1]; exact hk, hd.trace_keep _ hr⟩
    constructor
    · rw [after_trace]
      show o.shared.cancelled = true ↔ _
      rcases hd.flag with ⟨h1, h2⟩ | ⟨h1, h2⟩
      · rw [h1, h.flag]
        constructor
        · rintro (⟨i, hi⟩ | hdef)
          · exact Or.inl ⟨i, hd.trace_keep _ hi⟩
          · exact Or.inr hdef
        · rintro (⟨i, hi⟩ | hdef)
          · exact Or.inl ⟨i, h2 i hi⟩
          · exact Or.inr hdef
      · exact ⟨fun _ => Or.inl ⟨i0, h2⟩, fun _ => h1⟩
    · intro i e hce
      by_cases hlt : i < s.frames.length
      · rw [hj.errCh_step hd i hlt] at hce
        exact hchan i e hce
      · have h1 := hd.errCh_len
        have h2 := hj.len
        simp only [after, List.getD_eq_getElem?_getD] at hce
        rw [List.getElem?_append_right (by omega)] at hce
        cases hc : o.child with
        | none => simp [hc] at hce
        | some c =>
          simp only [hc, Option.toList_some, List.map_cons, List.map_nil] at hce
          by_cases hz : i - o.shared.errCh.length = 0
          · rw [hz] at hce; simp at hce
          · rw [List.getElem?_eq_none (by simp; omega)] at hce
            simp at hce
    · intro i fi e hfi hpc
      rcases after_frames s i0 f o hf i fi hfi with ⟨hii, hfo⟩ | ⟨hne, hold⟩ | ⟨hii, hc⟩
      · subst hii
        subst hfo
        exact hkeep i e (h.chan i e (hd.recv_source e hpc))
      · exact hkeep i e (h.recv i fi e hold hpc)
      · obtain ⟨_, hp, _⟩ := hd.child_spec fi hc
        rw [hp] at hpc; cases hpc
    · intro pre post i htr
      rw [after_trace] at htr
      obtain ⟨evs, h1, h2⟩ := hd.cancel_split
      rw [h1] at htr
      rcases append_split_rest _ _ _ _ _ htr with ⟨post1, k1, k2⟩ | ⟨evs1, k1, k2⟩
      · obtain ⟨e, j, g, rest, c1, c2, c3, c4⟩ := h.hist pre post1 i k1
        obtain ⟨g1, hg1, hk1⟩ := after_kind hf hd j g c2
        exact ⟨e, j, g1, rest ++ evs, by rw [k2, c1]; simp, hg1, by rw [hk1]; exact c3, c4⟩
      · obtain ⟨hnil, hji, e, hpost, hpc⟩ := h2 evs1 post i k2
        subst hji
        subst hnil
        obtain ⟨j, g, c2, c3, c4⟩ := h.recv i f e hf hpc
        obtain ⟨g1, hg1, hk1⟩ := after_kind hf hd j g c2
        exact ⟨e, j, g1, [], hpost, hg1, by rw [hk1]; exact c3, by rw [k1]; simpa using c4⟩

theorem SignalInv_init (fsId epoch parentInodeId dirInodeId : Nat) (name : String)
    (root : Node) :
    SignalInv false (initState fsId epoch parentInodeId dirInodeId name root) := by
  constructor
  · simp [initState]
  · intro i e he
    cases i with
    | zero => simp [initState] at he
    | succ k => simp [initState] at he
  · intro i f e hf hpc
    cases i with
    | zero =>
      simp only [initState, List.getElem?_cons_zero, Option.some.injEq] at hf
      subst hf
      cases hpc
    | succ k => simp [initState] at hf
  · intro pre post i htr
    simp [initState] at htr

theorem SignalInv_interleave (w : Walk) (d : Bool) (sched : List (Nat × Nat)) (s : State)
    (hj : JoinInv s) (h : SignalInv d s) : SignalInv d (interleave w sched s) := by
  induction sched generalizing s with
  | nil => exact h
  | cons c cs ih =>
    exact ih _ (JoinInv_advance w c.1 c.2 s hj) (SignalInv_advance w d c.1 c.2 s hj h)

/-- The deferred `cancel()` of the wrapper sets `ctx` done and touches nothing else. -/
theorem SignalInv_ctxDone (d : Bool) (s : State) (h : SignalInv d s) :
    SignalInv true s.ctxDone :=
  ⟨⟨fun _ => Or.inr rfl, fun _ => rfl⟩, h.chan, h.recv, h.hist⟩

/-- Along every execution of the program the signal has one of its two sources, and the
wrapper returns after the top call. -/
theorem SignalInv_execute (w : Walk) (moves : List Move) (p : Program) (hj : JoinInv p.state)
    (h : SignalInv p.returned p.state) (hr : p.returned = true → topResult p.state ≠ none) :
    SignalInv (execute w moves p).returned (execute w moves p).state ∧
      ((execute w moves p).returned = true → topResult (execute w moves p).state ≠ none) := by
  induction moves generalizing p with
  | nil => exact ⟨h, hr⟩
  | cons m ms ih =>
    simp only [execute, List.foldl_cons]
    cases m with
    | frame i sel =>
      refine ih _ (JoinInv_advance w i sel p.state hj)
        (SignalInv_advance w p.returned i sel p.state hj h) ?_
      intro hret
      exact topResult_advance w i sel p.state hj.wf (hr hret)
    | wrapperReturn =>
      simp only [Program.move]
      cases ht : topResult p.state with
      | none => exact ih p hj h hr
      | some r =>
        refine ih _ (JoinInv_ctxDone p.state hj) (SignalInv_ctxDone _ p.state h) ?_
        intro _
        show topResult p.state ≠ none
        rw [ht]; simp

theorem SignalInv_run (w : Walk) (d : Bool) (sched : List (Nat × Nat)) (s : State)
    (hj : JoinInv s) (h : SignalInv d s) : SignalInv d (run w sched s) := by
  induction sched generalizing s with
  | nil => exact h
  | cons c cs ih =>
    simp only [run, List.foldl_cons]
    rcases step_cases w s c with he | ⟨i, sel, he⟩
    · rw [he]; exact ih s hj h
    · rw [he]
      exact ih _ (JoinInv_advance w i sel s hj) (SignalInv_advance w d i sel s hj h)

/-- A step other than the `cancel()` behind `case err := <-errCh:` leaves `ctx` as it is and
logs no `cancel()`. -/
theorem WStep.ctx_kept {frames : List Frame} {sh : Shared} {i : Nat} {f : Frame} {o : Outcome}
    (h : WStep frames sh i f o) (hne : ∀ e, f.pc ≠ PC.cancel e) :
    o.shared.cancelled = sh.cancelled ∧
      ∀ j, Event.cancel j ∈ o.shared.trace → Event.cancel j ∈ sh.trace := by
  cases h
  case move todo pc sh' hpc hto hs =>
    refine ⟨hs.cancelled, fun j hj => ?_⟩
    rcases hs.trace with h1 | ⟨c, ok, h1⟩
    · rw [← h1]; exact hj
    · simp only at hj; rw [h1] at hj; simpa using hj
  case fail err sh' hpc hs =>
    refine ⟨by simp [returns, Shared.log, hs.cancelled], fun j hj => ?_⟩
    rcases hs.trace with h1 | ⟨c, ok, h1⟩
    · simpa [returns, Shared.log, h1] using hj
    · simpa [returns, Shared.log, h1] using hj
  case finalFail err sh' hpc he hs =>
    refine ⟨by simp [returns, Shared.log, hs.cancelled], fun j hj => ?_⟩
    rcases hs.trace with h1 | ⟨c, ok, h1⟩
    · simpa [returns, Shared.log, h1] using hj
    · simpa [returns, Shared.log, h1] using hj
  case finalDel sh' hpc he hs =>
    refine ⟨by simp [goto, hs.cancelled], fun j hj => ?_⟩
    rcases hs.trace with h1 | ⟨c, ok, h1⟩
    · simpa [goto, h1] using hj
    · simpa [goto, h1] using hj
  case countSelf sh' hpc hs =>
    refine ⟨by simp [returns, Shared.log, hs.cancelled], fun j hj => ?_⟩
    rcases hs.trace with h1 | ⟨c, ok, h1⟩
    · simpa [returns, Shared.log, h1] using hj
    · simpa [returns, Shared.log, h1] using hj
  case cancel err hpc => exact absurd hpc (hne err)
  all_goals
    refine ⟨by simp [returns, goto, continue_, Shared.log], fun j hj => ?_⟩
    simpa [returns, goto, continue_, Shared.log] using hj

set_option maxRecDepth 100000 in
/-- C21, as stated, fails: a branch that observes a fatal error does not call `cancel()`.  In
the walks of `/a{d1, d2{f2}}` with two slots, in which `ListDentry` of `d1` fails, the goroutine
of `d1` returns `ELIST` (fifth event) and the signal is not set; the goroutine of `d2` goes on
and issues all its RPCs (in the delete walk it deletes `f2` and `d2`); the top call takes the
error from `errCh` behind `wg.Wait()` and returns it.  When the top call returns, `ctx` is
still not done and the trace holds no `cancel()`: the signal is set by the deferred `cancel()`
of the wrapper afterwards, when every branch has returned. -/
theorem error_returned_without_cancel :
    ((run ⟨Mode.usage true, 2⟩
        (List.replicate 12 (0, 0) ++ [(1, 0)] ++ List.replicate 10 (0, 0) ++ [(1, 0)] ++
          List.replicate 3 (0, 0))
        (initState 1 7 0 2 "" signalTree)).shared.trace =
        [Event.rpc 0 (Call.ListDentry 1 2 7) true, Event.spawn 0 1, Event.spawn 0 2,
         Event.rpc 1 (Call.ListDentry 1 10 7) false, Event.ret 1 (some "ELIST"),
         Event.rpc 2 (Call.ListDentry 1 11 7) true, Event.rpc 2 (Call.GetInode 1 12 11 7) true,
         Event.ret 2 none, Event.ret 0 (some "ELIST")] ∧
      (run ⟨Mode.usage true, 2⟩
        (List.replicate 12 (0, 0) ++ [(1, 0)] ++ List.replicate 10 (0, 0) ++ [(1, 0)] ++
          List.replicate 3 (0, 0))
        (initState 1 7 0 2 "" signalTree)).shared.cancelled = false ∧
      (execute ⟨Mode.usage true, 2⟩ [Move.wrapperReturn]
        ⟨run ⟨Mode.usage true, 2⟩
          (List.replicate 12 (0, 0) ++ [(1, 0)] ++ List.replicate 10 (0, 0) ++ [(1, 0)] ++
            List.replicate 3 (0, 0))
          (initState 1 7 0 2 "" signalTree), false⟩).state.shared.cancelled = true) ∧
    ((run ⟨Mode.delete, 2⟩
        (List.replicate 10 (0, 0) ++ [(1, 0)] ++ List.replicate 9 (0, 0) ++ [(1, 0), (1, 0)] ++
          List.replicate 3 (0, 0))
        (initState 1 7 1 2 "a" signalTree)).shared.trace =
        [Event.rpc 0 (Call.ListDentry 1 2 7) true, Event.spawn 0 1, Event.spawn 0 2,
         Event.rpc 1 (Call.ListDentry 1 10 7) false, Event.ret 1 (some "ELIST"),
         Event.rpc 2 (Call.ListDentry 1 11 7) true,
         Event.rpc 2 (Call.DeleteFile 1 11 "f2" 7) true,
         Event.rpc 2 (Call.DeleteDirectory 1 2 "d2" 7) true, Event.ret 2 none,
         Event.ret 0 (some "ELIST")] ∧
      (run ⟨Mode.delete, 2⟩
        (List.replicate 10 (0, 0) ++ [(1, 0)] ++ List.replicate 9 (0, 0) ++ [(1, 0), (1, 0)] ++
          List.replicate 3 (0, 0))
        (initState 1 7 1 2 "a" signalTree)).shared.cancelled = false ∧
      (execute ⟨Mode.delete, 2⟩ [Move.wrapperReturn]
        ⟨run ⟨Mode.delete, 2⟩
          (List.replicate 10 (0, 0) ++ [(1, 0)] ++ List.replicate 9 (0, 0) ++ [(1, 0), (1, 0)] ++
            List.replicate 3 (0, 0))
          (initState 1 7 1 2 "a" signalTree), false⟩).state.shared.cancelled = true) := by
  decide

/-- C21, amended: a branch sets the signal only when it receives the error of one of its
goroutines from `errCh` at the `select` for a later sub-directory; apart from that the signal
is set by the deferred `cancel()` of the wrapper, after the top call has returned.  In every
execution of either walk (every namespace, whatever fails, every bound and schedule): up to
the return of the top call (`run`) `ctx` is done exactly when the trace holds a `cancel()` of a
frame; in every execution of the program (`execute`: free interleaving of the frames, and the
return of the wrapper) `ctx` is done exactly when the trace holds a `cancel()` of a frame or
the wrapper has returned, and the wrapper returns only after the top call; every `cancel()` of
a frame stands right before the return of that frame with an error, and that error was
returned before by a goroutine this frame had spawned; a frame that has received an error at
its `select` calls `cancel()` with its next step, before it returns the error; and no other
step of a frame sets `ctx` done.  A branch that returns the error of its own RPC, of an inline
call, of the final `select`, or the synthetic error, returns without `cancel()`. -/
theorem cancel_only_on_received_error (w : Walk) (root : Node)
    (fsId epoch parentInodeId dirInodeId : Nat) (name : String) (sched : List (Nat × Nat))
    (moves : List Move) :
    SignalInv false (run w sched (initState fsId epoch parentInodeId dirInodeId name root)) ∧
    SignalInv
      (execute w moves (initProgram fsId epoch parentInodeId dirInodeId name root)).returned
      (execute w moves (initProgram fsId epoch parentInodeId dirInodeId name root)).state ∧
    ((execute w moves (initProgram fsId epoch parentInodeId dirInodeId name root)).returned =
        true →
      topResult (execute w moves
        (initProgram fsId epoch parentInodeId dirInodeId name root)).state ≠ none) ∧
    (∀ (frames : List Frame) (sh : Shared) (i sel : Nat) (f : Frame) (e : String),
      f.pc = PC.cancel e →
      stepFrame w frames sh i sel f =
        some (returns i f ({ sh with cancelled := true }.log (Event.cancel i)) (some e))) ∧
    ∀ (frames : List Frame) (sh : Shared) (i sel : Nat) (f : Frame) (o : Outcome),
      stepFrame w frames sh i sel f = some o → (∀ e, f.pc ≠ PC.cancel e) →
      o.shared.cancelled = sh.cancelled ∧
        ∀ j, Event.cancel j ∈ o.shared.trace → Event.cancel j ∈ sh.trace :=
  ⟨SignalInv_run w false sched _ (JoinInv_init fsId epoch parentInodeId dirInodeId name root)
      (SignalInv_init fsId epoch parentInodeId dirInodeId name root),
   (SignalInv_execute w moves (initProgram fsId epoch parentInodeId dirInodeId name root)
      (JoinInv_init fsId epoch parentInodeId dirInodeId name root)
      (SignalInv_init fsId epoch parentInodeId dirInodeId name root)
      (fun h => by simp [initProgram] at h)).1,
   (SignalInv_execute w moves (initProgram fsId epoch parentInodeId dirInodeId name root)
      (JoinInv_init fsId epoch parentInodeId dirInodeId name root)
      (SignalInv_init fsId epoch parentInodeId dirInodeId name root)
      (fun h => by simp [initProgram] at h)).2,
   fun frames sh i sel f e hpc => by simp [stepFrame, hpc],
   fun frames sh i sel f o h hne => (stepFrame_WStep w _ _ _ _ _ _ h).ctx_kept hne⟩

set_option maxRecDepth 100000 in
/-- Witness of `cancel_only_on_received_error`: in the usage walk of `/a{d1{x, y{}}, f1, d2{}}`
the `cancel()` of the branch of `d1` is the seventh event; it is followed by the return of that
branch with `ELIST`, which its goroutine for `x` returned in the sixth event. -/
theorem cancel_only_on_received_error_witness :
    (run ⟨Mode.usage false, 3⟩
      (List.replicate 4 (0, 0) ++ List.replicate 4 (1, 0) ++ List.replicate 4 (2, 0) ++
        List.replicate 4 (1, 0) ++ List.replicate 6 (0, 0) ++ [(0, 1), (2, 0)])
      (initState 1 7 0 2 "" cancelTree)).shared.trace =
      [Event.rpc 0 (Call.ListDentry 1 2 7) true, Event.spawn 0 1,
       Event.rpc 1 (Call.ListDentry 1 10 7) true, Event.spawn 1 2,
       Event.rpc 2 (Call.ListDentry 1 11 7) false, Event.ret 2 (some "ELIST")] ++
      Event.cancel 1 ::
        [Event.ret 1 (some "ELIST"), Event.rpc 0 (Call.GetInode 1 13 2 7) true, Event.spawn 0 3,
         Event.rpc 3 (Call.ListDentry 1 14 7) true] ∧
    ∃ (e : String) (j : Nat) (g : Frame) (rest : List Event),
      [Event.ret 1 (some "ELIST"), Event.rpc 0 (Call.GetInode 1 13 2 7) true, Event.spawn 0 3,
        Event.rpc 3 (Call.ListDentry 1 14 7) true] = Event.ret 1 (some e) :: rest ∧
      (run ⟨Mode.usage false, 3⟩
        (List.replicate 4 (0, 0) ++ List.replicate 4 (1, 0) ++ List.replicate 4 (2, 0) ++
          List.replicate 4 (1, 0) ++ List.replicate 6 (0, 0) ++ [(0, 1), (2, 0)])
        (initState 1 7 0 2 "" cancelTree)).frames[j]? = some g ∧
      g.kind = Kind.spawned 1 ∧
      Event.ret j (some e) ∈
        [Event.rpc 0 (Call.ListDentry 1 2 7) true, Event.spawn 0 1,
         Event.rpc 1 (Call.ListDentry 1 10 7) true, Event.spawn 1 2,
         Event.rpc 2 (Call.ListDentry 1 11 7) false, Event.ret 2 (some "ELIST")] :=
  ⟨by decide,
   (cancel_only_on_received_error ⟨Mode.usage false, 3⟩ cancelTree 1 7 0 2 ""
     (List.replicate 4 (0, 0) ++ List.replicate 4 (1, 0) ++ List.replicate 4 (2, 0) ++
       List.replicate 4 (1, 0) ++ List.replicate 6 (0, 0) ++ [(0, 1), (2, 0)]) []).1.hist
     [Event.rpc 0 (Call.ListDentry 1 2 7) true, Event.spawn 0 1,
      Event.rpc 1 (Call.ListDentry 1 10 7) true, Event.spawn 1 2,
      Event.rpc 2 (Call.ListDentry 1 11 7) false, Event.ret 2 (some "ELIST")]
     [Event.ret 1 (some "ELIST"), Event.rpc 0 (Call.GetInode 1 13 2 7) true, Event.spawn 0 3,
      Event.rpc 3 (Call.ListDentry 1 14 7) true] 1 (by decide)⟩
/-! ## The deleted-inode counter along every execution of a delete walk -/

theorem okDeletes_append (a b : List Event) : okDeletes (a ++ b) = okDeletes a + okDeletes b := by
  simp [okDeletes, List.countP_append]

/-- What a step of a delete walk does to the counter: `d` deletes succeed and `c` are counted,
each 0 or 1. -/
theorem DStep.count {frames : List Frame} {sh : Shared} {i : Nat} {f : Frame} {o : Outcome}
    (h : DStep frames sh i f o) :
    ∃ d c : Nat, okDeletes o.shared.trace = okDeletes sh.trace + d ∧
      Frame.uncounted o.frame + ofChild Frame.uncounted o.child + c = Frame.uncounted f + d ∧
      ((c = 0 ∧ o.shared.inodes = sh.inodes) ∨ (c = 1 ∧ o.shared.inodes = u64 (sh.inodes + 1))) := by
  cases h
  case fileOk e t hpc ht hty hd =>
    exact ⟨1, 0, by simp [goto, Shared.log, okDeletes_append, okDeletes, Event.deleted,
      Frame.fileCall, Call.isDelete], by simp [goto, Frame.uncounted, hpc, ofChild],
      Or.inl ⟨rfl, rfl⟩⟩
  case finalOk hpc he hd =>
    exact ⟨1, 0, by simp [goto, Shared.log, okDeletes_append, okDeletes, Event.deleted,
      Call.isDelete], by simp [goto, Frame.uncounted, hpc, ofChild], Or.inl ⟨rfl, rfl⟩⟩
  case addInodes hpc =>
    exact ⟨0, 1, by simp [continue_], by simp [continue_, Frame.uncounted, hpc, ofChild],
      Or.inr ⟨rfl, rfl⟩⟩
  case countSelf hpc =>
    exact ⟨0, 1, by simp [returns, Shared.log, okDeletes_append, okDeletes, Event.deleted],
      by simp [returns, Frame.uncounted, hpc, ofChild], Or.inr ⟨rfl, rfl⟩⟩
  all_goals
    refine ⟨0, 0, ?_, ?_, Or.inl ⟨rfl, rfl⟩⟩
    · simp [returns, goto, continue_, Shared.log, okDeletes_append, okDeletes, Event.deleted,
        Frame.fileCall, Call.isDelete]
    · simp_all [returns, goto, continue_, Frame.uncounted, ofChild, childFrame]

theorem CountInv_advance (K i0 sel : Nat) (s : State) (hp : Post s) (h : CountInv s) :
    CountInv (advance ⟨Mode.delete, K⟩ i0 sel s) := by
  rcases advance_eq ⟨Mode.delete, K⟩ i0 sel s with he | ⟨f, o, hf, ho, he⟩
  · rw [he]; exact h
  · have hd : DStep s.frames s.shared i0 f o :=
      stepFrame_DStep K _ _ _ _ _ _ ho (hp.pcs i0 f hf)
        (fun hpc => by
          obtain ⟨e, t, ht, _⟩ := (hp.cur i0 f hf).2.1 hpc
          exact ⟨e, t, ht⟩)
        (hp.wf.epilogue i0 f hf)
    have hfr : (advance ⟨Mode.delete, K⟩ i0 sel s).frames =
        s.frames.set i0 o.frame ++ o.child.toList := by rw [he]
    have hs1 : (advance ⟨Mode.delete, K⟩ i0 sel s).shared.trace = o.shared.trace := by rw [he]
    have hs2 : (advance ⟨Mode.delete, K⟩ i0 sel s).shared.inodes = o.shared.inodes := by rw [he]
    generalize advance ⟨Mode.delete, K⟩ i0 sel s = s' at hfr hs1 hs2 ⊢
    have hfm : f ∈ s.frames := List.mem_iff_getElem?.mpr ⟨i0, hf⟩
    have hle := DingoAdm.le_total Frame.uncounted s.frames f hfm
    have tC := total_step Frame.uncounted s.frames i0 f o.frame o.child hf
    rw [← hfr] at tC
    obtain ⟨d, c, h1, h2, h3⟩ := hd.count
    have hl := h.le
    have hq := h.eq
    constructor
    · rw [hs1, h1]; omega
    · rw [hs1, hs2, h1]
      rcases h3 with ⟨hc, hi⟩ | ⟨hc, hi⟩
      · rw [hi, hq]
        have : okDeletes s.shared.trace + d - total Frame.uncounted s'.frames =
            okDeletes s.shared.trace - total Frame.uncounted s.frames := by omega
        rw [this]
      · rw [hi, hq]
        unfold u64
        have : okDeletes s.shared.trace + d - total Frame.uncounted s'.frames =
            okDeletes s.shared.trace - total Frame.uncounted s.frames + 1 := by omega
        rw [this]
        omega

theorem CountInv_init (fsId epoch parentInodeId dirInodeId : Nat) (name : String)
    (root : Node) : CountInv (initState fsId epoch parentInodeId dirInodeId name root) := by
  constructor <;> simp [initState, total, Frame.uncounted, okDeletes]

theorem CountInv_interleave (K : Nat) (sched : List (Nat × Nat)) (s : State) (hp : Post s)
    (h : CountInv s) : CountInv (interleave ⟨Mode.delete, K⟩ sched s) := by
  induction sched generalizing s with
  | nil => exact h
  | cons c cs ih =>
    exact ih _ (Post_advance K c.1 c.2 s hp) (CountInv_advance K c.1 c.2 s hp h)

theorem CountInv_run (K : Nat) (sched : List (Nat × Nat)) (s : State) (hp : Post s)
    (h : CountInv s) : CountInv (run ⟨Mode.delete, K⟩ sched s) := by
  induction sched generalizing s with
  | nil => exact h
  | cons c cs ih =>
    simp only [run, List.foldl_cons]
    rcases step_cases ⟨Mode.delete, K⟩ s c with he | ⟨i, sel, he⟩
    · rw [he]; exact ih s hp h
    · rw [he]
      exact ih _ (Post_advance K i sel s hp) (CountInv_advance K i sel s hp h)

theorem atRest_uncounted (f : Frame) (h : f.atRest) : f.uncounted = 0 := by
  unfold Frame.atRest at h
  unfold Frame.uncounted
  cases hk : f.kind with
  | spawned p => rw [hk] at h; simp only at h; simp [h]
  | top => rw [hk] at h; obtain ⟨r, h⟩ := h; simp [h]
  | inline c => rw [hk] at h; obtain ⟨r, h⟩ := h; simp [h]

/-- What the counter is in a state of a delete walk. -/
theorem CountInv.facts {s : State} (h : CountInv s) (hj : JoinInv s) : CounterExact s := by
  have hl := h.le
  have hq := h.eq
  refine ⟨hl, hq, ?_, ?_, ?_⟩
  · intro hb
    rw [hq, Nat.mod_eq_of_lt (by omega)]
    omega
  · intro hno
    have hz : total Frame.uncounted s.frames = 0 :=
      total_zero _ _ (fun f hf => by
        have h1 := hno f hf
        unfold Frame.uncounted
        cases hpc : f.pc <;> simp_all)
    rw [hq, hz, Nat.sub_zero]
  · intro ht
    have hrest := ((hj.joinedAfterWait ⟨Mode.delete, 0⟩).2 ht).1
    have hz : total Frame.uncounted s.frames = 0 :=
      total_zero _ _ (fun f hf => by
        obtain ⟨k, hk⟩ := List.mem_iff_getElem?.mp hf
        exact atRest_uncounted f (hrest k f hk))
    rw [hq, hz, Nat.sub_zero]

theorem CountInv_ctxDone (s : State) (h : CountInv s) : CountInv s.ctxDone := ⟨h.le, h.eq⟩

theorem Post_ctxDone (s : State) (h : Post s) : Post s.ctxDone :=
  ⟨WF_ctxDone s h.wf, h.len, h.evs, h.pcs, h.retDone, h.retVal, h.retUniq, h.prog, h.cur, h.emp,
    h.joined, h.spawnedOk, h.inlineOk, h.failed, h.fileFail, h.hist⟩

theorem CountInv_execute (K : Nat) (moves : List Move) (p : Program) (hp : Post p.state)
    (h : CountInv p.state) : CountInv (execute ⟨Mode.delete, K⟩ moves p).state :=
  (execute_inv ⟨Mode.delete, K⟩ (fun s => Post s ∧ CountInv s)
    (fun i sel s hs => ⟨Post_advance K i sel s hs.1, CountInv_advance K i sel s hs.1 hs.2⟩)
    (fun s hs => ⟨Post_ctxDone s hs.1, CountInv_ctxDone s hs.2⟩) moves p ⟨hp, h⟩).2

/-- What one step of a frame of the delete walk does to the counter: the statement
`atomic.AddUint64(&summary.Inodes, 1)` adds one and no other step changes it; a delete call
that succeeds takes the frame right before that statement; and after an RPC that fails the
frame has returned the error. -/
theorem stepFrame_counter (K : Nat) (frames : List Frame) (sh : Shared) (i sel : Nat)
    (f : Frame) (o : Outcome) (h : stepFrame ⟨Mode.delete, K⟩ frames sh i sel f = some o) :
    ((f.pc = PC.addInodes ∨ f.pc = PC.countSelf) →
      o.shared.inodes = u64 (sh.inodes + 1) ∧ okDeletes o.shared.trace = okDeletes sh.trace) ∧
    (f.pc ≠ PC.addInodes → f.pc ≠ PC.countSelf → o.shared.inodes = sh.inodes) ∧
    ∃ evs, o.shared.trace = sh.trace ++ evs ∧
      (∀ j c, Event.rpc j c true ∈ evs → c.isDelete = true →
        okDeletes o.shared.trace = okDeletes sh.trace + 1 ∧
          (o.frame.pc = PC.addInodes ∨ o.frame.pc = PC.countSelf)) ∧
      (∀ j c, Event.rpc j c false ∈ evs →
        okDeletes o.shared.trace = okDeletes sh.trace ∧ ∃ err, o.frame.pc = PC.ret (some err)) := by
  unfold stepFrame at h
  repeat' split at h
  all_goals (try simp at h)
  all_goals (try subst h)
  all_goals simp only [returns, goto, continue_, Shared.log, List.append_assoc,
    List.singleton_append]
  all_goals refine ⟨?_, ?_, ?_⟩
  all_goals first
    | (intro hpc
       simp_all [okDeletes_append, okDeletes, Event.deleted, Call.isDelete])
    | (refine ⟨[], (List.append_nil _).symm, ?_, ?_⟩ <;> simp)
    | (refine ⟨_, rfl, ?_, ?_⟩ <;>
         simp [okDeletes_append, okDeletes, Event.deleted, Call.isDelete])

/-- C24: the counter counts exactly the successful deletes.  In every execution of a delete
walk (every namespace, whatever fails, every bound and schedule; up to the return of the top
call, `run`, and in every execution of the program, `execute`, where goroutines run on after
the top call and the wrapper returned), a `DeleteFile` or `DeleteDirectory` that has returned
success is counted by the next statement of its branch, `atomic.AddUint64(&summary.Inodes, 1)`,
and by nothing else: `summary.Inodes` equals the number of delete calls that have returned
success, less the branches that stand right before that statement (as a `uint64`, and exactly
as long as fewer than 2^64 deletes have succeeded); it equals the number of successful
deletes whenever no branch stands there, in particular when the top call has returned nil.
Step by step: the counting statement adds exactly one, no other step changes the counter, a
successful delete call leads to the counting statement, and a branch whose RPC failed has
returned the error without counting. -/
theorem deleted_inodes_counter (root : Node) (fsId epoch parentInodeId dirInodeId : Nat)
    (name : String) (threads : Nat) (sched : List (Nat × Nat)) (moves : List Move) :
    CounterExact (run ⟨Mode.delete, threads⟩ sched
      (initState fsId epoch parentInodeId dirInodeId name root)) ∧
    CounterExact (execute ⟨Mode.delete, threads⟩ moves
      (initProgram fsId epoch parentInodeId dirInodeId name root)).state ∧
    ∀ (frames : List Frame) (sh : Shared) (i sel : Nat) (f : Frame) (o : Outcome),
      stepFrame ⟨Mode.delete, threads⟩ frames sh i sel f = some o →
      ((f.pc = PC.addInodes ∨ f.pc = PC.countSelf) →
        o.shared.inodes = u64 (sh.inodes + 1) ∧
          okDeletes o.shared.trace = okDeletes sh.trace) ∧
      (f.pc ≠ PC.addInodes → f.pc ≠ PC.countSelf → o.shared.inodes = sh.inodes) ∧
      ∃ evs, o.shared.trace = sh.trace ++ evs ∧
        (∀ j c, Event.rpc j c true ∈ evs → c.isDelete = true →
          okDeletes o.shared.trace = okDeletes sh.trace + 1 ∧
            (o.frame.pc = PC.addInodes ∨ o.frame.pc = PC.countSelf)) ∧
        (∀ j c, Event.rpc j c false ∈ evs →
          okDeletes o.shared.trace = okDeletes sh.trace ∧
            ∃ err, o.frame.pc = PC.ret (some err)) := by
  have hp := Post_init fsId epoch parentInodeId dirInodeId name root
  have hc := CountInv_init fsId epoch parentInodeId dirInodeId name root
  have hj := JoinInv_init fsId epoch parentInodeId dirInodeId name root
  exact ⟨(CountInv_run threads sched _ hp hc).facts
      (JoinInv_run ⟨Mode.delete, threads⟩ sched _ hj),
    (CountInv_execute threads moves
        (initProgram fsId epoch parentInodeId dirInodeId name root) hp hc).facts
      (JoinInv_execute ⟨Mode.delete, threads⟩ moves
        (initProgram fsId epoch parentInodeId dirInodeId name root) hj),
    stepFrame_counter threads⟩

set_option maxRecDepth 100000 in
/-- Witness of `deleted_inodes_counter`: the delete walk of `/a{f1, b{f2}}` with two slots
returns nil after four successful deletes, and the counter is 4. -/
theorem deleted_inodes_counter_witness :
    topResult (run ⟨Mode.delete, 2⟩ (List.replicate 64 (1, 0))
      (initState 1 7 1 2 "a" scenarioTree)) = some none ∧
    okDeletes (run ⟨Mode.delete, 2⟩ (List.replicate 64 (1, 0))
      (initState 1 7 1 2 "a" scenarioTree)).shared.trace = 4 ∧
    (run ⟨Mode.delete, 2⟩ (List.replicate 64 (1, 0))
      (initState 1 7 1 2 "a" scenarioTree)).shared.inodes =
      okDeletes (run ⟨Mode.delete, 2⟩ (List.replicate 64 (1, 0))
        (initState 1 7 1 2 "a" scenarioTree)).shared.trace % 2 ^ 64 :=
  ⟨by decide, by decide,
   (deleted_inodes_counter scenarioTree 1 7 1 2 "a" 2 (List.replicate 64 (1, 0)) []).1.2.2.2.2
     (by decide)⟩
/-! ## Where the error of a walk comes from -/

theorem readyCases_ctxDone (errCh : Option String) (cancelled : Bool) (slots threads k : Nat)
    (r : SelCase) (rs : List SelCase)
    (h : readyCases errCh cancelled slots threads = r :: rs)
    (hk : (r :: rs).getD (k % (r :: rs).length) r = SelCase.ctxDone) : cancelled = true := by
  have hmem : (r :: rs).getD (k % (r :: rs).length) r ∈ r :: rs := by
    have hlt : k % (r :: rs).length < (r :: rs).length := Nat.mod_lt _ (by simp)
    rw [List.getD_eq_getElem?_getD, List.getElem?_eq_getElem hlt]
    simp only [Option.getD_some]
    exact List.getElem_mem _
  rw [hk, ← h] at hmem
  unfold readyCases at hmem
  cases errCh <;> cases cancelled <;> by_cases hs : slots < threads <;> simp [hs] at hmem
  all_goals rfl

theorem WStep.args_eq {frames : List Frame} {sh : Shared} {i : Nat} {f : Frame} {o : Outcome}
    (h : WStep frames sh i f o) :
    o.frame.fsId = f.fsId ∧ o.frame.dirInodeId = f.dirInodeId ∧ o.frame.epoch = f.epoch ∧
      o.frame.parentInodeId = f.parentInodeId ∧ o.frame.name = f.name ∧
      o.frame.dir = f.dir := by
  cases h <;> simp [returns, goto, continue_]

theorem Frame.fails_congr {m : Mode} {f g : Frame} {c : Call} {e : String}
    (h1 : g.fsId = f.fsId) (h2 : g.dirInodeId = f.dirInodeId) (h3 : g.epoch = f.epoch)
    (h4 : g.parentInodeId = f.parentInodeId) (h5 : g.name = f.name) (h6 : g.dir = f.dir)
    (h : f.fails m c e) : g.fails m c e := by
  unfold Frame.fails at h ⊢
  rw [h1, h2, h3, h4, h5, h6]
  exact h

/-- A failed RPC of the execution stays one with every further step. -/
theorem FailedRpc.stays {w : Walk} {s : State} {i0 : Nat} {f : Frame} {o : Outcome}
    (hf : s.frames[i0]? = some f) (hd : WStep s.frames s.shared i0 f o) {e : String}
    (h : FailedRpc w s e) : FailedRpc w (after s i0 o) e := by
  obtain ⟨j, g, c, pre, post, hg, hfail, htr⟩ := h
  obtain ⟨evs, hevs, _⟩ := hd.trace_ext
  have htr1 : (after s i0 o).shared.trace =
      pre ++ Event.rpc j c false :: Event.ret j (some e) :: (post ++ evs) := by
    rw [after_trace, hevs, htr]; simp
  rcases after_old s i0 f o hf j g hg with ⟨_, h2, h3⟩ | ⟨_, h3⟩
  · subst h2
    obtain ⟨a1, a2, a3, a4, a5, a6⟩ := hd.args_eq
    exact ⟨j, o.frame, c, pre, post ++ evs, h3, Frame.fails_congr a1 a2 a3 a4 a5 a6 hfail, htr1⟩
  · exact ⟨j, g, c, pre, post ++ evs, h3, hfail, htr1⟩

/-- Where the error a frame holds after a step comes from: it held it before, or it is the
error of the RPC the step issued, or it was taken from the `errCh` of the frame, or it is the
synthetic error returned because `ctx` is done, or it is the error the inline call returned. -/
theorem stepFrame_err_origin (w : Walk) (frames : List Frame) (sh : Shared) (i sel : Nat)
    (f : Frame) (o : Outcome) (h : stepFrame w frames sh i sel f = some o)
    (htodo : ∃ pre, f.dir.entries = pre ++ f.todo) (e : String) (he : o.frame.err = some e) :
    f.err = some e ∨
    (∃ c, f.fails w.mode c e ∧
      o.shared.trace = sh.trace ++ [Event.rpc i c false, Event.ret i (some e)]) ∨
    sh.errCh.getD i none = some e ∨
    (e = cancelError w.mode ∧ sh.cancelled = true) ∨
    ∃ (c : Nat) (g : Frame), frames[c]? = some g ∧ g.pc = PC.ret (some e) := by
  have hmem : ∀ n t, f.todo = n :: t → n ∈ f.dir.entries := by
    intro n t ht
    obtain ⟨pre, hp⟩ := htodo
    rw [hp, ht]; simp
  cases hpc : f.pc with
  | list =>
    simp only [stepFrame, hpc] at h
    cases hl : f.dir.listErr with
    | none =>
      simp only [hl, Option.some.injEq] at h; subst h
      simp [Frame.err] at he
    | some e1 =>
      simp only [hl, Option.some.injEq] at h; subst h
      simp only [returns, Frame.err, Option.some.injEq] at he; subst he
      exact Or.inr (Or.inl ⟨_, Or.inl ⟨rfl, hl⟩, by simp [returns, Shared.log]⟩)
  | loop =>
    simp only [stepFrame, hpc] at h
    cases ht : f.todo with
    | nil =>
      simp only [ht, Option.some.injEq] at h; subst h
      simp [goto, Frame.err] at he
    | cons n t =>
      simp only [ht] at h
      cases hm : w.mode with
      | usage chk =>
        simp only [hm] at h
        by_cases hty : n.entry.type = FileType.FILE
        · rw [if_pos hty] at h
          cases hg : n.getInode with
          | error err =>
            simp only [hg, Option.some.injEq] at h; subst h
            simp only [returns, Frame.err, Option.some.injEq] at he; subst he
            exact Or.inr (Or.inl ⟨_, Or.inr (Or.inl ⟨n, hmem n t ht, hty, ⟨chk, rfl⟩, rfl, hg⟩),
              by simp [returns, Shared.log]⟩)
          | ok a =>
            simp only [hg, Option.some.injEq] at h; subst h
            simp [goto, Frame.err] at he
        · rw [if_neg hty] at h
          simp only [Option.some.injEq] at h; subst h
          simp [goto, Frame.err] at he
      | delete =>
        simp only [hm] at h
        by_cases hty : n.entry.type ≠ FileType.DIRECTORY
        · rw [if_pos hty] at h
          cases hg : n.delErr with
          | some err =>
            simp only [hg, Option.some.injEq] at h; subst h
            simp only [returns, Frame.err, Option.some.injEq] at he; subst he
            exact Or.inr (Or.inl ⟨_, Or.inr (Or.inr (Or.inl ⟨n, hmem n t ht, hty, rfl, rfl, hg⟩)),
              by simp [returns, Shared.log]⟩)
          | none =>
            simp only [hg, Option.some.injEq] at h; subst h
            simp [goto, Frame.err] at he
        · rw [if_neg hty] at h
          simp only [Option.some.injEq] at h; subst h
          simp [goto, Frame.err] at he
  | gotInode a =>
    simp only [stepFrame, hpc] at h
    repeat' split at h
    all_goals simp only [Option.some.injEq] at h
    all_goals subst h
    all_goals simp [goto, continue_, Frame.err] at he
  | addLength a =>
    simp only [stepFrame, hpc, Option.some.injEq] at h
    subst h
    simp [goto, Frame.err] at he
  | addInodes =>
    simp only [stepFrame, hpc] at h
    repeat' split at h
    all_goals simp only [Option.some.injEq] at h
    all_goals subst h
    all_goals simp [goto, continue_, Frame.err] at he
  | select =>
    simp only [stepFrame, hpc] at h
    cases ht : f.todo with
    | nil =>
      simp only [ht, Option.some.injEq] at h; subst h
      simp [continue_, Frame.err] at he
    | cons n t =>
      simp only [ht] at h
      split at h
      · simp only [Option.some.injEq] at h; subst h
        simp [Frame.err] at he
      · rename_i r rs hr
        split at h
        · rename_i err hsel
          simp only [Option.some.injEq] at h; subst h
          simp only [goto, Frame.err, Option.some.injEq] at he; subst he
          exact Or.inr (Or.inr (Or.inl (readyCases_recvErr _ _ _ _ sel r rs _ hr hsel)))
        · rename_i hsel
          simp only [Option.some.injEq] at h; subst h
          simp only [returns, Frame.err, Option.some.injEq] at he
          refine Or.inr (Or.inr (Or.inr (Or.inl ⟨?_, readyCases_ctxDone _ _ _ _ sel r rs hr hsel⟩)))
          rw [← he]
          cases w.mode <;> rfl
        · simp only [Option.some.injEq] at h; subst h
          simp [Frame.err] at he
  | cancel err =>
    simp only [stepFrame, hpc, Option.some.injEq] at h
    subst h
    simp only [returns, Frame.err, Option.some.injEq] at he; subst he
    exact Or.inl (by simp [Frame.err, hpc])
  | call c =>
    simp only [stepFrame, hpc] at h
    cases hg : frames[c]? with
    | none => simp [hg] at h
    | some g =>
      simp only [hg] at h
      split at h
      · simp only [Option.some.injEq] at h; subst h
        simp [continue_, Frame.err] at he
      · rename_i err hr
        simp only [Option.some.injEq] at h; subst h
        simp only [returns, Frame.err, Option.some.injEq] at he; subst he
        exact Or.inr (Or.inr (Or.inr (Or.inr ⟨c, g, hg, hr⟩)))
      · simp at h
  | wait =>
    simp only [stepFrame, hpc] at h
    split at h
    · simp only [Option.some.injEq] at h; subst h
      simp [goto, Frame.err] at he
    · simp at h
  | final =>
    simp only [stepFrame, hpc] at h
    cases hc : sh.errCh.getD i none with
    | some err =>
      simp only [hc, Option.some.injEq] at h; subst h
      simp only [returns, Frame.err, Option.some.injEq] at he; subst he
      exact Or.inr (Or.inr (Or.inl rfl))
    | none =>
      simp only [hc] at h
      cases hm : w.mode with
      | usage chk =>
        simp only [hm, Option.some.injEq] at h; subst h
        simp [returns, Frame.err] at he
      | delete =>
        simp only [hm] at h
        cases hg : f.dir.delErr with
        | some err =>
          simp only [hg, Option.some.injEq] at h; subst h
          simp only [returns, Frame.err, Option.some.injEq] at he; subst he
          exact Or.inr (Or.inl ⟨_, Or.inr (Or.inr (Or.inr ⟨rfl, rfl, hg⟩)),
            by simp [returns, Shared.log]⟩)
        | none =>
          simp only [hg, Option.some.injEq] at h; subst h
          simp [goto, Frame.err] at he
  | countSelf =>
    simp only [stepFrame, hpc, Option.some.injEq] at h
    subst h
    simp [returns, Frame.err] at he
  | ret r =>
    simp only [stepFrame, hpc] at h
    split at h
    · simp only [Option.some.injEq] at h; subst h
      simp only [goto, Frame.err] at he
      exact Or.inl (by simp [Frame.err, hpc, he])
    · simp at h
  | send r =>
    simp only [stepFrame, hpc] at h
    repeat' split at h
    all_goals simp only [Option.some.injEq] at h
    all_goals subst h
    all_goals simp [goto, Frame.err] at he
  | wgDone =>
    simp only [stepFrame, hpc, Option.some.injEq] at h
    subst h
    simp [goto, Frame.err] at he
  | finished => simp [stepFrame, hpc] at h

theorem Origin.carried {w : Walk} {s : State} {i0 : Nat} {f : Frame} {o : Outcome}
    (hf : s.frames[i0]? = some f) (hd : WStep s.frames s.shared i0 f o) {e : String}
    (h : Origin w s e) : Origin w (after s i0 o) e := by
  rcases h with h | ⟨h1, h2⟩
  · exact Or.inl (h.stays hf hd)
  · refine Or.inr ⟨h1, ?_⟩
    show o.shared.cancelled = true
    rcases hd.flag with ⟨k1, _⟩ | ⟨k1, _⟩
    · rw [k1]; exact h2
    · exact k1

theorem OriginInv_advance (w : Walk) (root : Node) (i0 sel : Nat) (s : State)
    (hg : ∀ f ∈ s.frames, Good w root f) (h : OriginInv w s) :
    OriginInv w (advance w i0 sel s) := by
  rcases advance_eq w i0 sel s with he | ⟨f, o, hf, ho, he⟩
  · rw [he]; exact h
  · have hd : WStep s.frames s.shared i0 f o := stepFrame_WStep w _ _ _ _ _ _ ho
    have hafter : advance w i0 sel s = after s i0 o := he
    have hfm : f ∈ s.frames := List.mem_iff_getElem?.mpr ⟨i0, hf⟩
    rw [hafter]
    refine ⟨?_, ?_, ?_⟩
    · intro g hgm e hge
      obtain ⟨j, hj⟩ := List.mem_iff_getElem?.mp hgm
      rcases after_frames s i0 f o hf j g hj with ⟨hji, hgo⟩ | ⟨_, hold⟩ | ⟨_, hc⟩
      · subst hgo
        subst hji
        rcases stepFrame_err_origin w _ _ _ _ _ _ ho (hg f hfm).todo e hge with
          h1 | ⟨c, h1, h2⟩ | h1 | ⟨h1, h2⟩ | ⟨c, g, h1, h2⟩
        · exact (h.held f hfm e h1).carried hf hd
        · left
          obtain ⟨a1, a2, a3, a4, a5, a6⟩ := hd.args_eq
          exact ⟨j, o.frame, c, s.shared.trace, [], hj,
            Frame.fails_congr a1 a2 a3 a4 a5 a6 h1, by rw [after_trace, h2]⟩
        · exact (h.errCh e (getD_mem _ _ _ h1)).carried hf hd
        · exact Origin.carried hf hd (Or.inr ⟨h1, h2⟩)
        · exact (h.held g (List.mem_iff_getElem?.mpr ⟨c, h1⟩) e
            (by simp [Frame.err, h2])).carried hf hd
      · exact (h.held g (List.mem_iff_getElem?.mpr ⟨j, hold⟩) e hge).carried hf hd
      · obtain ⟨_, hp, _⟩ := hd.child_spec g hc
        simp [Frame.err, hp] at hge
    · intro e hmem
      have hmem1 : some e ∈ o.shared.errCh := by
        simp only [after, List.mem_append, List.mem_map] at hmem
        rcases hmem with hmem | ⟨_, _, hmem⟩
        · exact hmem
        · cases hmem
      rcases stepFrame_errCh_source w _ _ _ _ _ _ ho e hmem1 with h1 | h1
      · exact (h.errCh e h1).carried hf hd
      · exact (h.held f hfm e h1).carried hf hd
    · intro hc
      have hc1 : o.shared.cancelled = true := hc
      by_cases hpc : ∃ e, f.pc = PC.cancel e
      · obtain ⟨e, hpc⟩ := hpc
        rcases h.held f hfm e (by simp [Frame.err, hpc]) with h1 | ⟨_, h2⟩
        · exact ⟨e, h1.stays hf hd⟩
        · obtain ⟨e0, h0⟩ := h.signal h2
          exact ⟨e0, h0.stays hf hd⟩
      · have hne : ∀ e, f.pc ≠ PC.cancel e := fun e he1 => hpc ⟨e, he1⟩
        obtain ⟨k1, _⟩ := hd.ctx_kept hne
        rw [k1] at hc1
        obtain ⟨e0, h0⟩ := h.signal hc1
        exact ⟨e0, h0.stays hf hd⟩

theorem OriginInv_init (w : Walk) (fsId epoch parentInodeId dirInodeId : Nat) (name : String)
    (root : Node) : OriginInv w (initState fsId epoch parentInodeId dirInodeId name root) := by
  refine ⟨?_, ?_, ?_⟩
  · intro f hf e he
    simp only [initState, List.mem_singleton] at hf
    subst hf
    simp [Frame.err] at he
  · intro e he
    simp [initState] at he
  · intro hc
    simp [initState] at hc

theorem OriginInv_run (w : Walk) (root : Node) (sched : List (Nat × Nat)) (s : State)
    (hg : ∀ f ∈ s.frames, Good w root f) (h : OriginInv w s) : OriginInv w (run w sched s) := by
  induction sched generalizing s with
  | nil => exact h
  | cons x xs ih =>
    simp only [run, List.foldl_cons]
    rcases step_cases w s x with he | ⟨i, sel, he⟩
    · rw [he]; exact ih s hg h
    · rw [he]
      exact ih _ (Good_advance w root i sel s hg) (OriginInv_advance w root i sel s hg h)

/-- The error of the top call, once it has returned one, has its origin in the execution. -/
theorem OriginInv.top_origin {w : Walk} {s : State} (h : OriginInv w s) (e : String)
    (hr : topResult s = some (some e)) : Origin w s e := by
  unfold topResult at hr
  cases h0 : s.frames[0]? with
  | none => simp [h0] at hr
  | some f0 =>
    simp only [h0] at hr
    have hpc : f0.pc = PC.ret (some e) := by
      cases hpc : f0.pc <;> simp only [hpc] at hr <;> try cases hr
      rfl
    exact h.held f0 (List.mem_iff_getElem?.mpr ⟨0, h0⟩) e (by simp [Frame.err, hpc])

/-! ## Claims about the error a walk returns -/

set_option maxRecDepth 100000 in
/-- C15, as stated, fails.  In a usage walk of `/a{d1{x, y{}}, f1, d2{}}` the first fatal error
is `ELIST` of `ListDentry` on `x`, but the top call, which finds `ctx` done at its `select`,
returns the synthetic cancellation error.  In the walks of `/a{d1, f1}` the first fatal error
is `EFIRST` of `ListDentry` on `d1`, in a goroutine, but the top call returns `ESECOND`, the
later error of its own RPC for `f1`. -/
theorem first_error_not_returned :
    GetDirectorySizeAndInodes cancelTree 1 2 false 7 3
      (List.replicate 4 (0, 0) ++ List.replicate 4 (1, 0) ++ List.replicate 4 (2, 0) ++
        List.replicate 4 (1, 0) ++ List.replicate 7 (0, 0)) =
      some (0, 0, some "cancel scan directory for other goroutine error") ∧
    (run ⟨Mode.usage false, 3⟩
      (List.replicate 4 (0, 0) ++ List.replicate 4 (1, 0) ++ List.replicate 4 (2, 0) ++
        List.replicate 4 (1, 0) ++ List.replicate 7 (0, 0))
      (initState 1 7 0 2 "" cancelTree)).shared.trace =
      [Event.rpc 0 (Call.ListDentry 1 2 7) true, Event.spawn 0 1,
       Event.rpc 1 (Call.ListDentry 1 10 7) true, Event.spawn 1 2,
       Event.rpc 2 (Call.ListDentry 1 11 7) false, Event.ret 2 (some "ELIST"),
       Event.cancel 1, Event.ret 1 (some "ELIST"),
       Event.rpc 0 (Call.GetInode 1 13 2 7) true,
       Event.ret 0 (some "cancel scan directory for other goroutine error")] ∧
    GetDirectorySizeAndInodes laterTree 1 2 false 7 3
      [(0, 0), (0, 0), (0, 0), (0, 0), (1, 0), (0, 0)] = some (0, 0, some "ESECOND") ∧
    (run ⟨Mode.usage false, 3⟩ [(0, 0), (0, 0), (0, 0), (0, 0), (1, 0), (0, 0)]
      (initState 1 7 0 2 "" laterTree)).shared.trace =
      [Event.rpc 0 (Call.ListDentry 1 2 7) true, Event.spawn 0 1,
       Event.rpc 1 (Call.ListDentry 1 10 7) false, Event.ret 1 (some "EFIRST"),
       Event.rpc 0 (Call.GetInode 1 13 2 7) false, Event.ret 0 (some "ESECOND")] ∧
    deleteDirectory laterTree 1 7 1 2 "a" 3 [(0, 0), (0, 0), (0, 0), (1, 0), (0, 0)] =
      some (none, some "ESECOND") ∧
    (run ⟨Mode.delete, 3⟩ [(0, 0), (0, 0), (0, 0), (1, 0), (0, 0)]
      (initState 1 7 1 2 "a" laterTree)).shared.trace =
      [Event.rpc 0 (Call.ListDentry 1 2 7) true, Event.spawn 0 1,
       Event.rpc 1 (Call.ListDentry 1 10 7) false, Event.ret 1 (some "EFIRST"),
       Event.rpc 0 (Call.DeleteFile 1 2 "f1" 7) false, Event.ret 0 (some "ESECOND")] := by
  decide

/-- C15, amended: one error is returned, unmerged, but not always the first.  In every
execution of a usage or delete walk (every namespace, bound and schedule), when the top-level
call returns an error `e`, then `e` is a single error value with an origin in this execution:
either some frame of the walk issued an RPC (`ListDentry`, `GetInode`, `DeleteFile` or
`DeleteDirectory`, on its directory or on an entry listed in it) that the metadata service
answered with `e`, that frame returned `e` at once, and `e` was handed up unchanged; or `e`
is the synthetic "cancel ... for other goroutine error", and then a frame had called
`cancel()` and some RPC of the execution had failed.  Every frame walks a directory of the
namespace, so `e`, if not synthetic, is an error answer of the namespace for an RPC that was
issued. -/
theorem top_error_is_single (w : Walk) (root : Node)
    (fsId epoch parentInodeId dirInodeId : Nat) (name : String) (sched : List (Nat × Nat))
    (e : String)
    (h : topResult (run w sched (initState fsId epoch parentInodeId dirInodeId name root)) =
      some (some e)) :
    (FailedRpc w (run w sched (initState fsId epoch parentInodeId dirInodeId name root)) e ∨
      (e = cancelError w.mode ∧
        (∃ i, Event.cancel i ∈
          (run w sched (initState fsId epoch parentInodeId dirInodeId name root)).shared.trace) ∧
        ∃ e0,
          FailedRpc w (run w sched (initState fsId epoch parentInodeId dirInodeId name root))
            e0)) ∧
    (∀ f ∈ (run w sched (initState fsId epoch parentInodeId dirInodeId name root)).frames,
      f.dir = root ∨ (f.dir ∈ root.listed ∧ f.dir.entry.type = FileType.DIRECTORY)) ∧
    (e = cancelError w.mode ∨ e ∈ root.errors w.mode ∨
      ∃ n ∈ root.listed, e ∈ n.errors w.mode) := by
  have hE := ErrInv_run w root sched _
    (ErrInv_init w root fsId epoch parentInodeId dirInodeId name)
  have hO := OriginInv_run w root sched _
    (ErrInv_init w root fsId epoch parentInodeId dirInodeId name).good
    (OriginInv_init w fsId epoch parentInodeId dirInodeId name root)
  have hS := SignalInv_run w false sched _
    (JoinInv_init fsId epoch parentInodeId dirInodeId name root)
    (SignalInv_init fsId epoch parentInodeId dirInodeId name root)
  refine ⟨?_, fun f hf => (hE.good f hf).dir, hE.top e h⟩
  rcases hO.top_origin e h with h1 | ⟨h1, h2⟩
  · exact Or.inl h1
  · refine Or.inr ⟨h1, ?_, hO.signal h2⟩
    rcases hS.flag.mp h2 with h3 | h3
    · exact h3
    · cases h3

set_option maxRecDepth 100000 in
/-- Witness of `top_error_is_single`: the delete walk of `/a{d1, f1}` that returns `ESECOND`,
the error of `DeleteFile` on `f1`, which is the fifth event of its trace. -/
theorem top_error_is_single_witness :
    topResult (run ⟨Mode.delete, 3⟩ [(0, 0), (0, 0), (0, 0), (1, 0), (0, 0)]
      (initState 1 7 1 2 "a" laterTree)) = some (some "ESECOND") ∧
    (run ⟨Mode.delete, 3⟩ [(0, 0), (0, 0), (0, 0), (1, 0), (0, 0)]
      (initState 1 7 1 2 "a" laterTree)).shared.trace =
      [Event.rpc 0 (Call.ListDentry 1 2 7) true, Event.spawn 0 1,
       Event.rpc 1 (Call.ListDentry 1 10 7) false, Event.ret 1 (some "EFIRST")] ++
      Event.rpc 0 (Call.DeleteFile 1 2 "f1" 7) false :: Event.ret 0 (some "ESECOND") :: [] ∧
    (FailedRpc ⟨Mode.delete, 3⟩
        (run ⟨Mode.delete, 3⟩ [(0, 0), (0, 0), (0, 0), (1, 0), (0, 0)]
          (initState 1 7 1 2 "a" laterTree)) "ESECOND" ∨
      ("ESECOND" = cancelError Mode.delete ∧
        (∃ i, Event.cancel i ∈
          (run ⟨Mode.delete, 3⟩ [(0, 0), (0, 0), (0, 0), (1, 0), (0, 0)]
            (initState 1 7 1 2 "a" laterTree)).shared.trace) ∧
        ∃ e0,
          FailedRpc ⟨Mode.delete, 3⟩
            (run ⟨Mode.delete, 3⟩ [(0, 0), (0, 0), (0, 0), (1, 0), (0, 0)]
              (initState 1 7 1 2 "a" laterTree)) e0)) :=
  ⟨by decide, by decide,
   (top_error_is_single ⟨Mode.delete, 3⟩ laterTree 1 7 1 2 "a"
     [(0, 0), (0, 0), (0, 0), (1, 0), (0, 0)] "ESECOND" (by decide)).1⟩
/-! ## The invariants of the walks after the wrapper has returned -/

theorem EpochInv_ctxDone (ep : Nat) (s : State) (h : EpochInv ep s) : EpochInv ep s.ctxDone :=
  ⟨h.frames, h.calls⟩

theorem SlotInv_ctxDone (threads : Nat) (s : State) (h : SlotInv threads s) :
    SlotInv threads s.ctxDone :=
  ⟨h.slots, h.bound⟩

theorem CancelInv_ctxDone (s : State) (h : CancelInv s) : CancelInv s.ctxDone :=
  fun pre post i htr => ⟨rfl, (h pre post i htr).2⟩

theorem Post_execute (K : Nat) (moves : List Move) (p : Program) (h : Post p.state) :
    Post (execute ⟨Mode.delete, K⟩ moves p).state :=
  execute_inv ⟨Mode.delete, K⟩ Post (fun i sel s hs => Post_advance K i sel s hs) Post_ctxDone
    moves p h

/-- The properties proved of every interleaving of the frames (`interleave`) hold in every
execution of the program as well (`execute`), that is also once the wrapper has returned and
its deferred `cancel()` has set `ctx` done while goroutines run on: every RPC carries the
epoch of the top call, the slots taken are those of the goroutines that hold one and at most
`threads`, no inline call is started behind a `cancel()` of a frame, and the frames past
their `wg.Wait()` have no goroutine left. -/
theorem execute_invariants (w : Walk) (root : Node) (fsId epoch parentInodeId dirInodeId : Nat)
    (name : String) (moves : List Move) :
    EpochInv epoch
      (execute w moves (initProgram fsId epoch parentInodeId dirInodeId name root)).state ∧
    SlotInv w.threads
      (execute w moves (initProgram fsId epoch parentInodeId dirInodeId name root)).state ∧
    CancelInv
      (execute w moves (initProgram fsId epoch parentInodeId dirInodeId name root)).state ∧
    JoinedAfterWait w
      (execute w moves (initProgram fsId epoch parentInodeId dirInodeId name root)).state :=
  ⟨execute_inv w (EpochInv epoch) (fun i sel s hs => EpochInv_advance w epoch i sel s hs)
      (EpochInv_ctxDone epoch) moves _
      (EpochInv_init fsId epoch parentInodeId dirInodeId name root),
   execute_inv w (SlotInv w.threads) (fun i sel s hs => SlotInv_advance w i sel s hs)
      (SlotInv_ctxDone w.threads) moves _
      (SlotInv_init w.threads fsId epoch parentInodeId dirInodeId name root),
   execute_inv w CancelInv (fun i sel s hs => CancelInv_advance w i sel s hs)
      CancelInv_ctxDone moves _ (CancelInv_init fsId epoch parentInodeId dirInodeId name root),
   (JoinInv_execute w moves _
      (JoinInv_init fsId epoch parentInodeId dirInodeId name root)).joinedAfterWait w⟩

/-- Post-order deletion holds in every execution of the program as well: also once
`deleteDirectory` has returned and its deferred `cancel()` has set `ctx` done. -/
theorem execute_post_order (root : Node) (fsId epoch parentInodeId dirInodeId : Nat)
    (name : String) (threads : Nat) (moves : List Move) :
    PostOrder (execute ⟨Mode.delete, threads⟩ moves
      (initProgram fsId epoch parentInodeId dirInodeId name root)).state :=
  (Post_execute threads moves _
    (Post_init fsId epoch parentInodeId dirInodeId name root)).postOrder
/-! ## Claims about a failed delete in `runDelete` -/

/-- C23, as stated, fails: `runDelete` does not survive a failed delete.  For every request that
gets as far as the delete (the name is not the root, the epoch, the router, the parent path and
the inode of the entry are found) and for which `deleteDirectory` returns an error, `runDelete`
reads `summary.Inodes` of the nil `*common.Summary` that `deleteDirectory` returns with the
error, and the process faults; the error is never reported, whatever the output format. -/
theorem runDelete_faults_on_failed_delete (env : Env) (options : deleteOptions)
    (epoch parentInodeId inodeId : Nat) (summary : Option Nat) (deleteErr : String)
    (hname : TrimSpace options.name ≠ "/")
    (hepoch : env.epoch options.fsid = Except.ok epoch)
    (hrouter : env.router options.fsid = none)
    (hparent : env.resolve options.fsid options.parent epoch = Except.ok parentInodeId)
    (hinode : GetInodeId env options parentInodeId epoch = (none, inodeId))
    (hdel : deleteDirectory (env.dir inodeId) options.fsid epoch parentInodeId inodeId
      options.name options.threads env.sched = some (summary, some deleteErr)) :
    ∃ ops, runDelete env options = some (Exit.fault, ops) ∧
      ∀ e, runDelete env options ≠ some (Exit.returned e, ops) := by
  have hs : summary = none := by
    unfold deleteDirectory at hdel
    simp only at hdel
    split at hdel <;> simp at hdel
    exact hdel.1.symm
  subst hs
  have h : runDelete env options = some (Exit.fault,
      [Op.GetFsEpochByFsId options.fsid, Op.InitFsMDSRouter options.fsid,
        Op.GetDirPathInodeId options.fsid options.parent epoch,
        Op.ListDentry options.fsid parentInodeId epoch] ++
      [Op.deleteDirectory options.fsid epoch parentInodeId inodeId options.name options.threads
        (run ⟨Mode.delete, options.threads⟩ env.sched
          (initState options.fsid epoch parentInodeId inodeId options.name
            (env.dir inodeId))).shared.trace]) := by
    simp only [runDelete, hname, if_false, hepoch, hrouter, hparent, hinode, hdel]
  exact ⟨_, h, fun e => by rw [h]; simp⟩

set_option maxRecDepth 100000 in
/-- Witness of `runDelete_faults_on_failed_delete`: the request to delete `/a` of the namespace
`/a{b{f2}, f1}` in which `DeleteFile` of `f1` fails with `EIO`. -/
theorem runDelete_faults_on_failed_delete_witness :
    deleteDirectory failTree 1 7 1 2 "a" 0 (List.replicate 20 (0, 0)) =
      some (none, some "EIO") ∧
    ∃ ops, runDelete ⟨fun _ => Except.ok 7, fun _ => none, fun _ _ _ => Except.ok 1,
        fun _ _ _ => Except.ok [⟨"a", 2, 1, FileType.DIRECTORY⟩], fun _ => failTree,
        List.replicate 20 (0, 0), fun _ => none⟩
      (deleteOptions.mk 1 "/a" "a" "/" 0 "plain") = some (Exit.fault, ops) ∧
      ∀ e, runDelete ⟨fun _ => Except.ok 7, fun _ => none, fun _ _ _ => Except.ok 1,
        fun _ _ _ => Except.ok [⟨"a", 2, 1, FileType.DIRECTORY⟩], fun _ => failTree,
        List.replicate 20 (0, 0), fun _ => none⟩
      (deleteOptions.mk 1 "/a" "a" "/" 0 "plain") ≠ some (Exit.returned e, ops) :=
  ⟨by decide,
   runDelete_faults_on_failed_delete
     ⟨fun _ => Except.ok 7, fun _ => none, fun _ _ _ => Except.ok 1,
      fun _ _ _ => Except.ok [⟨"a", 2, 1, FileType.DIRECTORY⟩], fun _ => failTree,
      List.replicate 20 (0, 0), fun _ => none⟩
     (deleteOptions.mk 1 "/a" "a" "/" 0 "plain") 7 1 2 none "EIO"
     (by decide) rfl rfl rfl (by decide) (by decide)⟩
/-! ## Claims about termination and the slot semaphore -/

/-- C25: no deadlock on the slot semaphore.  For both walks, every finite namespace (whatever
its RPCs answer, success or error), every concurrency bound `threads ≥ 0` and every schedule:
a schedule of at least `walkBound root` steps brings the top-level call to its return; as long
as the top-level call has not returned some branch can move; a branch at the `select` can
always move, whatever the state of the semaphore; and when no slot is free (`threads ≤ slots`,
as always with `threads = 0`), no error waits in `errCh` and `ctx` is not done, the step it
takes is the inline recursive call for the current sub-directory. -/
theorem walks_never_block_on_slot (w : Walk) (root : Node)
    (fsId epoch parentInodeId dirInodeId : Nat) (name : String) (sched : List (Nat × Nat)) :
    (walkBound root ≤ sched.length →
      topResult (run w sched (initState fsId epoch parentInodeId dirInodeId name root)) ≠
        none) ∧
    (topResult (run w sched (initState fsId epoch parentInodeId dirInodeId name root)) = none →
      enabledFrames w (run w sched (initState fsId epoch parentInodeId dirInodeId name root)) ≠
        []) ∧
    (∀ (frames : List Frame) (sh : Shared) (i sel : Nat) (f : Frame), f.pc = PC.select →
      (stepFrame w frames sh i sel f).isSome = true) ∧
    (∀ (frames : List Frame) (sh : Shared) (i sel : Nat) (f : Frame) (e : Node) (t : List Node),
      f.pc = PC.select → f.todo = e :: t → w.threads ≤ sh.slots →
      sh.errCh.getD i none = none → sh.cancelled = false →
      stepFrame w frames sh i sel f =
        some { frame := { f with pc := PC.call frames.length },
               child := some (childFrame (Kind.inline i) f e),
               shared := sh.log (Event.inline i frames.length) }) := by
  refine ⟨?_, ?_, ?_, ?_⟩
  · intro hlen
    exact run_returns w sched _ (WF_init fsId epoch parentInodeId dirInodeId name root)
      (by simpa [initState, total, Frame.fuel, walkBound] using hlen)
  · intro ht
    exact enabledFrames_ne_nil w _
      (WF_run w sched _ (WF_init fsId epoch parentInodeId dirInodeId name root)) ht
  · intro frames sh i sel f hpc
    simp only [stepFrame, hpc]
    repeat' split
    all_goals simp
  · intro frames sh i sel f e t hpc ht hs he hc
    have hr : readyCases (sh.errCh.getD i none) sh.cancelled sh.slots w.threads = [] := by
      unfold readyCases
      rw [he, hc, if_neg (Nat.not_lt.mpr hs)]
      rfl
    simp only [stepFrame, hpc, ht, hr]

set_option maxRecDepth 100000 in
/-- Witness of `walks_never_block_on_slot`: the delete walk of `/a{f1, b{f2}}` with
`threads = 0` returns within 64 steps, and its top branch, at the `select` for `b`, calls the
recursion inline. -/
theorem walks_never_block_on_slot_witness :
    walkBound scenarioTree ≤ (List.replicate 64 ((0 : Nat), (0 : Nat))).length ∧
    topResult (run ⟨Mode.delete, 0⟩ (List.replicate 64 (0, 0))
      (initState 1 7 1 2 "a" scenarioTree)) ≠ none ∧
    (run ⟨Mode.delete, 0⟩ (List.replicate 5 (0, 0))
      (initState 1 7 1 2 "a" scenarioTree)).shared.trace =
      [Event.rpc 0 (Call.ListDentry 1 2 7) true, Event.rpc 0 (Call.DeleteFile 1 2 "f1" 7) true,
       Event.inline 0 1] :=
  ⟨by rw [(scenarioTree_ok true).2.2.2.2]; simp,
   (walks_never_block_on_slot ⟨Mode.delete, 0⟩ scenarioTree 1 7 1 2 "a"
     (List.replicate 64 (0, 0))).1 (by rw [(scenarioTree_ok true).2.2.2.2]; simp),
   by decide⟩
/-! ## Claims about path resolution -/

theorem SplitN2_none (p : List Char) (h : (SplitN2 p).2 = none) :
    Split '/' p = [(SplitN2 p).1] := by
  induction p with
  | nil => rfl
  | cons c cs ih =>
    unfold SplitN2 at h ⊢
    by_cases hc : c = '/'
    · simp [hc] at h
    · simp only [hc, if_false] at h ⊢
      simp only [Split, hc, if_false, ih h]

theorem SplitN2_some (p r : List Char) (h : (SplitN2 p).2 = some r) :
    Split '/' p = (SplitN2 p).1 :: Split '/' r ∧ r.length < p.length := by
  induction p with
  | nil => simp [SplitN2] at h
  | cons c cs ih =>
    unfold SplitN2 at h ⊢
    by_cases hc : c = '/'
    · simp only [hc, if_true, Option.some.injEq] at h ⊢
      subst h
      simp [Split]
    · simp only [hc, if_false] at h ⊢
      obtain ⟨h1, h2⟩ := ih h
      refine ⟨?_, by simp; omega⟩
      simp only [Split, hc, if_false, h1]

/-- The loop of `GetDirPathInodeId` resolves the non-empty components of the rest of the path,
once the iterations allowed exceed its length. -/
theorem resolveLoop_eq (GetDentry : Nat → Nat → String → Nat → Except String Dentry)
    (fsId epoch : Nat) :
    ∀ (fuel inodeId : Nat) (path : List Char) (calls : List DentryCall), path.length < fuel →
      resolveLoop GetDentry fsId epoch fuel inodeId path calls =
        some (resolveComponents GetDentry fsId epoch inodeId
          (((Split '/' path).filter fun w => w ≠ []).map String.mk) calls) := by
  intro fuel
  induction fuel with
  | zero => intro _ _ _ h; omega
  | succ fuel ih =>
    intro inodeId path calls hlen
    unfold resolveLoop
    by_cases hp : path = []
    · subst hp
      simp [Split, resolveComponents]
    · simp only [hp, if_false]
      cases h2 : (SplitN2 path).2 with
      | none =>
        rw [SplitN2_none path h2]
        by_cases h1 : (SplitN2 path).1 = []
        · simp [h1, resolveComponents]
        · simp only [ne_eq, h1, not_false_eq_true, if_true, decide_True, List.filter_cons_of_pos,
            List.filter_nil, List.map_cons, List.map_nil, resolveComponents]
          cases GetDentry fsId inodeId (String.mk (SplitN2 path).1) epoch with
          | error err => rfl
          | ok dentry =>
            by_cases hd : dentry.type = FileType.DIRECTORY <;> simp [hd, resolveComponents]
      | some rest =>
        obtain ⟨hs, hl⟩ := SplitN2_some path rest h2
        rw [hs]
        by_cases h1 : (SplitN2 path).1 = []
        · simp only [h1, ne_eq, not_true_eq_false, if_false, decide_False, Bool.false_eq_true,
            not_false_eq_true, List.filter_cons_of_neg]
          exact ih inodeId rest calls (by omega)
        · simp only [ne_eq, h1, not_false_eq_true, if_true, decide_True, List.filter_cons_of_pos,
            List.map_cons, resolveComponents]
          cases GetDentry fsId inodeId (String.mk (SplitN2 path).1) epoch with
          | error err => rfl
          | ok dentry =>
            by_cases hd : dentry.type = FileType.DIRECTORY
            · simp only [hd, ne_eq, not_true_eq_false, if_false]
              exact ih dentry.ino rest _ (by omega)
            · simp [hd]

theorem Split_slashes (p : List Char) (h : ∀ c ∈ p, c = '/') :
    (Split '/' p).filter (fun w => w ≠ []) = [] := by
  induction p with
  | nil => simp [Split]
  | cons c cs ih =>
    have hc : c = '/' := h c (by simp)
    simp only [Split, hc, if_true]
    simpa using ih (fun d hd => h d (by simp [hd]))

/-- The calls of a resolution name a prefix of the components, and all of them when the
resolution succeeds. -/
theorem resolveComponents_calls (GetDentry : Nat → Nat → String → Nat → Except String Dentry)
    (fsId epoch : Nat) :
    ∀ (comps : List String) (inodeId : Nat) (calls : List DentryCall),
      ∃ k, k ≤ comps.length ∧
        (resolveComponents GetDentry fsId epoch inodeId comps calls).2.map DentryCall.name =
          calls.map DentryCall.name ++ comps.take k ∧
        ((resolveComponents GetDentry fsId epoch inodeId comps calls).1.2 = none →
          k = comps.length) := by
  intro comps
  induction comps with
  | nil => intro inodeId calls; exact ⟨0, by simp [resolveComponents]⟩
  | cons name rest ih =>
    intro inodeId calls
    unfold resolveComponents
    cases GetDentry fsId inodeId name epoch with
    | error err => exact ⟨1, by simp⟩
    | ok dentry =>
      by_cases hd : dentry.type = FileType.DIRECTORY
      · obtain ⟨k, hk, h1, h2⟩ := ih dentry.ino (calls ++ [⟨fsId, inodeId, name, epoch⟩])
        refine ⟨k + 1, by simp; omega, ?_, ?_⟩
        · simp only [hd, ne_eq, not_true_eq_false, if_false]
          rw [h1]; simp
        · simp only [hd, ne_eq, not_true_eq_false, if_false]
          intro h; rw [h2 h]; simp
      · exact ⟨1, by simp [hd]⟩

/-- C26: path resolution.  For every path string and whatever `GetDentry` answers,
`GetDirPathInodeId` terminates (within `len(path) + 1` iterations of its loop) and does what the
resolution of the non-empty `/`-separated components of the path, left to right, does
(`resolveComponents`): one `GetDentry` per component, each with the inode resolved so far as
parent, starting at the root inode; inode 0 with `ENOTDIR` as soon as a dentry is not a
`DIRECTORY`, inode 0 with the lookup error as soon as a `GetDentry` fails; else the inode of
the last component.  A path that is `"/"`, empty or made of `/` only gives `ROOTINODEID`
without any RPC; the names looked up are a prefix of the components, and all of them when the
call succeeds. -/
theorem GetDirPathInodeId_resolves
    (GetDentry : Nat → Nat → String → Nat → Except String Dentry) (fsId : Nat) (path : String)
    (epoch : Nat) :
    GetDirPathInodeId GetDentry fsId path epoch =
      some (resolveComponents GetDentry fsId epoch ROOTINODEID (components path) []) ∧
    ((∀ c ∈ path.data, c = '/') →
      GetDirPathInodeId GetDentry fsId path epoch = some ((ROOTINODEID, none), [])) ∧
    (∃ k, k ≤ (components path).length ∧
      (resolveComponents GetDentry fsId epoch ROOTINODEID (components path) []).2.map
        DentryCall.name = (components path).take k ∧
      ((resolveComponents GetDentry fsId epoch ROOTINODEID (components path) []).1.2 = none →
        k = (components path).length)) := by
  have h1 : GetDirPathInodeId GetDentry fsId path epoch =
      some (resolveComponents GetDentry fsId epoch ROOTINODEID (components path) []) := by
    unfold GetDirPathInodeId components
    by_cases hp : path = "/"
    · subst hp
      simp [Split, resolveComponents]
    · simp only [hp, if_false]
      exact resolveLoop_eq GetDentry fsId epoch _ _ _ _ (by omega)
  refine ⟨h1, ?_, ?_⟩
  · intro hs
    rw [h1]
    unfold components
    rw [Split_slashes _ hs]
    simp [resolveComponents]
  · simpa using resolveComponents_calls GetDentry fsId epoch (components path) ROOTINODEID []

set_option maxRecDepth 100000 in
/-- Witness of `GetDirPathInodeId_resolves`: `"//"` resolves to the root without any RPC, and
`"/a//b/"` to inode 3 with one `GetDentry` for `a` and one for `b`. -/
theorem GetDirPathInodeId_resolves_witness :
    (∀ c ∈ "//".data, c = '/') ∧
    GetDirPathInodeId exampleDentry 9 "//" 7 = some ((ROOTINODEID, none), []) ∧
    GetDirPathInodeId exampleDentry 9 "/a//b/" 7 =
      some ((3, none), [⟨9, 1, "a", 7⟩, ⟨9, 2, "b", 7⟩]) ∧
    GetDirPathInodeId exampleDentry 9 "a/b/f/x" 7 =
      some ((0, some PathErr.ENOTDIR), [⟨9, 1, "a", 7⟩, ⟨9, 2, "b", 7⟩, ⟨9, 3, "f", 7⟩]) :=
  ⟨by decide, (GetDirPathInodeId_resolves exampleDentry 9 "//" 7).2.1 (by decide),
   by decide, by decide⟩

theorem parentLoop_lengths (env : PathEnv) (fsId epoch : Nat) :
    ∀ (fuel inodeId : Nat) (names inodes : List String) (calls : List PathCall)
      (n i : List String) (c : List PathCall), names.length = inodes.length →
      parentLoop env fsId epoch fuel inodeId names inodes calls = some (Sum.inr (n, i), c) →
      n.length = i.length := by
  intro fuel
  induction fuel with
  | zero => intro _ _ _ _ _ _ _ _ h; simp [parentLoop] at h
  | succ fuel ih =>
    intro inodeId names inodes calls n i c hl h
    unfold parentLoop at h
    split at h
    · simp only [Option.some.injEq, Prod.mk.injEq, Sum.inr.injEq] at h
      obtain ⟨⟨h1, h2⟩, -⟩ := h
      rw [← h1, ← h2]; exact hl
    · simp only at h
      split at h
      · simp at h
      · split at h
        · simp at h
        · split at h
          · simp at h
          · split at h
            · exact ih _ _ _ _ _ _ _ (by simp [hl]) h
            · exact ih _ _ _ _ _ _ _ hl h

theorem parentLoop_cycle (env : PathEnv) (fsId inodeId epoch : Nat) (entries : List Dentry)
    (hroot : inodeId ≠ ROOTINODEID) (parents : List Nat)
    (hp : env.GetInode fsId inodeId epoch = Except.ok (inodeId :: parents))
    (hl : env.ListDentry fsId inodeId epoch = Except.ok entries) :
    ∀ (fuel : Nat) (names inodes : List String) (calls : List PathCall),
      parentLoop env fsId epoch fuel inodeId names inodes calls = none := by
  intro fuel
  induction fuel with
  | zero => intro _ _ _; rfl
  | succ fuel ih =>
    intro names inodes calls
    unfold parentLoop
    simp only [hroot, if_false, hp, hl]
    split <;> exact ih _ _ _

/-- C28, as stated, fails: `GetInodePath` indexes `parentIds[0]` without a length check.  For
every inode other than the root whose `GetInode` answer is a success with an empty parents
list, `GetInodePath` faults on the index expression right after that RPC, whatever the other
answers.  What does hold: for the root inode it returns `("/", "1", nil)` without any RPC, and
the two slices it joins always have the same length.  Besides, the loop ends only at the root:
for an inode whose first parent is the inode itself, no number of iterations suffices. -/
theorem GetInodePath_faults_on_empty_parents (env : PathEnv) (fsId inodeId epoch : Nat) :
    (inodeId ≠ ROOTINODEID → env.GetInode fsId inodeId epoch = Except.ok [] →
      ∀ fuel, GetInodePath env (fuel + 1) fsId inodeId epoch =
        some (PathExit.fault, ([], []), [PathCall.GetInode fsId inodeId epoch])) ∧
    (∀ fuel, GetInodePath env fuel fsId ROOTINODEID epoch =
      some (PathExit.returned "/" "1" none, ([], []), [])) ∧
    (∀ fuel exit names inodes calls,
      GetInodePath env fuel fsId inodeId epoch = some (exit, (names, inodes), calls) →
      names.length = inodes.length) ∧
    (∀ parents entries, inodeId ≠ ROOTINODEID →
      env.GetInode fsId inodeId epoch = Except.ok (inodeId :: parents) →
      env.ListDentry fsId inodeId epoch = Except.ok entries →
      ∀ fuel, GetInodePath env fuel fsId inodeId epoch = none) := by
  refine ⟨?_, ?_, ?_, ?_⟩
  · intro hroot hp fuel
    simp [GetInodePath, hroot, parentLoop, hp]
  · intro fuel
    simp [GetInodePath]
    rfl
  · intro fuel exit names inodes calls h
    unfold GetInodePath at h
    split at h
    · simp only [Option.some.injEq, Prod.mk.injEq] at h
      obtain ⟨-, ⟨h1, h2⟩, -⟩ := h
      rw [← h1, ← h2]
    · split at h
      · simp at h
      · simp only [Option.some.injEq, Prod.mk.injEq] at h
        obtain ⟨-, ⟨h1, h2⟩, -⟩ := h
        rw [← h1, ← h2]
      · rename_i n i c hloop
        have hl := parentLoop_lengths env fsId epoch _ _ _ _ _ _ _ _ rfl hloop
        split at h
        · simp only [Option.some.injEq, Prod.mk.injEq] at h
          obtain ⟨-, ⟨h1, h2⟩, -⟩ := h
          rw [← h1, ← h2]
        · simp only [Option.some.injEq, Prod.mk.injEq] at h
          obtain ⟨-, ⟨h1, h2⟩, -⟩ := h
          rw [← h1, ← h2]
          simp [hl]
  · intro parents entries hroot hp hl fuel
    simp [GetInodePath, hroot, parentLoop_cycle env fsId inodeId epoch entries hroot parents hp hl]

set_option maxRecDepth 100000 in
/-- Witness of `GetInodePath_faults_on_empty_parents`: inode 3, whose parents list is empty,
faults at once; inode 5, an entry of directory 3, faults in the second iteration of the loop,
after three RPCs; inode 8, its own parent, never leaves the loop. -/
theorem GetInodePath_faults_on_empty_parents_witness :
    (∀ fuel, GetInodePath examplePathEnv (fuel + 1) 9 3 7 =
      some (PathExit.fault, ([], []), [PathCall.GetInode 9 3 7])) ∧
    GetInodePath examplePathEnv 10 9 5 7 =
      some (PathExit.fault, ([], []),
        [PathCall.GetInode 9 5 7, PathCall.ListDentry 9 3 7, PathCall.GetInode 9 3 7]) ∧
    (∀ fuel, GetInodePath examplePathEnv fuel 9 8 7 = none) :=
  ⟨(GetInodePath_faults_on_empty_parents examplePathEnv 9 3 7).1 (by decide) (by decide),
   by decide,
   (GetInodePath_faults_on_empty_parents examplePathEnv 9 8 7).2.2.2 [] _ (by decide)
     (by decide) rfl⟩
/-! ## Claims about the table helper -/

theorem keysIndex_map {S : Type} [LinearOrder S] [Inhabited S] (headers keys : List S) (cells : List S) :
    (keysIndex headers keys).map (fun k => cells.getD k default) =
      keyTuple headers keys cells := by
  unfold keysIndex keyTuple
  induction keys with
  | nil => rfl
  | cons key rest ih =>
    by_cases hk : key ∈ headers
    · have h1 : Index headers key ≠ -1 := by
        unfold Index; rw [if_pos hk]; omega
      have h2 : (Index headers key).toNat = headers.indexOf key := by
        unfold Index; rw [if_pos hk]; simp
      simp only [List.filterMap_cons, h1, ne_eq, not_false_eq_true, if_true, List.map_cons, h2,
        hk, decide_True, List.filter_cons_of_pos]
      rw [← ih]
    · have h1 : Index headers key = -1 := by
        unfold Index; rw [if_neg hk]
      simp only [List.filterMap_cons, h1, ne_eq, not_true_eq_false, if_false, hk, decide_False,
        Bool.false_eq_true, not_false_eq_true, List.filter_cons_of_neg]
      exact ih

theorem lex_cons_iff {S : Type} [LinearOrder S] (x y : S) (xs ys : List S) :
    x :: xs < y :: ys ↔ x < y ∨ (x = y ∧ xs < ys) := by
  constructor
  · intro h
    cases h with
    | cons h => exact Or.inr ⟨rfl, h⟩
    | rel h => exact Or.inl h
  · rintro (h | ⟨rfl, h⟩)
    · exact List.Lex.rel h
    · exact List.Lex.cons h

theorem less_iff {S : Type} [LinearOrder S] [Inhabited S] (kidx : List Nat) (a b : List S) :
    less kidx a b = true ↔
      kidx.map (fun k => a.getD k default) < kidx.map (fun k => b.getD k default) := by
  induction kidx with
  | nil =>
    simp only [less, List.map_nil, Bool.false_eq_true, false_iff]
    exact lt_irrefl _
  | cons k ks ih =>
    rw [List.map_cons, List.map_cons, lex_cons_iff, less]
    generalize a.getD k default = x
    generalize b.getD k default = y
    by_cases h1 : x < y
    · rw [if_pos h1]
      exact ⟨fun _ => Or.inl h1, fun _ => rfl⟩
    · rw [if_neg h1]
      by_cases h2 : x > y
      · rw [if_pos h2]
        constructor
        · intro h; cases h
        · rintro (h | ⟨he, -⟩)
          · exact absurd h h1
          · rw [he] at h2
            exact absurd h2 (lt_irrefl _)
      · rw [if_neg h2, ih]
        have he : x = y := le_antisymm (not_lt.mp h2) (not_lt.mp h1)
        constructor
        · intro h; exact Or.inr ⟨he, h⟩
        · rintro (h | ⟨-, h⟩)
          · exact absurd h h1
          · exact h

theorem less_false_iff {S : Type} [LinearOrder S] [Inhabited S] (headers keys : List S) (a b : List S) :
    less (keysIndex headers keys) b a = false ↔
      keyTuple headers keys a ≤ keyTuple headers keys b := by
  rw [← keysIndex_map, ← keysIndex_map, ← not_lt, ← less_iff]
  simp

theorem keysIndex_nil {S : Type} [LinearOrder S] (headers keys : List S) :
    keysIndex headers keys = [] ↔ ∀ k ∈ keys, k ∉ headers := by
  unfold keysIndex
  induction keys with
  | nil => simp
  | cons key rest ih =>
    by_cases hk : key ∈ headers
    · have h1 : Index headers key ≠ -1 := by
        unfold Index; rw [if_pos hk]; omega
      simp [List.filterMap_cons, h1, hk]
    · have h1 : Index headers key = -1 := by
        unfold Index; rw [if_neg hk]
      simp only [List.filterMap_cons, h1, ne_eq, not_true_eq_false, if_false, List.mem_cons,
        forall_eq_or_imp, hk, not_false_eq_true, true_and]
      exact ih

theorem keysIndex_filter {S : Type} [LinearOrder S] (headers keys : List S) :
    keysIndex headers (keys.filter fun key => key ∈ headers) = keysIndex headers keys := by
  unfold keysIndex
  induction keys with
  | nil => rfl
  | cons key rest ih =>
    by_cases hk : key ∈ headers
    · simp only [hk, decide_True, List.filter_cons_of_pos, List.filterMap_cons]
      rw [ih]
    · have h1 : Index headers key = -1 := by
        unfold Index; rw [if_neg hk]
      simp only [hk, decide_False, Bool.false_eq_true, not_false_eq_true,
        List.filter_cons_of_neg, List.filterMap_cons, h1, ne_eq, not_true_eq_false, if_false]
      exact ih

/-- The sort of `ListMap2ListSortByKeys` is a stable sort by the tuple of key columns. -/
theorem SliceStable_less {S : Type} [LinearOrder S] [Inhabited S] (headers keys : List S)
    (x : List (List S)) :
    (SliceStable x (less (keysIndex headers keys))).Perm x ∧
    (SliceStable x (less (keysIndex headers keys))).Sorted
      (fun a b => keyTuple headers keys a ≤ keyTuple headers keys b) ∧
    ∀ k : List S,
      (SliceStable x (less (keysIndex headers keys))).filter
          (fun r => decide (keyTuple headers keys r = k)) =
        x.filter (fun r => decide (keyTuple headers keys r = k)) := by
  haveI : IsTotal (List S) (fun a b => less (keysIndex headers keys) b a = false) :=
    ⟨fun a b => by
      simp only [less_false_iff]
      exact LinearOrder.le_total _ _⟩
  haveI : IsTrans (List S) (fun a b => less (keysIndex headers keys) b a = false) :=
    ⟨fun a b c => by
      simp only [less_false_iff]
      exact le_trans⟩
  have hperm : (SliceStable x (less (keysIndex headers keys))).Perm x :=
    List.perm_insertionSort _ x
  refine ⟨hperm, ?_, ?_⟩
  · have h := List.sorted_insertionSort
      (fun a b => less (keysIndex headers keys) b a = false) x
    exact List.Pairwise.imp (fun {a b} hab => (less_false_iff headers keys a b).mp hab) h
  · intro k
    have hc : (x.filter fun r => decide (keyTuple headers keys r = k)).Pairwise
        (fun a b => less (keysIndex headers keys) b a = false) := by
      rw [List.pairwise_iff_forall_sublist]
      intro a b hab
      have ha : a ∈ x.filter fun r => decide (keyTuple headers keys r = k) :=
        hab.subset (by simp)
      have hb : b ∈ x.filter fun r => decide (keyTuple headers keys r = k) :=
        hab.subset (by simp)
      simp only [List.mem_filter, decide_eq_true_eq] at ha hb
      rw [less_false_iff, ha.2, hb.2]
    have hsub := List.sublist_insertionSort hc (List.filter_sublist x)
    have hsub2 := hsub.filter (fun r => decide (keyTuple headers keys r = k))
    rw [List.filter_filter] at hsub2
    simp only [Bool.and_self] at hsub2
    have hlen := (hperm.filter (fun r => decide (keyTuple headers keys r = k))).length_eq
    exact (hsub2.eq_of_length hlen.symm).symm

/-- C29: for every list of row maps, header list and key list, `ListMap2ListSortByKeys`
returns one row per input map, each with `len(headers)` cells, cell `j` being the value of the
map for `headers[j]` (the empty string when absent); the rows returned are a permutation of the
projected input rows, sorted non-decreasingly by the tuple of key columns (`keyTuple`, compared
lexicographically with the order of strings), and rows with equal key tuples keep their input
order; keys that are not headers are ignored, and with no usable key the input order is
kept. -/
theorem ListMap2ListSortByKeys_sorted {S : Type} [LinearOrder S] [Inhabited S]
    (rows : List (List (S × S))) (headers keys : List S) :
    (ListMap2ListSortByKeys rows headers keys).length = rows.length ∧
    (ListMap2ListSortByKeys rows headers keys).Perm (rows.map (project headers)) ∧
    (∀ r ∈ ListMap2ListSortByKeys rows headers keys, r.length = headers.length) ∧
    (∀ (row : List (S × S)) (j : Nat),
      (project headers row)[j]? = headers[j]?.map fun h => mapGet row h) ∧
    (∀ (row : List (S × S)) (h : S), (∀ kv ∈ row, kv.1 ≠ h) → mapGet row h = default) ∧
    (ListMap2ListSortByKeys rows headers keys).Sorted
      (fun a b => keyTuple headers keys a ≤ keyTuple headers keys b) ∧
    (∀ k : List S,
      (ListMap2ListSortByKeys rows headers keys).filter
          (fun r => decide (keyTuple headers keys r = k)) =
        (rows.map (project headers)).filter (fun r => decide (keyTuple headers keys r = k))) ∧
    ListMap2ListSortByKeys rows headers (keys.filter fun key => key ∈ headers) =
      ListMap2ListSortByKeys rows headers keys ∧
    ((∀ k ∈ keys, k ∉ headers) →
      ListMap2ListSortByKeys rows headers keys = rows.map (project headers)) := by
  have hproj : (rows.map fun row => headers.map fun j => mapGet row j) =
      rows.map (project headers) := rfl
  have hnokey : (∀ k ∈ keys, k ∉ headers) →
      ListMap2ListSortByKeys rows headers keys = rows.map (project headers) := by
    intro h
    unfold ListMap2ListSortByKeys
    simp only [(keysIndex_nil headers keys).mpr h, List.length_nil, gt_iff_lt, lt_self_iff_false,
      if_false]
    rfl
  obtain ⟨hperm0, hsorted0, hstable0⟩ := SliceStable_less headers keys (rows.map (project headers))
  by_cases hk : (keysIndex headers keys).length > 0
  · have hdef : ListMap2ListSortByKeys rows headers keys =
        SliceStable (rows.map (project headers)) (less (keysIndex headers keys)) := by
      unfold ListMap2ListSortByKeys
      simp only [hk, if_true]
      rfl
    refine ⟨?_, ?_, ?_, ?_, ?_, ?_, ?_, ?_, hnokey⟩
    · rw [hdef, hperm0.length_eq]; simp
    · rw [hdef]; exact hperm0
    · intro r hr
      rw [hdef] at hr
      have := hperm0.subset hr
      simp only [List.mem_map] at this
      obtain ⟨row, -, rfl⟩ := this
      simp [project]
    · intro row j
      simp [project]
    · intro row h hne
      unfold mapGet
      rw [List.find?_eq_none.mpr (by simpa using hne)]
    · rw [hdef]; exact hsorted0
    · intro k; rw [hdef]; exact hstable0 k
    · unfold ListMap2ListSortByKeys
      rw [keysIndex_filter]
  · have hnil : keysIndex headers keys = [] := by
      cases h : keysIndex headers keys with
      | nil => rfl
      | cons a l => rw [h] at hk; simp at hk
    have hdef : ListMap2ListSortByKeys rows headers keys = rows.map (project headers) :=
      hnokey ((keysIndex_nil headers keys).mp hnil)
    have hkt : ∀ a : List S, keyTuple headers keys a = [] := by
      intro a
      rw [← keysIndex_map, hnil]; rfl
    refine ⟨?_, ?_, ?_, ?_, ?_, ?_, ?_, ?_, hnokey⟩
    · rw [hdef]; simp
    · rw [hdef]
    · intro r hr
      rw [hdef] at hr
      simp only [List.mem_map] at hr
      obtain ⟨row, -, rfl⟩ := hr
      simp [project]
    · intro row j
      simp [project]
    · intro row h hne
      unfold mapGet
      rw [List.find?_eq_none.mpr (by simpa using hne)]
    · rw [hdef]
      simp only [hkt, le_refl]
      exact List.pairwise_of_forall (fun _ _ => trivial)
    · intro k; rw [hdef]
    · unfold ListMap2ListSortByKeys
      rw [keysIndex_filter]

set_option maxRecDepth 100000 in
/-- Witness of `ListMap2ListSortByKeys_sorted`, with lists of code points for strings: two rows
with the same key keep their order, and the key `"zz"`, which is no header, is ignored. -/
theorem ListMap2ListSortByKeys_sorted_witness :
    ListMap2ListSortByKeys
      [[("id".data, "9".data), ("n".data, "c".data)], [("n".data, "b".data), ("id".data, "10".data)],
       [("id".data, "9".data), ("n".data, "a".data)]]
      ["id".data, "n".data, "u".data] ["zz".data, "id".data] =
      [["10".data, "b".data, []], ["9".data, "c".data, []], ["9".data, "a".data, []]] ∧
    (ListMap2ListSortByKeys
      [[("id".data, "9".data), ("n".data, "c".data)], [("n".data, "b".data), ("id".data, "10".data)],
       [("id".data, "9".data), ("n".data, "a".data)]]
      ["id".data, "n".data, "u".data] ["zz".data, "id".data]).length = 3 :=
  ⟨by decide, (ListMap2ListSortByKeys_sorted _ _ _).1⟩
/-! ## Claims about the usage command -/

theorem usageLoop_break (env : UsageEnv) (options : usageOptions) (fs : FsInfo)
    (post : List FsInfo) (b n : Int) (err : String)
    (hrouter : env.InitFsMDSRouter fs.fsId = none)
    (hwalk : usageWalk env options fs = some (b, n, some err)) :
    ∀ (pre : List FsInfo) (rows : List (List (String × String))),
      (∀ x ∈ pre, env.InitFsMDSRouter x.fsId = none ∧
        ∃ b n, usageWalk env options x = some (b, n, none)) →
      ∃ rows1, rows1.length = rows.length + pre.length ∧
        usageLoop env options (pre ++ fs :: post) rows =
          some (Except.ok (rows1, some (Err.rpcFailed err))) := by
  intro pre
  induction pre with
  | nil =>
    intro rows _
    exact ⟨rows, by simp, by simp [usageLoop, hrouter, hwalk]⟩
  | cons x pre ih =>
    intro rows hpre
    obtain ⟨hr, b1, n1, hw⟩ := hpre x (by simp)
    obtain ⟨rows1, hl, h⟩ := ih (rows ++ [usageRow env options x b1 n1])
      (fun y hy => hpre y (by simp [hy]))
    refine ⟨rows1, by simp at hl; simp; omega, ?_⟩
    simp only [List.cons_append, usageLoop, hr, hw]
    exact h

/-- C27, as stated, fails: in plain format `runUsage` does not report a failed walk.  Whenever
the walk of some filesystem returns an error (the walks of the filesystems before it having
succeeded, and the routers being initialised), `runUsage` stores the error in `outputResult`,
leaves the loop, renders the rows gathered so far (one per filesystem before the failing one;
the prompt "no fs in the cluster" when there is none) and returns `nil`. -/
theorem runUsage_swallows_walk_error (env : UsageEnv) (options : usageOptions)
    (pre post : List FsInfo) (fs : FsInfo) (b n : Int) (err : String)
    (hfmt : options.format ≠ "json")
    (hinfos : fsInfos env options = Except.ok (pre ++ fs :: post))
    (hpre : ∀ x ∈ pre, env.InitFsMDSRouter x.fsId = none ∧
      ∃ b n, usageWalk env options x = some (b, n, none))
    (hrouter : env.InitFsMDSRouter fs.fsId = none)
    (hwalk : usageWalk env options fs = some (b, n, some err)) :
    ∃ rows, rows.length = pre.length ∧
      runUsage env options =
        some (none,
          [UsageOp.SetHeader [env.ROW_FS_ID, env.ROW_FS_NAME, env.ROW_USED, env.ROW_INODES_IUSED],
           UsageOp.AppendBulk (ListMap2ListSortByKeys rows
             [env.ROW_FS_ID, env.ROW_FS_NAME, env.ROW_USED, env.ROW_INODES_IUSED]
             [env.ROW_FS_ID]),
           UsageOp.RenderWithNoData "no fs in the cluster"]) := by
  obtain ⟨rows, hl, h⟩ := usageLoop_break env options fs post b n err hrouter hwalk pre [] hpre
  refine ⟨rows, by simpa using hl, ?_⟩
  simp [runUsage, hinfos, h, hfmt]

set_option maxRecDepth 100000 in
/-- Witness of `runUsage_swallows_walk_error`: one filesystem whose namespace is
`/a{f1, f2}` with `GetInode` of `f2` failing; the walk returns `(0, 0, EIO)` and `runUsage`
renders a table without rows and returns `nil`. -/
theorem runUsage_swallows_walk_error_witness :
    usageWalk (exampleUsageEnv [⟨1, "fs1", 7⟩] (fun _ => partialTree) (List.replicate 6 (0, 0)))
      ⟨0, "", false, 8, "plain"⟩ ⟨1, "fs1", 7⟩ = some (0, 0, some "EIO") ∧
    ∃ rows, rows.length = ([] : List FsInfo).length ∧
      runUsage (exampleUsageEnv [⟨1, "fs1", 7⟩] (fun _ => partialTree) (List.replicate 6 (0, 0)))
        ⟨0, "", false, 8, "plain"⟩ =
        some (none,
          [UsageOp.SetHeader ["fsId", "fsName", "used", "iused"],
           UsageOp.AppendBulk (ListMap2ListSortByKeys rows ["fsId", "fsName", "used", "iused"]
             ["fsId"]),
           UsageOp.RenderWithNoData "no fs in the cluster"]) :=
  ⟨by decide,
   runUsage_swallows_walk_error
     (exampleUsageEnv [⟨1, "fs1", 7⟩] (fun _ => partialTree) (List.replicate 6 (0, 0)))
     ⟨0, "", false, 8, "plain"⟩ [] [] ⟨1, "fs1", 7⟩ 0 0 "EIO" (by decide) (by decide)
     (by simp) (by decide) (by decide)⟩
/-! ## Claims about the MDS address validation -/

theorem matchUpTo_append (m : List Char → List (List Char)) (post : List Char)
    (hm : ∀ s t, t ∈ m s → t ++ post ∈ m (s ++ post)) :
    ∀ (k : Nat) (s t : List Char), t ∈ matchUpTo m k s →
      t ++ post ∈ matchUpTo m k (s ++ post) := by
  intro k
  induction k with
  | zero =>
    intro s t h
    simp only [matchUpTo, List.mem_singleton] at h ⊢
    rw [h]
  | succ k ih =>
    intro s t h
    simp only [matchUpTo, List.mem_cons, List.mem_flatMap] at h ⊢
    rcases h with h | ⟨u, hu, h⟩
    · left; rw [h]
    · right; exact ⟨u ++ post, hm s u hu, ih u t h⟩

theorem matchRep_append (m : List Char → List (List Char)) (post : List Char)
    (hm : ∀ s t, t ∈ m s → t ++ post ∈ m (s ++ post)) :
    ∀ (n k : Nat) (s t : List Char), t ∈ matchRep m n k s →
      t ++ post ∈ matchRep m n k (s ++ post) := by
  intro n
  induction n with
  | zero =>
    intro k s t h
    simp only [matchRep] at h ⊢
    exact matchUpTo_append m post hm k s t h
  | succ n ih =>
    intro k s t h
    simp only [matchRep, List.mem_flatMap] at h ⊢
    obtain ⟨u, hu, h⟩ := h
    exact ⟨u ++ post, hm s u hu, ih k u t h⟩

/-- A match at the start of a text is a match at the start of every extension of the text. -/
theorem matchPrefix_append (post : List Char) :
    ∀ (r : Regex) (s t : List Char), t ∈ r.matchPrefix s →
      t ++ post ∈ r.matchPrefix (s ++ post) := by
  intro r
  induction r with
  | digit =>
    intro s t h
    cases s with
    | nil => simp [Regex.matchPrefix] at h
    | cons c cs =>
      simp only [Regex.matchPrefix, List.cons_append] at h ⊢
      split_ifs at h ⊢ <;> simp_all
  | range lo hi =>
    intro s t h
    cases s with
    | nil => simp [Regex.matchPrefix] at h
    | cons c cs =>
      simp only [Regex.matchPrefix, List.cons_append] at h ⊢
      split_ifs at h ⊢ <;> simp_all
  | char x =>
    intro s t h
    cases s with
    | nil => simp [Regex.matchPrefix] at h
    | cons c cs =>
      simp only [Regex.matchPrefix, List.cons_append] at h ⊢
      split_ifs at h ⊢ <;> simp_all
  | seq a b iha ihb =>
    intro s t h
    simp only [Regex.matchPrefix, List.mem_flatMap] at h ⊢
    obtain ⟨u, hu, h⟩ := h
    exact ⟨u ++ post, iha s u hu, ihb u t h⟩
  | alt a b iha ihb =>
    intro s t h
    simp only [Regex.matchPrefix, List.mem_append] at h ⊢
    exact h.imp (iha s t) (ihb s t)
  | rep r min max ih =>
    intro s t h
    simp only [Regex.matchPrefix] at h ⊢
    exact matchRep_append _ post ih _ _ s t h

/-- A text that contains a text with a match contains a match. -/
theorem MatchString_infix (pattern : Regex) (pre s post : List Char)
    (h : MatchString pattern s = true) : MatchString pattern (pre ++ s ++ post) = true := by
  unfold MatchString at h ⊢
  simp only [List.any_eq_true, List.mem_tails, Bool.not_eq_true', List.isEmpty_eq_false] at h ⊢
  obtain ⟨t, ht, hne⟩ := h
  refine ⟨t ++ post, ?_, ?_⟩
  · obtain ⟨u, hu⟩ := ht
    exact ⟨pre ++ u, by rw [← hu]; simp⟩
  · obtain ⟨x, hx⟩ := List.exists_mem_of_ne_nil _ hne
    exact List.ne_nil_of_mem (matchPrefix_append post pattern t x hx)

set_option maxRecDepth 100000 in
/-- C30, as stated, fails: `IP_PORT_REGEX` carries no `^` and `$`, and `regexp.MatchString`
looks for a match anywhere in the text.  `GetMDSAddrSlice` returns the split list, without
error, for `"256.1.1.1"`, `"1.2.3.4:70000"` and `"x1.2.3.4:7400y"`, none of which is, as a whole
string, a dotted-quad address with an optional port (`strictAddress`); and whenever it accepts
an address it accepts the address with any text before and behind it.  It does reject an
element that contains no dotted quad, such as the empty string of `"1.2.3.4,,5.6.7.8"`. -/
theorem GetMDSAddrSlice_accepts_invalid :
    (GetMDSAddrSlice "256.1.1.1" = Except.ok ["256.1.1.1"] ∧
      strictAddress "256.1.1.1" = false) ∧
    (GetMDSAddrSlice "1.2.3.4:70000" = Except.ok ["1.2.3.4:70000"] ∧
      strictAddress "1.2.3.4:70000" = false) ∧
    (GetMDSAddrSlice "x1.2.3.4:7400y" = Except.ok ["x1.2.3.4:7400y"] ∧
      strictAddress "x1.2.3.4:7400y" = false) ∧
    (GetMDSAddrSlice "1.2.3.4:7400,999.1.2.3.4.999" =
      Except.ok ["1.2.3.4:7400", "999.1.2.3.4.999"] ∧
      strictAddress "999.1.2.3.4.999" = false) ∧
    (∀ (addr : String) (pre post : List Char), isIpAddrValid addr = true →
      isIpAddrValid (String.mk (pre ++ addr.data ++ post)) = true) ∧
    GetMDSAddrSlice "1.2.3.4,,5.6.7.8" = Except.error "invalid address: " ∧
    (strictAddress "1.2.3.4:7400" = true ∧
      GetMDSAddrSlice "1.2.3.4:7400" = Except.ok ["1.2.3.4:7400"]) := by
  refine ⟨by decide, by decide, by decide, by decide, ?_, by decide, by decide⟩
  intro addr pre post h
  exact MatchString_infix IP_PORT_REGEX pre addr.data post h

set_option maxRecDepth 100000 in
/-- Witness of `GetMDSAddrSlice_accepts_invalid`: `"1.2.3.4"` is accepted, and so is
`"x1.2.3.4y"`. -/
theorem GetMDSAddrSlice_accepts_invalid_witness :
    isIpAddrValid "1.2.3.4" = true ∧
    isIpAddrValid (String.mk ("x".data ++ "1.2.3.4".data ++ "y".data)) = true :=
  ⟨by decide, GetMDSAddrSlice_accepts_invalid.2.2.2.2.1 "1.2.3.4" "x".data "y".data (by decide)⟩

end DingoAdm
